import Mathlib

/-!
The trie facade of libdatrie over a double-array and a tail pool.

A shallow embedding of `datrie/trie.c` (store, retrieve, delete, enumerate,
stepwise walking).  `darray.c`, `tail.c`, `alpha-map.c` and `triedefs.h` are
not part of the sources at hand; their operations are modelled from the
specification and marked as such.

Conventions.  An `AlphaChar` and a `TrieChar` are natural numbers; a
zero-terminated string is the list of its characters before the terminator
(reading a list at its end yields the terminator `0`).  A `TrieIndex` is an
integer.  The suffix offset `suffix_idx` is the C `short` of `trie.c`: an
integer that is wrapped to 16 bits when it is incremented.  A facade operation
returns `none` when the C code would dereference a null pointer or read past a
terminator.

The definitions named `..._unbounded` are not the code: they are the same
loops with a suffix offset that never wraps, the reference model on which the
invariants are established and against which the code is compared.
-/

namespace Datrie

/-! ## Constants of `triedefs.h` -/

/-- Modelled from the spec: the terminator trie character (`triedefs.h` is missing). -/
def TRIE_CHAR_TERM : Nat := 0

/-- Modelled from the spec: the sentinel trie character "no mapping", 255. -/
def TRIE_CHAR_MAX : Nat := 255

/-- Modelled from the spec: the `TRIE_INDEX_ERROR` sentinel of `triedefs.h`; index 0 holds the
header signature and is never a state. -/
def TRIE_INDEX_ERROR : Int := 0

/-- Modelled from the spec: `TRIE_DATA_ERROR`, the most negative 32-bit value. -/
def TRIE_DATA_ERROR : Int := -2147483648

/-- Modelled from the spec: first index of the cell pool; indices 0, 1, 2 are reserved. -/
def DA_POOL_BEGIN : Int := 3

/-- Modelled from the spec: header signature kept at index 0 of the double-array. -/
def DA_SIGNATURE : Int := 0xDAFCDAFC

/-! ## AlphaMap (modelled from the spec, `alpha-map.c` is missing) -/

/-- Modelled from the spec: the alphabet map of `alpha-map.c`, a list of inclusive ranges of
alphabet characters.  The dense internal alphabet is one byte wide with `0` and `255` reserved,
so a map holds at most 254 characters. -/
structure AlphaMap where
  ranges : List (Nat × Nat)
  fits : (ranges.map (fun r => r.2 + 1 - r.1)).sum ≤ 254

/-- Modelled from the spec: the trie character of `ac` counted from `alpha_begin` over the
ranges, `255` when no range holds it. -/
def range_lookup : List (Nat × Nat) → Nat → Nat → Nat
  | [], _, _ => TRIE_CHAR_MAX
  | r :: rest, alpha_begin, ac =>
    if r.1 ≤ ac ∧ ac ≤ r.2 then alpha_begin + (ac - r.1)
    else range_lookup rest (alpha_begin + (r.2 + 1 - r.1)) ac

/-- Modelled from the spec: `alpha_map_char_to_trie` of `alpha-map.c`: `0` for the terminator,
range members numbered from 1 in order of range appearance, `255` outside all ranges. -/
def alpha_map_char_to_trie (am : AlphaMap) (ac : Nat) : Nat :=
  if ac = 0 then 0 else range_lookup am.ranges 1 ac

/-- Modelled from the spec: inverse lookup over the ranges for trie character `tc` counted from
`alpha_begin`. -/
def range_unlookup : List (Nat × Nat) → Nat → Nat → Nat
  | [], _, _ => 0
  | r :: rest, alpha_begin, tc =>
    if alpha_begin ≤ tc ∧ tc < alpha_begin + (r.2 + 1 - r.1) then r.1 + (tc - alpha_begin)
    else range_unlookup rest (alpha_begin + (r.2 + 1 - r.1)) tc

/-- Modelled from the spec: `alpha_map_trie_to_char` of `alpha-map.c`, the inverse of
`alpha_map_char_to_trie` on the trie characters `1..N`; `0` maps to `0`. -/
def alpha_map_trie_to_char (am : AlphaMap) (tc : Nat) : Nat :=
  if tc = 0 then 0 else range_unlookup am.ranges 1 tc

/-- Modelled from the spec: `alpha_map_char_to_trie_str` of `alpha-map.c`: translates each code
point up to the terminator; the whole translation fails (a null pointer in C) when a code point
maps to `255`. -/
def alpha_map_char_to_trie_str (am : AlphaMap) : List Nat → Option (List Nat)
  | [] => some []
  | c :: rest =>
    if c = 0 then some []
    else if alpha_map_char_to_trie am c = TRIE_CHAR_MAX then none
    else (alpha_map_char_to_trie_str am rest).map (fun l => alpha_map_char_to_trie am c :: l)

/-! ## Double-array (modelled from the spec, `darray.c` is missing) -/

/-- Modelled from the spec: the double-array of `darray.c`, two parallel integer arrays `base`
and `check` with `num_cells` cells.  A free cell carries negative values in both arrays; the
links of the free list are not represented, the list being the ascending sequence of free
cells.  Cells at `num_cells` and beyond are the virgin free space. -/
structure DArray where
  num_cells : Int
  base : Int → Int
  check : Int → Int

/-- Modelled from the spec: `da_new` of `darray.c`. -/
def da_new : DArray where
  num_cells := DA_POOL_BEGIN
  base := fun x => if x = 0 then DA_SIGNATURE else if x = 2 then DA_POOL_BEGIN else -1
  check := fun x => if x = 0 then 0 else if x = 2 then 0 else -1

/-- Modelled from the spec: `da_get_root` of `darray.c`; index 2 is the trie root. -/
def da_get_root (_d : DArray) : Int := 2

/-- Modelled from the spec: `da_get_base` of `darray.c`. -/
def da_get_base (d : DArray) (s : Int) : Int :=
  if 0 ≤ s ∧ s < d.num_cells then d.base s else TRIE_INDEX_ERROR

/-- Modelled from the spec: `da_get_check` of `darray.c`. -/
def da_get_check (d : DArray) (s : Int) : Int :=
  if 0 ≤ s ∧ s < d.num_cells then d.check s else TRIE_INDEX_ERROR

/-- Modelled from the spec: `da_set_base` of `darray.c`. -/
def da_set_base (d : DArray) (s val : Int) : DArray :=
  if 0 ≤ s ∧ s < d.num_cells then { d with base := Function.update d.base s val } else d

/-- Modelled from the spec: `da_set_check` of `darray.c`. -/
def da_set_check (d : DArray) (s val : Int) : DArray :=
  if 0 ≤ s ∧ s < d.num_cells then { d with check := Function.update d.check s val } else d

/-- The macro `da_is_walkable` of `darray.h`. -/
def da_is_walkable (d : DArray) (s : Int) (c : Nat) : Bool :=
  da_get_check d (da_get_base d s + c) == s

/-- Modelled from the spec: `da_walk` of `darray.c`: the next state on success, `none` (state
left unchanged) otherwise. -/
def da_walk (d : DArray) (s : Int) (c : Nat) : Option Int :=
  let next := da_get_base d s + c
  if da_get_check d next = s then some next else none

/-- Modelled from the spec: whether cell `x` of the pool is free (virgin or on the free list). -/
def da_check_free_cell (d : DArray) (x : Int) : Bool :=
  decide (DA_POOL_BEGIN ≤ x) && (decide (d.num_cells ≤ x) || decide (d.check x < 0))

/-- Modelled from the spec: growing the arrays so that index `to_index` exists; the fresh cells
are free. -/
def da_extend_pool (d : DArray) (to_index : Int) : DArray :=
  if to_index < d.num_cells then d else { d with num_cells := to_index + 1 }

/-- Modelled from the spec: the characters of the live children of `s`, ascending. -/
def da_output_symbols (d : DArray) (s : Int) : List Nat :=
  if 0 < da_get_base d s then (List.range 256).filter (fun c => da_is_walkable d s c) else []

/-- Modelled from the spec: whether `b` is a viable base for `symbols`: each symbol falls on a
free cell. -/
def da_fit_symbols (d : DArray) (b : Int) (symbols : List Nat) : Bool :=
  symbols.all (fun sym => da_check_free_cell d (b + sym))

/-- Modelled from the spec: the allocator: the smallest free cell `q ≥ c + 1`, for `c` the first
symbol, such that `q - c` is a viable base; the virgin space past the array otherwise. -/
def da_find_free_base (d : DArray) (symbols : List Nat) : Int :=
  let first_sym : Int := symbols.headD 0
  let lo : Int := max (first_sym + 1) DA_POOL_BEGIN
  match (List.range (d.num_cells - lo).toNat).find?
      (fun (i : Nat) => da_fit_symbols d (lo + (i : Int) - first_sym) symbols) with
  | some i => lo + (i : Int) - first_sym
  | none => max lo d.num_cells - first_sym

/-- Modelled from the spec: whether `x` is the cell of a live child of `s`. -/
def da_is_child (d : DArray) (s x : Int) : Bool :=
  decide (0 < da_get_base d s) && decide (0 ≤ x - da_get_base d s) &&
    decide (x - da_get_base d s ≤ 255) && decide (da_get_check d x = s)

/-- Modelled from the spec: relocation of the children of `s` to `new_base`: `base[s]` is
updated, each child cell is reassigned and its `check` fixed, the `check` of each grandchild is
redirected to the moved child, and the old child cells are freed. -/
def da_relocate_base (d : DArray) (s new_base : Int) : DArray :=
  let old_base := da_get_base d s
  let d1 := (da_output_symbols d s).foldl (fun e c => da_extend_pool e (new_base + (c : Int))) d
  { num_cells := d1.num_cells
    base := fun x =>
      if x = s then new_base
      else if da_is_child d s (x - new_base + old_base) then d.base (x - new_base + old_base)
      else if da_is_child d s x then -1
      else d.base x
    check := fun x =>
      if da_is_child d s (x - new_base + old_base) then s
      else if da_is_child d s x then -1
      else if da_is_child d s (d.check x) && da_is_child d (d.check x) x then
        d.check x - old_base + new_base
      else d.check x }

/-- Modelled from the spec: taking cell `next` off the free space as the child of `s`: `check`
is set to `s` and `base` to the `DA_POOL_BEGIN` sentinel. -/
def da_alloc_child (d : DArray) (next s : Int) : DArray :=
  let d1 := da_extend_pool d next
  { num_cells := d1.num_cells
    base := Function.update d1.base next DA_POOL_BEGIN
    check := Function.update d1.check next s }

/-- Modelled from the spec: `da_insert_branch` of `darray.c`: the new child of `s` on `c` and
the updated double-array.  Allocation failure and index overflow are outside the model, so the
`TRIE_INDEX_ERROR` result does not arise. -/
def da_insert_branch (d : DArray) (s : Int) (c : Nat) : Int × DArray :=
  let base := da_get_base d s
  if 0 < base ∧ da_check_free_cell d (base + c) = true then
    (base + c, da_alloc_child d (base + c) s)
  else
    let symbols := (List.range 256).filter (fun x => x = c ∨ (0 < base ∧ da_is_walkable d s x = true))
    let new_base := da_find_free_base d symbols
    let d1 := da_relocate_base d s new_base
    (new_base + c, da_alloc_child d1 (new_base + c) s)

/-- Modelled from the spec: whether `s` has a live child. -/
def da_has_children (d : DArray) (s : Int) : Bool :=
  let base := da_get_base d s
  if base = TRIE_INDEX_ERROR ∨ base < 0 then false
  else (List.range 256).any (fun c => da_is_walkable d s c)

/-- Modelled from the spec: returning cell `s` to the free list. -/
def da_free_cell (d : DArray) (s : Int) : DArray :=
  { d with base := Function.update d.base s (-1), check := Function.update d.check s (-1) }

/-- Modelled from the spec: the loop of `da_prune_upto`, with the number of iterations bounded
by `fuel`. -/
def da_prune_upto_loop : Nat → DArray → Int → Int → DArray
  | 0, d, _, _ => d
  | fuel + 1, d, p, s =>
    if p ≠ s ∧ da_has_children d s = false then
      da_prune_upto_loop fuel (da_free_cell d s) p (da_get_check d s)
    else d

/-- Modelled from the spec: `da_prune_upto` of `darray.c`: frees `s` and its ancestors below
`p` while they have no live child.  A chain of ancestors has fewer than `num_cells` cells. -/
def da_prune_upto (d : DArray) (p s : Int) : DArray :=
  da_prune_upto_loop d.num_cells.toNat d p s

/-- Modelled from the spec: `da_prune` of `darray.c`. -/
def da_prune (d : DArray) (s : Int) : DArray :=
  da_prune_upto d (da_get_root d) s

/-! ## Tail pool (modelled from the spec, `tail.c` is missing) -/

/-- Modelled from the spec: one entry of the tail pool of `tail.c`: the suffix (`none` for a
vacant slot, a null pointer in C) and the data of the key ending there. -/
structure TailBlock where
  suffix : Option (List Nat)
  data : Int

/-- Modelled from the spec: the tail pool of `tail.c`: entries addressed by 1-based index, and
the free list of vacant entries, head first (in C it is threaded through the `next_free` fields
of the vacant slots). -/
structure Tail where
  num_tails : Int
  tails : Int → TailBlock
  free : List Int

/-- Modelled from the spec: `tail_new` of `tail.c`. -/
def tail_new : Tail where
  num_tails := 0
  tails := fun _ => ⟨none, TRIE_DATA_ERROR⟩
  free := []

/-- Modelled from the spec: `tail_get_suffix` of `tail.c`; `none` is the null pointer. -/
def tail_get_suffix (t : Tail) (index : Int) : Option (List Nat) :=
  if 1 ≤ index ∧ index ≤ t.num_tails then (t.tails index).suffix else none

/-- Modelled from the spec: `tail_set_suffix` of `tail.c`. -/
def tail_set_suffix (t : Tail) (index : Int) (suffix : List Nat) : Tail :=
  if 1 ≤ index ∧ index ≤ t.num_tails then
    { t with tails := Function.update t.tails index ⟨some suffix, (t.tails index).data⟩ }
  else t

/-- Modelled from the spec: `tail_get_data` of `tail.c`. -/
def tail_get_data (t : Tail) (index : Int) : Int :=
  if 1 ≤ index ∧ index ≤ t.num_tails then (t.tails index).data else TRIE_DATA_ERROR

/-- Modelled from the spec: `tail_set_data` of `tail.c`. -/
def tail_set_data (t : Tail) (index : Int) (data : Int) : Tail :=
  if 1 ≤ index ∧ index ≤ t.num_tails then
    { t with tails := Function.update t.tails index ⟨(t.tails index).suffix, data⟩ }
  else t

/-- Modelled from the spec: `tail_add_suffix` of `tail.c`: reuses the first entry of the free
list, appends at the end otherwise; the new entry holds a copy of `suffix`. -/
def tail_add_suffix (t : Tail) (suffix : List Nat) : Int × Tail :=
  match t.free with
  | i :: rest =>
    (i, { t with tails := Function.update t.tails i ⟨some suffix, TRIE_DATA_ERROR⟩, free := rest })
  | [] =>
    (t.num_tails + 1,
     { t with num_tails := t.num_tails + 1,
              tails := Function.update t.tails (t.num_tails + 1) ⟨some suffix, TRIE_DATA_ERROR⟩ })

/-- Modelled from the spec: `tail_delete` of `tail.c`: releases the suffix and links the entry
into the free list. -/
def tail_delete (t : Tail) (index : Int) : Tail :=
  if 1 ≤ index ∧ index ≤ t.num_tails then
    { t with tails := Function.update t.tails index ⟨none, TRIE_DATA_ERROR⟩,
             free := index :: t.free }
  else t

/-- The value held by an `int16` variable, such as a C `short`, assigned `v`. -/
def int16_wrap (v : Int) : Int :=
  if v % 65536 < 32768 then v % 65536 else v % 65536 - 65536

/-- Modelled from the spec: `tail_walk_char` of `tail.c`, with `suffix_idx` the C `short` that
`trie.c` hands over: when the suffix character at `suffix_idx` equals `c` the walk succeeds,
advancing `suffix_idx` unless `c` is the terminator, and the incremented offset is wrapped to 16
bits; the result is the new `suffix_idx`, `none` for a failed walk.  At a negative offset there
is no character of the suffix (the C code reads before the buffer): the walk is taken to fail
there. -/
def tail_walk_char (t : Tail) (s : Int) (suffix_idx : Int) (c : Nat) : Option Int :=
  match tail_get_suffix t s with
  | none => none
  | some suffix =>
    if 0 ≤ suffix_idx ∧ suffix.getD suffix_idx.toNat 0 = c then
      some (if c = TRIE_CHAR_TERM then suffix_idx else int16_wrap (suffix_idx + 1))
    else none

/-- Modelled from the spec: `tail_is_walkable_char` of `tail.c`, the predicate form, with
`suffix_idx` the C `short` of `trie.c`. -/
def tail_is_walkable_char (t : Tail) (s : Int) (suffix_idx : Int) (c : Nat) : Bool :=
  match tail_get_suffix t s with
  | none => false
  | some suffix => decide (0 ≤ suffix_idx) && (suffix.getD suffix_idx.toNat 0 == c)

/-! ## The trie facade (`trie.c`) -/

/-- The `struct _Trie` of `trie.c`. -/
structure Trie where
  alpha_map : AlphaMap
  da : DArray
  tail : Tail
  is_dirty : Bool

/-- The macro `trie_da_is_separate` of `trie.c`. -/
def trie_da_is_separate (d : DArray) (s : Int) : Bool := decide (da_get_base d s < 0)

/-- The macro `trie_da_get_tail_index` of `trie.c`. -/
def trie_da_get_tail_index (d : DArray) (s : Int) : Int := - da_get_base d s

/-- The macro `trie_da_set_tail_index` of `trie.c`. -/
def trie_da_set_tail_index (d : DArray) (s v : Int) : DArray := da_set_base d s (-v)

/-- The function `trie_new` of `trie.c` (allocation failure is outside the model;
`alpha_map_clone` is a copy). -/
def trie_new (alpha_map : AlphaMap) : Trie where
  alpha_map := alpha_map
  da := da_new
  tail := tail_new
  is_dirty := true

/-- Outcome of the loop "walk through branches" shared by `trie_retrieve`,
`trie_store_conditionally` and `trie_delete`: the state `s` and the key position `p` at which
`da_walk` failed, or at which the loop was left. -/
inductive BranchWalk where
  | failed (s : Int) (p : List Nat)
  | left (s : Int) (p : List Nat)

/-- The loop "walk through branches" of `trie.c` from state `s` at key position `p`. -/
def walk_branches (t : Trie) : Int → List Nat → BranchWalk
  | s, [] =>
    if trie_da_is_separate t.da s then .left s []
    else match da_walk t.da s (alpha_map_char_to_trie t.alpha_map 0) with
      | none => .failed s []
      | some s1 => .left s1 []
  | s, c :: rest =>
    if trie_da_is_separate t.da s then .left s (c :: rest)
    else match da_walk t.da s (alpha_map_char_to_trie t.alpha_map c) with
      | none => .failed s (c :: rest)
      | some s1 => if c = 0 then .left s1 (c :: rest) else walk_branches t s1 rest

/-- The loop "walk through tail" of `trie.c` on tail entry `s` from `suffix_idx` at key
position `p`, with `short suffix_idx`: whether every `tail_walk_char` up to the terminator
succeeded. -/
def walk_tail (t : Trie) (s : Int) : Int → List Nat → Bool
  | suffix_idx, [] =>
    (tail_walk_char t.tail s suffix_idx (alpha_map_char_to_trie t.alpha_map 0)).isSome
  | suffix_idx, c :: rest =>
    match tail_walk_char t.tail s suffix_idx (alpha_map_char_to_trie t.alpha_map c) with
    | none => false
    | some idx1 => if c = 0 then true else walk_tail t s idx1 rest

/-- The function `trie_retrieve` of `trie.c`: `none` for `FALSE`, the value written to
`*o_data` for `TRUE`. -/
def trie_retrieve (t : Trie) (key : List Nat) : Option Int :=
  match walk_branches t (da_get_root t.da) key with
  | .failed _ _ => none
  | .left s p =>
    let s1 := trie_da_get_tail_index t.da s
    if walk_tail t s1 0 p then some (tail_get_data t.tail s1) else none

/-- The function `trie_branch_in_branch` of `trie.c`; `suffix` is the zero-terminated trie
string. -/
def trie_branch_in_branch (t : Trie) (sep_node : Int) (suffix : List Nat) (data : Int) :
    Bool × Trie :=
  let r := da_insert_branch t.da sep_node (suffix.headD 0)
  let new_da := r.1
  if TRIE_INDEX_ERROR = new_da then (false, { t with da := r.2 })
  else
    let suffix1 := if suffix.headD 0 ≠ 0 then suffix.tail else suffix
    let a := tail_add_suffix t.tail suffix1
    let tail2 := tail_set_data a.2 a.1 data
    (true, { t with da := trie_da_set_tail_index r.2 new_da a.1, tail := tail2, is_dirty := true })

/-- Outcome of the common-prefix loop of `trie_branch_in_tail`. -/
inductive TailLoop where
  | overrun
  | fail (d : DArray) (s : Int)
  | done (d : DArray) (s : Int) (p : List Nat) (suffix : List Nat)

/-- The loop `for (p = old_suffix, s = sep_node; *p == *suffix; p++, suffix++)` of
`trie_branch_in_tail`.  When both strings are at their terminator the loop goes on past the end
of the buffers, which is `overrun`. -/
def branch_in_tail_loop (d : DArray) (s : Int) : List Nat → List Nat → TailLoop
  | [], suffix => if suffix.headD 0 = 0 then .overrun else .done d s [] suffix
  | pc :: p, suffix =>
    if pc = suffix.headD 0 then
      if pc = 0 then .overrun
      else
        let r := da_insert_branch d s pc
        if TRIE_INDEX_ERROR = r.1 then .fail r.2 s
        else branch_in_tail_loop r.2 r.1 p suffix.tail
    else .done d s (pc :: p) suffix

/-- The function `trie_branch_in_tail` of `trie.c`; `none` when the loop overruns. -/
def trie_branch_in_tail (t : Trie) (sep_node : Int) (suffix : List Nat) (data : Int) :
    Option (Bool × Trie) :=
  let old_tail := trie_da_get_tail_index t.da sep_node
  match tail_get_suffix t.tail old_tail with
  | none => some (false, t)
  | some old_suffix =>
    match branch_in_tail_loop t.da sep_node old_suffix suffix with
    | .overrun => none
    | .fail d s =>
      some (false, { t with da := trie_da_set_tail_index (da_prune_upto d sep_node s)
                                    sep_node old_tail })
    | .done d s p suffix1 =>
      let r := da_insert_branch d s (p.headD 0)
      let old_da := r.1
      if TRIE_INDEX_ERROR = old_da then
        some (false, { t with da := trie_da_set_tail_index (da_prune_upto r.2 sep_node s)
                                      sep_node old_tail })
      else
        let p1 := if p.headD 0 ≠ 0 then p.tail else p
        let tail1 := tail_set_suffix t.tail old_tail p1
        let d2 := trie_da_set_tail_index r.2 old_da old_tail
        some (trie_branch_in_branch { t with da := d2, tail := tail1 } s suffix1 data)

/-- The function `trie_store_conditionally` of `trie.c`.  A failed translation of the rest of
the key is a null pointer, which `trie_branch_in_branch` and `trie_branch_in_tail` dereference:
the result is then `none`. -/
def trie_store_conditionally (t : Trie) (key : List Nat) (data : Int)
    (is_overwrite : Bool) : Option (Bool × Trie) :=
  match walk_branches t (da_get_root t.da) key with
  | .failed s p =>
    match alpha_map_char_to_trie_str t.alpha_map p with
    | none => none
    | some key_str => some (trie_branch_in_branch t s key_str data)
  | .left s sep =>
    let t1 := trie_da_get_tail_index t.da s
    if walk_tail t t1 0 sep then
      if !is_overwrite then some (false, t)
      else some (true, { t with tail := tail_set_data t.tail t1 data, is_dirty := true })
    else
      match alpha_map_char_to_trie_str t.alpha_map sep with
      | none => none
      | some tail_str => trie_branch_in_tail t s tail_str data

/-- The function `trie_store` of `trie.c`. -/
def trie_store (t : Trie) (key : List Nat) (data : Int) : Option (Bool × Trie) :=
  trie_store_conditionally t key data true

/-- The function `trie_store_if_absent` of `trie.c`. -/
def trie_store_if_absent (t : Trie) (key : List Nat) (data : Int) : Option (Bool × Trie) :=
  trie_store_conditionally t key data false

/-- The function `trie_delete` of `trie.c`. -/
def trie_delete (t : Trie) (key : List Nat) : Bool × Trie :=
  match walk_branches t (da_get_root t.da) key with
  | .failed _ _ => (false, t)
  | .left s p =>
    let t1 := trie_da_get_tail_index t.da s
    if walk_tail t t1 0 p then
      (true, { t with tail := tail_delete t.tail t1,
                      da := da_prune (da_set_base t.da s TRIE_INDEX_ERROR) s,
                      is_dirty := true })
    else (false, t)

/-! ## Reference model: the facade with a suffix offset that never wraps

The functions below are the loops of `trie.c` with the suffix offset a natural number instead of
a `short`.  They are not the code: they serve to state how far the code agrees with the
unbounded reading, and as the model on which the invariants are first established. -/

/-- Reference model: `tail_walk_char` with the offset a natural number that never wraps.  The
code agrees with it while the offset stays within the range of a `short`. -/
def tail_walk_char_unbounded (t : Tail) (s : Int) (suffix_idx : Nat) (c : Nat) : Option Nat :=
  match tail_get_suffix t s with
  | none => none
  | some suffix =>
    if suffix.getD suffix_idx 0 = c then
      some (if c = TRIE_CHAR_TERM then suffix_idx else suffix_idx + 1)
    else none

/-- Reference model: the loop "walk through tail" with an offset that never wraps. -/
def walk_tail_unbounded (t : Trie) (s : Int) : Nat → List Nat → Bool
  | suffix_idx, [] =>
    (tail_walk_char_unbounded t.tail s suffix_idx (alpha_map_char_to_trie t.alpha_map 0)).isSome
  | suffix_idx, c :: rest =>
    match tail_walk_char_unbounded t.tail s suffix_idx (alpha_map_char_to_trie t.alpha_map c) with
    | none => false
    | some idx1 => if c = 0 then true else walk_tail_unbounded t s idx1 rest

/-- Reference model: `trie_retrieve` with an offset that never wraps. -/
def trie_retrieve_unbounded (t : Trie) (key : List Nat) : Option Int :=
  match walk_branches t (da_get_root t.da) key with
  | .failed _ _ => none
  | .left s p =>
    let s1 := trie_da_get_tail_index t.da s
    if walk_tail_unbounded t s1 0 p then some (tail_get_data t.tail s1) else none

/-- Reference model: `trie_store_conditionally` with an offset that never wraps. -/
def trie_store_conditionally_unbounded (t : Trie) (key : List Nat) (data : Int)
    (is_overwrite : Bool) : Option (Bool × Trie) :=
  match walk_branches t (da_get_root t.da) key with
  | .failed s p =>
    match alpha_map_char_to_trie_str t.alpha_map p with
    | none => none
    | some key_str => some (trie_branch_in_branch t s key_str data)
  | .left s sep =>
    let t1 := trie_da_get_tail_index t.da s
    if walk_tail_unbounded t t1 0 sep then
      if !is_overwrite then some (false, t)
      else some (true, { t with tail := tail_set_data t.tail t1 data, is_dirty := true })
    else
      match alpha_map_char_to_trie_str t.alpha_map sep with
      | none => none
      | some tail_str => trie_branch_in_tail t s tail_str data

/-- Reference model: `trie_store` with an offset that never wraps. -/
def trie_store_unbounded (t : Trie) (key : List Nat) (data : Int) : Option (Bool × Trie) :=
  trie_store_conditionally_unbounded t key data true

/-- Reference model: `trie_store_if_absent` with an offset that never wraps. -/
def trie_store_if_absent_unbounded (t : Trie) (key : List Nat) (data : Int) :
    Option (Bool × Trie) :=
  trie_store_conditionally_unbounded t key data false

/-- Reference model: `trie_delete` with an offset that never wraps. -/
def trie_delete_unbounded (t : Trie) (key : List Nat) : Bool × Trie :=
  match walk_branches t (da_get_root t.da) key with
  | .failed _ _ => (false, t)
  | .left s p =>
    let t1 := trie_da_get_tail_index t.da s
    if walk_tail_unbounded t t1 0 p then
      (true, { t with tail := tail_delete t.tail t1,
                      da := da_prune (da_set_base t.da s TRIE_INDEX_ERROR) s,
                      is_dirty := true })
    else (false, t)

/-! ## Invariants, abstract content and the remaining operations -/

/-- A node of the double-array: the root, or a pool cell in use. -/
def IsNode (d : DArray) (x : Int) : Prop := x = 2 ∨ (3 ≤ x ∧ 0 ≤ d.check x)

/-- Well-formedness of the double-array: reserved cells, virgin space, and every used cell is
the child of a node one level above it (`depth` is the level). -/
structure WFda (d : DArray) (depth : Int → Nat) : Prop where
  cells : 3 ≤ d.num_cells
  check0 : d.check 0 = 0
  check1 : d.check 1 < 0
  check2 : d.check 2 = 0
  base2 : 0 < d.base 2
  virgin : ∀ x, d.num_cells ≤ x → d.check x < 0
  parent : ∀ x, 3 ≤ x → 0 ≤ d.check x →
    IsNode d (d.check x) ∧ 0 < d.base (d.check x) ∧ d.base (d.check x) ≤ x ∧
      x ≤ d.base (d.check x) + 255 ∧ depth x = depth (d.check x) + 1

/-- Pointwise description of `da_insert_branch d s c` on a well-formed double-array, for a node
`s` without transition on `c`: the new base `nb` of `s`, the new child `nb + c`, and the content
of every cell afterwards. -/
structure InsertSpec (d : DArray) (s : Int) (c : Nat) (r : Int × DArray) (nb : Int) : Prop where
  nb_pos : 0 < nb
  new_eq : r.1 = nb + c
  new_ge : 3 ≤ nb + (c : Int)
  new_free : d.check (nb + c) < 0
  moved_free : ∀ y, 3 ≤ y → d.check y = s →
    3 ≤ y - d.base s + nb ∧ (nb = d.base s ∨ d.check (y - d.base s + nb) < 0)
  cells_le : d.num_cells ≤ r.2.num_cells
  new_lt : nb + (c : Int) < r.2.num_cells
  moved_lt : ∀ y, 3 ≤ y → d.check y = s → y - d.base s + nb < r.2.num_cells
  base_eq : ∀ x, r.2.base x =
    if x = nb + c then 3 else if x = s then nb
    else if 3 ≤ x - nb + d.base s ∧ d.check (x - nb + d.base s) = s then
      d.base (x - nb + d.base s)
    else if 3 ≤ x ∧ d.check x = s then -1 else d.base x
  check_eq : ∀ x, r.2.check x =
    if x = nb + c then s
    else if 3 ≤ x - nb + d.base s ∧ d.check (x - nb + d.base s) = s then s
    else if 3 ≤ x ∧ d.check x = s then -1
    else if 3 ≤ d.check x ∧ d.check (d.check x) = s ∧ 3 ≤ x then d.check x - d.base s + nb
    else d.check x

/-- The hypotheses under which `da_insert_branch d s c` is analysed. -/
structure InsCtx (d : DArray) (dp : Int → Nat) (s : Int) (c : Nat) (r : Int × DArray)
    (nb : Int) : Prop where
  w : WFda d dp
  hs : IsNode d s
  hc : c ≤ 255
  hne : ¬ (3 ≤ d.base s + (c : Int) ∧ d.check (d.base s + c) = s)
  sp : InsertSpec d s c r nb

/-- The cell to which `da_insert_branch d s c` moves the node `x`. -/
def moved (d : DArray) (s nb : Int) (x : Int) : Int :=
  if 3 ≤ x ∧ d.check x = s then x - d.base s + nb else x

/-- The level of each node after `da_insert_branch d s c`. -/
def depthIns (d : DArray) (dp : Int → Nat) (s : Int) (c : Nat) (nb : Int) (x : Int) : Nat :=
  if x = nb + c then dp s + 1
  else if 3 ≤ x - nb + d.base s ∧ d.check (x - nb + d.base s) = s then dp (x - nb + d.base s)
  else dp x

/-- A transition of the double-array: from state `s` on trie character `c` to `y`. -/
def Edge (d : DArray) (s : Int) (c : Nat) (y : Int) : Prop :=
  2 ≤ s ∧ y = d.base s + (c : Int) ∧ 3 ≤ y ∧ d.check y = s

/-- A chain of transitions from `s` along the characters `p` to `y`. -/
def Path (d : DArray) : Int → List Nat → Int → Prop
  | s, [], y => y = s
  | s, c :: p, y => ∃ m, Edge d s c m ∧ Path d m p y

/-- A separate node: path `p` from the root ends in a node pointing at tail entry `i`. -/
def Leaf (d : DArray) (p : List Nat) (i : Int) : Prop :=
  ∃ x, Path d 2 p x ∧ d.base x = -i ∧ 0 < i

/-- A node without transitions. -/
def Childless (d : DArray) (n : Int) : Prop := ∀ y, 3 ≤ y → d.check y ≠ n

/-- An alphabet character covered by the ranges of the map. -/
def alpha_map_covers (am : AlphaMap) (ac : Nat) : Prop :=
  ∃ r ∈ am.ranges, r.1 ≤ ac ∧ ac ≤ r.2

/-- A key within the alphabet: no terminator inside and every code point covered by the map. -/
def InAlphabet (am : AlphaMap) (key : List Nat) : Prop :=
  ∀ c ∈ key, c ≠ 0 ∧ alpha_map_covers am c

/-- A trie character that stands for a covered alphabet character. -/
def ValidTC (am : AlphaMap) (c : Nat) : Prop :=
  c ≠ 0 ∧ ∃ a, a ≠ 0 ∧ alpha_map_covers am a ∧ alpha_map_char_to_trie am a = c

/-- Summary of `da_insert_branch d s c` for a node `s` at path `pth` without transition
on `c`. -/
structure InsertFacts (d : DArray) (s : Int) (c : Nat) (pth : List Nat) (r : Int × DArray) :
    Prop where
  wf : ∃ dp, WFda r.2 dp
  new_ge : 3 ≤ r.1
  new_node : IsNode r.2 r.1
  new_childless : Childless r.2 r.1
  new_base : r.2.base r.1 = 3
  base_s : 0 < r.2.base s
  node_s : IsNode r.2 s
  path_new : Path r.2 2 (pth ++ [c]) r.1
  path_s : Path r.2 2 pth s
  leaf : ∀ q i, Leaf r.2 q i ↔ (Leaf d q i ∧ q ≠ pth)
  nonsep : ∀ q x, Path r.2 2 q x → 0 ≤ r.2.base x →
    (q = pth ++ [c] ∧ x = r.1) ∨ (q = pth ∧ x = s) ∨ (∃ y, Path d 2 q y ∧ 0 ≤ d.base y)
  edges_s : ∀ c1 y, Edge r.2 s c1 y → c1 = c ∨ ∃ y0, Edge d s c1 y0
  paths : ∀ q x, Path r.2 2 q x → q = pth ++ [c] ∨ ∃ y, Path d 2 q y

/-- Well-formedness of the tail pool: the entries of the free list are vacant, within the
pool, and listed once. -/
structure TailWF (tl : Tail) : Prop where
  tails_ge : 0 ≤ tl.num_tails
  vacant : ∀ i ∈ tl.free, tail_get_suffix tl i = none ∧ 1 ≤ i ∧ i ≤ tl.num_tails
  nodup : tl.free.Nodup

/-- The invariant of a trie: a well-formed double-array and tail pool; every separate node
reachable from the root points to a live tail entry of its own, whose suffix consists of trie
characters of the alphabet and is empty after a terminator transition; a node that is not
separate is reached without terminator transition; the transitions are labelled with the
terminator or with trie characters of the alphabet. -/
structure WF (t : Trie) : Prop where
  da : ∃ dp, WFda t.da dp
  tail : TailWF t.tail
  live : ∀ p i, Leaf t.da p i → ∃ suf, tail_get_suffix t.tail i = some suf ∧
    (∀ c ∈ suf, ValidTC t.alpha_map c) ∧ (0 ∈ p → suf = [])
  inj : ∀ p q i, Leaf t.da p i → Leaf t.da q i → p = q
  nonsep : ∀ p x, Path t.da 2 p x → 0 ≤ t.da.base x → 0 ∉ p
  labels : ∀ p x, Path t.da 2 p x → ∀ c ∈ p, c = 0 ∨ ValidTC t.alpha_map c

/-- The trie string `ks` spelt by a separate node at path `p` with tail suffix `suf`. -/
def Full (p suf ks : List Nat) : Prop :=
  (p = ks ++ [0] ∧ suf = []) ∨ (0 ∉ p ∧ ks = p ++ suf)

/-- The trie string `ks` is stored with value `v`. -/
def Stored (t : Trie) (ks : List Nat) (v : Int) : Prop :=
  ∃ p i suf, Leaf t.da p i ∧ tail_get_suffix t.tail i = some suf ∧
    tail_get_data t.tail i = v ∧ Full p suf ks

/-- The trie string `ks` is stored with value `v` below state `s`. -/
def StoredFrom (t : Trie) (s : Int) (ks : List Nat) (v : Int) : Prop :=
  ∃ p x suf, Path t.da s p x ∧ t.da.base x < 0 ∧
    tail_get_suffix t.tail (-(t.da.base x)) = some suf ∧
    tail_get_data t.tail (-(t.da.base x)) = v ∧ Full p suf ks

/-- The part of `trie_retrieve_unbounded` after the root has been fetched. -/
def retrieve_from (t : Trie) (s : Int) (key : List Nat) : Option Int :=
  match walk_branches t s key with
  | .failed _ _ => none
  | .left x p =>
    if walk_tail_unbounded t (trie_da_get_tail_index t.da x) 0 p then
      some (tail_get_data t.tail (trie_da_get_tail_index t.da x))
    else none

/-- What the loop "walk through branches" establishes, from state `s` on `key`. -/
def BranchPost (t : Trie) (s : Int) (key : List Nat) : BranchWalk → Prop
  | .failed s1 p => ∃ k1, key = k1 ++ p ∧
      Path t.da s (k1.map (alpha_map_char_to_trie t.alpha_map)) s1 ∧ 0 ≤ t.da.base s1 ∧
      ∀ y, ¬ Edge t.da s1 (alpha_map_char_to_trie t.alpha_map (p.headD 0)) y
  | .left x p => (∃ k1, key = k1 ++ p ∧
      Path t.da s (k1.map (alpha_map_char_to_trie t.alpha_map)) x ∧ t.da.base x < 0) ∨
      (p = [] ∧ ∃ m, Path t.da s (key.map (alpha_map_char_to_trie t.alpha_map)) m ∧
        0 ≤ t.da.base m ∧ Edge t.da m 0 x)

/-- The state of the double-array while `trie_branch_in_tail` grows the chain below the
separate node at path `p0` of the double-array `d0`: the current end `s` of the chain, at path
`pth`, has no transition; the other separate nodes are those of `d0`. -/
structure Mid (V : Nat → Prop) (d0 : DArray) (p0 : List Nat) (d : DArray) (s : Int)
    (pth : List Nat) : Prop where
  wf : ∃ dp, WFda d dp
  node : IsNode d s
  s_ge : 3 ≤ s
  path : Path d 2 pth s
  childless : Childless d s
  pth0 : 0 ∉ pth
  ext : ∃ e, pth = p0 ++ e
  leaf_iff : ∀ q j, q ≠ pth → (Leaf d q j ↔ (Leaf d0 q j ∧ q ≠ p0))
  nonsep : ∀ q x, Path d 2 q x → 0 ≤ d.base x → x ≠ s → 0 ∉ q
  labels : ∀ q x, Path d 2 q x → ∀ c ∈ q, c = 0 ∨ V c

/-- The trie in the middle of `trie_branch_in_tail`, after the old branch has been re-attached
below the end `s1` of the chain built in `d1`; `T1` is the rest of the old suffix. -/
def reattached (t : Trie) (sep_node : Int) (d1 : DArray) (s1 : Int) (T1 : List Nat) : Trie :=
  { t with
    da := trie_da_set_tail_index (da_insert_branch d1 s1 (T1.headD 0)).2
      (da_insert_branch d1 s1 (T1.headD 0)).1 (trie_da_get_tail_index t.da sep_node)
    tail := tail_set_suffix t.tail (trie_da_get_tail_index t.da sep_node)
      (if T1.headD 0 ≠ 0 then T1.tail else T1) }

/-- The tries reachable from `trie_new` by `trie_store`, `trie_store_if_absent` and
`trie_delete` calls, each with the key/value map its history asks it to hold: a call that
returns `TRUE` adds, replaces or removes the entry of its key, a call that returns `FALSE`
leaves the map as it is.  A key is the list of its characters before the terminator. -/
inductive Holds : Trie → (List Nat → Option Int) → Prop
  | new (am : AlphaMap) : Holds (trie_new am) (fun _ => none)
  | store {t t1 : Trie} {m : List Nat → Option Int} {key : List Nat} {v : Int} {b : Bool} :
      Holds t m → 0 ∉ key → trie_store t key v = some (b, t1) →
      Holds t1 (if b = true then Function.update m key (some v) else m)
  | store_if_absent {t t1 : Trie} {m : List Nat → Option Int} {key : List Nat} {v : Int}
      {b : Bool} :
      Holds t m → 0 ∉ key → trie_store_if_absent t key v = some (b, t1) →
      Holds t1 (if b = true then Function.update m key (some v) else m)
  | delete {t : Trie} {m : List Nat → Option Int} {key : List Nat} :
      Holds t m → 0 ∉ key →
      Holds (trie_delete t key).2
        (if (trie_delete t key).1 = true then Function.update m key none else m)

/-- Reference model: the tries reachable by the calls of the reference model, each with the
key/value map of its history. -/
inductive HoldsUnbounded : Trie → (List Nat → Option Int) → Prop
  | new (am : AlphaMap) : HoldsUnbounded (trie_new am) (fun _ => none)
  | store {t t1 : Trie} {m : List Nat → Option Int} {key : List Nat} {v : Int} {b : Bool} :
      HoldsUnbounded t m → 0 ∉ key → trie_store_unbounded t key v = some (b, t1) →
      HoldsUnbounded t1 (if b = true then Function.update m key (some v) else m)
  | store_if_absent {t t1 : Trie} {m : List Nat → Option Int} {key : List Nat} {v : Int}
      {b : Bool} :
      HoldsUnbounded t m → 0 ∉ key → trie_store_if_absent_unbounded t key v = some (b, t1) →
      HoldsUnbounded t1 (if b = true then Function.update m key (some v) else m)
  | delete {t : Trie} {m : List Nat → Option Int} {key : List Nat} :
      HoldsUnbounded t m → 0 ∉ key →
      HoldsUnbounded (trie_delete_unbounded t key).2
        (if (trie_delete_unbounded t key).1 = true then Function.update m key none else m)

/-- The alphabet map with the single range `['a','z']` of the test-suite. -/
def en_alpha_map : AlphaMap := ⟨[(97, 122)], by decide⟩

/-- The trie holding the single key "app" with value 2. -/
def app_trie : Trie :=
  ((trie_store (trie_new en_alpha_map) [97, 112, 112] 2).getD (false, trie_new en_alpha_map)).2

/-- The trie holding "app" with value 2 and "ap" with value 5: the node reached by "ap" has a
terminator transition. -/
def ap_app_trie : Trie := ((trie_store app_trie [97, 112] 5).getD (false, app_trie)).2

/-- The `struct _TrieState` of `trie.c`; `suffix_idx` is a C `short`. -/
structure TrieState where
  trie : Trie
  index : Int
  suffix_idx : Int
  is_suffix : Bool

/-- The function `trie_root` of `trie.c`. -/
def trie_root (t : Trie) : TrieState := ⟨t, da_get_root t.da, 0, false⟩

/-- The function `trie_state_walk` of `trie.c`: the returned flag and the state afterwards. -/
def trie_state_walk (s : TrieState) (c : Nat) : Bool × TrieState :=
  let tc := alpha_map_char_to_trie s.trie.alpha_map c
  if !s.is_suffix then
    match da_walk s.trie.da s.index tc with
    | none => (false, s)
    | some next =>
      if trie_da_is_separate s.trie.da next then
        (true, { s with index := trie_da_get_tail_index s.trie.da next, suffix_idx := 0,
                        is_suffix := true })
      else (true, { s with index := next })
  else
    match tail_walk_char s.trie.tail s.index s.suffix_idx tc with
    | none => (false, s)
    | some idx => (true, { s with suffix_idx := idx })

/-- Reference model: the state with `suffix_idx` a natural number that never wraps. -/
structure TrieStateUnbounded where
  trie : Trie
  index : Int
  suffix_idx : Nat
  is_suffix : Bool

/-- Reference model: `trie_root` on the state with an offset that never wraps. -/
def trie_root_unbounded (t : Trie) : TrieStateUnbounded := ⟨t, da_get_root t.da, 0, false⟩

/-- Reference model: `trie_state_walk` on the state with an offset that never wraps. -/
def trie_state_walk_unbounded (s : TrieStateUnbounded) (c : Nat) : Bool × TrieStateUnbounded :=
  let tc := alpha_map_char_to_trie s.trie.alpha_map c
  if !s.is_suffix then
    match da_walk s.trie.da s.index tc with
    | none => (false, s)
    | some next =>
      if trie_da_is_separate s.trie.da next then
        (true, { s with index := trie_da_get_tail_index s.trie.da next, suffix_idx := 0,
                        is_suffix := true })
      else (true, { s with index := next })
  else
    match tail_walk_char_unbounded s.trie.tail s.index s.suffix_idx tc with
    | none => (false, s)
    | some idx => (true, { s with suffix_idx := idx })

/-- The function `trie_state_get_data` of `trie.c`. -/
def trie_state_get_data (s : TrieState) : Int :=
  if s.is_suffix then tail_get_data s.trie.tail s.index else TRIE_DATA_ERROR

/-- Successive `trie_state_walk` calls on the characters of `cs`, each of which has to
succeed; the state after the last one. -/
def walk_all (s : TrieState) : List Nat → Option TrieState
  | [] => some s
  | c :: cs => if (trie_state_walk s c).1 then walk_all (trie_state_walk s c).2 cs else none

/-- Modelled from the spec: the loop of `da_enumerate` over the children of a state, which
stops at the first child whose enumeration returns `FALSE`. -/
def da_enumerate_children {U : Type} (step : Nat → U → Option (Bool × U)) :
    List Nat → U → Option (Bool × U)
  | [], u => some (true, u)
  | c :: cs, u =>
    match step c u with
    | none => none
    | some (false, u1) => some (false, u1)
    | some (true, u1) => da_enumerate_children step cs u1

/-- Modelled from the spec: the recursive depth-first search of `da_enumerate`: the callback is
invoked with the key so far at every separate state (`base < 0`) and at every state entered by
a terminal transition; at the other states the children are visited in ascending order of
their character.  The depth of the recursion is bounded by `fuel`; `user_data` is threaded
through the calls as `u`. -/
def da_enumerate_recursive {U : Type} (d : DArray)
    (enum_func : List Nat → Int → U → Option (Bool × U)) :
    Nat → Int → List Nat → U → Option (Bool × U)
  | 0, _, _, _ => none
  | fuel + 1, state, key, u =>
    if da_get_base d state < 0 ∨ key.getLast? = some TRIE_CHAR_TERM then enum_func key state u
    else
      da_enumerate_children
        (fun c u1 =>
          da_enumerate_recursive d enum_func fuel (da_get_base d state + (c : Int)) (key ++ [c]) u1)
        (da_output_symbols d state) u

/-- Modelled from the spec: `da_enumerate` of `darray.c`.  A chain of states is shorter than
`num_cells`. -/
def da_enumerate {U : Type} (d : DArray) (enum_func : List Nat → Int → U → Option (Bool × U))
    (u : U) : Option (Bool × U) :=
  da_enumerate_recursive d enum_func d.num_cells.toNat (da_get_root d) [] u

/-- The function `trie_da_enum_func` of `trie.c`; `key` is read up to its first zero, and so is
the suffix; a vacant tail entry is a null suffix, whose length cannot be taken (`none`). -/
def trie_da_enum_func {U : Type} (t : Trie) (enum_func : List Nat → Int → U → Bool × U)
    (key : List Nat) (sep_node : Int) (u : U) : Option (Bool × U) :=
  match tail_get_suffix t.tail (trie_da_get_tail_index t.da sep_node) with
  | none => none
  | some suffix =>
    some (enum_func
      ((key.takeWhile (fun c => c ≠ 0)).map (alpha_map_trie_to_char t.alpha_map) ++
        (suffix.takeWhile (fun c => c ≠ 0)).map (alpha_map_trie_to_char t.alpha_map))
      (tail_get_data t.tail (trie_da_get_tail_index t.da sep_node)) u)

/-- The function `trie_enumerate` of `trie.c`. -/
def trie_enumerate {U : Type} (t : Trie) (enum_func : List Nat → Int → U → Bool × U) (u : U) :
    Option (Bool × U) :=
  da_enumerate t.da (trie_da_enum_func t enum_func) u

/-- A callback that always returns `TRUE` and appends the pair it is given to the list kept in
its user data. -/
def enum_collect (key : List Nat) (data : Int) (u : List (List Nat × Int)) :
    Bool × List (List Nat × Int) := (true, u ++ [(key, data)])

/-- The pair `trie_da_enum_func` reports for the separate node at path `q` with tail
entry `j`. -/
def entryOf (t : Trie) (e : List Nat × Int) : List Nat × Int :=
  ((e.1.takeWhile (fun c => c ≠ 0)).map (alpha_map_trie_to_char t.alpha_map) ++
    (((tail_get_suffix t.tail e.2).getD []).takeWhile (fun c => c ≠ 0)).map
      (alpha_map_trie_to_char t.alpha_map),
   tail_get_data t.tail e.2)

/-- The state reached from the root along the first `i` characters of `q`. -/
def nodeAt (d : DArray) (q : List Nat) (i : Nat) : Int :=
  (q.take i).foldl (fun s c => d.base s + (c : Int)) 2

/-- The function `trie_is_dirty` of `trie.c`. -/
def trie_is_dirty (t : Trie) : Bool := t.is_dirty

/-- The function `trie_state_is_walkable` of `trie.c`. -/
def trie_state_is_walkable (s : TrieState) (c : Nat) : Bool :=
  let tc := alpha_map_char_to_trie s.trie.alpha_map c
  if !s.is_suffix then da_is_walkable s.trie.da s.index tc
  else tail_is_walkable_char s.trie.tail s.index s.suffix_idx tc

/-- The macro `trie_state_is_terminal` of `trie.h`. -/
def trie_state_is_terminal (s : TrieState) : Bool := trie_state_is_walkable s TRIE_CHAR_TERM

/-- The function `trie_state_is_single` of `trie.c`. -/
def trie_state_is_single (s : TrieState) : Bool := s.is_suffix

/-- The macro `trie_state_is_leaf` of `trie.h`. -/
def trie_state_is_leaf (s : TrieState) : Bool :=
  trie_state_is_single s && trie_state_is_terminal s

/-- Modelled from the spec: `da_insert_branch` of `darray.c` when the arrays cannot grow beyond
`max_cells` cells (allocation failure, or overflow of the index type): an insertion that needs
more cells returns the sentinel `TRIE_INDEX_ERROR` and leaves the double-array as it was. -/
def da_insert_branch_bounded (max_cells : Int) (d : DArray) (s : Int) (c : Nat) : Int × DArray :=
  let r := da_insert_branch d s c
  if r.2.num_cells ≤ max_cells then r else (TRIE_INDEX_ERROR, d)

/-- The function `trie_branch_in_branch` of `trie.c`, with the behaviour `ins` of the missing
`da_insert_branch` as a parameter, so that its failure is covered. -/
def trie_branch_in_branch_with (ins : DArray → Int → Nat → Int × DArray) (t : Trie)
    (sep_node : Int) (suffix : List Nat) (data : Int) : Bool × Trie :=
  let r := ins t.da sep_node (suffix.headD 0)
  let new_da := r.1
  if TRIE_INDEX_ERROR = new_da then (false, { t with da := r.2 })
  else
    let suffix1 := if suffix.headD 0 ≠ 0 then suffix.tail else suffix
    let a := tail_add_suffix t.tail suffix1
    let tail2 := tail_set_data a.2 a.1 data
    (true, { t with da := trie_da_set_tail_index r.2 new_da a.1, tail := tail2, is_dirty := true })

/-- The common-prefix loop of `trie_branch_in_tail`, with `ins` for `da_insert_branch`. -/
def branch_in_tail_loop_with (ins : DArray → Int → Nat → Int × DArray) (d : DArray) (s : Int) :
    List Nat → List Nat → TailLoop
  | [], suffix => if suffix.headD 0 = 0 then .overrun else .done d s [] suffix
  | pc :: p, suffix =>
    if pc = suffix.headD 0 then
      if pc = 0 then .overrun
      else
        let r := ins d s pc
        if TRIE_INDEX_ERROR = r.1 then .fail r.2 s
        else branch_in_tail_loop_with ins r.2 r.1 p suffix.tail
    else .done d s (pc :: p) suffix

/-- The function `trie_branch_in_tail` of `trie.c`, with `ins` for `da_insert_branch`; `none`
when the loop overruns. -/
def trie_branch_in_tail_with (ins : DArray → Int → Nat → Int × DArray) (t : Trie)
    (sep_node : Int) (suffix : List Nat) (data : Int) : Option (Bool × Trie) :=
  let old_tail := trie_da_get_tail_index t.da sep_node
  match tail_get_suffix t.tail old_tail with
  | none => some (false, t)
  | some old_suffix =>
    match branch_in_tail_loop_with ins t.da sep_node old_suffix suffix with
    | .overrun => none
    | .fail d s =>
      some (false, { t with da := trie_da_set_tail_index (da_prune_upto d sep_node s)
                                    sep_node old_tail })
    | .done d s p suffix1 =>
      let r := ins d s (p.headD 0)
      let old_da := r.1
      if TRIE_INDEX_ERROR = old_da then
        some (false, { t with da := trie_da_set_tail_index (da_prune_upto r.2 sep_node s)
                                      sep_node old_tail })
      else
        let p1 := if p.headD 0 ≠ 0 then p.tail else p
        let tail1 := tail_set_suffix t.tail old_tail p1
        let d2 := trie_da_set_tail_index r.2 old_da old_tail
        some (trie_branch_in_branch_with ins { t with da := d2, tail := tail1 } s suffix1 data)

/-- The function `trie_store_conditionally` of `trie.c`, with `ins` for `da_insert_branch`. -/
def trie_store_conditionally_with (ins : DArray → Int → Nat → Int × DArray) (t : Trie)
    (key : List Nat) (data : Int) (is_overwrite : Bool) : Option (Bool × Trie) :=
  match walk_branches t (da_get_root t.da) key with
  | .failed s p =>
    match alpha_map_char_to_trie_str t.alpha_map p with
    | none => none
    | some key_str => some (trie_branch_in_branch_with ins t s key_str data)
  | .left s sep =>
    let t1 := trie_da_get_tail_index t.da s
    if walk_tail t t1 0 sep then
      if !is_overwrite then some (false, t)
      else some (true, { t with tail := tail_set_data t.tail t1 data, is_dirty := true })
    else
      match alpha_map_char_to_trie_str t.alpha_map sep with
      | none => none
      | some tail_str => trie_branch_in_tail_with ins t s tail_str data

/-- The function `trie_store` of `trie.c`, with `ins` for `da_insert_branch`. -/
def trie_store_with (ins : DArray → Int → Nat → Int × DArray) (t : Trie) (key : List Nat)
    (data : Int) : Option (Bool × Trie) :=
  trie_store_conditionally_with ins t key data true

/-- The function `trie_store_if_absent` of `trie.c`, with `ins` for `da_insert_branch`. -/
def trie_store_if_absent_with (ins : DArray → Int → Nat → Int × DArray) (t : Trie)
    (key : List Nat) (data : Int) : Option (Bool × Trie) :=
  trie_store_conditionally_with ins t key data false

/-- The trie holding "app" with value 2 right after a successful `trie_fwrite`: the dirty flag
is FALSE. -/
def app_trie_saved : Trie := { app_trie with is_dirty := false }

/-! ## Files (modelled from the spec; `fileutils.c` and the file functions of `alpha-map.c`,
`darray.c` and `tail.c` are missing) -/

/-- Modelled from the spec: an open `FILE` as the file functions use it: the bytes written so
far, or the bytes still to be read, and the number of bytes that can still be written (a write
beyond it is a short write). -/
structure File where
  bytes : List Nat
  room : Nat

/-- Modelled from the spec: `file_write_chars` of `fileutils.c`: appends the bytes; a short
write fails. -/
def file_write_chars (f : File) (buff : List Nat) : Bool × File :=
  if buff.length ≤ f.room then
    (true, ⟨f.bytes ++ buff.map (fun b => b % 256), f.room - buff.length⟩)
  else (false, f)

/-- Modelled from the spec: `file_read_chars` of `fileutils.c`: the next `len` bytes; a short
read fails. -/
def file_read_chars (f : File) (len : Nat) : Option (List Nat × File) :=
  if len ≤ f.bytes.length then some (f.bytes.take len, ⟨f.bytes.drop len, f.room⟩) else none

/-- The four bytes of a 32-bit integer, big-endian, two's complement. -/
def int32_bytes (v : Int) : List Nat :=
  [(v % 4294967296).toNat / 16777216, (v % 4294967296).toNat / 65536 % 256,
   (v % 4294967296).toNat / 256 % 256, (v % 4294967296).toNat % 256]

/-- The signed 32-bit integer of four big-endian bytes. -/
def int32_of_bytes (b0 b1 b2 b3 : Nat) : Int :=
  if ((b0 * 256 + b1) * 256 + b2) * 256 + b3 < 2147483648 then
    ((((b0 * 256 + b1) * 256 + b2) * 256 + b3 : Nat) : Int)
  else ((((b0 * 256 + b1) * 256 + b2) * 256 + b3 : Nat) : Int) - 4294967296

/-- The two bytes of a 16-bit integer, big-endian, two's complement. -/
def int16_bytes (v : Int) : List Nat :=
  [(v % 65536).toNat / 256, (v % 65536).toNat % 256]

/-- The signed 16-bit integer of two big-endian bytes. -/
def int16_of_bytes (b0 b1 : Nat) : Int :=
  if b0 * 256 + b1 < 32768 then ((b0 * 256 + b1 : Nat) : Int)
  else ((b0 * 256 + b1 : Nat) : Int) - 65536

/-- Modelled from the spec: `file_write_int32` of `fileutils.c`. -/
def file_write_int32 (f : File) (v : Int) : Bool × File := file_write_chars f (int32_bytes v)

/-- Modelled from the spec: `file_read_int32` of `fileutils.c`. -/
def file_read_int32 (f : File) : Option (Int × File) :=
  match file_read_chars f 4 with
  | some ([b0, b1, b2, b3], f1) => some (int32_of_bytes b0 b1 b2 b3, f1)
  | _ => none

/-- Modelled from the spec: `file_write_int16` of `fileutils.c`. -/
def file_write_int16 (f : File) (v : Int) : Bool × File := file_write_chars f (int16_bytes v)

/-- Modelled from the spec: `file_read_int16` of `fileutils.c`. -/
def file_read_int16 (f : File) : Option (Int × File) :=
  match file_read_chars f 2 with
  | some ([b0, b1], f1) => some (int16_of_bytes b0 b1, f1)
  | _ => none

/-- One item of a file format: a 32-bit integer, a 16-bit integer, or a run of bytes. -/
inductive FileItem where
  | int32 (v : Int)
  | int16 (v : Int)
  | chars (buff : List Nat)

/-- Writing one item. -/
def file_write_item (f : File) : FileItem → Bool × File
  | .int32 v => file_write_int32 f v
  | .int16 v => file_write_int16 f v
  | .chars buff => file_write_chars f buff

/-- Writing the items in order; the first failed write ends the sequence with a failure. -/
def file_write_items (f : File) : List FileItem → Bool × File
  | [] => (true, f)
  | it :: rest =>
    if (file_write_item f it).1 then file_write_items (file_write_item f it).2 rest
    else (false, (file_write_item f it).2)

/-- Modelled from the spec: the signature of a serialized alphabet map, a fixed constant. -/
def ALPHAMAP_SIGNATURE : Int := 0xD9FCD9FC

/-- Modelled from the spec: the signature of a serialized tail pool, a fixed constant. -/
def TAIL_SIGNATURE : Int := 0xDFFCDFFC

/-- Modelled from the spec: the serialized alphabet map: `u32 sig`, `i32 total`,
`i32 n_ranges`, then `n_ranges × (i32 begin, i32 end)`; `total` is the number of characters of
the map. -/
def alpha_map_items (am : AlphaMap) : List FileItem :=
  [.int32 ALPHAMAP_SIGNATURE, .int32 ((am.ranges.map (fun r => r.2 + 1 - r.1)).sum : Nat),
   .int32 (am.ranges.length : Nat)] ++
  am.ranges.flatMap (fun r => [.int32 (r.1 : Nat), .int32 (r.2 : Nat)])

/-- Modelled from the spec: `alpha_map_fwrite_bin` of `alpha-map.c`: 0 on success. -/
def alpha_map_fwrite_bin (am : AlphaMap) (f : File) : Int × File :=
  (if (file_write_items f (alpha_map_items am)).1 then 0 else -1,
   (file_write_items f (alpha_map_items am)).2)

/-- Reading `n` ranges `(i32 begin, i32 end)`; the code points are unsigned. -/
def read_ranges : Nat → File → Option (List (Nat × Nat) × File)
  | 0, f => some ([], f)
  | n + 1, f =>
    (file_read_int32 f).bind fun r1 =>
    (file_read_int32 r1.2).bind fun r2 =>
    (read_ranges n r2.2).bind fun r3 =>
    some (((r1.1 % 4294967296).toNat, (r2.1 % 4294967296).toNat) :: r3.1, r3.2)

/-- Modelled from the spec: `alpha_map_fread_bin` of `alpha-map.c`; a short read or a wrong
signature is a failure (`none`), and so is a map that exceeds the 254 trie characters. -/
def alpha_map_fread_bin (f : File) : Option (AlphaMap × File) :=
  (file_read_int32 f).bind fun r0 =>
  if r0.1 % 4294967296 ≠ ALPHAMAP_SIGNATURE then none
  else
    (file_read_int32 r0.2).bind fun r1 =>
    (file_read_int32 r1.2).bind fun r2 =>
    (read_ranges r2.1.toNat r2.2).bind fun r3 =>
    if h : (r3.1.map (fun r => r.2 + 1 - r.1)).sum ≤ 254 then some (⟨r3.1, h⟩, r3.2) else none

/-- The cells `0 .. num_cells - 1` of the double-array, as pairs `(base, check)`. -/
def da_cells (d : DArray) : List (Int × Int) :=
  (List.range d.num_cells.toNat).map (fun (i : Nat) => (d.base i, d.check i))

/-- Modelled from the spec: the serialized double-array: `u32 sig`, `i32 num_cells`, then
`num_cells × (i32 base, i32 check)`. -/
def da_items (d : DArray) : List FileItem :=
  [.int32 DA_SIGNATURE, .int32 d.num_cells] ++
  (da_cells d).flatMap (fun c => [.int32 c.1, .int32 c.2])

/-- Modelled from the spec: `da_fwrite` of `darray.c`: 0 on success. -/
def da_fwrite (d : DArray) (f : File) : Int × File :=
  (if (file_write_items f (da_items d)).1 then 0 else -1, (file_write_items f (da_items d)).2)

/-- Reading `n` cells `(i32 base, i32 check)`. -/
def read_cells : Nat → File → Option (List (Int × Int) × File)
  | 0, f => some ([], f)
  | n + 1, f =>
    (file_read_int32 f).bind fun r1 =>
    (file_read_int32 r1.2).bind fun r2 =>
    (read_cells n r2.2).bind fun r3 =>
    some ((r1.1, r2.1) :: r3.1, r3.2)

/-- Modelled from the spec: `da_fread` of `darray.c`; a short read or a wrong signature is a
failure (`none`).  Outside the array the cells read as free. -/
def da_fread (f : File) : Option (DArray × File) :=
  (file_read_int32 f).bind fun r0 =>
  if r0.1 % 4294967296 ≠ DA_SIGNATURE then none
  else
    (file_read_int32 r0.2).bind fun r1 =>
    (read_cells r1.1.toNat r1.2).bind fun r2 =>
    some ({ num_cells := r1.1,
            base := fun x => if 0 ≤ x ∧ x < r1.1 then (r2.1.getD x.toNat (-1, -1)).1 else -1,
            check := fun x => if 0 ≤ x ∧ x < r1.1 then (r2.1.getD x.toNat (-1, -1)).2 else -1 },
          r2.2)

/-- The `next_free` field of slot `i`: its successor in the free list, 0 at the end of the
list. -/
def tail_next_free : List Int → Int → Int
  | [], _ => 0
  | a :: rest, i => if a = i then rest.headD 0 else tail_next_free rest i

/-- A serialized slot of the tail pool: `next_free`, `data` and the suffix (`none` for a vacant
slot). -/
structure TailSlot where
  next_free : Int
  data : Int
  suffix : Option (List Nat)

/-- The slots `1 .. num_tails` of the tail pool; a live slot is not on the free list, which its
`next_free` of -1 says. -/
def tail_slots (t : Tail) : List TailSlot :=
  (List.range t.num_tails.toNat).map (fun (i : Nat) =>
    match (t.tails (i + 1)).suffix with
    | none => ⟨tail_next_free t.free (i + 1), (t.tails (i + 1)).data, none⟩
    | some suffix => ⟨-1, (t.tails (i + 1)).data, some suffix⟩)

/-- Modelled from the spec: a slot in the file: `i32 next_free`, `i32 data`, `i16 length`, then
`length` bytes of suffix; a vacant slot has length 0.  The length is held in an `int16`. -/
def tail_slot_items (s : TailSlot) : List FileItem :=
  match s.suffix with
  | none => [.int32 s.next_free, .int32 s.data, .int16 0]
  | some suffix =>
    [.int32 s.next_free, .int32 s.data, .int16 (int16_wrap suffix.length),
     .chars (suffix.take (int16_wrap suffix.length).toNat)]

/-- Modelled from the spec: the serialized tail pool: `u32 sig`, `i32 num_tails`,
`i32 first_free`, then the slots. -/
def tail_items (t : Tail) : List FileItem :=
  [.int32 TAIL_SIGNATURE, .int32 t.num_tails, .int32 (t.free.headD 0)] ++
  (tail_slots t).flatMap tail_slot_items

/-- Modelled from the spec: `tail_fwrite` of `tail.c`: 0 on success. -/
def tail_fwrite (t : Tail) (f : File) : Int × File :=
  (if (file_write_items f (tail_items t)).1 then 0 else -1,
   (file_write_items f (tail_items t)).2)

/-- Reading `n` slots; a negative length is a failure.  A slot whose `next_free` is not -1 is
vacant. -/
def read_tail_slots : Nat → File → Option (List TailSlot × File)
  | 0, f => some ([], f)
  | n + 1, f =>
    (file_read_int32 f).bind fun r1 =>
    (file_read_int32 r1.2).bind fun r2 =>
    (file_read_int16 r2.2).bind fun r3 =>
    if r3.1 < 0 then none
    else
      (file_read_chars r3.2 r3.1.toNat).bind fun r4 =>
      (read_tail_slots n r4.2).bind fun r5 =>
      some (⟨r1.1, r2.1, if r1.1 = -1 then some r4.1 else none⟩ :: r5.1, r5.2)

/-- The free list threaded through the `next_free` fields from slot `i` on, at most `fuel`
slots. -/
def tail_free_chain (next : Int → Int) (num_tails : Int) : Nat → Int → List Int
  | 0, _ => []
  | fuel + 1, i =>
    if 1 ≤ i ∧ i ≤ num_tails then i :: tail_free_chain next num_tails fuel (next i) else []

/-- The tail pool of the slots read from a file. -/
def tail_of_slots (num_tails first_free : Int) (slots : List TailSlot) : Tail where
  num_tails := num_tails
  tails := fun i =>
    if 1 ≤ i ∧ i ≤ num_tails then
      ⟨(slots.getD (i - 1).toNat ⟨0, TRIE_DATA_ERROR, none⟩).suffix,
       (slots.getD (i - 1).toNat ⟨0, TRIE_DATA_ERROR, none⟩).data⟩
    else ⟨none, TRIE_DATA_ERROR⟩
  free := tail_free_chain
    (fun i => (slots.getD (i - 1).toNat ⟨0, TRIE_DATA_ERROR, none⟩).next_free)
    num_tails num_tails.toNat first_free

/-- Modelled from the spec: `tail_fread` of `tail.c`; a short read or a wrong signature is a
failure (`none`). -/
def tail_fread (f : File) : Option (Tail × File) :=
  (file_read_int32 f).bind fun r0 =>
  if r0.1 % 4294967296 ≠ TAIL_SIGNATURE then none
  else
    (file_read_int32 r0.2).bind fun r1 =>
    (file_read_int32 r1.2).bind fun r2 =>
    (read_tail_slots r1.1.toNat r2.2).bind fun r3 =>
    some (tail_of_slots r1.1 r2.1 r3.1, r3.2)

/-- The file functions of the components which `trie.c` calls, over the state `F` of a `FILE`;
a write returns 0 on success, a read returns `none` (a null pointer) on failure. -/
structure FileOps (F : Type) where
  alpha_map_fwrite_bin : AlphaMap → F → Int × F
  da_fwrite : DArray → F → Int × F
  tail_fwrite : Tail → F → Int × F
  alpha_map_fread_bin : F → Option (AlphaMap × F)
  da_fread : F → Option (DArray × F)
  tail_fread : F → Option (Tail × F)

/-- The file functions modelled from the spec. -/
def file_ops : FileOps File where
  alpha_map_fwrite_bin := alpha_map_fwrite_bin
  da_fwrite := da_fwrite
  tail_fwrite := tail_fwrite
  alpha_map_fread_bin := alpha_map_fread_bin
  da_fread := da_fread
  tail_fread := tail_fread

/-- The function `trie_fwrite` of `trie.c`: the returned value, the trie and the file
afterwards. -/
def trie_fwrite {F : Type} (ops : FileOps F) (trie : Trie) (file : F) : Int × Trie × F :=
  if (ops.alpha_map_fwrite_bin trie.alpha_map file).1 ≠ 0 then
    (-1, trie, (ops.alpha_map_fwrite_bin trie.alpha_map file).2)
  else if (ops.da_fwrite trie.da (ops.alpha_map_fwrite_bin trie.alpha_map file).2).1 ≠ 0 then
    (-1, trie, (ops.da_fwrite trie.da (ops.alpha_map_fwrite_bin trie.alpha_map file).2).2)
  else if (ops.tail_fwrite trie.tail
      (ops.da_fwrite trie.da (ops.alpha_map_fwrite_bin trie.alpha_map file).2).2).1 ≠ 0 then
    (-1, trie, (ops.tail_fwrite trie.tail
      (ops.da_fwrite trie.da (ops.alpha_map_fwrite_bin trie.alpha_map file).2).2).2)
  else
    (0, { trie with is_dirty := false }, (ops.tail_fwrite trie.tail
      (ops.da_fwrite trie.da (ops.alpha_map_fwrite_bin trie.alpha_map file).2).2).2)

/-- The function `trie_save` of `trie.c`; `opened` is the result of `fopen (path, "w+")`,
`none` for a null pointer.  The returned value and the trie afterwards. -/
def trie_save {F : Type} (ops : FileOps F) (trie : Trie) (opened : Option F) : Int × Trie :=
  match opened with
  | none => (-1, trie)
  | some file => ((trie_fwrite ops trie file).1, (trie_fwrite ops trie file).2.1)

/-- The function `trie_fread` of `trie.c`; `none` is the null pointer (allocation failure is
outside the model). -/
def trie_fread {F : Type} (ops : FileOps F) (file : F) : Option (Trie × F) :=
  match ops.alpha_map_fread_bin file with
  | none => none
  | some (alpha_map, f1) =>
    match ops.da_fread f1 with
    | none => none
    | some (da, f2) =>
      match ops.tail_fread f2 with
      | none => none
      | some (tail, f3) => some (⟨alpha_map, da, tail, false⟩, f3)

/-- The function `trie_new_from_file` of `trie.c`; `opened` is the result of
`fopen (path, "r")`. -/
def trie_new_from_file {F : Type} (ops : FileOps F) (opened : Option F) : Option Trie :=
  match opened with
  | none => none
  | some trie_file => (trie_fread ops trie_file).map (fun r => r.1)

/-- The bytes of an item in the file. -/
def item_bytes : FileItem → List Nat
  | .int32 v => int32_bytes v
  | .int16 v => int16_bytes v
  | .chars buff => buff.map (fun b => b % 256)

/-- The bytes of a sequence of items in the file. -/
def items_bytes (items : List FileItem) : List Nat := items.flatMap item_bytes

/-- The value held by an `int32` variable assigned `v`. -/
def int32_wrap (v : Int) : Int :=
  if v % 4294967296 < 2147483648 then v % 4294967296 else v % 4294967296 - 4294967296

/-- Within the range of `int32`. -/
def IsInt32 (v : Int) : Prop := -2147483648 ≤ v ∧ v < 2147483648

/-- The numbers of the trie are those of the C types (32-bit code points, indices and data,
8-bit trie characters), and every suffix of the tail pool is shorter than 32768, the range of
the `i16 length` field of the file format. -/
structure FitsFormat (t : Trie) : Prop where
  n_ranges : t.alpha_map.ranges.length < 2147483648
  ranges : ∀ r ∈ t.alpha_map.ranges, r.1 < 4294967296 ∧ r.2 < 4294967296
  num_cells : t.da.num_cells < 2147483648
  cells : ∀ x, 0 ≤ x → x < t.da.num_cells →
    IsInt32 (t.da.check x) ∧ (1 ≤ x → IsInt32 (t.da.base x))
  num_tails : t.tail.num_tails < 2147483648
  data : ∀ i, 1 ≤ i → i ≤ t.tail.num_tails → IsInt32 (t.tail.tails i).data
  suffix : ∀ i, 1 ≤ i → i ≤ t.tail.num_tails → ∀ suf, (t.tail.tails i).suffix = some suf →
    suf.length < 32768 ∧ ∀ c ∈ suf, c < 256

/-- The key of 32769 letters 'a'. -/
def long_key : List Nat := List.replicate 32769 97

/-- The trie which the store of `long_key` with value 7 in the fresh trie over the range
`a..z` returns: the root has the transition on 'a' to a separate node, whose tail entry holds
the other 32768 letters. -/
def long_trie : Trie :=
  ⟨en_alpha_map,
   trie_da_set_tail_index (da_insert_branch da_new 2 1).2 (da_insert_branch da_new 2 1).1 1,
   tail_set_data (tail_add_suffix tail_new (List.replicate 32768 1)).2 1 7, true⟩

/-- The double-array read back from a written one. -/
def da_read_back (d : DArray) : DArray where
  num_cells := d.num_cells
  base := fun x => if 0 ≤ x ∧ x < d.num_cells then int32_wrap (d.base x) else -1
  check := fun x => if 0 ≤ x ∧ x < d.num_cells then int32_wrap (d.check x) else -1

/-- A slot that the file format holds as it is. -/
def SlotFits (s : TailSlot) : Prop :=
  IsInt32 s.next_free ∧ IsInt32 s.data ∧
    ((s.suffix = none ∧ s.next_free ≠ -1) ∨
     (∃ suf, s.suffix = some suf ∧ s.next_free = -1 ∧ suf.length < 32768 ∧ ∀ c ∈ suf, c < 256))

/-- The tail pool read back from a written one. -/
def tail_read_back (tl : Tail) : Tail :=
  tail_of_slots tl.num_tails (tl.free.headD 0) (tail_slots tl)

/-- The double-array `d1` has the cells of `d`: the same `check` in every cell of the array,
the same `base` from cell 1 on, and free cells outside the array. -/
structure SameCells (d d1 : DArray) : Prop where
  num : d1.num_cells = d.num_cells
  check : ∀ x, 0 ≤ x → x < d.num_cells → d1.check x = d.check x
  base : ∀ x, 1 ≤ x → x < d.num_cells → d1.base x = d.base x
  out : ∀ x, ¬ (0 ≤ x ∧ x < d.num_cells) → d1.check x = -1

/-! ## Rewinding a state, and the calls made on a state -/

/-- The function `trie_state_rewind` of `trie.c`: it assigns `index` and `is_suffix`, and
leaves `suffix_idx` as it is. -/
def trie_state_rewind (s : TrieState) : TrieState :=
  { s with index := da_get_root s.trie.da, is_suffix := false }

/-- A call made on a `TrieState`. -/
inductive StateCall where
  | walk (c : Nat)
  | is_walkable (c : Nat)
  | is_terminal
  | is_single
  | is_leaf
  | get_data

/-- What a call on a `TrieState` returns: a `Bool`, or a `TrieData`. -/
inductive CallResult where
  | flag (b : Bool)
  | data (v : Int)
  deriving DecidableEq

/-- The results of a sequence of calls made one after the other on the state `s`; a
`trie_state_walk` call changes the state the following calls see. -/
def state_calls (s : TrieState) : List StateCall → List CallResult
  | [] => []
  | .walk c :: rest =>
    .flag (trie_state_walk s c).1 :: state_calls (trie_state_walk s c).2 rest
  | .is_walkable c :: rest => .flag (trie_state_is_walkable s c) :: state_calls s rest
  | .is_terminal :: rest => .flag (trie_state_is_terminal s) :: state_calls s rest
  | .is_single :: rest => .flag (trie_state_is_single s) :: state_calls s rest
  | .is_leaf :: rest => .flag (trie_state_is_leaf s) :: state_calls s rest
  | .get_data :: rest => .data (trie_state_get_data s) :: state_calls s rest

/-! ## Callbacks of the enumeration -/

/-- The calls a caller makes when it hands the entries of `l` one after the other to the
callback `enum_func` and stops after the first call that returns `FALSE`: the flag is `FALSE`
when a call returned `FALSE`, and the user data is that left by the last call made. -/
def enum_feed {U : Type} (enum_func : List Nat → Int → U → Bool × U) :
    List (List Nat × Int) → U → Bool × U
  | [], u => (true, u)
  | e :: es, u =>
    if (enum_func e.1 e.2 u).1 then enum_feed enum_func es (enum_func e.1 e.2 u).2
    else (false, (enum_func e.1 e.2 u).2)

/-- A callback that appends the pair it is given to the list kept in its user data, and
returns `FALSE` on the `i`-th call (counted from 1), `TRUE` on the others. -/
def enum_stop_at (i : Nat) (key : List Nat) (data : Int) (u : List (List Nat × Int)) :
    Bool × List (List Nat × Int) := (decide (u.length + 1 ≠ i), u ++ [(key, data)])

/-! ## Key storage (`key-storage.c`) -/

/-- The structure `KeyStorage` of `key-storage.h`.  `trie_key` is the memory behind the
pointer as a function of the index; the cells `0 .. allocated - 1` belong to the buffer.  The
field `alpha_key` is never assigned in `key-storage.c` and is left out. -/
structure KeyStorage where
  trie_key : Int → Nat
  length : Int
  allocated : Int
  alpha_map : AlphaMap

/-- The loop `while (next_size < size) next_size += 20` of `ks_ensure_size`. -/
def ks_next_size (next_size size : Int) : Int :=
  if next_size < size then ks_next_size (next_size + 20) size else next_size
termination_by (size - next_size).toNat
decreasing_by omega

/-- The function `ks_ensure_size` of `key-storage.c`.  `realloc` keeps the content of the
buffer and is taken to succeed. -/
def ks_ensure_size (ks : KeyStorage) (size : Int) : Bool × KeyStorage :=
  if ks.allocated > size then (true, ks)
  else (true, { ks with allocated := ks_next_size (ks.allocated + 20) size })

/-- The function `ks_push` of `key-storage.c`; the argument `ac` is not used.  A write outside
the buffer is `none`. -/
def ks_push (ks : KeyStorage) (tc : Nat) (_ac : Nat) : Option KeyStorage :=
  let ks1 := (ks_ensure_size ks (ks.length + 1)).2
  if 0 ≤ ks1.length ∧ ks1.length < ks1.allocated then
    some { ks1 with trie_key := Function.update ks1.trie_key ks1.length tc,
                    length := ks1.length + 1 }
  else none

/-- The function `ks_push_tc` of `key-storage.c`.  A write outside the buffer is `none`. -/
def ks_push_tc (ks : KeyStorage) (tc : Nat) : Option KeyStorage :=
  let ks1 := (ks_ensure_size ks (ks.length + 1)).2
  if 0 ≤ ks1.length ∧ ks1.length < ks1.allocated then
    some { ks1 with trie_key := Function.update ks1.trie_key ks1.length tc,
                    length := ks1.length + 1 }
  else none

/-- The function `ks_push_ac` of `key-storage.c`. -/
def ks_push_ac (ks : KeyStorage) (ac : Nat) : Option KeyStorage :=
  ks_push_tc ks (alpha_map_char_to_trie ks.alpha_map ac)

/-- The function `ks_pop` of `key-storage.c`. -/
def ks_pop (ks : KeyStorage) (count : Int) : KeyStorage :=
  if ks.length ≥ count then { ks with length := ks.length - count }
  else { ks with length := 0 }

/-- The function `ks_terminate` of `key-storage.c`.  A read of `trie_key[length]` outside the
buffer is `none`. -/
def ks_terminate (ks : KeyStorage) : Option KeyStorage :=
  if 0 ≤ ks.length ∧ ks.length < ks.allocated then
    if 0 = ks.trie_key ks.length then some ks
    else (ks_push ks 0 0).map (fun ks1 => { ks1 with length := ks1.length - 1 })
  else none

/-- The loop `for (i = 0; i < --key_length; i++)` of `ks_reverse`, which swaps `trie_key[i]`
and `trie_key[key_length]`; `key_length` is the value before the decrement. -/
def ks_reverse_loop (trie_key : Int → Nat) (i key_length : Int) : Int → Nat :=
  if i < key_length - 1 then
    ks_reverse_loop
      (Function.update (Function.update trie_key i (trie_key (key_length - 1)))
        (key_length - 1) (trie_key i))
      (i + 1) (key_length - 1)
  else trie_key
termination_by (key_length - i).toNat
decreasing_by omega

/-- The function `ks_reverse` of `key-storage.c`.  The cells it touches have an index in
`0 .. length - 1`. -/
def ks_reverse (ks : KeyStorage) : KeyStorage :=
  { ks with trie_key := ks_reverse_loop ks.trie_key 0 ks.length }

/-- The function `ks_clear` of `key-storage.c`. -/
def ks_clear (ks : KeyStorage) : Option KeyStorage :=
  ks_terminate { ks with length := 0 }

/-- A key storage with room for 20 characters that holds the trie string `1 2 3`. -/
def ks_abc : KeyStorage :=
  ⟨fun i => if i = 0 then 1 else if i = 1 then 2 else if i = 2 then 3 else 0, 3, 20,
    en_alpha_map⟩

/-- The state after the `trie_state_walk` calls on the characters of `cs`, made one after the
other whether they succeed or not. -/
def state_after (s : TrieState) : List Nat → TrieState
  | [] => s
  | c :: cs => state_after (trie_state_walk s c).2 cs

/-- Reference model: the state after the walks on the characters of `cs`, with an offset that never wraps. -/
def state_after_unbounded (s : TrieStateUnbounded) : List Nat → TrieStateUnbounded
  | [] => s
  | c :: cs => state_after_unbounded (trie_state_walk_unbounded s c).2 cs

/-- The state of the reference model seen as a state of the code. -/
def state_as_short (s : TrieStateUnbounded) : TrieState :=
  ⟨s.trie, s.index, (s.suffix_idx : Int), s.is_suffix⟩

/-! ## Reads before the suffix buffer -/

/-- The first negative `suffix_idx` that the loop "walk through tail" of `trie.c` hands to
`tail_walk_char`, if any: with it the C code reads before the suffix buffer. -/
def walk_tail_negative (t : Trie) (s : Int) : Int → List Nat → Option Int
  | suffix_idx, [] => if suffix_idx < 0 then some suffix_idx else none
  | suffix_idx, c :: rest =>
    if suffix_idx < 0 then some suffix_idx
    else
      match tail_walk_char t.tail s suffix_idx (alpha_map_char_to_trie t.alpha_map c) with
      | none => none
      | some idx1 => if c = 0 then none else walk_tail_negative t s idx1 rest

/-- The first negative `suffix_idx`, if any, that the loop "walk through tail" of
`trie_retrieve`, `trie_store_conditionally` and `trie_delete` on `key` hands to
`tail_walk_char`. -/
def tail_walk_negative (t : Trie) (key : List Nat) : Option Int :=
  match walk_branches t (da_get_root t.da) key with
  | .failed _ _ => none
  | .left s p => walk_tail_negative t (trie_da_get_tail_index t.da s) 0 p

/-- Every suffix of the tail pool has at most 32767 trie characters. -/
def ShortSuffixes (tl : Tail) : Prop :=
  ∀ j suf, tail_get_suffix tl j = some suf → suf.length ≤ 32767

/-- Every live entry of the tail pool is pointed at by a separate node reachable from the
root. -/
def Linked (t : Trie) : Prop :=
  ∀ i suf, tail_get_suffix t.tail i = some suf → ∃ p, Leaf t.da p i

/-! ## The calls of the common-prefix loop, and the bound of a key storage -/

/-- The number of `da_insert_branch` calls the common-prefix loop of `trie_branch_in_tail`
makes, a failing call included; `ins` stands for `da_insert_branch`. -/
def branch_in_tail_loop_calls (ins : DArray → Int → Nat → Int × DArray) (d : DArray) (s : Int) :
    List Nat → List Nat → Nat
  | [], _ => 0
  | pc :: p, suffix =>
    if pc = suffix.headD 0 then
      if pc = 0 then 0
      else
        let r := ins d s pc
        if TRIE_INDEX_ERROR = r.1 then 1
        else 1 + branch_in_tail_loop_calls ins r.2 r.1 p suffix.tail
    else 0

/-- The function `ks_init` of `key-storage.c` on the structure `ks`, whose fields hold
anything before the call.  `malloc` is taken to succeed; `mem` is the content of the memory it
returns; `none` when `ks_clear` reads outside the buffer. -/
def ks_init (ks : KeyStorage) (mem : Int → Nat) (initial_size : Int) (alpha_map : AlphaMap) :
    Option (Bool × KeyStorage) :=
  (ks_clear { ks with trie_key := mem, allocated := initial_size, alpha_map := alpha_map }).map
    (fun ks1 => (true, ks1))

/-- The cells of `trie_key` the loop of `ks_reverse` reads and writes, in the order of the
swaps, from `i` and `key_length` on. -/
def ks_reverse_cells (i key_length : Int) : List Int :=
  if i < key_length - 1 then i :: (key_length - 1) :: ks_reverse_cells (i + 1) (key_length - 1)
  else []
termination_by (key_length - i).toNat
decreasing_by omega

/-- The bound `0 ≤ length < allocated` of a key storage. -/
def KsBound (ks : KeyStorage) : Prop := 0 ≤ ks.length ∧ ks.length < ks.allocated

/-! ## Theorems -/

theorem int16_wrap_of_fits {v : Int} (h1 : 0 ≤ v) (h2 : v < 32768) : int16_wrap v = v := by
  unfold int16_wrap
  split <;> omega

/-! ## Well-formed double-arrays -/

theorem IsNode.ge {d : DArray} {x : Int} (h : IsNode d x) : 2 ≤ x := by
  rcases h with h | h <;> omega

theorem WFda.node_lt {d : DArray} {dp : Int → Nat} (w : WFda d dp) {x : Int} (h : IsNode d x) :
    x < d.num_cells := by
  rcases h with h | ⟨h3, hc⟩
  · have := w.cells; omega
  · by_contra hn
    have := w.virgin x (by omega); omega

theorem WFda.get_base_node {d : DArray} {dp : Int → Nat} (w : WFda d dp) {x : Int}
    (h : IsNode d x) : da_get_base d x = d.base x := by
  have h1 := h.ge; have h2 := w.node_lt h
  simp [da_get_base]; intro h3; omega

theorem WFda.get_check_eq {d : DArray} {dp : Int → Nat} (w : WFda d dp) {y s : Int}
    (hs : 2 ≤ s) : da_get_check d y = s ↔ (3 ≤ y ∧ d.check y = s) := by
  unfold da_get_check TRIE_INDEX_ERROR
  constructor
  · intro h
    split at h
    · rename_i hr
      refine ⟨?_, h⟩
      by_contra hlt
      have h0 := w.check0; have h1 := w.check1; have h2 := w.check2
      have : y = 0 ∨ y = 1 ∨ y = 2 := by omega
      rcases this with rfl | rfl | rfl <;> omega
    · omega
  · rintro ⟨h3, hc⟩
    have : y < d.num_cells := by
      by_contra hn
      have := w.virgin y (by omega); omega
    rw [if_pos ⟨by omega, this⟩]; exact hc

theorem WFda.walk_iff {d : DArray} {dp : Int → Nat} (w : WFda d dp) {s : Int} (hs : IsNode d s)
    (c : Nat) (y : Int) :
    da_walk d s c = some y ↔ (y = d.base s + c ∧ 3 ≤ y ∧ d.check y = s) := by
  unfold da_walk
  simp only [w.get_base_node hs]
  constructor
  · intro h
    split at h
    · rename_i hc
      have := (w.get_check_eq hs.ge).1 hc
      simp at h; subst h; exact ⟨rfl, this⟩
    · simp at h
  · rintro ⟨rfl, h3, hc⟩
    rw [if_pos ((w.get_check_eq hs.ge).2 ⟨h3, hc⟩)]

theorem WFda.walk_none_iff {d : DArray} {dp : Int → Nat} (w : WFda d dp) {s : Int}
    (hs : IsNode d s) (c : Nat) :
    da_walk d s c = none ↔ ¬ (3 ≤ d.base s + c ∧ d.check (d.base s + c) = s) := by
  constructor
  · intro h hh
    have := (w.walk_iff hs c (d.base s + c)).2 ⟨rfl, hh⟩
    rw [h] at this; simp at this
  · intro h
    cases hw : da_walk d s c with
    | none => rfl
    | some y =>
      have := (w.walk_iff hs c y).1 hw
      obtain ⟨rfl, h3, hc⟩ := this
      exact absurd ⟨h3, hc⟩ h

theorem WFda.is_walkable_iff {d : DArray} {dp : Int → Nat} (w : WFda d dp) {s : Int}
    (hs : IsNode d s) (c : Nat) :
    da_is_walkable d s c = true ↔ (3 ≤ d.base s + c ∧ d.check (d.base s + c) = s) := by
  unfold da_is_walkable
  simp only [w.get_base_node hs, beq_iff_eq]
  exact w.get_check_eq hs.ge

theorem WFda.is_child_iff {d : DArray} {dp : Int → Nat} (w : WFda d dp) {s : Int}
    (hs : IsNode d s) (x : Int) :
    da_is_child d s x = true ↔ (3 ≤ x ∧ d.check x = s) := by
  unfold da_is_child
  simp only [w.get_base_node hs, Bool.and_eq_true, decide_eq_true_eq]
  constructor
  · rintro ⟨⟨⟨_, _⟩, _⟩, h⟩
    exact (w.get_check_eq hs.ge).1 h
  · rintro ⟨h3, hc⟩
    have hp := w.parent x h3 (by have := hs.ge; omega)
    rw [hc] at hp
    obtain ⟨_, hb, hl, hu, _⟩ := hp
    exact ⟨⟨⟨hb, by omega⟩, by omega⟩, (w.get_check_eq hs.ge).2 ⟨h3, hc⟩⟩

theorem WFda.child_node {d : DArray} {dp : Int → Nat} (_w : WFda d dp) {s x : Int}
    (hs : IsNode d s) (h3 : 3 ≤ x) (hc : d.check x = s) : IsNode d x :=
  Or.inr ⟨h3, by have := hs.ge; omega⟩

theorem head_le_of_mem_filter_range (p : Nat → Bool) (n : Nat) :
    ∀ sym ∈ (List.range n).filter p, ((List.range n).filter p).headD 0 ≤ sym := by
  have hs : ((List.range n).filter p).Pairwise (· < ·) :=
    List.Pairwise.filter p (List.pairwise_lt_range n)
  generalize (List.range n).filter p = l at hs
  cases l with
  | nil => simp
  | cons a l =>
    intro sym hm
    simp only [List.headD_cons]
    rcases List.mem_cons.1 hm with h | h
    · omega
    · exact Nat.le_of_lt (List.rel_of_pairwise_cons hs h)

theorem da_find_free_base_spec (d : DArray) (symbols : List Nat)
    (hmin : ∀ sym ∈ symbols, symbols.headD 0 ≤ sym) :
    0 < da_find_free_base d symbols ∧
    ∀ sym ∈ symbols, da_check_free_cell d (da_find_free_base d symbols + (sym : Int)) = true := by
  unfold da_find_free_base
  simp only
  split
  · rename_i i hi
    have hp := List.find?_some hi
    constructor
    · have := Int.le_max_left ((symbols.headD 0 : Nat) + 1 : Int) DA_POOL_BEGIN
      omega
    · intro sym hm
      unfold da_fit_symbols at hp
      exact (List.all_eq_true.1 hp) sym hm
  · have h1 := Int.le_max_left ((symbols.headD 0 : Nat) + 1 : Int) DA_POOL_BEGIN
    have h2 := Int.le_max_right ((symbols.headD 0 : Nat) + 1 : Int) DA_POOL_BEGIN
    have h3 := Int.le_max_left (max ((symbols.headD 0 : Nat) + 1 : Int) DA_POOL_BEGIN) d.num_cells
    have h4 := Int.le_max_right (max ((symbols.headD 0 : Nat) + 1 : Int) DA_POOL_BEGIN) d.num_cells
    constructor
    · omega
    · intro sym hm
      have := hmin sym hm
      unfold da_check_free_cell
      simp only [Bool.and_eq_true, Bool.or_eq_true, decide_eq_true_eq]
      constructor
      · omega
      · left; omega

theorem extend_foldl_ge (nb : Int) (syms : List Nat) (d : DArray) :
    d.num_cells ≤ (syms.foldl (fun e c => da_extend_pool e (nb + (c : Int))) d).num_cells ∧
    ∀ c ∈ syms, nb + (c : Int) < (syms.foldl (fun e c => da_extend_pool e (nb + (c : Int))) d).num_cells := by
  induction syms generalizing d with
  | nil => simp
  | cons a l ih =>
    show d.num_cells ≤ (l.foldl (fun e c => da_extend_pool e (nb + (c : Int))) (da_extend_pool d (nb + (a : Int)))).num_cells ∧
      ∀ c ∈ a :: l, nb + (c : Int) < (l.foldl (fun e c => da_extend_pool e (nb + (c : Int))) (da_extend_pool d (nb + (a : Int)))).num_cells
    have h := ih (da_extend_pool d (nb + (a : Int)))
    have he : d.num_cells ≤ (da_extend_pool d (nb + (a : Int))).num_cells ∧
        nb + (a : Int) < (da_extend_pool d (nb + (a : Int))).num_cells := by
      unfold da_extend_pool; split <;> simp <;> omega
    refine ⟨by omega, ?_⟩
    intro c hc
    rcases List.mem_cons.1 hc with rfl | hc
    · omega
    · exact h.2 c hc

theorem free_cell_check {d : DArray} {dp : Int → Nat} (w : WFda d dp) {x : Int}
    (h : da_check_free_cell d x = true) : 3 ≤ x ∧ d.check x < 0 := by
  unfold da_check_free_cell DA_POOL_BEGIN at h
  simp only [Bool.and_eq_true, Bool.or_eq_true, decide_eq_true_eq] at h
  refine ⟨h.1, ?_⟩
  rcases h.2 with h2 | h2
  · exact w.virgin x h2
  · exact h2

theorem insert_branch_spec {d : DArray} {dp : Int → Nat} (w : WFda d dp) {s : Int}
    (hs : IsNode d s) {c : Nat} (hc : c ≤ 255) :
    ∃ nb, InsertSpec d s c (da_insert_branch d s c) nb := by
  have hgb := w.get_base_node hs
  have hs2 := hs.ge
  by_cases hA : 0 < d.base s ∧ da_check_free_cell d (d.base s + c) = true
  · -- the target cell is free
    refine ⟨d.base s, ?_⟩
    have hr : da_insert_branch d s c = (d.base s + c, da_alloc_child d (d.base s + c) s) := by
      unfold da_insert_branch
      simp only [hgb]
      rw [if_pos hA]
    obtain ⟨hf3, hfc⟩ := free_cell_check w hA.2
    have hnc : (da_alloc_child d (d.base s + c) s).num_cells =
        (da_extend_pool d (d.base s + c)).num_cells := rfl
    have hext : d.num_cells ≤ (da_extend_pool d (d.base s + c)).num_cells ∧
        d.base s + c < (da_extend_pool d (d.base s + c)).num_cells := by
      unfold da_extend_pool; split <;> simp <;> omega
    rw [hr]
    refine ⟨hA.1, rfl, hf3, hfc, ?_, ?_, ?_, ?_, ?_, ?_⟩
    · intro y h3 hy
      exact ⟨by omega, Or.inl rfl⟩
    · rw [hnc]; exact hext.1
    · rw [hnc]; exact hext.2
    · intro y h3 hy
      rw [hnc]
      have : y < d.num_cells := w.node_lt (w.child_node hs h3 hy)
      omega
    · intro x
      have hb : (da_alloc_child d (d.base s + c) s).base x =
          Function.update (da_extend_pool d (d.base s + c)).base (d.base s + c) 3 x := rfl
      have he : (da_extend_pool d (d.base s + c)).base = d.base := by
        unfold da_extend_pool; split <;> rfl
      rw [hb, he]
      by_cases h1 : x = d.base s + c
      · simp [h1, Function.update, DA_POOL_BEGIN]
      · simp only [Function.update, h1, dite_false, if_false]
        by_cases h2 : x = s
        · simp [h2]
        · simp only [h2, if_false]
          have : x - d.base s + d.base s = x := by omega
          rw [this]
          by_cases h3 : 3 ≤ x ∧ d.check x = s
          · simp [h3]
          · simp [h3]
    · intro x
      have hb : (da_alloc_child d (d.base s + c) s).check x =
          Function.update (da_extend_pool d (d.base s + c)).check (d.base s + c) s x := rfl
      have he : (da_extend_pool d (d.base s + c)).check = d.check := by
        unfold da_extend_pool; split <;> rfl
      rw [hb, he]
      by_cases h1 : x = d.base s + c
      · simp [h1, Function.update]
      · simp only [Function.update, h1, dite_false, if_false]
        have : x - d.base s + d.base s = x := by omega
        rw [this]
        by_cases h3 : 3 ≤ x ∧ d.check x = s
        · simp [h3]
        · simp only [h3, if_false]
          split <;> omega
  · -- relocation
    have hne : ¬ (0 < da_get_base d s ∧ da_check_free_cell d (da_get_base d s + c) = true) := by
      rw [hgb]; exact hA
    set symbols := (List.range 256).filter
      (fun x => decide (x = c ∨ (0 < da_get_base d s ∧ da_is_walkable d s x = true))) with hsym
    set nb := da_find_free_base d symbols with hnb
    have hr : da_insert_branch d s c =
        (nb + c, da_alloc_child (da_relocate_base d s nb) (nb + c) s) := by
      unfold da_insert_branch
      simp only
      rw [if_neg hne]
    have hspec := da_find_free_base_spec d symbols (head_le_of_mem_filter_range _ _)
    rw [← hnb] at hspec
    have hcmem : c ∈ symbols := by
      rw [hsym, List.mem_filter]
      exact ⟨List.mem_range.2 (by omega), by simp⟩
    obtain ⟨hf3, hfc⟩ := free_cell_check w (hspec.2 c hcmem)
    have hchild : ∀ y, 3 ≤ y → d.check y = s →
        ∃ c1 : Nat, (c1 : Int) = y - d.base s ∧ c1 ∈ symbols ∧ 0 < d.base s := by
      intro y h3 hy
      have hp := w.parent y h3 (by omega)
      rw [hy] at hp
      obtain ⟨_, hb, hl, hu, _⟩ := hp
      refine ⟨(y - d.base s).toNat, by omega, ?_, hb⟩
      rw [hsym, List.mem_filter]
      refine ⟨List.mem_range.2 (by omega), ?_⟩
      simp only [decide_eq_true_eq]
      right
      rw [hgb]
      refine ⟨hb, (w.is_walkable_iff hs _).2 ?_⟩
      have : d.base s + ((y - d.base s).toNat : Int) = y := by omega
      rw [this]; exact ⟨h3, hy⟩
    have hmoved : ∀ y, 3 ≤ y → d.check y = s →
        3 ≤ y - d.base s + nb ∧ d.check (y - d.base s + nb) < 0 := by
      intro y h3 hy
      obtain ⟨c1, hc1, hm, _⟩ := hchild y h3 hy
      have := free_cell_check w (hspec.2 c1 hm)
      rw [hc1] at this
      have e : nb + (y - d.base s) = y - d.base s + nb := by omega
      rw [e] at this; exact this
    have hRn : (da_relocate_base d s nb).num_cells =
        ((da_output_symbols d s).foldl (fun e c => da_extend_pool e (nb + (c : Int))) d).num_cells :=
      rfl
    have hfold := extend_foldl_ge nb (da_output_symbols d s) d
    have hnc : (da_alloc_child (da_relocate_base d s nb) (nb + c) s).num_cells =
        (da_extend_pool (da_relocate_base d s nb) (nb + c)).num_cells := rfl
    have hext : (da_relocate_base d s nb).num_cells ≤
        (da_extend_pool (da_relocate_base d s nb) (nb + c)).num_cells ∧
        nb + c < (da_extend_pool (da_relocate_base d s nb) (nb + c)).num_cells := by
      unfold da_extend_pool; split <;> simp <;> omega
    refine ⟨nb, ?_⟩
    rw [hr]
    refine ⟨hspec.1, rfl, hf3, hfc, ?_, ?_, ?_, ?_, ?_, ?_⟩
    · intro y h3 hy
      exact ⟨(hmoved y h3 hy).1, Or.inr (hmoved y h3 hy).2⟩
    · rw [hnc]; rw [hRn] at hext; omega
    · rw [hnc]; exact hext.2
    · intro y h3 hy
      rw [hnc]
      obtain ⟨c1, hc1, hm, hb⟩ := hchild y h3 hy
      have hm2 : c1 ∈ da_output_symbols d s := by
        unfold da_output_symbols
        rw [hgb, if_pos hb, List.mem_filter]
        rw [hsym, List.mem_filter] at hm
        refine ⟨hm.1, (w.is_walkable_iff hs _).2 ?_⟩
        have : d.base s + (c1 : Int) = y := by omega
        rw [this]; exact ⟨h3, hy⟩
      have := hfold.2 c1 hm2
      rw [hRn] at hext
      omega
    · intro x
      have hb : (da_alloc_child (da_relocate_base d s nb) (nb + c) s).base x =
          Function.update (da_relocate_base d s nb).base (nb + c) 3 x := by
        have he : (da_extend_pool (da_relocate_base d s nb) (nb + c)).base =
            (da_relocate_base d s nb).base := by
          unfold da_extend_pool; split <;> rfl
        show Function.update (da_extend_pool (da_relocate_base d s nb) (nb + c)).base
          (nb + c) DA_POOL_BEGIN x = _
        rw [he]; rfl
      rw [hb]
      by_cases h1 : x = nb + c
      · simp [h1, Function.update]
      · simp only [Function.update, h1, dite_false, if_false]
        show (if x = s then nb
          else if da_is_child d s (x - nb + da_get_base d s) = true then
            d.base (x - nb + da_get_base d s)
          else if da_is_child d s x = true then -1 else d.base x) = _
        simp only [w.is_child_iff hs, hgb]
    · intro x
      have hb : (da_alloc_child (da_relocate_base d s nb) (nb + c) s).check x =
          Function.update (da_relocate_base d s nb).check (nb + c) s x := by
        have he : (da_extend_pool (da_relocate_base d s nb) (nb + c)).check =
            (da_relocate_base d s nb).check := by
          unfold da_extend_pool; split <;> rfl
        show Function.update (da_extend_pool (da_relocate_base d s nb) (nb + c)).check
          (nb + c) s x = _
        rw [he]
      rw [hb]
      by_cases h1 : x = nb + c
      · simp [h1, Function.update]
      · simp only [Function.update, h1, dite_false, if_false]
        show (if da_is_child d s (x - nb + da_get_base d s) = true then s
          else if da_is_child d s x = true then -1
          else if (da_is_child d s (d.check x) && da_is_child d (d.check x) x) = true then
            d.check x - da_get_base d s + nb
          else d.check x) = _
        simp only [w.is_child_iff hs, hgb, Bool.and_eq_true]
        by_cases h2 : 3 ≤ x - nb + d.base s ∧ d.check (x - nb + d.base s) = s
        · simp only [h2, and_self, if_true]
        · simp only [h2, if_false]
          by_cases h3 : 3 ≤ x ∧ d.check x = s
          · simp only [h3, and_self, if_true]
          · simp only [h3, if_false]
            by_cases h4 : 3 ≤ d.check x ∧ d.check (d.check x) = s
            · have hn : IsNode d (d.check x) := w.child_node hs h4.1 h4.2
              simp only [h4, and_self, true_and, w.is_child_iff hn, and_true]
            · have : ¬ (3 ≤ d.check x ∧ d.check (d.check x) = s ∧ 3 ≤ x) := by
                rintro ⟨a, b, _⟩; exact h4 ⟨a, b⟩
              simp only [h4, false_and, if_false, this]

namespace InsCtx

variable {d : DArray} {dp : Int → Nat} {s : Int} {c : Nat} {r : Int × DArray} {nb : Int}

theorem s_ge (X : InsCtx d dp s c r nb) : 2 ≤ s := X.hs.ge

theorem child_facts (X : InsCtx d dp s c r nb) {y : Int} (h3 : 3 ≤ y) (hy : d.check y = s) :
    0 < d.base s ∧ d.base s ≤ y ∧ y ≤ d.base s + 255 ∧ dp y = dp s + 1 ∧ y ≠ s ∧
    y ≠ d.base s + c := by
  have hp := X.w.parent y h3 (by have := X.s_ge; omega)
  rw [hy] at hp
  obtain ⟨_, hb, hl, hu, hd⟩ := hp
  refine ⟨hb, hl, hu, hd, ?_, ?_⟩
  · rintro rfl; omega
  · rintro rfl; exact X.hne ⟨h3, hy⟩

theorem s_check (X : InsCtx d dp s c r nb) : s = 2 ∨ (3 ≤ s ∧ 0 ≤ d.check s) := X.hs

theorem s_ne_new (X : InsCtx d dp s c r nb) : s ≠ nb + c := by
  rintro h
  have h1 := X.sp.new_free
  have h2 := X.sp.new_ge
  rcases X.hs with h3 | h3
  · omega
  · rw [← h] at h1; omega

/-- Facts about a cell receiving a moved child. -/
theorem newcell (X : InsCtx d dp s c r nb) {x : Int}
    (h : 3 ≤ x - nb + d.base s ∧ d.check (x - nb + d.base s) = s) :
    3 ≤ x ∧ x ≠ nb + c ∧ x ≠ s ∧ (nb = d.base s ∨ d.check x < 0) ∧
    r.2.check x = s ∧ r.2.base x = d.base (x - nb + d.base s) := by
  have hm := X.sp.moved_free _ h.1 h.2
  have hcf := X.child_facts h.1 h.2
  have e : x - nb + d.base s - d.base s + nb = x := by omega
  rw [e] at hm
  have hxn : x ≠ nb + c := by
    rintro rfl
    apply hcf.2.2.2.2.2; omega
  have hxs : x ≠ s := by
    rintro rfl
    rcases hm.2 with h1 | h1
    · apply hcf.2.2.2.2.1; omega
    · rcases X.hs with h3 | h3 <;> omega
  refine ⟨hm.1, hxn, hxs, hm.2, ?_, ?_⟩
  · rw [X.sp.check_eq, if_neg hxn, if_pos h]
  · rw [X.sp.base_eq, if_neg hxn, if_neg hxs, if_pos h]

theorem new_cell (X : InsCtx d dp s c r nb) : r.2.check (nb + c) = s ∧ r.2.base (nb + c) = 3 := by
  rw [X.sp.check_eq, X.sp.base_eq]; simp

theorem base_s (X : InsCtx d dp s c r nb) : r.2.base s = nb := by
  rw [X.sp.base_eq, if_neg X.s_ne_new, if_pos rfl]

/-- Facts about a cell that is neither the new child nor the target of a moved child. -/
theorem other (X : InsCtx d dp s c r nb) {x : Int} (hn : x ≠ nb + c)
    (h : ¬ (3 ≤ x - nb + d.base s ∧ d.check (x - nb + d.base s) = s)) :
    r.2.check x = (if 3 ≤ x ∧ d.check x = s then -1
      else if 3 ≤ d.check x ∧ d.check (d.check x) = s ∧ 3 ≤ x then d.check x - d.base s + nb
      else d.check x) ∧
    (x ≠ s → r.2.base x = if 3 ≤ x ∧ d.check x = s then -1 else d.base x) := by
  constructor
  · rw [X.sp.check_eq, if_neg hn, if_neg h]
  · intro hxs
    rw [X.sp.base_eq, if_neg hn, if_neg hxs, if_neg h]

/-- A child of `s` that stays in place is not the target of another child, unless nothing
moves. -/
theorem child_moves (X : InsCtx d dp s c r nb) {y : Int} (hy : d.check y = s)
    (h : 3 ≤ y - nb + d.base s ∧ d.check (y - nb + d.base s) = s) : nb = d.base s := by
  rcases (X.newcell h).2.2.2.1 with h1 | h1
  · exact h1
  · have := X.s_ge; omega

theorem moved_child (X : InsCtx d dp s c r nb) {y : Int} (h3 : 3 ≤ y) (hy : d.check y = s) :
    3 ≤ moved d s nb y ∧ moved d s nb y ≠ nb + c ∧ moved d s nb y ≠ s ∧
    r.2.check (moved d s nb y) = s ∧ r.2.base (moved d s nb y) = d.base y ∧
    depthIns d dp s c nb (moved d s nb y) = dp y := by
  have hm : moved d s nb y = y - d.base s + nb := by
    unfold moved; rw [if_pos ⟨h3, hy⟩]
  have e : y - d.base s + nb - nb + d.base s = y := by omega
  have hnc : 3 ≤ (y - d.base s + nb) - nb + d.base s ∧
      d.check ((y - d.base s + nb) - nb + d.base s) = s := by
    rw [e]; exact ⟨h3, hy⟩
  have := X.newcell hnc
  rw [hm]
  refine ⟨this.1, this.2.1, this.2.2.1, this.2.2.2.2.1, ?_, ?_⟩
  · rw [this.2.2.2.2.2, e]
  · unfold depthIns
    rw [if_neg this.2.1, if_pos hnc, e]

/-- A node that is not a child of `s` stays in place. -/
theorem moved_other (X : InsCtx d dp s c r nb) {x : Int} (hx : IsNode d x)
    (hnc : ¬ (3 ≤ x ∧ d.check x = s)) :
    moved d s nb x = x ∧ x ≠ nb + c ∧
    ¬ (3 ≤ x - nb + d.base s ∧ d.check (x - nb + d.base s) = s) ∧
    depthIns d dp s c nb x = dp x := by
  have hm : moved d s nb x = x := by unfold moved; rw [if_neg hnc]
  have hxn : x ≠ nb + c := by
    rintro rfl
    have h1 := X.sp.new_free
    rcases hx with h | h <;> [skip; omega]
    have := X.sp.new_ge; omega
  have hnn : ¬ (3 ≤ x - nb + d.base s ∧ d.check (x - nb + d.base s) = s) := by
    intro h
    have hn := X.newcell h
    rcases hn.2.2.2.1 with h1 | h1
    · apply hnc
      have e : x - nb + d.base s = x := by omega
      rw [e] at h; exact h
    · rcases hx with h2 | h2 <;> omega
  refine ⟨hm, hxn, hnn, ?_⟩
  unfold depthIns
  rw [if_neg hxn, if_neg hnn]

theorem moved_s (X : InsCtx d dp s c r nb) : moved d s nb s = s := by
  unfold moved
  rw [if_neg]
  rintro ⟨h3, h⟩
  exact (X.child_facts h3 h).2.2.2.2.1 rfl

theorem moved_root (X : InsCtx d dp s c r nb) :
    moved d s nb 2 = 2 := by
  unfold moved
  rw [if_neg]
  rintro ⟨h3, h⟩
  have := X.w.check2; have := X.s_ge; omega

/-- Check and base of the image of a node other than `s`'s children. -/
theorem node_other (X : InsCtx d dp s c r nb) {x : Int} (hx : IsNode d x)
    (hnc : ¬ (3 ≤ x ∧ d.check x = s)) :
    r.2.check x = moved d s nb (d.check x) ∧ (x ≠ s → r.2.base x = d.base x) := by
  obtain ⟨_, hxn, hnn, _⟩ := X.moved_other hx hnc
  have ho := X.other hxn hnn
  constructor
  · rw [ho.1, if_neg hnc]
    unfold moved
    by_cases h : 3 ≤ d.check x ∧ d.check (d.check x) = s
    · have h3x : 3 ≤ x := by
        rcases hx with h1 | h1
        · have := X.w.check2; rw [h1] at h; omega
        · exact h1.1
      rw [if_pos ⟨h.1, h.2, h3x⟩, if_pos h]
    · rw [if_neg h, if_neg]
      rintro ⟨a, b, _⟩; exact h ⟨a, b⟩
  · intro hxs
    rw [ho.2 hxs, if_neg hnc]

theorem moved_node (X : InsCtx d dp s c r nb) {x : Int} (hx : IsNode d x) :
    IsNode r.2 (moved d s nb x) ∧ moved d s nb x ≠ nb + c ∧
    depthIns d dp s c nb (moved d s nb x) = dp x ∧
    (x ≠ s → r.2.base (moved d s nb x) = d.base x) := by
  by_cases hch : 3 ≤ x ∧ d.check x = s
  · have := X.moved_child hch.1 hch.2
    refine ⟨Or.inr ⟨this.1, ?_⟩, this.2.1, this.2.2.2.2.2, fun _ => this.2.2.2.2.1⟩
    rw [this.2.2.2.1]; have := X.s_ge; omega
  · have hm := X.moved_other hx hch
    have hn := X.node_other hx hch
    rw [hm.1]
    refine ⟨?_, hm.2.1, hm.2.2.2, hn.2⟩
    rcases hx with h | h
    · exact Or.inl h
    · refine Or.inr ⟨h.1, ?_⟩
      rw [hn.1]
      unfold moved
      split
      · rename_i hh
        have := (X.sp.moved_free _ hh.1 hh.2).1; omega
      · omega

/-- Every used cell afterwards is the new child or the image of a used cell. -/
theorem used_after (X : InsCtx d dp s c r nb) {x : Int} (h3 : 3 ≤ x) (hu : 0 ≤ r.2.check x) :
    x = nb + c ∨ ∃ y, 3 ≤ y ∧ 0 ≤ d.check y ∧ x = moved d s nb y := by
  by_cases hxn : x = nb + c
  · exact Or.inl hxn
  right
  by_cases hnn : 3 ≤ x - nb + d.base s ∧ d.check (x - nb + d.base s) = s
  · refine ⟨x - nb + d.base s, hnn.1, by rw [hnn.2]; have := X.s_ge; omega, ?_⟩
    unfold moved; rw [if_pos hnn]; omega
  · have ho := (X.other hxn hnn).1
    by_cases hch : 3 ≤ x ∧ d.check x = s
    · rw [ho, if_pos hch] at hu; omega
    · rw [ho, if_neg hch] at hu
      refine ⟨x, h3, ?_, ?_⟩
      · split at hu
        · omega
        · exact hu
      · unfold moved; rw [if_neg hch]

theorem moved_inj (X : InsCtx d dp s c r nb) {x y : Int} (hx : IsNode d x) (hy : IsNode d y)
    (h : moved d s nb x = moved d s nb y) : x = y := by
  by_cases hcx : 3 ≤ x ∧ d.check x = s <;> by_cases hcy : 3 ≤ y ∧ d.check y = s
  · unfold moved at h; rw [if_pos hcx, if_pos hcy] at h; omega
  · have h1 := X.moved_other hy hcy
    rw [h1.1] at h
    have e : moved d s nb x = x - d.base s + nb := by unfold moved; rw [if_pos hcx]
    rw [e] at h
    exfalso; apply h1.2.2.1
    rw [← h]
    have e2 : x - d.base s + nb - nb + d.base s = x := by omega
    rw [e2]; exact hcx
  · have h1 := X.moved_other hx hcx
    rw [h1.1] at h
    have e : moved d s nb y = y - d.base s + nb := by unfold moved; rw [if_pos hcy]
    rw [e] at h
    exfalso; apply h1.2.2.1
    rw [h]
    have e2 : y - d.base s + nb - nb + d.base s = y := by omega
    rw [e2]; exact hcy
  · rw [(X.moved_other hx hcx).1, (X.moved_other hy hcy).1] at h; exact h

end InsCtx

theorem Edge.target_node {d : DArray} {s y : Int} {c : Nat} (h : Edge d s c y) : IsNode d y :=
  Or.inr ⟨h.2.2.1, by rw [h.2.2.2]; have := h.1; omega⟩

theorem Edge.facts {d : DArray} {dp : Int → Nat} (w : WFda d dp) {s y : Int} {c : Nat}
    (h : Edge d s c y) : IsNode d s ∧ 0 < d.base s ∧ c ≤ 255 ∧ dp y = dp s + 1 := by
  obtain ⟨h2, he, h3, hc⟩ := h
  have hp := w.parent y h3 (by omega)
  rw [hc] at hp
  exact ⟨hp.1, hp.2.1, by omega, hp.2.2.2.2⟩

theorem Edge.edge_det {d : DArray} {s y y1 : Int} {c : Nat} (h : Edge d s c y) (h1 : Edge d s c y1) :
    y = y1 := by
  rw [h.2.1, h1.2.1]

theorem Edge.edge_back {d : DArray} {s s1 y : Int} {c c1 : Nat} (h : Edge d s c y)
    (h1 : Edge d s1 c1 y) : s = s1 ∧ c = c1 := by
  have e : s = s1 := by rw [← h.2.2.2, ← h1.2.2.2]
  subst e
  refine ⟨rfl, ?_⟩
  have := h.2.1; have := h1.2.1; omega

theorem walk_iff_edge {d : DArray} {dp : Int → Nat} (w : WFda d dp) {s : Int} (hs : IsNode d s)
    (c : Nat) (y : Int) : da_walk d s c = some y ↔ Edge d s c y := by
  rw [w.walk_iff hs]
  unfold Edge
  have := hs.ge
  constructor
  · rintro ⟨a, b, c⟩; exact ⟨this, a, b, c⟩
  · rintro ⟨_, a, b, c⟩; exact ⟨a, b, c⟩

theorem walk_none_iff_edge {d : DArray} {dp : Int → Nat} (w : WFda d dp) {s : Int}
    (hs : IsNode d s) (c : Nat) : da_walk d s c = none ↔ ∀ y, ¬ Edge d s c y := by
  constructor
  · intro h y he
    rw [(walk_iff_edge w hs c y).2 he] at h; simp at h
  · intro h
    cases hw : da_walk d s c with
    | none => rfl
    | some y => exact absurd ((walk_iff_edge w hs c y).1 hw) (h y)

theorem Path.snoc {d : DArray} {s m y : Int} {p : List Nat} {c : Nat} (h : Path d s p m)
    (he : Edge d m c y) : Path d s (p ++ [c]) y := by
  induction p generalizing s with
  | nil =>
    simp only [Path] at h; subst h
    exact ⟨y, he, rfl⟩
  | cons a p ih =>
    obtain ⟨m1, e1, h1⟩ := h
    exact ⟨m1, e1, ih h1⟩

theorem Path.append {d : DArray} {s m y : Int} {p q : List Nat} (h : Path d s p m)
    (hq : Path d m q y) : Path d s (p ++ q) y := by
  induction p generalizing s with
  | nil => simp only [Path] at h; subst h; exact hq
  | cons a p ih =>
    obtain ⟨m1, e1, h1⟩ := h
    exact ⟨m1, e1, ih h1⟩

theorem Path.of_append {d : DArray} {s y : Int} {p q : List Nat} (h : Path d s (p ++ q) y) :
    ∃ m, Path d s p m ∧ Path d m q y := by
  induction p generalizing s with
  | nil => exact ⟨s, rfl, h⟩
  | cons a p ih =>
    obtain ⟨m1, e1, h1⟩ := h
    obtain ⟨m, hm, hq⟩ := ih h1
    exact ⟨m, ⟨m1, e1, hm⟩, hq⟩

theorem Path.of_snoc {d : DArray} {s y : Int} {p : List Nat} {c : Nat}
    (h : Path d s (p ++ [c]) y) : ∃ m, Path d s p m ∧ Edge d m c y := by
  obtain ⟨m, hm, hq⟩ := Path.of_append h
  obtain ⟨m1, e1, h1⟩ := hq
  simp only [Path] at h1; subst h1
  exact ⟨m, hm, e1⟩

theorem Path.node {d : DArray} {s y : Int} {p : List Nat} (h : Path d s p y)
    (hs : IsNode d s) : IsNode d y := by
  induction p generalizing s with
  | nil => simp only [Path] at h; subst h; exact hs
  | cons a p ih =>
    obtain ⟨m1, e1, h1⟩ := h
    exact ih h1 e1.target_node

theorem Path.path_det {d : DArray} {s y y1 : Int} {p : List Nat} (h : Path d s p y)
    (h1 : Path d s p y1) : y = y1 := by
  induction p generalizing s with
  | nil => simp only [Path] at h h1; rw [h, h1]
  | cons a p ih =>
    obtain ⟨m, e, hp⟩ := h
    obtain ⟨m1, e1, hp1⟩ := h1
    have := e.edge_det e1; subst this
    exact ih hp hp1

theorem Path.depth {d : DArray} {dp : Int → Nat} (w : WFda d dp) {s y : Int} {p : List Nat}
    (h : Path d s p y) : dp y = dp s + p.length := by
  induction p generalizing s with
  | nil => simp only [Path] at h; subst h; simp
  | cons a p ih =>
    obtain ⟨m, e, hp⟩ := h
    have := ih hp
    have := (e.facts w).2.2.2
    simp only [List.length_cons]; omega

/-- Two paths from the same state to the same state are equal. -/
theorem Path.unique {d : DArray} {dp : Int → Nat} (w : WFda d dp) {s y : Int} {p q : List Nat}
    (h : Path d s p y) (h1 : Path d s q y) : p = q := by
  have hl : p.length = q.length := by
    have := h.depth w; have := h1.depth w; omega
  induction p using List.reverseRecOn generalizing q y with
  | nil =>
    simp only [List.length_nil] at hl
    exact (List.length_eq_zero.1 hl.symm).symm
  | append_singleton p c ih =>
    rcases List.eq_nil_or_concat q with rfl | ⟨q1, c1, rfl⟩
    · simp at hl
    · rw [List.concat_eq_append] at h1 hl ⊢
      obtain ⟨m, hm, e⟩ := Path.of_snoc h
      obtain ⟨m1, hm1, e1⟩ := Path.of_snoc h1
      obtain ⟨rfl, rfl⟩ := e.edge_back e1
      have : p = q1 := ih hm hm1 (by simpa using hl)
      rw [this]

/-- The well-formed double-array has no state with a transition to the root. -/
theorem Path.root_only {d : DArray} {s : Int} {p : List Nat}
    (h : Path d s p 2) : p = [] := by
  induction p using List.reverseRecOn with
  | nil => rfl
  | append_singleton p c _ =>
    obtain ⟨m, _, e⟩ := Path.of_snoc h
    have := e.2.2.1; omega

namespace InsCtx

variable {d : DArray} {dp : Int → Nat} {s : Int} {c : Nat} {r : Int × DArray} {nb : Int}

theorem low_cell (X : InsCtx d dp s c r nb) {x : Int} (hx : x < 3) :
    r.2.check x = d.check x ∧ (x ≠ s → r.2.base x = d.base x) := by
  have hxn : x ≠ nb + c := by have := X.sp.new_ge; omega
  have hnn : ¬ (3 ≤ x - nb + d.base s ∧ d.check (x - nb + d.base s) = s) := by
    intro h; have := (X.newcell h).1; omega
  have ho := X.other hxn hnn
  constructor
  · rw [ho.1, if_neg (by omega), if_neg (by omega)]
  · intro h; rw [ho.2 h, if_neg (by omega)]

/-- `da_insert_branch` keeps the double-array well-formed. -/
theorem wf (X : InsCtx d dp s c r nb) : WFda r.2 (depthIns d dp s c nb) := by
  have hs2 := X.s_ge
  have hms := X.moved_node X.hs
  rw [X.moved_s] at hms
  refine ⟨?_, ?_, ?_, ?_, ?_, ?_, ?_⟩
  · have := X.w.cells; have := X.sp.cells_le; omega
  · rw [(X.low_cell (x := 0) (by omega)).1]; exact X.w.check0
  · rw [(X.low_cell (x := 1) (by omega)).1]; exact X.w.check1
  · rw [(X.low_cell (x := 2) (by omega)).1]; exact X.w.check2
  · by_cases h : (2 : Int) = s
    · rw [h, X.base_s]; exact X.sp.nb_pos
    · rw [(X.low_cell (x := 2) (by omega)).2 h]; exact X.w.base2
  · intro x hx
    have hxn : x ≠ nb + c := by have := X.sp.new_lt; omega
    have hnn : ¬ (3 ≤ x - nb + d.base s ∧ d.check (x - nb + d.base s) = s) := by
      intro h
      have := X.sp.moved_lt _ h.1 h.2
      omega
    have hv := X.w.virgin x (by have := X.sp.cells_le; omega)
    rw [(X.other hxn hnn).1, if_neg (by omega), if_neg (by omega)]
    exact hv
  · intro x h3 hu
    rcases X.used_after h3 hu with rfl | ⟨y, hy3, hyu, rfl⟩
    · rw [X.new_cell.1, X.base_s]
      refine ⟨hms.1, X.sp.nb_pos, by omega, by have := X.hc; omega, ?_⟩
      rw [hms.2.2.1]
      unfold depthIns; rw [if_pos rfl]
    · by_cases hch : d.check y = s
      · have hm := X.moved_child hy3 hch
        have hcf := X.child_facts hy3 hch
        rw [hm.2.2.2.1, X.base_s]
        refine ⟨hms.1, X.sp.nb_pos, ?_, ?_, ?_⟩
        · unfold moved; rw [if_pos ⟨hy3, hch⟩]; omega
        · unfold moved; rw [if_pos ⟨hy3, hch⟩]; omega
        · rw [hm.2.2.2.2.2, hms.2.2.1]; exact hcf.2.2.2.1
      · have hyn : IsNode d y := Or.inr ⟨hy3, hyu⟩
        have hnc : ¬ (3 ≤ y ∧ d.check y = s) := fun h => hch h.2
        have hm := X.moved_other hyn hnc
        have hn := X.node_other hyn hnc
        have hp := X.w.parent y hy3 hyu
        have hpm := X.moved_node hp.1
        rw [hm.1, hn.1, hpm.2.2.2 hch, hm.2.2.2, hpm.2.2.1]
        exact ⟨hpm.1, hp.2.1, hp.2.2.1, hp.2.2.2.1, hp.2.2.2.2⟩

theorem edge_new (X : InsCtx d dp s c r nb) : Edge r.2 s c (nb + c) :=
  ⟨X.s_ge, by rw [X.base_s], X.sp.new_ge, X.new_cell.1⟩

theorem edge_fwd (X : InsCtx d dp s c r nb) {x y : Int} {c1 : Nat} (h : Edge d x c1 y) :
    Edge r.2 (moved d s nb x) c1 (moved d s nb y) := by
  obtain ⟨hx2, he, h3, hc⟩ := h
  have hxn : IsNode d x := (Edge.facts X.w ⟨hx2, he, h3, hc⟩).1
  have hmx := X.moved_node hxn
  by_cases hxs : x = s
  · subst hxs
    have hm := X.moved_child h3 hc
    rw [X.moved_s]
    refine ⟨hx2, ?_, hm.1, hm.2.2.2.1⟩
    rw [X.base_s]; unfold moved; rw [if_pos ⟨h3, hc⟩]; omega
  · have hyn : IsNode d y := Or.inr ⟨h3, by omega⟩
    have hnc : ¬ (3 ≤ y ∧ d.check y = s) := fun h => hxs (by rw [← hc, h.2])
    have hm := X.moved_other hyn hnc
    have hn := X.node_other hyn hnc
    rw [hm.1]
    refine ⟨hmx.1.ge, ?_, h3, ?_⟩
    · rw [hmx.2.2.2 hxs]; exact he
    · rw [hn.1, hc]

theorem edge_bwd (X : InsCtx d dp s c r nb) {x1 y1 : Int} {c1 : Nat} (h : Edge r.2 x1 c1 y1) :
    (x1 = s ∧ c1 = c ∧ y1 = nb + c) ∨
    ∃ x y, Edge d x c1 y ∧ x1 = moved d s nb x ∧ y1 = moved d s nb y := by
  obtain ⟨hx2, he, h3, hc⟩ := h
  rcases X.used_after h3 (by omega) with rfl | ⟨y, hy3, hyu, rfl⟩
  · left
    rw [X.new_cell.1] at hc
    subst hc
    rw [X.base_s] at he
    exact ⟨rfl, by omega, rfl⟩
  · right
    by_cases hch : d.check y = s
    · have hm := X.moved_child hy3 hch
      have hcf := X.child_facts hy3 hch
      rw [hm.2.2.2.1] at hc
      subst hc
      refine ⟨s, y, ⟨hx2, ?_, hy3, hch⟩, X.moved_s.symm, rfl⟩
      rw [X.base_s] at he
      unfold moved at he; rw [if_pos ⟨hy3, hch⟩] at he
      omega
    · have hyn : IsNode d y := Or.inr ⟨hy3, hyu⟩
      have hnc : ¬ (3 ≤ y ∧ d.check y = s) := fun h => hch h.2
      have hm := X.moved_other hyn hnc
      have hn := X.node_other hyn hnc
      have hp := X.w.parent y hy3 hyu
      have hpm := X.moved_node hp.1
      rw [hm.1] at hc he
      rw [hn.1] at hc
      subst hc
      rw [hpm.2.2.2 hch] at he
      exact ⟨d.check y, y, ⟨hp.1.ge, he, hy3, rfl⟩, rfl, rfl⟩

theorem path_fwd (X : InsCtx d dp s c r nb) {x y : Int} {p : List Nat} (h : Path d x p y) :
    Path r.2 (moved d s nb x) p (moved d s nb y) := by
  induction p generalizing x with
  | nil => simp only [Path] at h ⊢; rw [h]
  | cons a p ih =>
    obtain ⟨m, e, hp⟩ := h
    exact ⟨_, X.edge_fwd e, ih hp⟩

/-- The paths from the root after `da_insert_branch d s c`: the images of the old paths, and
the path to the new child. -/
theorem path_bwd (X : InsCtx d dp s c r nb) {y1 : Int} {p : List Nat} (h : Path r.2 2 p y1) :
    (∃ y, Path d 2 p y ∧ y1 = moved d s nb y) ∨
    (∃ p0, p = p0 ++ [c] ∧ Path d 2 p0 s ∧ y1 = nb + c) := by
  induction p using List.reverseRecOn generalizing y1 with
  | nil =>
    simp only [Path] at h
    exact Or.inl ⟨2, rfl, by rw [h, X.moved_root]⟩
  | append_singleton p c1 ih =>
    obtain ⟨m1, hm1, e1⟩ := Path.of_snoc h
    have hsrc : ∃ m, Path d 2 p m ∧ m1 = moved d s nb m := by
      rcases ih hm1 with h1 | ⟨p0, _, _, h1⟩
      · exact h1
      · exfalso
        -- the new child has no transition
        rcases X.edge_bwd e1 with ⟨h2, _, _⟩ | ⟨x, y, _, h2, _⟩
        · exact X.s_ne_new (by rw [← h2, h1])
        · have e0 : Edge d x c1 y := by assumption
          exact (X.moved_node (Edge.facts X.w e0).1).2.1 (by rw [← h2, h1])
    obtain ⟨m, hm, rfl⟩ := hsrc
    have hmn : IsNode d m := hm.node (Or.inl rfl)
    rcases X.edge_bwd e1 with ⟨h2, rfl, rfl⟩ | ⟨x, y, e0, h2, rfl⟩
    · right
      have h3 : moved d s nb m = moved d s nb s := by rw [X.moved_s]; exact h2
      have := X.moved_inj hmn X.hs h3
      subst this
      exact ⟨p, rfl, hm, rfl⟩
    · left
      have := X.moved_inj hmn (Edge.facts X.w e0).1 h2
      subst this
      exact ⟨y, hm.snoc e0, rfl⟩

end InsCtx

theorem Childless.no_edge {d : DArray} {n : Int} (h : Childless d n) (c : Nat) (y : Int) :
    ¬ Edge d n c y := fun e => h y e.2.2.1 e.2.2.2

theorem childless_of_base_le {d : DArray} {dp : Int → Nat} (w : WFda d dp) {n : Int}
    (hn : 2 ≤ n) (hb : d.base n ≤ 0) : Childless d n := by
  intro y h3 hc
  have := w.parent y h3 (by omega)
  rw [hc] at this; omega

theorem childless_of_no_edge {d : DArray} {dp : Int → Nat} (w : WFda d dp) {n : Int}
    (hn : 2 ≤ n) (h : ∀ c y, ¬ Edge d n c y) : Childless d n := by
  intro y h3 hc
  have hp := w.parent y h3 (by omega)
  rw [hc] at hp
  apply h (y - d.base n).toNat y
  exact ⟨hn, by omega, h3, hc⟩

namespace InsCtx

variable {d : DArray} {dp : Int → Nat} {s : Int} {c : Nat} {r : Int × DArray} {nb : Int}

theorem new_childless (X : InsCtx d dp s c r nb) : Childless r.2 (nb + c) := by
  apply childless_of_no_edge X.wf (by have := X.sp.new_ge; omega)
  intro c1 y e
  rcases X.edge_bwd e with ⟨h2, _, _⟩ | ⟨x, y, e0, h2, _⟩
  · exact X.s_ne_new h2.symm
  · exact (X.moved_node (Edge.facts X.w e0).1).2.1 h2.symm

theorem new_node (X : InsCtx d dp s c r nb) : IsNode r.2 (nb + c) :=
  X.edge_new.target_node

theorem path_new (X : InsCtx d dp s c r nb) {p0 : List Nat} (hp0 : Path d 2 p0 s) :
    Path r.2 2 (p0 ++ [c]) (nb + c) := by
  have := X.path_fwd hp0
  rw [X.moved_root, X.moved_s] at this
  exact this.snoc X.edge_new

theorem path_s (X : InsCtx d dp s c r nb) {p0 : List Nat} (hp0 : Path d 2 p0 s) :
    Path r.2 2 p0 s := by
  have := X.path_fwd hp0
  rw [X.moved_root, X.moved_s] at this
  exact this

/-- The separate nodes after `da_insert_branch d s c`, for `s` at path `p0`: those from
before, other than `s`. -/
theorem leaf_iff (X : InsCtx d dp s c r nb) {p0 : List Nat} (hp0 : Path d 2 p0 s)
    (p : List Nat) (i : Int) : Leaf r.2 p i ↔ (Leaf d p i ∧ p ≠ p0) := by
  constructor
  · rintro ⟨x1, hp, hb, hi⟩
    rcases X.path_bwd hp with ⟨y, hy, rfl⟩ | ⟨_, _, _, rfl⟩
    · have hyn : IsNode d y := hy.node (Or.inl rfl)
      have hys : y ≠ s := by
        rintro rfl
        rw [X.moved_s, X.base_s] at hb
        have := X.sp.nb_pos; omega
      rw [(X.moved_node hyn).2.2.2 hys] at hb
      refine ⟨⟨y, hy, hb, hi⟩, ?_⟩
      rintro rfl
      exact hys (hy.path_det hp0)
    · rw [X.new_cell.2] at hb; omega
  · rintro ⟨⟨y, hy, hb, hi⟩, hne⟩
    have hyn : IsNode d y := hy.node (Or.inl rfl)
    have hys : y ≠ s := by
      rintro rfl
      exact hne (hy.unique X.w hp0)
    have := X.path_fwd hy
    rw [X.moved_root] at this
    exact ⟨_, this, by rw [(X.moved_node hyn).2.2.2 hys]; exact hb, hi⟩

end InsCtx

/-! ### Setting the base of a childless node -/

theorem set_base_eq {d : DArray} {dp : Int → Nat} (w : WFda d dp) {n : Int} (hn : IsNode d n)
    (v : Int) : da_set_base d n v = { d with base := Function.update d.base n v } := by
  unfold da_set_base
  rw [if_pos ⟨by have := hn.ge; omega, w.node_lt hn⟩]

theorem set_base_wf {d : DArray} {dp : Int → Nat} (w : WFda d dp) {n : Int} (hn : IsNode d n)
    (hn2 : n ≠ 2) (hc : Childless d n) (v : Int) : WFda (da_set_base d n v) dp := by
  rw [set_base_eq w hn]
  refine ⟨w.cells, w.check0, w.check1, w.check2, ?_, w.virgin, ?_⟩
  · show 0 < Function.update d.base n v 2
    rw [Function.update_noteq (Ne.symm hn2)]; exact w.base2
  · intro x h3 hu
    have hp := w.parent x h3 hu
    have hne : d.check x ≠ n := hc x h3
    show IsNode _ _ ∧ 0 < Function.update d.base n v (d.check x) ∧
      Function.update d.base n v (d.check x) ≤ x ∧
      x ≤ Function.update d.base n v (d.check x) + 255 ∧ _
    rw [Function.update_noteq hne]
    exact hp

theorem set_base_edge {d : DArray} {dp : Int → Nat} (w : WFda d dp) {n : Int} (hn : IsNode d n)
    (hc : Childless d n) (v : Int) (x : Int) (c : Nat) (y : Int) :
    Edge (da_set_base d n v) x c y ↔ Edge d x c y := by
  rw [set_base_eq w hn]
  unfold Edge
  constructor
  · rintro ⟨h2, he, h3, hch⟩
    have hne : x ≠ n := by rintro rfl; exact hc y h3 hch
    refine ⟨h2, ?_, h3, hch⟩
    simpa [Function.update_noteq hne] using he
  · rintro ⟨h2, he, h3, hch⟩
    have hne : x ≠ n := by rintro rfl; exact hc y h3 hch
    refine ⟨h2, ?_, h3, hch⟩
    simpa [Function.update_noteq hne] using he

theorem set_base_path {d : DArray} {dp : Int → Nat} (w : WFda d dp) {n : Int} (hn : IsNode d n)
    (hc : Childless d n) (v : Int) (x : Int) (p : List Nat) (y : Int) :
    Path (da_set_base d n v) x p y ↔ Path d x p y := by
  induction p generalizing x with
  | nil => simp [Path]
  | cons a p ih =>
    simp only [Path]
    constructor
    · rintro ⟨m, e, h⟩
      exact ⟨m, (set_base_edge w hn hc v _ _ _).1 e, (ih m).1 h⟩
    · rintro ⟨m, e, h⟩
      exact ⟨m, (set_base_edge w hn hc v _ _ _).2 e, (ih m).2 h⟩

theorem set_base_base {d : DArray} {dp : Int → Nat} (w : WFda d dp) {n : Int} (hn : IsNode d n)
    (v : Int) (x : Int) : (da_set_base d n v).base x = if x = n then v else d.base x := by
  rw [set_base_eq w hn]
  show Function.update d.base n v x = _
  by_cases h : x = n
  · rw [h]; simp
  · rw [Function.update_noteq h, if_neg h]

/-- The separate nodes after `da_set_base d n v` for a childless node `n`. -/
theorem set_base_leaf {d : DArray} {dp : Int → Nat} (w : WFda d dp) {n : Int} (hn : IsNode d n)
    (hc : Childless d n) (v : Int) (p : List Nat) (i : Int) :
    Leaf (da_set_base d n v) p i ↔
      ((Leaf d p i ∧ ¬ Path d 2 p n) ∨ (Path d 2 p n ∧ v = -i ∧ 0 < i)) := by
  unfold Leaf
  constructor
  · rintro ⟨x, hp, hb, hi⟩
    rw [set_base_path w hn hc] at hp
    rw [set_base_base w hn] at hb
    by_cases hx : x = n
    · subst hx
      rw [if_pos rfl] at hb
      exact Or.inr ⟨hp, hb, hi⟩
    · rw [if_neg hx] at hb
      exact Or.inl ⟨⟨x, hp, hb, hi⟩, fun h => hx (hp.path_det h)⟩
  · rintro (⟨⟨x, hp, hb, hi⟩, hnp⟩ | ⟨hp, hv, hi⟩)
    · refine ⟨x, (set_base_path w hn hc _ _ _ _).2 hp, ?_, hi⟩
      rw [set_base_base w hn, if_neg]; exact hb
      rintro rfl; exact hnp hp
    · refine ⟨n, (set_base_path w hn hc _ _ _ _).2 hp, ?_, hi⟩
      rw [set_base_base w hn, if_pos rfl]; exact hv

/-! ### Freeing a childless node -/

theorem free_cell_wf {d : DArray} {dp : Int → Nat} (w : WFda d dp) {n : Int} (hn3 : 3 ≤ n)
    (hc : Childless d n) : WFda (da_free_cell d n) dp := by
  have hck : ∀ x, (da_free_cell d n).check x = if x = n then -1 else d.check x := by
    intro x; show Function.update d.check n (-1) x = _
    by_cases h : x = n
    · rw [h]; simp
    · rw [Function.update_noteq h, if_neg h]
  have hbs : ∀ x, x ≠ n → (da_free_cell d n).base x = d.base x := by
    intro x h; show Function.update d.base n (-1) x = _
    rw [Function.update_noteq h]
  refine ⟨w.cells, ?_, ?_, ?_, ?_, ?_, ?_⟩
  · rw [hck, if_neg (by omega)]; exact w.check0
  · rw [hck, if_neg (by omega)]; exact w.check1
  · rw [hck, if_neg (by omega)]; exact w.check2
  · rw [hbs 2 (by omega)]; exact w.base2
  · intro x hx
    rw [hck]; split
    · omega
    · exact w.virgin x hx
  · intro x h3 hu
    rw [hck] at hu ⊢
    by_cases hxn : x = n
    · rw [if_pos hxn] at hu; omega
    · rw [if_neg hxn] at hu ⊢
      have hp := w.parent x h3 hu
      have hne : d.check x ≠ n := hc x h3
      rw [hbs _ hne]
      refine ⟨?_, hp.2⟩
      rcases hp.1 with h | h
      · exact Or.inl h
      · refine Or.inr ⟨h.1, ?_⟩
        rw [hck, if_neg hne]; exact h.2

theorem free_cell_edge {d : DArray} {n : Int} (hc : Childless d n)
    (x : Int) (c : Nat) (y : Int) :
    Edge (da_free_cell d n) x c y ↔ (Edge d x c y ∧ y ≠ n) := by
  have hck : ∀ x, (da_free_cell d n).check x = if x = n then -1 else d.check x := by
    intro x; show Function.update d.check n (-1) x = _
    by_cases h : x = n
    · rw [h]; simp
    · rw [Function.update_noteq h, if_neg h]
  have hbs : ∀ x, x ≠ n → (da_free_cell d n).base x = d.base x := by
    intro x h; show Function.update d.base n (-1) x = _
    rw [Function.update_noteq h]
  unfold Edge
  constructor
  · rintro ⟨h2, he, h3, hch⟩
    rw [hck] at hch
    by_cases hyn : y = n
    · rw [if_pos hyn] at hch; omega
    · rw [if_neg hyn] at hch
      have hne : x ≠ n := by rintro rfl; exact hc y h3 hch
      rw [hbs _ hne] at he
      exact ⟨⟨h2, he, h3, hch⟩, hyn⟩
  · rintro ⟨⟨h2, he, h3, hch⟩, hyn⟩
    have hne : x ≠ n := by rintro rfl; exact hc y h3 hch
    refine ⟨h2, by rw [hbs _ hne]; exact he, h3, ?_⟩
    rw [hck, if_neg hyn]; exact hch

theorem free_cell_path {d : DArray} {n : Int} (hc : Childless d n)
    (x : Int) (hx : x ≠ n) (p : List Nat) (y : Int) :
    Path (da_free_cell d n) x p y ↔ (Path d x p y ∧ y ≠ n) := by
  induction p generalizing x with
  | nil =>
    simp only [Path]
    constructor
    · rintro rfl; exact ⟨rfl, hx⟩
    · rintro ⟨h, _⟩; exact h
  | cons a p ih =>
    simp only [Path]
    constructor
    · rintro ⟨m, e, h⟩
      have he := (free_cell_edge hc _ _ _).1 e
      have := (ih m he.2).1 h
      exact ⟨⟨m, he.1, this.1⟩, this.2⟩
    · rintro ⟨⟨m, e, h⟩, hy⟩
      have hm : m ≠ n := by
        rintro rfl
        cases p with
        | nil => simp only [Path] at h; exact hy h
        | cons b q =>
          obtain ⟨m2, e2, _⟩ := h
          exact hc.no_edge _ _ e2
      exact ⟨m, (free_cell_edge hc _ _ _).2 ⟨e, hm⟩, (ih m hm).2 ⟨h, hy⟩⟩

/-- Freeing a childless node that is not separate leaves the separate nodes as they are. -/
theorem free_cell_leaf {d : DArray} {n : Int} (hn3 : 3 ≤ n) (hc : Childless d n)
    (hb : 0 ≤ d.base n) (p : List Nat) (i : Int) :
    Leaf (da_free_cell d n) p i ↔ Leaf d p i := by
  have hbs : ∀ x, x ≠ n → (da_free_cell d n).base x = d.base x := by
    intro x h; show Function.update d.base n (-1) x = _
    rw [Function.update_noteq h]
  unfold Leaf
  constructor
  · rintro ⟨x, hp, hbx, hi⟩
    have := (free_cell_path hc 2 (by omega) p x).1 hp
    exact ⟨x, this.1, by rw [← hbs x this.2]; exact hbx, hi⟩
  · rintro ⟨x, hp, hbx, hi⟩
    have hxn : x ≠ n := by rintro rfl; omega
    exact ⟨x, (free_cell_path hc 2 (by omega) p x).2 ⟨hp, hxn⟩, by rw [hbs x hxn]; exact hbx, hi⟩

theorem has_children_false {d : DArray} {dp : Int → Nat} (w : WFda d dp) {s : Int}
    (hs : IsNode d s) (h : da_has_children d s = false) : Childless d s := by
  unfold da_has_children at h
  simp only [w.get_base_node hs, TRIE_INDEX_ERROR] at h
  by_cases hb : d.base s = 0 ∨ d.base s < 0
  · exact childless_of_base_le w hs.ge (by omega)
  · rw [if_neg hb] at h
    apply childless_of_no_edge w hs.ge
    intro c y e
    have hf := e.facts w
    have hmem : c ∈ List.range 256 := List.mem_range.2 (by omega)
    have hw : da_is_walkable d s c = true := by
      rw [w.is_walkable_iff hs]
      rw [← e.2.1]; exact ⟨e.2.2.1, e.2.2.2⟩
    have : (List.range 256).any (fun c => da_is_walkable d s c) = true :=
      List.any_eq_true.2 ⟨c, hmem, hw⟩
    rw [this] at h; simp at h

/-- The pruning loop keeps the double-array well-formed and its separate nodes in place,
whatever the number of iterations. -/
theorem prune_loop_spec (fuel : Nat) {d : DArray} {dp : Int → Nat} (w : WFda d dp) {s : Int}
    (hs : IsNode d s) (hb : 0 ≤ d.base s) :
    WFda (da_prune_upto_loop fuel d 2 s) dp ∧
    ∀ p i, Leaf (da_prune_upto_loop fuel d 2 s) p i ↔ Leaf d p i := by
  induction fuel generalizing d s with
  | zero => exact ⟨w, fun _ _ => Iff.rfl⟩
  | succ k ih =>
    unfold da_prune_upto_loop
    split
    · rename_i hcond
      have hs3 : 3 ≤ s := by
        rcases hs with h | h
        · exact absurd h.symm hcond.1
        · exact h.1
      have hu : 0 ≤ d.check s := by
        rcases hs with h | h
        · exact absurd h.symm hcond.1
        · exact h.2
      have hcl := has_children_false w hs hcond.2
      have w1 := free_cell_wf w hs3 hcl
      have hgc : da_get_check d s = d.check s := by
        unfold da_get_check
        rw [if_pos ⟨by omega, w.node_lt hs⟩]
      have hp := w.parent s hs3 hu
      have hne : d.check s ≠ s := by intro h; rw [h] at hp; omega
      have hpn : IsNode (da_free_cell d s) (d.check s) := by
        rcases hp.1 with h | h
        · exact Or.inl h
        · refine Or.inr ⟨h.1, ?_⟩
          show 0 ≤ Function.update d.check s (-1) (d.check s)
          rw [Function.update_noteq hne]; exact h.2
      have hpb : 0 ≤ (da_free_cell d s).base (d.check s) := by
        show 0 ≤ Function.update d.base s (-1) (d.check s)
        rw [Function.update_noteq hne]; omega
      rw [hgc]
      have := ih w1 hpn hpb
      refine ⟨this.1, fun p i => ?_⟩
      rw [this.2, free_cell_leaf hs3 hcl hb]
    · exact ⟨w, fun _ _ => Iff.rfl⟩

/-! ## Alphabet map -/

theorem range_lookup_spec (rs : List (Nat × Nat)) (ab ac : Nat)
    (h : range_lookup rs ab ac ≠ TRIE_CHAR_MAX ∨
      ab + (rs.map (fun r => r.2 + 1 - r.1)).sum ≤ 255 ∧ ∃ r ∈ rs, r.1 ≤ ac ∧ ac ≤ r.2)
    (hfit : ab + (rs.map (fun r => r.2 + 1 - r.1)).sum ≤ 255) :
    ab ≤ range_lookup rs ab ac ∧
    range_lookup rs ab ac < ab + (rs.map (fun r => r.2 + 1 - r.1)).sum ∧
    range_unlookup rs ab (range_lookup rs ab ac) = ac ∧ ∃ r ∈ rs, r.1 ≤ ac ∧ ac ≤ r.2 := by
  induction rs generalizing ab with
  | nil =>
    rcases h with h | ⟨_, r, hr, _⟩
    · simp [range_lookup] at h
    · simp at hr
  | cons r rs ih =>
    simp only [List.map_cons, List.sum_cons] at hfit ⊢
    unfold range_lookup
    by_cases hin : r.1 ≤ ac ∧ ac ≤ r.2
    · rw [if_pos hin]
      refine ⟨by omega, by omega, ?_, r, List.mem_cons_self _ _, hin⟩
      unfold range_unlookup
      rw [if_pos ⟨by omega, by omega⟩]; omega
    · rw [if_neg hin]
      have h1 : range_lookup rs (ab + (r.2 + 1 - r.1)) ac ≠ TRIE_CHAR_MAX ∨
          ab + (r.2 + 1 - r.1) + (rs.map (fun r => r.2 + 1 - r.1)).sum ≤ 255 ∧
            ∃ r ∈ rs, r.1 ≤ ac ∧ ac ≤ r.2 := by
        rcases h with h | ⟨_, r1, hr1, hr2⟩
        · left; unfold range_lookup at h; rw [if_neg hin] at h; exact h
        · right
          refine ⟨by omega, ?_⟩
          rcases List.mem_cons.1 hr1 with rfl | hr1
          · exact absurd hr2 hin
          · exact ⟨r1, hr1, hr2⟩
      have := ih (ab + (r.2 + 1 - r.1)) h1 (by omega)
      obtain ⟨a1, a2, a3, r1, hr1, hr2⟩ := this
      refine ⟨by omega, by omega, ?_, r1, List.mem_cons_of_mem _ hr1, hr2⟩
      unfold range_unlookup
      rw [if_neg (by omega)]
      exact a3

theorem char_to_trie_zero (am : AlphaMap) : alpha_map_char_to_trie am 0 = 0 := by
  simp [alpha_map_char_to_trie]

theorem char_to_trie_covered (am : AlphaMap) {ac : Nat} (h0 : ac ≠ 0)
    (h : alpha_map_covers am ac) :
    1 ≤ alpha_map_char_to_trie am ac ∧ alpha_map_char_to_trie am ac ≤ 254 ∧
    alpha_map_trie_to_char am (alpha_map_char_to_trie am ac) = ac := by
  have hf := am.fits
  have := range_lookup_spec am.ranges 1 ac (Or.inr ⟨by omega, h⟩) (by omega)
  unfold alpha_map_char_to_trie alpha_map_trie_to_char
  rw [if_neg h0, if_neg (by omega)]
  exact ⟨this.1, by omega, this.2.2.1⟩

theorem char_to_trie_ne_zero (am : AlphaMap) {ac : Nat} (h0 : ac ≠ 0) :
    alpha_map_char_to_trie am ac ≠ 0 := by
  unfold alpha_map_char_to_trie
  rw [if_neg h0]
  by_cases h : range_lookup am.ranges 1 ac = TRIE_CHAR_MAX
  · rw [h]; unfold TRIE_CHAR_MAX; omega
  · have hf := am.fits
    have := range_lookup_spec am.ranges 1 ac (Or.inl h) (by omega)
    omega

theorem char_to_trie_covers_iff (am : AlphaMap) {ac : Nat} (h0 : ac ≠ 0) :
    alpha_map_char_to_trie am ac ≠ TRIE_CHAR_MAX ↔ alpha_map_covers am ac := by
  constructor
  · intro h
    unfold alpha_map_char_to_trie at h
    rw [if_neg h0] at h
    have hf := am.fits
    exact (range_lookup_spec am.ranges 1 ac (Or.inl h) (by omega)).2.2.2
  · intro h
    have := char_to_trie_covered am h0 h
    unfold TRIE_CHAR_MAX; omega

theorem char_to_trie_str_in (am : AlphaMap) {key : List Nat} (h : InAlphabet am key) :
    alpha_map_char_to_trie_str am key = some (key.map (alpha_map_char_to_trie am)) := by
  induction key with
  | nil => rfl
  | cons c rest ih =>
    have hc := h c (List.mem_cons_self _ _)
    have hr : InAlphabet am rest := fun x hx => h x (List.mem_cons_of_mem _ hx)
    unfold alpha_map_char_to_trie_str
    rw [if_neg hc.1, if_neg ((char_to_trie_covers_iff am hc.1).2 hc.2), ih hr]
    rfl

theorem char_to_trie_str_out (am : AlphaMap) {key : List Nat} (h0 : 0 ∉ key)
    (h : ¬ InAlphabet am key) : alpha_map_char_to_trie_str am key = none := by
  induction key with
  | nil => exact absurd (fun c hc => by simp at hc) h
  | cons c rest ih =>
    have hc0 : c ≠ 0 := fun e => h0 (by rw [e]; exact List.mem_cons_self _ _)
    unfold alpha_map_char_to_trie_str
    rw [if_neg hc0]
    by_cases hcov : alpha_map_char_to_trie am c = TRIE_CHAR_MAX
    · rw [if_pos hcov]
    · rw [if_neg hcov]
      have hr : ¬ InAlphabet am rest := by
        intro hr
        apply h
        intro x hx
        rcases List.mem_cons.1 hx with rfl | hx
        · exact ⟨hc0, (char_to_trie_covers_iff am hc0).1 hcov⟩
        · exact hr x hx
      rw [ih (fun e => h0 (List.mem_cons_of_mem _ e)) hr]
      rfl

theorem map_char_to_trie_inj (am : AlphaMap) {k k1 : List Nat} (hk : InAlphabet am k)
    (h0 : 0 ∉ k1)
    (h : k1.map (alpha_map_char_to_trie am) = k.map (alpha_map_char_to_trie am)) : k1 = k := by
  induction k generalizing k1 with
  | nil => simpa using h
  | cons c rest ih =>
    cases k1 with
    | nil => simp at h
    | cons c1 rest1 =>
      simp only [List.map_cons, List.cons.injEq] at h
      have hc := hk c (List.mem_cons_self _ _)
      have hc1 : c1 ≠ 0 := fun e => h0 (by rw [e]; exact List.mem_cons_self _ _)
      have hcv := char_to_trie_covered am hc.1 hc.2
      have hcov1 : alpha_map_covers am c1 := by
        rw [← char_to_trie_covers_iff am hc1, h.1]
        unfold TRIE_CHAR_MAX; omega
      have hcv1 := char_to_trie_covered am hc1 hcov1
      have e : c1 = c := by rw [← hcv1.2.2, h.1, hcv.2.2]
      rw [e, ih (fun x hx => hk x (List.mem_cons_of_mem _ hx))
        (fun e => h0 (List.mem_cons_of_mem _ e)) h.2]

theorem map_char_to_trie_no_zero (am : AlphaMap) {k : List Nat} (h0 : 0 ∉ k) :
    0 ∉ k.map (alpha_map_char_to_trie am) := by
  intro h
  obtain ⟨c, hc, e⟩ := List.mem_map.1 h
  exact char_to_trie_ne_zero am (fun e0 => h0 (e0 ▸ hc)) e

theorem ValidTC.le {am : AlphaMap} {c : Nat} (h : ValidTC am c) : c ≤ 255 := by
  obtain ⟨_, a, ha0, hcov, rfl⟩ := h
  have := char_to_trie_covered am ha0 hcov
  omega

theorem ValidTC.tc_back {am : AlphaMap} {c : Nat} (h : ValidTC am c) :
    alpha_map_trie_to_char am c ≠ 0 ∧ alpha_map_covers am (alpha_map_trie_to_char am c) ∧
    alpha_map_char_to_trie am (alpha_map_trie_to_char am c) = c := by
  obtain ⟨_, a, ha0, hcov, rfl⟩ := h
  have := char_to_trie_covered am ha0 hcov
  rw [this.2.2]
  exact ⟨ha0, hcov, rfl⟩

theorem validtc_of_covered {am : AlphaMap} {a : Nat} (h0 : a ≠ 0) (h : alpha_map_covers am a) :
    ValidTC am (alpha_map_char_to_trie am a) :=
  ⟨char_to_trie_ne_zero am h0, a, h0, h, rfl⟩

theorem covered_of_validtc {am : AlphaMap} {a : Nat} (h0 : a ≠ 0)
    (h : ValidTC am (alpha_map_char_to_trie am a)) : alpha_map_covers am a := by
  rw [← char_to_trie_covers_iff am h0]
  have := h.le
  obtain ⟨_, a1, ha1, hcov, e⟩ := h
  have := char_to_trie_covered am ha1 hcov
  rw [← e]; unfold TRIE_CHAR_MAX; omega

theorem insert_facts {d : DArray} {dp : Int → Nat} (w : WFda d dp) {s : Int} (hs : IsNode d s)
    {c : Nat} (hc : c ≤ 255) {pth : List Nat} (hp : Path d 2 pth s)
    (hne : ∀ y, ¬ Edge d s c y) : InsertFacts d s c pth (da_insert_branch d s c) := by
  obtain ⟨nb, sp⟩ := insert_branch_spec w hs hc
  have X : InsCtx d dp s c (da_insert_branch d s c) nb :=
    ⟨w, hs, hc, fun h => hne _ ⟨hs.ge, rfl, h.1, h.2⟩, sp⟩
  have hms := X.moved_node X.hs
  rw [X.moved_s] at hms
  refine ⟨⟨_, X.wf⟩, ?_, ?_, ?_, ?_, ?_, hms.1, ?_, X.path_s hp, X.leaf_iff hp, ?_, ?_, ?_⟩
  · rw [sp.new_eq]; exact sp.new_ge
  · rw [sp.new_eq]; exact X.new_node
  · rw [sp.new_eq]; exact X.new_childless
  · rw [sp.new_eq]; exact X.new_cell.2
  · rw [X.base_s]; exact sp.nb_pos
  · rw [sp.new_eq]; exact X.path_new hp
  · intro q x hq hb
    rcases X.path_bwd hq with ⟨y, hy, rfl⟩ | ⟨p0, rfl, hp0, rfl⟩
    · by_cases hys : y = s
      · subst hys
        right; left
        exact ⟨hy.unique w hp, X.moved_s⟩
      · right; right
        refine ⟨y, hy, ?_⟩
        rw [(X.moved_node (hy.node (Or.inl rfl))).2.2.2 hys] at hb
        exact hb
    · left
      have := hp0.unique w hp
      subst this
      exact ⟨rfl, sp.new_eq.symm⟩
  · intro c1 y e
    rcases X.edge_bwd e with ⟨_, h, _⟩ | ⟨x0, y0, e0, h1, _⟩
    · exact Or.inl h
    · right
      have hx0 : IsNode d x0 := (Edge.facts w e0).1
      have h2 : moved d s nb x0 = moved d s nb s := by rw [X.moved_s, ← h1]
      have := X.moved_inj hx0 hs h2
      subst this
      exact ⟨y0, e0⟩
  · intro q x hq
    rcases X.path_bwd hq with ⟨y, hy, _⟩ | ⟨p0, rfl, hp0, _⟩
    · exact Or.inr ⟨y, hy⟩
    · left
      rw [hp0.unique w hp]

/-! ## Well-formed tries -/

theorem Leaf.leaf_det {d : DArray} {p : List Nat} {i j : Int} (h : Leaf d p i) (h1 : Leaf d p j) :
    i = j := by
  obtain ⟨x, hx, hb, _⟩ := h
  obtain ⟨y, hy, hb1, _⟩ := h1
  have := hx.path_det hy; subst this; omega

theorem trie_new_wf (am : AlphaMap) : WF (trie_new am) := by
  have w : WFda da_new (fun _ => 0) := by
    refine ⟨by decide, by decide, by decide, by decide, by decide, ?_, ?_⟩
    · intro x hx
      show (if x = 0 then (0 : Int) else if x = 2 then 0 else -1) < 0
      have : (3 : Int) ≤ x := hx
      rw [if_neg (by omega), if_neg (by omega)]; omega
    · intro x h3 hu
      have : (if x = 0 then (0 : Int) else if x = 2 then 0 else -1) = -1 := by
        rw [if_neg (by omega), if_neg (by omega)]
      have hu' : 0 ≤ (if x = 0 then (0 : Int) else if x = 2 then 0 else -1) := hu
      omega
  have hpath : ∀ p x, Path da_new 2 p x → p = [] ∧ x = 2 := by
    intro p x h
    cases p with
    | nil => exact ⟨rfl, h⟩
    | cons a p =>
      obtain ⟨m, e, _⟩ := h
      have := w.parent m e.2.2.1 (by rw [e.2.2.2]; omega)
      have h3 := e.2.2.1
      have hc : da_new.check m = -1 := by
        show (if m = 0 then (0 : Int) else if m = 2 then 0 else -1) = -1
        rw [if_neg (by omega), if_neg (by omega)]
      have := e.2.2.2
      omega
  have hleaf : ∀ p i, ¬ Leaf da_new p i := by
    rintro p i ⟨x, hx, hb, hi⟩
    obtain ⟨_, rfl⟩ := hpath p x hx
    have : da_new.base 2 = 3 := by decide
    omega
  refine ⟨⟨_, w⟩, ⟨by show (0 : Int) ≤ 0; omega, ?_, List.nodup_nil⟩, ?_, ?_, ?_, ?_⟩
  · intro i hi; simp [trie_new, tail_new] at hi
  · intro p i h; exact absurd h (hleaf p i)
  · intro p q i h; exact absurd h (hleaf p i)
  · intro p x h _
    rw [(hpath p x h).1]; simp
  · intro p x h c hc
    rw [(hpath p x h).1] at hc; simp at hc

/-! ## Tail pool lemmas -/

theorem tail_add_suffix_spec {tl : Tail} (w : TailWF tl) (suf : List Nat) :
    1 ≤ (tail_add_suffix tl suf).1 ∧ tail_get_suffix tl (tail_add_suffix tl suf).1 = none ∧
    (tail_add_suffix tl suf).1 ≤ (tail_add_suffix tl suf).2.num_tails ∧
    TailWF (tail_add_suffix tl suf).2 ∧
    (∀ j, tail_get_suffix (tail_add_suffix tl suf).2 j =
      if j = (tail_add_suffix tl suf).1 then some suf else tail_get_suffix tl j) ∧
    (∀ j, j ≠ (tail_add_suffix tl suf).1 →
      tail_get_data (tail_add_suffix tl suf).2 j = tail_get_data tl j) := by
  unfold tail_add_suffix
  cases hf : tl.free with
  | nil =>
    simp only
    have h0 := w.tails_ge
    refine ⟨by omega, ?_, by omega, ⟨by simp; omega, ?_, ?_⟩, ?_, ?_⟩
    · unfold tail_get_suffix; rw [if_neg (by omega)]
    · intro i hi; simp [hf] at hi
    · simp [hf]
    · intro j
      unfold tail_get_suffix
      simp only
      by_cases hj : j = tl.num_tails + 1
      · subst hj; simp; omega
      · rw [if_neg hj, Function.update_noteq hj]
        by_cases h1 : 1 ≤ j ∧ j ≤ tl.num_tails
        · rw [if_pos h1, if_pos ⟨h1.1, by omega⟩]
        · rw [if_neg h1, if_neg (by omega)]
    · intro j hj
      have hj' : j ≠ tl.num_tails + 1 := hj
      unfold tail_get_data
      simp only
      rw [Function.update_noteq hj']
      by_cases h1 : 1 ≤ j ∧ j ≤ tl.num_tails
      · rw [if_pos h1, if_pos ⟨h1.1, by omega⟩]
      · rw [if_neg h1, if_neg (by omega)]
  | cons i rest =>
    simp only
    have hi := w.vacant i (by rw [hf]; exact List.mem_cons_self _ _)
    have hnd := w.nodup
    rw [hf] at hnd
    have hsuf : ∀ j, tail_get_suffix
        { tl with tails := Function.update tl.tails i ⟨some suf, TRIE_DATA_ERROR⟩, free := rest } j =
        if j = i then some suf else tail_get_suffix tl j := by
      intro j
      unfold tail_get_suffix
      simp only
      by_cases hj : j = i
      · subst hj; rw [if_pos ⟨hi.2.1, hi.2.2⟩, if_pos rfl]; simp
      · rw [if_neg hj, Function.update_noteq hj]
    refine ⟨hi.2.1, hi.1, hi.2.2, ⟨w.tails_ge, ?_, (List.nodup_cons.1 hnd).2⟩, hsuf, ?_⟩
    · intro j hj
      have hjv := w.vacant j (by rw [hf]; exact List.mem_cons_of_mem _ hj)
      have hne : j ≠ i := by
        rintro rfl; exact (List.nodup_cons.1 hnd).1 hj
      rw [hsuf, if_neg hne]
      exact hjv
    · intro j hj
      unfold tail_get_data
      simp only
      rw [Function.update_noteq hj]

theorem tail_set_data_spec {tl : Tail} (w : TailWF tl) (i : Int) (v : Int) :
    TailWF (tail_set_data tl i v) ∧
    (∀ j, tail_get_suffix (tail_set_data tl i v) j = tail_get_suffix tl j) ∧
    (∀ j, tail_get_data (tail_set_data tl i v) j =
      if j = i ∧ 1 ≤ i ∧ i ≤ tl.num_tails then v else tail_get_data tl j) := by
  unfold tail_set_data
  by_cases h : 1 ≤ i ∧ i ≤ tl.num_tails
  · rw [if_pos h]
    have hsuf : ∀ j, tail_get_suffix
        { tl with tails := Function.update tl.tails i ⟨(tl.tails i).suffix, v⟩ } j =
        tail_get_suffix tl j := by
      intro j
      unfold tail_get_suffix
      simp only
      by_cases hj : j = i
      · subst hj; simp
      · rw [Function.update_noteq hj]
    refine ⟨⟨w.tails_ge, fun j hj => ?_, w.nodup⟩, hsuf, ?_⟩
    · rw [hsuf]; exact w.vacant j hj
    · intro j
      unfold tail_get_data
      simp only
      by_cases hj : j = i
      · subst hj; simp [h]
      · rw [Function.update_noteq hj]
        have : ¬ (j = i ∧ 1 ≤ i ∧ i ≤ tl.num_tails) := fun hh => hj hh.1
        simp only [this, if_false]
  · rw [if_neg h]
    refine ⟨w, fun _ => rfl, fun j => ?_⟩
    rw [if_neg (fun hh => h hh.2)]

theorem tail_set_suffix_spec {tl : Tail} (w : TailWF tl) (i : Int) (suf suf0 : List Nat)
    (hlive : tail_get_suffix tl i = some suf0) :
    TailWF (tail_set_suffix tl i suf) ∧
    (∀ j, tail_get_suffix (tail_set_suffix tl i suf) j =
      if j = i then some suf else tail_get_suffix tl j) ∧
    (∀ j, tail_get_data (tail_set_suffix tl i suf) j = tail_get_data tl j) := by
  have h : 1 ≤ i ∧ i ≤ tl.num_tails := by
    unfold tail_get_suffix at hlive
    by_contra hn
    rw [if_neg hn] at hlive; simp at hlive
  unfold tail_set_suffix
  rw [if_pos h]
  have hsuf : ∀ j, tail_get_suffix
      { tl with tails := Function.update tl.tails i ⟨some suf, (tl.tails i).data⟩ } j =
      if j = i then some suf else tail_get_suffix tl j := by
    intro j
    unfold tail_get_suffix
    simp only
    by_cases hj : j = i
    · subst hj; simp [h]
    · rw [Function.update_noteq hj, if_neg hj]
  refine ⟨⟨w.tails_ge, fun j hj => ?_, w.nodup⟩, hsuf, ?_⟩
  · have hv := w.vacant j hj
    have hne : j ≠ i := by rintro rfl; rw [hlive] at hv; simp at hv
    rw [hsuf, if_neg hne]; exact hv
  · intro j
    unfold tail_get_data
    simp only
    by_cases hj : j = i
    · subst hj; simp
    · rw [Function.update_noteq hj]

theorem tail_delete_spec {tl : Tail} (w : TailWF tl) (i : Int) (suf0 : List Nat)
    (hlive : tail_get_suffix tl i = some suf0) :
    TailWF (tail_delete tl i) ∧
    (∀ j, tail_get_suffix (tail_delete tl i) j =
      if j = i then none else tail_get_suffix tl j) ∧
    (∀ j, j ≠ i → tail_get_data (tail_delete tl i) j = tail_get_data tl j) := by
  have h : 1 ≤ i ∧ i ≤ tl.num_tails := by
    unfold tail_get_suffix at hlive
    by_contra hn
    rw [if_neg hn] at hlive; simp at hlive
  unfold tail_delete
  rw [if_pos h]
  have hsuf : ∀ j, tail_get_suffix
      { tl with tails := Function.update tl.tails i ⟨none, TRIE_DATA_ERROR⟩,
                free := i :: tl.free } j =
      if j = i then none else tail_get_suffix tl j := by
    intro j
    unfold tail_get_suffix
    simp only
    by_cases hj : j = i
    · subst hj; simp
    · rw [Function.update_noteq hj, if_neg hj]
  have hnotin : i ∉ tl.free := by
    intro hm
    have := (w.vacant i hm).1
    rw [hlive] at this; simp at this
  refine ⟨⟨w.tails_ge, fun j hj => ?_, List.nodup_cons.2 ⟨hnotin, w.nodup⟩⟩, hsuf, ?_⟩
  · rw [hsuf]
    rcases List.mem_cons.1 hj with rfl | hj
    · rw [if_pos rfl]; exact ⟨rfl, h⟩
    · have hv := w.vacant j hj
      split
      · exact ⟨rfl, hv.2⟩
      · exact hv
  · intro j hj
    unfold tail_get_data
    simp only
    rw [Function.update_noteq hj]

/-! ## The walks of the facade -/

theorem getD_eq_zero_iff {suf : List Nat} (h0 : 0 ∉ suf) (idx : Nat) :
    suf.getD idx 0 = 0 ↔ suf.length ≤ idx := by
  constructor
  · intro h
    by_contra hlt
    have hlt : idx < suf.length := by omega
    rw [List.getD_eq_getElem _ _ hlt] at h
    exact h0 (h ▸ List.getElem_mem hlt)
  · intro h
    exact List.getD_eq_default _ _ h

theorem walk_tail_none {t : Trie} {i : Int} (h : tail_get_suffix t.tail i = none)
    (idx : Nat) (p : List Nat) : walk_tail_unbounded t i idx p = false := by
  cases p with
  | nil => simp [walk_tail_unbounded, tail_walk_char_unbounded, h]
  | cons c rest => simp [walk_tail_unbounded, tail_walk_char_unbounded, h]

theorem walk_tail_spec {t : Trie} {i : Int} {suf : List Nat}
    (hs : tail_get_suffix t.tail i = some suf) (h0s : 0 ∉ suf) (idx : Nat) (p : List Nat)
    (h0p : 0 ∉ p) :
    walk_tail_unbounded t i idx p = true ↔ suf.drop idx = p.map (alpha_map_char_to_trie t.alpha_map) := by
  induction p generalizing idx with
  | nil =>
    simp only [walk_tail_unbounded, tail_walk_char_unbounded, hs, char_to_trie_zero, List.map_nil]
    rw [List.drop_eq_nil_iff]
    rw [← getD_eq_zero_iff h0s]
    by_cases h : suf.getD idx 0 = 0
    · simp [h]
    · simp [h]
  | cons c rest ih =>
    have hc0 : c ≠ 0 := fun e => h0p (by rw [e]; exact List.mem_cons_self _ _)
    have hr0 : 0 ∉ rest := fun e => h0p (List.mem_cons_of_mem _ e)
    have htc := char_to_trie_ne_zero t.alpha_map hc0
    simp only [walk_tail_unbounded, tail_walk_char_unbounded, hs, List.map_cons]
    by_cases h : suf.getD idx 0 = alpha_map_char_to_trie t.alpha_map c
    · rw [if_pos h]
      simp only [TRIE_CHAR_TERM, if_neg htc, if_neg hc0]
      rw [ih (idx + 1) hr0]
      have hlt : idx < suf.length := by
        by_contra hn
        rw [List.getD_eq_default _ _ (by omega)] at h
        exact htc h.symm
      rw [List.getD_eq_getElem _ _ hlt] at h
      rw [List.drop_eq_getElem_cons hlt, h]
      simp
    · rw [if_neg h]
      simp only [Bool.false_eq_true, false_iff]
      intro hd
      apply h
      have hlt : idx < suf.length := by
        by_contra hn
        rw [List.drop_eq_nil_of_le (by omega)] at hd
        simp at hd
      rw [List.drop_eq_getElem_cons hlt] at hd
      rw [List.getD_eq_getElem _ _ hlt]
      exact (List.cons.inj hd).1

theorem full_nil_left (suf ks : List Nat) : Full [] suf ks ↔ ks = suf := by
  unfold Full
  constructor
  · rintro (⟨h, _⟩ | ⟨_, h⟩)
    · simp at h
    · simpa using h
  · intro h; right; simp [h]

theorem full_cons_nil (c : Nat) (p suf : List Nat) :
    Full (c :: p) suf [] ↔ (c = 0 ∧ p = [] ∧ suf = []) := by
  unfold Full
  constructor
  · rintro (⟨h, h1⟩ | ⟨_, h⟩)
    · simp at h; exact ⟨h.1, h.2, h1⟩
    · simp at h
  · rintro ⟨rfl, rfl, rfl⟩; left; simp

theorem full_cons_cons {k : Nat} (hk : k ≠ 0) (c : Nat) (p suf ks : List Nat) :
    Full (c :: p) suf (k :: ks) ↔ (c = k ∧ Full p suf ks) := by
  unfold Full
  constructor
  · rintro (⟨h, h1⟩ | ⟨h0, h⟩)
    · simp at h
      exact ⟨h.1, Or.inl ⟨h.2, h1⟩⟩
    · simp at h
      refine ⟨h.1.symm, Or.inr ⟨fun hm => h0 (List.mem_cons_of_mem _ hm), h.2⟩⟩
  · rintro ⟨rfl, (⟨h, h1⟩ | ⟨h0, h⟩)⟩
    · left; simp [h, h1]
    · right
      refine ⟨?_, by simp [h]⟩
      intro hm
      rcases List.mem_cons.1 hm with h2 | h2
      · exact hk h2.symm
      · exact h0 h2

theorem stored_iff_from (t : Trie) (ks : List Nat) (v : Int) :
    Stored t ks v ↔ StoredFrom t 2 ks v := by
  unfold Stored StoredFrom Leaf
  constructor
  · rintro ⟨p, i, suf, ⟨x, hx, hb, hi⟩, hs, hd, hf⟩
    have e : i = -(t.da.base x) := by omega
    subst e
    exact ⟨p, x, suf, hx, by omega, hs, hd, hf⟩
  · rintro ⟨p, x, suf, hx, hb, hs, hd, hf⟩
    exact ⟨p, -(t.da.base x), suf, ⟨x, hx, by omega, by omega⟩, hs, hd, hf⟩

theorem trie_retrieve_eq (t : Trie) (key : List Nat) :
    trie_retrieve_unbounded t key = retrieve_from t 2 key := rfl

theorem is_separate_node {d : DArray} {dp : Int → Nat} (w : WFda d dp) {s : Int}
    (hs : IsNode d s) : trie_da_is_separate d s = decide (d.base s < 0) := by
  unfold trie_da_is_separate; rw [w.get_base_node hs]

theorem tail_index_node {d : DArray} {dp : Int → Nat} (w : WFda d dp) {s : Int}
    (hs : IsNode d s) : trie_da_get_tail_index d s = -(d.base s) := by
  unfold trie_da_get_tail_index; rw [w.get_base_node hs]

theorem stored_from_sep {t : Trie} {dp : Int → Nat} (w : WFda t.da dp) {s : Int}
    (hb : t.da.base s < 0) (hs : IsNode t.da s) (ks : List Nat) (v : Int) :
    StoredFrom t s ks v ↔ (tail_get_suffix t.tail (-(t.da.base s)) = some ks ∧
      tail_get_data t.tail (-(t.da.base s)) = v) := by
  have hcl := childless_of_base_le w hs.ge (by omega)
  unfold StoredFrom
  constructor
  · rintro ⟨p, x, suf, hx, _, hsuf, hd, hf⟩
    cases p with
    | nil =>
      simp only [Path] at hx; subst hx
      rw [full_nil_left] at hf; subst hf
      exact ⟨hsuf, hd⟩
    | cons a p =>
      obtain ⟨m, e, _⟩ := hx
      exact absurd e (hcl.no_edge _ _)
  · rintro ⟨hsuf, hd⟩
    exact ⟨[], s, ks, rfl, hb, hsuf, hd, (full_nil_left _ _).2 rfl⟩

theorem retrieve_from_iff {t : Trie} (W : WF t) {s : Int} {p0 : List Nat}
    (hp0 : Path t.da 2 p0 s) (key : List Nat) (h0 : 0 ∉ key) (v : Int) :
    retrieve_from t s key = some v ↔
      StoredFrom t s (key.map (alpha_map_char_to_trie t.alpha_map)) v := by
  obtain ⟨dp, w⟩ := W.da
  induction key generalizing s p0 with
  | nil =>
    have hs : IsNode t.da s := hp0.node (Or.inl rfl)
    by_cases hb : t.da.base s < 0
    · -- separate node
      have hleaf : Leaf t.da p0 (-(t.da.base s)) := ⟨s, hp0, by omega, by omega⟩
      obtain ⟨suf, hsuf, hsc, _⟩ := W.live _ _ hleaf
      have hz : 0 ∉ suf := fun h => (hsc 0 h).1 rfl
      rw [stored_from_sep w hb hs]
      unfold retrieve_from walk_branches
      rw [is_separate_node w hs, decide_eq_true hb]
      simp only [if_true, tail_index_node w hs]
      have := walk_tail_spec hsuf hz 0 [] (by simp)
      simp only [List.drop_zero, List.map_nil] at this ⊢
      by_cases hw : walk_tail_unbounded t (-(t.da.base s)) 0 [] = true
      · rw [if_pos hw]
        rw [this] at hw
        rw [hsuf, hw]; simp
      · rw [if_neg hw]
        rw [this] at hw
        rw [hsuf]; simp [hw]
    · unfold retrieve_from walk_branches
      rw [is_separate_node w hs, decide_eq_false hb]
      simp only [Bool.false_eq_true, if_false, char_to_trie_zero, List.map_nil]
      cases hwk : da_walk t.da s 0 with
      | none =>
        simp only
        constructor
        · intro h; simp at h
        · rintro ⟨p, x, suf, hx, hbx, _, _, hf⟩
          exfalso
          cases p with
          | nil => simp only [Path] at hx; subst hx; exact hb hbx
          | cons a p =>
            obtain ⟨m, e, _⟩ := hx
            rw [full_cons_nil] at hf
            obtain ⟨rfl, _, _⟩ := hf
            exact (walk_none_iff_edge w hs 0).1 hwk m e
      | some s1 =>
        simp only
        have e1 : Edge t.da s 0 s1 := (walk_iff_edge w hs 0 s1).1 hwk
        have hs1 : IsNode t.da s1 := e1.target_node
        have hp1 : Path t.da 2 (p0 ++ [0]) s1 := hp0.snoc e1
        have hb1 : t.da.base s1 < 0 := by
          by_contra hn
          exact W.nonsep _ _ hp1 (by omega) (by simp)
        have hleaf : Leaf t.da (p0 ++ [0]) (-(t.da.base s1)) := ⟨s1, hp1, by omega, by omega⟩
        obtain ⟨suf, hsuf, hsc, hnil⟩ := W.live _ _ hleaf
        have hz : 0 ∉ suf := fun h => (hsc 0 h).1 rfl
        have hsn := hnil (by simp)
        subst hsn
        have hw : walk_tail_unbounded t (-(t.da.base s1)) 0 [] = true :=
          (walk_tail_spec hsuf hz 0 [] (by simp)).2 (by simp)
        rw [tail_index_node w hs1, if_pos hw]
        constructor
        · intro h
          simp only [Option.some.injEq] at h
          exact ⟨[0], s1, [], ⟨s1, e1, rfl⟩, hb1, hsuf, h, Or.inl ⟨by simp, rfl⟩⟩
        · rintro ⟨p, x, suf, hx, hbx, _, hd, hf⟩
          cases p with
          | nil => simp only [Path] at hx; subst hx; exact absurd hbx hb
          | cons a p =>
            obtain ⟨m, e, hm⟩ := hx
            rw [full_cons_nil] at hf
            obtain ⟨rfl, rfl, _⟩ := hf
            have := e.edge_det e1; subst this
            simp only [Path] at hm; subst hm
            rw [hd]
  | cons c rest ih =>
    have hs : IsNode t.da s := hp0.node (Or.inl rfl)
    have hc0 : c ≠ 0 := fun e => h0 (by rw [e]; exact List.mem_cons_self _ _)
    have hr0 : 0 ∉ rest := fun e => h0 (List.mem_cons_of_mem _ e)
    have htc := char_to_trie_ne_zero t.alpha_map hc0
    by_cases hb : t.da.base s < 0
    · have hleaf : Leaf t.da p0 (-(t.da.base s)) := ⟨s, hp0, by omega, by omega⟩
      obtain ⟨suf, hsuf, hsc, _⟩ := W.live _ _ hleaf
      have hz : 0 ∉ suf := fun h => (hsc 0 h).1 rfl
      rw [stored_from_sep w hb hs]
      unfold retrieve_from walk_branches
      rw [is_separate_node w hs, decide_eq_true hb]
      simp only [if_true, tail_index_node w hs]
      have := walk_tail_spec hsuf hz 0 (c :: rest) h0
      simp only [List.drop_zero] at this
      by_cases hw : walk_tail_unbounded t (-(t.da.base s)) 0 (c :: rest) = true
      · rw [if_pos hw]
        rw [this] at hw
        rw [hsuf, hw]; simp
      · rw [if_neg hw]
        rw [this] at hw
        rw [hsuf]
        constructor
        · intro h; simp at h
        · rintro ⟨h1, _⟩
          exact absurd (Option.some.inj h1) hw
    · unfold retrieve_from walk_branches
      rw [is_separate_node w hs, decide_eq_false hb]
      simp only [Bool.false_eq_true, if_false, List.map_cons]
      cases hwk : da_walk t.da s (alpha_map_char_to_trie t.alpha_map c) with
      | none =>
        simp only
        constructor
        · intro h; simp at h
        · rintro ⟨p, x, suf, hx, hbx, _, _, hf⟩
          exfalso
          cases p with
          | nil => simp only [Path] at hx; subst hx; exact hb hbx
          | cons a p =>
            obtain ⟨m, e, _⟩ := hx
            rw [full_cons_cons htc] at hf
            obtain ⟨rfl, _⟩ := hf
            exact (walk_none_iff_edge w hs _).1 hwk m e
      | some s1 =>
        simp only [if_neg hc0]
        have e1 : Edge t.da s _ s1 := (walk_iff_edge w hs _ s1).1 hwk
        have hp1 : Path t.da 2 (p0 ++ [alpha_map_char_to_trie t.alpha_map c]) s1 := hp0.snoc e1
        have := ih hp1 hr0
        unfold retrieve_from at this
        rw [this]
        unfold StoredFrom
        constructor
        · rintro ⟨p, x, suf, hx, hbx, hsuf, hd, hf⟩
          exact ⟨_ :: p, x, suf, ⟨s1, e1, hx⟩, hbx, hsuf, hd, (full_cons_cons htc _ _ _ _).2 ⟨rfl, hf⟩⟩
        · rintro ⟨p, x, suf, hx, hbx, hsuf, hd, hf⟩
          cases p with
          | nil => simp only [Path] at hx; subst hx; exact absurd hbx hb
          | cons a p =>
            obtain ⟨m, e, hm⟩ := hx
            rw [full_cons_cons htc] at hf
            obtain ⟨rfl, hf⟩ := hf
            have := e.edge_det e1; subst this
            exact ⟨p, x, suf, hm, hbx, hsuf, hd, hf⟩

/-- `trie_retrieve_unbounded` finds exactly the stored trie strings. -/
theorem retrieve_iff {t : Trie} (W : WF t) (key : List Nat) (h0 : 0 ∉ key) (v : Int) :
    trie_retrieve_unbounded t key = some v ↔ Stored t (key.map (alpha_map_char_to_trie t.alpha_map)) v := by
  rw [trie_retrieve_eq, stored_iff_from]
  exact retrieve_from_iff W (show Path t.da 2 [] 2 from rfl) key h0 v

theorem walk_branches_spec {t : Trie} {dp : Int → Nat} (w : WFda t.da dp) {s : Int}
    (hs : IsNode t.da s) (key : List Nat) (h0 : 0 ∉ key) :
    BranchPost t s key (walk_branches t s key) := by
  induction key generalizing s with
  | nil =>
    unfold walk_branches
    rw [is_separate_node w hs]
    by_cases hb : t.da.base s < 0
    · rw [decide_eq_true hb]
      simp only [if_true]
      exact Or.inl ⟨[], rfl, rfl, hb⟩
    · rw [decide_eq_false hb]
      simp only [Bool.false_eq_true, if_false, char_to_trie_zero]
      cases hwk : da_walk t.da s 0 with
      | none =>
        exact ⟨[], rfl, rfl, by omega, by
          simp only [List.headD_nil, char_to_trie_zero]
          exact (walk_none_iff_edge w hs 0).1 hwk⟩
      | some s1 =>
        exact Or.inr ⟨rfl, s, rfl, by omega, (walk_iff_edge w hs 0 s1).1 hwk⟩
  | cons c rest ih =>
    have hc0 : c ≠ 0 := fun e => h0 (by rw [e]; exact List.mem_cons_self _ _)
    have hr0 : 0 ∉ rest := fun e => h0 (List.mem_cons_of_mem _ e)
    unfold walk_branches
    rw [is_separate_node w hs]
    by_cases hb : t.da.base s < 0
    · rw [decide_eq_true hb]
      simp only [if_true]
      exact Or.inl ⟨[], rfl, rfl, hb⟩
    · rw [decide_eq_false hb]
      simp only [Bool.false_eq_true, if_false]
      cases hwk : da_walk t.da s (alpha_map_char_to_trie t.alpha_map c) with
      | none =>
        exact ⟨[], rfl, rfl, by omega, by
          simp only [List.headD_cons]
          exact (walk_none_iff_edge w hs _).1 hwk⟩
      | some s1 =>
        simp only [if_neg hc0]
        have e1 : Edge t.da s _ s1 := (walk_iff_edge w hs _ s1).1 hwk
        have := ih e1.target_node hr0
        cases hres : walk_branches t s1 rest with
        | failed s2 p =>
          rw [hres] at this
          obtain ⟨k1, hk, hp, hb2, hne⟩ := this
          exact ⟨c :: k1, by rw [hk]; rfl, ⟨s1, e1, hp⟩, hb2, hne⟩
        | left x p =>
          rw [hres] at this
          rcases this with ⟨k1, hk, hp, hbx⟩ | ⟨hp, m, hm, hbm, em⟩
          · exact Or.inl ⟨c :: k1, by rw [hk]; rfl, ⟨s1, e1, hp⟩, hbx⟩
          · exact Or.inr ⟨hp, m, ⟨s1, e1, hm⟩, hbm, em⟩

theorem full_nozero {p : List Nat} (h0 : 0 ∉ p) (suf ks : List Nat) :
    Full p suf ks ↔ ks = p ++ suf := by
  unfold Full
  constructor
  · rintro (⟨h, _⟩ | ⟨_, h⟩)
    · exfalso; apply h0; rw [h]; simp
    · exact h
  · intro h; exact Or.inr ⟨h0, h⟩

/-- The string spelt by a new separate node below `pth` for the rest `suffix` of a key. -/
theorem full_new {pth suffix : List Nat} (hp : 0 ∉ pth) (hs : 0 ∉ suffix) (ks : List Nat) :
    Full (pth ++ [suffix.headD 0]) (if suffix.headD 0 ≠ 0 then suffix.tail else suffix) ks ↔
      ks = pth ++ suffix := by
  cases suffix with
  | nil =>
    simp only [List.headD_nil, ne_eq, not_true_eq_false, if_false, List.append_nil]
    unfold Full
    constructor
    · rintro (⟨h, _⟩ | ⟨h, _⟩)
      · exact (List.append_cancel_right h).symm
      · exfalso; apply h; simp
    · intro h; left; rw [h]; exact ⟨rfl, rfl⟩
  | cons c rest =>
    have hc : c ≠ 0 := fun e => hs (by rw [e]; exact List.mem_cons_self _ _)
    simp only [List.headD_cons, ne_eq, hc, not_false_eq_true, if_true, List.tail_cons]
    rw [full_nozero]
    · simp
    · intro h
      rcases List.mem_append.1 h with h | h
      · exact hp h
      · simp at h; exact hc h.symm

theorem headD_zero_nil {l : List Nat} (h0 : 0 ∉ l) (h : l.headD 0 = 0) : l = [] := by
  cases l with
  | nil => rfl
  | cons a l =>
    simp only [List.headD_cons] at h
    exact absurd (by rw [h]; exact List.mem_cons_self _ _) h0

theorem headD_le {l : List Nat} (h : ∀ c ∈ l, c ≠ 0 ∧ c ≤ 255) : l.headD 0 ≤ 255 := by
  cases l with
  | nil => simp
  | cons a l => exact (h a (List.mem_cons_self _ _)).2

/-- `trie_branch_in_branch` at a node `s` that is not separate, reached by `pth`, without
transition on the first character of `suffix`: the key `pth ++ suffix` is added. -/
theorem branch_in_branch_spec {t : Trie} (W : WF t) {s : Int} {pth : List Nat}
    (hp : Path t.da 2 pth s) (hb : 0 ≤ t.da.base s) (suffix : List Nat)
    (hsuf : ∀ c ∈ suffix, ValidTC t.alpha_map c)
    (hne : ∀ y, ¬ Edge t.da s (suffix.headD 0) y) (v : Int) :
    ∃ t1, trie_branch_in_branch t s suffix v = (true, t1) ∧ WF t1 ∧
      t1.alpha_map = t.alpha_map ∧ t1.is_dirty = true ∧
      ∀ ks v1, Stored t1 ks v1 ↔ ((ks = pth ++ suffix ∧ v1 = v) ∨ Stored t ks v1) := by
  obtain ⟨dp, w⟩ := W.da
  have hs : IsNode t.da s := hp.node (Or.inl rfl)
  have hz : 0 ∉ suffix := fun h => (hsuf 0 h).1 rfl
  have hpz : 0 ∉ pth := W.nonsep _ _ hp hb
  have F := insert_facts w hs (headD_le (fun c hc => ⟨(hsuf c hc).1, (hsuf c hc).le⟩)) hp hne
  obtain ⟨dp1, w1⟩ := F.wf
  have A := tail_add_suffix_spec W.tail (if suffix.headD 0 ≠ 0 then suffix.tail else suffix)
  have B := tail_set_data_spec A.2.2.2.1 (tail_add_suffix t.tail
    (if suffix.headD 0 ≠ 0 then suffix.tail else suffix)).1 v
  generalize hr : da_insert_branch t.da s (suffix.headD 0) = r at F w1
  generalize hsuf1 : (if suffix.headD 0 ≠ 0 then suffix.tail else suffix) = suffix1 at A B
  generalize ha : tail_add_suffix t.tail suffix1 = a at A B
  obtain ⟨a1, afresh, arange, _, asuf, adata⟩ := A
  obtain ⟨BW, bsuf, bdata⟩ := B
  have hn2 : r.1 ≠ 2 := by have := F.new_ge; omega
  have hres : trie_branch_in_branch t s suffix v =
      (true, { t with da := da_set_base r.2 r.1 (-a.1), tail := tail_set_data a.2 a.1 v,
                      is_dirty := true }) := by
    unfold trie_branch_in_branch
    simp only [hr, hsuf1, ha]
    rw [if_neg (by unfold TRIE_INDEX_ERROR; have := F.new_ge; omega)]
    rfl
  -- leaves of the new double-array
  have hleaf : ∀ q j, Leaf (da_set_base r.2 r.1 (-a.1)) q j ↔
      (Leaf t.da q j ∨ (q = pth ++ [suffix.headD 0] ∧ j = a.1)) := by
    intro q j
    rw [set_base_leaf w1 F.new_node F.new_childless, F.leaf]
    constructor
    · rintro (⟨⟨h, _⟩, _⟩ | ⟨h, h1, _⟩)
      · exact Or.inl h
      · exact Or.inr ⟨h.unique w1 F.path_new, by omega⟩
    · rintro (h | ⟨rfl, rfl⟩)
      · left
        refine ⟨⟨h, ?_⟩, ?_⟩
        · rintro rfl
          obtain ⟨x, hx, hbx, hj⟩ := h
          have := hx.path_det hp; subst this; omega
        · intro hq
          have h2 := (F.leaf q j).2 ⟨h, by
            rintro rfl
            obtain ⟨x, hx, hbx, hj⟩ := h
            have := hx.path_det hp; subst this; omega⟩
          obtain ⟨x, hx, hbx, hj⟩ := h2
          have := hx.path_det hq; subst this
          have := F.new_base; omega
      · right; exact ⟨F.path_new, rfl, by omega⟩
  have hold : ∀ q j, Leaf t.da q j → j ≠ a.1 := by
    intro q j h
    obtain ⟨suf, hs1, _⟩ := W.live q j h
    rintro rfl
    rw [afresh] at hs1; simp at hs1
  have hsufx : ∀ j, tail_get_suffix (tail_set_data a.2 a.1 v) j =
      if j = a.1 then some suffix1 else tail_get_suffix t.tail j := by
    intro j; rw [bsuf, asuf]
  have hdatx : ∀ j, tail_get_data (tail_set_data a.2 a.1 v) j =
      if j = a.1 then v else tail_get_data t.tail j := by
    intro j
    rw [bdata]
    by_cases hj : j = a.1
    · rw [if_pos ⟨hj, a1, arange⟩, if_pos hj]
    · rw [if_neg (fun h => hj h.1), if_neg hj, adata j hj]
  have hsub : ∀ c ∈ suffix1, c ∈ suffix := by
    intro c hc
    rw [← hsuf1] at hc
    split at hc
    · exact List.mem_of_mem_tail hc
    · exact hc
  refine ⟨_, hres, ⟨⟨dp1, set_base_wf w1 F.new_node hn2 F.new_childless _⟩, BW, ?_, ?_, ?_,
    ?_⟩, rfl, rfl, ?_⟩
  · -- live
    intro q j h
    rcases (hleaf q j).1 h with h | ⟨rfl, rfl⟩
    · show ∃ suf, tail_get_suffix (tail_set_data a.2 a.1 v) j = some suf ∧ _
      rw [hsufx, if_neg (hold q j h)]
      exact W.live q j h
    · show ∃ suf, tail_get_suffix (tail_set_data a.2 a.1 v) a.1 = some suf ∧ _
      rw [hsufx, if_pos rfl]
      refine ⟨suffix1, rfl, fun c hc => hsuf c (hsub c hc), ?_⟩
      intro hm
      rcases List.mem_append.1 hm with h1 | h1
      · exact absurd h1 hpz
      · simp only [List.mem_singleton] at h1
        have := headD_zero_nil hz h1.symm
        rw [← hsuf1, this]; simp
  · -- inj
    intro q q1 j h h1
    rcases (hleaf q j).1 h with h | ⟨hq, hj⟩
    · rcases (hleaf q1 j).1 h1 with h1 | ⟨_, h2⟩
      · exact W.inj q q1 j h h1
      · exact absurd h2 (hold q j h)
    · rcases (hleaf q1 j).1 h1 with h1 | ⟨hq1, _⟩
      · exact absurd hj (hold q1 j h1)
      · rw [hq, hq1]
  · -- nonsep
    intro q x hq hbx
    have hq1 : Path r.2 2 q x := (set_base_path w1 F.new_node F.new_childless _ _ _ _).1 hq
    have hbx1 : 0 ≤ (da_set_base r.2 r.1 (-a.1)).base x := hbx
    rw [set_base_base w1 F.new_node] at hbx1
    by_cases hxn : x = r.1
    · rw [if_pos hxn] at hbx1; omega
    · rw [if_neg hxn] at hbx1
      rcases F.nonsep q x hq1 hbx1 with ⟨_, h⟩ | ⟨h, _⟩ | ⟨y, hy, hby⟩
      · exact absurd h hxn
      · rw [h]; exact hpz
      · exact W.nonsep q y hy hby
  · -- labels
    intro q x hq c hc
    have hq1 : Path r.2 2 q x := (set_base_path w1 F.new_node F.new_childless _ _ _ _).1 hq
    rcases F.paths q x hq1 with h | ⟨y, hy⟩
    · rw [h] at hc
      rcases List.mem_append.1 hc with h1 | h1
      · exact W.labels _ _ hp c h1
      · simp only [List.mem_singleton] at h1
        cases suffix with
        | nil => left; simpa using h1
        | cons a l =>
          right
          simp only [List.headD_cons] at h1
          rw [h1]; exact hsuf a (List.mem_cons_self _ _)
    · exact W.labels _ _ hy c hc
  · -- stored
    intro ks v1
    unfold Stored
    constructor
    · rintro ⟨q, j, suf, hl, hs1, hd1, hf⟩
      have hl1 : Leaf (da_set_base r.2 r.1 (-a.1)) q j := hl
      have hs2 : tail_get_suffix (tail_set_data a.2 a.1 v) j = some suf := hs1
      have hd2 : tail_get_data (tail_set_data a.2 a.1 v) j = v1 := hd1
      rw [hsufx] at hs2
      rw [hdatx] at hd2
      rcases (hleaf q j).1 hl1 with h | ⟨rfl, rfl⟩
      · rw [if_neg (hold q j h)] at hs2 hd2
        exact Or.inr ⟨q, j, suf, h, hs2, hd2, hf⟩
      · rw [if_pos rfl] at hs2 hd2
        left
        simp only [Option.some.injEq] at hs2
        rw [← hs2, ← hsuf1, full_new hpz hz] at hf
        exact ⟨hf, hd2.symm⟩
    · rintro (⟨rfl, rfl⟩ | ⟨q, j, suf, hl, hs1, hd1, hf⟩)
      · refine ⟨pth ++ [suffix.headD 0], a.1, suffix1, (hleaf _ _).2 (Or.inr ⟨rfl, rfl⟩), ?_, ?_, ?_⟩
        · show tail_get_suffix (tail_set_data a.2 a.1 v1) a.1 = _
          rw [hsufx, if_pos rfl]
        · show tail_get_data (tail_set_data a.2 a.1 v1) a.1 = _
          rw [hdatx, if_pos rfl]
        · rw [← hsuf1, full_new hpz hz]
      · refine ⟨q, j, suf, (hleaf _ _).2 (Or.inl hl), ?_, ?_, hf⟩
        · show tail_get_suffix (tail_set_data a.2 a.1 v) j = _
          rw [hsufx, if_neg (hold q j hl)]; exact hs1
        · show tail_get_data (tail_set_data a.2 a.1 v) j = _
          rw [hdatx, if_neg (hold q j hl)]; exact hd1

theorem Mid.step {V : Nat → Prop} {d0 : DArray} {p0 : List Nat}
    (H0 : ∀ e j, e ≠ [] → ¬ Leaf d0 (p0 ++ e) j)
    {d : DArray} {s : Int} {pth : List Nat} (M : Mid V d0 p0 d s pth) {c : Nat} (hc0 : c ≠ 0)
    (hc : c ≤ 255) (hV : V c) :
    3 ≤ (da_insert_branch d s c).1 ∧
    Mid V d0 p0 (da_insert_branch d s c).2 (da_insert_branch d s c).1 (pth ++ [c]) := by
  obtain ⟨dp, w⟩ := M.wf
  have F := insert_facts w M.node hc M.path (fun y => M.childless.no_edge c y)
  obtain ⟨e, he⟩ := M.ext
  refine ⟨F.new_ge, F.wf, F.new_node, F.new_ge, F.path_new, F.new_childless, ?_,
    ⟨e ++ [c], by rw [he]; simp⟩, ?_, ?_, ?_⟩
  · intro h
    rcases List.mem_append.1 h with h | h
    · exact M.pth0 h
    · simp at h; exact hc0 h.symm
  · intro q j _
    rw [F.leaf]
    by_cases hq : q = pth
    · subst hq
      constructor
      · rintro ⟨_, h⟩; exact absurd rfl h
      · rintro ⟨h, hne⟩
        exfalso
        rw [he] at h
        by_cases hen : e = []
        · subst hen; simp at he; exact hne he
        · exact H0 e j hen h
    · rw [M.leaf_iff q j hq]
      constructor
      · rintro ⟨h, _⟩; exact h
      · intro h; exact ⟨h, hq⟩
  · intro q x hq hbx hxn
    rcases F.nonsep q x hq hbx with ⟨_, h⟩ | ⟨h, _⟩ | ⟨y, hy, hby⟩
    · exact absurd h hxn
    · rw [h]; exact M.pth0
    · by_cases hys : y = s
      · subst hys
        rw [hy.unique w M.path]; exact M.pth0
      · exact M.nonsep q y hy hby hys
  · intro q x hq c1 hc1
    rcases F.paths q x hq with h | ⟨y, hy⟩
    · rw [h] at hc1
      rcases List.mem_append.1 hc1 with h1 | h1
      · exact M.labels _ _ M.path c1 h1
      · simp only [List.mem_singleton] at h1
        rw [h1]; exact Or.inr hV
    · exact M.labels _ _ hy c1 hc1

theorem tail_loop_spec {V : Nat → Prop} {d0 : DArray} {p0 : List Nat}
    (H0 : ∀ e j, e ≠ [] → ¬ Leaf d0 (p0 ++ e) j) (T : List Nat) :
    ∀ (N : List Nat) {d : DArray} {s : Int} {pth : List Nat}, Mid V d0 p0 d s pth →
      (∀ c ∈ T, (c ≠ 0 ∧ c ≤ 255) ∧ V c) → 0 ∉ N → T ≠ N →
      ∃ com T1 N1 d1 s1, branch_in_tail_loop d s T N = .done d1 s1 T1 N1 ∧
        T = com ++ T1 ∧ N = com ++ N1 ∧ T1.headD 0 ≠ N1.headD 0 ∧
        Mid V d0 p0 d1 s1 (pth ++ com) := by
  induction T with
  | nil =>
    intro N d s pth M _ hN hTN
    have hh : N.headD 0 ≠ 0 := fun h => hTN (headD_zero_nil hN h).symm
    refine ⟨[], [], N, d, s, ?_, rfl, rfl, by simpa using hh.symm, by simpa using M⟩
    unfold branch_in_tail_loop
    rw [if_neg hh]
  | cons pc T ih =>
    intro N d s pth M hT hN hTN
    have hpc := hT pc (List.mem_cons_self _ _)
    by_cases heq : pc = N.headD 0
    · cases N with
      | nil => simp at heq; exact absurd heq hpc.1.1
      | cons nc N1 =>
        simp only [List.headD_cons] at heq
        subst heq
        have hstep := Mid.step H0 M hpc.1.1 hpc.1.2 hpc.2
        have := ih N1 hstep.2 (fun c hc => hT c (List.mem_cons_of_mem _ hc))
          (fun h => hN (List.mem_cons_of_mem _ h)) (fun h => hTN (by rw [h]))
        obtain ⟨com, T1, N2, d1, s1, hl, hT1, hN2, hh, M1⟩ := this
        refine ⟨pc :: com, T1, N2, d1, s1, ?_, by rw [hT1]; rfl, by rw [hN2]; rfl, hh, ?_⟩
        · unfold branch_in_tail_loop
          simp only [List.headD_cons, if_true, if_neg hpc.1.1, List.tail_cons]
          rw [if_neg (by unfold TRIE_INDEX_ERROR; have := hstep.1; omega)]
          exact hl
        · have e : pth ++ pc :: com = pth ++ [pc] ++ com := by simp
          rw [e]; exact M1
    · refine ⟨[], pc :: T, N, d, s, ?_, rfl, rfl, by simpa using heq, by simpa using M⟩
      unfold branch_in_tail_loop
      rw [if_neg heq]

theorem no_leaf_below {t : Trie} (W : WF t) {s0 : Int} {p0 : List Nat}
    (hp0 : Path t.da 2 p0 s0) (hb : t.da.base s0 < 0) :
    ∀ e j, e ≠ [] → ¬ Leaf t.da (p0 ++ e) j := by
  obtain ⟨dp, w⟩ := W.da
  rintro e j he ⟨x, hx, _⟩
  obtain ⟨m, hm, hq⟩ := Path.of_append hx
  have := hm.path_det hp0; subst this
  cases e with
  | nil => exact he rfl
  | cons a e =>
    obtain ⟨m1, e1, _⟩ := hq
    exact (childless_of_base_le w (hp0.node (Or.inl rfl)).ge (by omega)).no_edge _ _ e1

theorem mid_init {t : Trie} (W : WF t) {s0 : Int} {p0 : List Nat}
    (hp0 : Path t.da 2 p0 s0) (hb : t.da.base s0 < 0) (h0p : 0 ∉ p0) :
    Mid (ValidTC t.alpha_map) t.da p0 t.da s0 p0 := by
  obtain ⟨dp, w⟩ := W.da
  have hs : IsNode t.da s0 := hp0.node (Or.inl rfl)
  refine ⟨⟨dp, w⟩, hs, ?_, hp0, childless_of_base_le w hs.ge (by omega), h0p, ⟨[], by simp⟩,
    ?_, ?_, W.labels⟩
  · rcases hs with h | h
    · have := w.base2; rw [h] at hb; omega
    · exact h.1
  · intro q j hq
    constructor
    · intro h; exact ⟨h, hq⟩
    · intro h; exact h.1
  · intro q x hq hbx _
    exact W.nonsep q x hq hbx

/-- The first half of `trie_branch_in_tail`: the old branch is re-attached below the chain,
and the trie holds the same keys as before. -/
theorem reattach_spec {t : Trie} (W : WF t) {s0 : Int} {p0 : List Nat}
    (hp0 : Path t.da 2 p0 s0) (hb : t.da.base s0 < 0) (h0p : 0 ∉ p0) {T : List Nat}
    (hT : tail_get_suffix t.tail (-(t.da.base s0)) = some T)
    {d1 : DArray} {s1 : Int} {com T1 : List Nat}
    (M : Mid (ValidTC t.alpha_map) t.da p0 d1 s1 (p0 ++ com))
    (hsplit : T = com ++ T1) {cn : Nat} (hcn : T1.headD 0 ≠ cn) :
    3 ≤ (da_insert_branch d1 s1 (T1.headD 0)).1 ∧
    WF (reattached t s0 d1 s1 T1) ∧
    (∀ ks v1, Stored (reattached t s0 d1 s1 T1) ks v1 ↔ Stored t ks v1) ∧
    Path (reattached t s0 d1 s1 T1).da 2 (p0 ++ com) s1 ∧
    0 ≤ (reattached t s0 d1 s1 T1).da.base s1 ∧
    ∀ y, ¬ Edge (reattached t s0 d1 s1 T1).da s1 cn y := by
  have hti : trie_da_get_tail_index t.da s0 = -(t.da.base s0) := by
    obtain ⟨dp, w⟩ := W.da
    exact tail_index_node w (hp0.node (Or.inl rfl))
  unfold reattached trie_da_set_tail_index
  rw [hti]
  simp only
  have hleaf0 : Leaf t.da p0 (-(t.da.base s0)) := ⟨s0, hp0, by omega, by omega⟩
  obtain ⟨T', hT', hTc, _⟩ := W.live _ _ hleaf0
  rw [hT] at hT'
  simp only [Option.some.injEq] at hT'
  subst hT'
  have hT1v : ∀ c ∈ T1, ValidTC t.alpha_map c := fun c hc =>
    hTc c (by rw [hsplit]; exact List.mem_append_right _ hc)
  have hT1c : ∀ c ∈ T1, c ≠ 0 ∧ c ≤ 255 := fun c hc => ⟨(hT1v c hc).1, (hT1v c hc).le⟩
  have hT1z : 0 ∉ T1 := fun h => (hT1c 0 h).1 rfl
  have H0 := no_leaf_below W hp0 hb
  obtain ⟨dp1, w1⟩ := M.wf
  have F := insert_facts w1 M.node (headD_le hT1c) M.path
    (fun y => M.childless.no_edge (T1.headD 0) y)
  obtain ⟨dp2, w2⟩ := F.wf
  have S := tail_set_suffix_spec W.tail (-(t.da.base s0))
    (if T1.headD 0 ≠ 0 then T1.tail else T1) T hT
  generalize hr : da_insert_branch d1 s1 (T1.headD 0) = r at F w2 ⊢
  generalize hp1 : (if T1.headD 0 ≠ 0 then T1.tail else T1) = p1 at S ⊢
  generalize hi : -(t.da.base s0) = i at hT hleaf0 S ⊢
  obtain ⟨SW, ssuf, sdata⟩ := S
  have hn2 : r.1 ≠ 2 := by have := F.new_ge; omega
  have hs1n : s1 ≠ r.1 := by
    intro h
    have h1 := F.path_s
    rw [h] at h1
    have := h1.unique w2 F.path_new
    simp at this
  have hleaf : ∀ q j, Leaf (da_set_base r.2 r.1 (-i)) q j ↔
      ((Leaf t.da q j ∧ q ≠ p0) ∨ (q = p0 ++ com ++ [T1.headD 0] ∧ j = i)) := by
    intro q j
    rw [set_base_leaf w2 F.new_node F.new_childless, F.leaf]
    constructor
    · rintro (⟨⟨h, hq⟩, _⟩ | ⟨h, h1, _⟩)
      · exact Or.inl ((M.leaf_iff q j hq).1 h)
      · exact Or.inr ⟨h.unique w2 F.path_new, by omega⟩
    · rintro (⟨h, hq⟩ | ⟨rfl, rfl⟩)
      · left
        have hq1 : q ≠ p0 ++ com := by
          rintro rfl
          by_cases hc : com = []
          · subst hc; simp at hq
          · exact H0 com j hc h
        have h1 : Leaf d1 q j := (M.leaf_iff q j hq1).2 ⟨h, hq⟩
        refine ⟨⟨h1, hq1⟩, ?_⟩
        intro hqn
        obtain ⟨x, hx, hbx, hj⟩ := (F.leaf q j).2 ⟨h1, hq1⟩
        have := hx.path_det hqn; subst this
        have := F.new_base; omega
      · right
        refine ⟨F.path_new, rfl, ?_⟩
        obtain ⟨_, _, _, h⟩ := hleaf0; exact h
  have hold : ∀ q j, Leaf t.da q j → q ≠ p0 → j ≠ i := by
    rintro q j h hq rfl
    exact hq (W.inj q p0 _ h hleaf0)
  have hcz : 0 ∉ p0 ++ com := M.pth0
  have hfull : ∀ ks, Full (p0 ++ com ++ [T1.headD 0]) p1 ks ↔ Full p0 T ks := by
    intro ks
    rw [← hp1, full_new hcz hT1z, full_nozero h0p, hsplit]
    simp
  have hsub : ∀ c ∈ p1, c ∈ T1 := by
    intro c hc
    rw [← hp1] at hc
    split at hc
    · exact List.mem_of_mem_tail hc
    · exact hc
  refine ⟨F.new_ge, ⟨⟨dp2, set_base_wf w2 F.new_node hn2 F.new_childless _⟩, SW, ?_, ?_, ?_,
    ?_⟩, ?_, ?_, ?_, ?_⟩
  · -- live
    intro q j h
    rcases (hleaf q j).1 h with ⟨h, hq⟩ | ⟨hq, hj⟩
    · show ∃ suf, tail_get_suffix (tail_set_suffix t.tail i p1) j = some suf ∧ _
      rw [ssuf, if_neg (hold q j h hq)]
      exact W.live q j h
    · show ∃ suf, tail_get_suffix (tail_set_suffix t.tail i p1) j = some suf ∧ _
      rw [hq, ssuf, if_pos hj]
      refine ⟨p1, rfl, fun c hc => hT1v c (hsub c hc), ?_⟩
      intro hm
      rcases List.mem_append.1 hm with h1 | h1
      · exact absurd h1 hcz
      · simp only [List.mem_singleton] at h1
        have := headD_zero_nil hT1z h1.symm
        rw [← hp1, this]; simp
  · -- inj
    intro q q1 j h h1
    rcases (hleaf q j).1 h with ⟨h, hq⟩ | ⟨hq, hj⟩
    · rcases (hleaf q1 j).1 h1 with ⟨h1, _⟩ | ⟨_, h2⟩
      · exact W.inj q q1 j h h1
      · exact absurd h2 (hold q j h hq)
    · rcases (hleaf q1 j).1 h1 with ⟨h1, hq1⟩ | ⟨hq1, _⟩
      · exact absurd hj (hold q1 j h1 hq1)
      · rw [hq, hq1]
  · -- nonsep
    intro q x hq hbx
    have hq1 : Path r.2 2 q x := (set_base_path w2 F.new_node F.new_childless _ _ _ _).1 hq
    have hbx1 : 0 ≤ (da_set_base r.2 r.1 (-i)).base x := hbx
    rw [set_base_base w2 F.new_node] at hbx1
    by_cases hxn : x = r.1
    · rw [if_pos hxn] at hbx1
      obtain ⟨_, _, _, h⟩ := hleaf0; omega
    · rw [if_neg hxn] at hbx1
      rcases F.nonsep q x hq1 hbx1 with ⟨_, h⟩ | ⟨h, _⟩ | ⟨y, hy, hby⟩
      · exact absurd h hxn
      · rw [h]; exact hcz
      · by_cases hys : y = s1
        · subst hys
          rw [hy.unique w1 M.path]; exact hcz
        · exact M.nonsep q y hy hby hys
  · -- labels
    intro q x hq c hc
    have hq1 : Path r.2 2 q x := (set_base_path w2 F.new_node F.new_childless _ _ _ _).1 hq
    rcases F.paths q x hq1 with h | ⟨y, hy⟩
    · rw [h] at hc
      rcases List.mem_append.1 hc with h1 | h1
      · exact M.labels _ _ M.path c h1
      · simp only [List.mem_singleton] at h1
        cases T1 with
        | nil => left; simpa using h1
        | cons a l =>
          right
          simp only [List.headD_cons] at h1
          rw [h1]; exact hT1v a (List.mem_cons_self _ _)
    · exact M.labels _ _ hy c hc
  · -- stored
    intro ks v1
    unfold Stored
    constructor
    · rintro ⟨q, j, suf, hl, hs1, hd1, hf⟩
      have hl1 : Leaf (da_set_base r.2 r.1 (-i)) q j := hl
      have hs2 : tail_get_suffix (tail_set_suffix t.tail i p1) j = some suf := hs1
      have hd2 : tail_get_data (tail_set_suffix t.tail i p1) j = v1 := hd1
      rw [ssuf] at hs2
      rw [sdata] at hd2
      rcases (hleaf q j).1 hl1 with ⟨h, hq⟩ | ⟨hq, hj⟩
      · rw [if_neg (hold q j h hq)] at hs2
        exact ⟨q, j, suf, h, hs2, hd2, hf⟩
      · rw [if_pos hj] at hs2
        simp only [Option.some.injEq] at hs2
        rw [hq, ← hs2, hfull] at hf
        rw [hj] at hd2
        exact ⟨p0, i, T, hleaf0, hT, hd2, hf⟩
    · rintro ⟨q, j, suf, hl, hs1, hd1, hf⟩
      by_cases hq : q = p0
      · rw [hq] at hl hf
        have hji : j = i := hl.leaf_det hleaf0
        rw [hji, hT] at hs1
        simp only [Option.some.injEq] at hs1
        rw [← hs1] at hf
        rw [hji] at hd1
        refine ⟨p0 ++ com ++ [T1.headD 0], i, p1, (hleaf _ _).2 (Or.inr ⟨rfl, rfl⟩), ?_, ?_,
          (hfull ks).2 hf⟩
        · show tail_get_suffix (tail_set_suffix t.tail i p1) i = _
          rw [ssuf, if_pos rfl]
        · show tail_get_data (tail_set_suffix t.tail i p1) i = _
          rw [sdata]; exact hd1
      · refine ⟨q, j, suf, (hleaf _ _).2 (Or.inl ⟨hl, hq⟩), ?_, ?_, hf⟩
        · show tail_get_suffix (tail_set_suffix t.tail i p1) j = _
          rw [ssuf, if_neg (hold q j hl hq)]; exact hs1
        · show tail_get_data (tail_set_suffix t.tail i p1) j = _
          rw [sdata]; exact hd1
  · exact (set_base_path w2 F.new_node F.new_childless _ _ _ _).2 F.path_s
  · rw [set_base_base w2 F.new_node, if_neg hs1n]
    have := F.base_s; omega
  · intro y e
    rw [set_base_edge w2 F.new_node F.new_childless] at e
    rcases F.edges_s cn y e with h | ⟨y0, e0⟩
    · exact hcn h.symm
    · exact M.childless.no_edge _ _ e0

/-- `trie_branch_in_tail` at a separate node at path `p0` whose suffix differs from the rest
`N` of the key: the key `p0 ++ N` is added. -/
theorem branch_in_tail_spec {t : Trie} (W : WF t) {s0 : Int} {p0 : List Nat}
    (hp0 : Path t.da 2 p0 s0) (hb : t.da.base s0 < 0) (h0p : 0 ∉ p0) {T : List Nat}
    (hT : tail_get_suffix t.tail (-(t.da.base s0)) = some T) (N : List Nat)
    (hN : ∀ c ∈ N, ValidTC t.alpha_map c) (hTN : T ≠ N) (v : Int) :
    ∃ t1, trie_branch_in_tail t s0 N v = some (true, t1) ∧ WF t1 ∧
      t1.alpha_map = t.alpha_map ∧ t1.is_dirty = true ∧
      ∀ ks v1, Stored t1 ks v1 ↔ ((ks = p0 ++ N ∧ v1 = v) ∨ Stored t ks v1) := by
  obtain ⟨dp, w⟩ := W.da
  have hs0 : IsNode t.da s0 := hp0.node (Or.inl rfl)
  have hleaf0 : Leaf t.da p0 (-(t.da.base s0)) := ⟨s0, hp0, by omega, by omega⟩
  obtain ⟨T', hT', hTc, _⟩ := W.live _ _ hleaf0
  rw [hT] at hT'
  simp only [Option.some.injEq] at hT'
  subst hT'
  have hNz : 0 ∉ N := fun h => (hN 0 h).1 rfl
  have H0 := no_leaf_below W hp0 hb
  have M0 := mid_init W hp0 hb h0p
  obtain ⟨com, T1, N1, d1, s1, hl, hT1, hN1, hh, M1⟩ := tail_loop_spec H0 T N M0
    (fun c hc => ⟨⟨(hTc c hc).1, (hTc c hc).le⟩, hTc c hc⟩) hNz hTN
  have R := reattach_spec W hp0 hb h0p hT M1 hT1 hh
  obtain ⟨hge, WR, hst, hpath, hbase, hnoedge⟩ := R
  have hN1c : ∀ c ∈ N1, ValidTC t.alpha_map c := fun c hc =>
    hN c (by rw [hN1]; exact List.mem_append_right _ hc)
  obtain ⟨t1, hres, W1, ham, hdirty, hst1⟩ :=
    branch_in_branch_spec WR hpath hbase N1 hN1c hnoedge v
  refine ⟨t1, ?_, W1, ham, hdirty, ?_⟩
  · unfold trie_branch_in_tail
    simp only [tail_index_node w hs0, hT, hl]
    rw [if_neg (by unfold TRIE_INDEX_ERROR; omega)]
    rw [← hres]
    unfold reattached
    simp only [tail_index_node w hs0]
  · intro ks v1
    rw [hst1, hst, hN1]
    simp

theorem full_functional {p suf ks ks1 : List Nat} (h : Full p suf ks) (h1 : Full p suf ks1) :
    ks = ks1 := by
  rcases h with ⟨h, _⟩ | ⟨h0, h⟩ <;> rcases h1 with ⟨h1, _⟩ | ⟨h01, h1⟩
  · rw [h] at h1; exact List.append_cancel_right h1
  · exfalso; apply h01; rw [h]; simp
  · exfalso; apply h0; rw [h1]; simp
  · rw [h, h1]

theorem map_headD (f : Nat → Nat) (hf : f 0 = 0) (l : List Nat) :
    (l.map f).headD 0 = f (l.headD 0) := by
  cases l with
  | nil => simp [hf]
  | cons a l => simp

theorem in_alphabet_chars {am : AlphaMap} {key : List Nat} (h : InAlphabet am key) :
    ∀ c ∈ key.map (alpha_map_char_to_trie am), ValidTC am c := by
  intro c hc
  obtain ⟨a, ha, rfl⟩ := List.mem_map.1 hc
  exact validtc_of_covered (h a ha).1 (h a ha).2

theorem in_alphabet_no_zero {am : AlphaMap} {key : List Nat} (h : InAlphabet am key) :
    0 ∉ key := fun h0 => (h 0 h0).1 rfl

theorem in_alphabet_of_valid {am : AlphaMap} {key : List Nat} (h0 : 0 ∉ key)
    (h : ∀ c ∈ key.map (alpha_map_char_to_trie am), c = 0 ∨ ValidTC am c) :
    InAlphabet am key := by
  intro a ha
  have ha0 : a ≠ 0 := fun e => h0 (e ▸ ha)
  refine ⟨ha0, ?_⟩
  rcases h _ (List.mem_map.2 ⟨a, ha, rfl⟩) with h1 | h1
  · exact absurd h1 (char_to_trie_ne_zero am ha0)
  · exact covered_of_validtc ha0 h1

theorem in_alphabet_append {am : AlphaMap} {k1 p : List Nat} (h1 : InAlphabet am k1)
    (h2 : InAlphabet am p) : InAlphabet am (k1 ++ p) := by
  intro a ha
  rcases List.mem_append.1 ha with h | h
  · exact h1 a h
  · exact h2 a h

/-- A key spelt by a separate node of a well-formed trie is within the alphabet. -/
theorem full_in_alphabet {t : Trie} (W : WF t) {q suf : List Nat} {i : Int} {key : List Nat}
    (h0 : 0 ∉ key) (hl : Leaf t.da q i) (hs : tail_get_suffix t.tail i = some suf)
    (hf : Full q suf (key.map (alpha_map_char_to_trie t.alpha_map))) :
    InAlphabet t.alpha_map key := by
  apply in_alphabet_of_valid h0
  intro c hc
  obtain ⟨x, hx, _, _⟩ := hl
  obtain ⟨suf1, hs1, hv, _⟩ := W.live q i ⟨x, hx, by assumption, by assumption⟩
  rw [hs] at hs1
  simp only [Option.some.injEq] at hs1
  subst hs1
  rcases hf with ⟨h, _⟩ | ⟨_, h⟩
  · exact W.labels q x hx c (by rw [h]; exact List.mem_append_left _ hc)
  · rw [h] at hc
    rcases List.mem_append.1 hc with h1 | h1
    · exact W.labels q x hx c h1
    · exact Or.inr (hv c h1)

/-- What `trie_store_conditionally_unbounded` does on a well-formed trie: a null dereference for some
keys outside the alphabet, a new key, or a key already present. -/
theorem store_spec {t : Trie} (W : WF t) {key : List Nat} (h0 : 0 ∉ key)
    (v : Int) (ow : Bool) :
    (trie_store_conditionally_unbounded t key v ow = none ∧ ¬ InAlphabet t.alpha_map key) ∨
    (trie_retrieve_unbounded t key = none ∧ InAlphabet t.alpha_map key ∧
      ∃ t1, trie_store_conditionally_unbounded t key v ow = some (true, t1) ∧ WF t1 ∧
        t1.alpha_map = t.alpha_map ∧ t1.is_dirty = true ∧
        ∀ ks v1, Stored t1 ks v1 ↔
          ((ks = key.map (alpha_map_char_to_trie t.alpha_map) ∧ v1 = v) ∨ Stored t ks v1)) ∨
    (∃ v0 i, trie_retrieve_unbounded t key = some v0 ∧ InAlphabet t.alpha_map key ∧
      trie_store_conditionally_unbounded t key v ow =
        (if ow then some (true, { t with tail := tail_set_data t.tail i v, is_dirty := true })
         else some (false, t)) ∧
      WF { t with tail := tail_set_data t.tail i v, is_dirty := true } ∧
      (∀ j, tail_get_suffix (tail_set_data t.tail i v) j = tail_get_suffix t.tail j) ∧
      ∀ ks v1, Stored { t with tail := tail_set_data t.tail i v, is_dirty := true } ks v1 ↔
        ((ks = key.map (alpha_map_char_to_trie t.alpha_map) ∧ v1 = v) ∨
         (ks ≠ key.map (alpha_map_char_to_trie t.alpha_map) ∧ Stored t ks v1))) := by
  obtain ⟨dp, w⟩ := W.da
  have hpost := walk_branches_spec w (Or.inl rfl : IsNode t.da 2) key h0
  cases hres : walk_branches t 2 key with
  | failed s1 p =>
    rw [hres] at hpost
    obtain ⟨k1, hkey, hp, hb, hne⟩ := hpost
    have hp0 : 0 ∉ p := fun h => h0 (by rw [hkey]; exact List.mem_append_right _ h)
    by_cases hkp : InAlphabet t.alpha_map p
    swap
    · left
      refine ⟨?_, fun hk => hkp (fun c hc =>
        hk c (by rw [hkey]; exact List.mem_append_right _ hc))⟩
      unfold trie_store_conditionally_unbounded da_get_root
      rw [hres]
      simp only [char_to_trie_str_out _ hp0 hkp]
    right; left
    have hret : trie_retrieve_unbounded t key = none := by
      unfold trie_retrieve_unbounded da_get_root; rw [hres]
    have hne1 : ∀ y, ¬ Edge t.da s1 ((p.map (alpha_map_char_to_trie t.alpha_map)).headD 0) y := by
      rw [map_headD _ (char_to_trie_zero _)]; exact hne
    obtain ⟨t1, hbb, W1, ham, hd, hst⟩ :=
      branch_in_branch_spec W hp hb _ (in_alphabet_chars hkp) hne1 v
    have hk1 : InAlphabet t.alpha_map k1 :=
      in_alphabet_of_valid (fun h => h0 (by rw [hkey]; exact List.mem_append_left _ h))
        (W.labels _ _ hp)
    refine ⟨hret, by rw [hkey]; exact in_alphabet_append hk1 hkp, t1, ?_, W1, ham, hd, ?_⟩
    · unfold trie_store_conditionally_unbounded da_get_root
      rw [hres]
      simp only [char_to_trie_str_in _ hkp, hbb]
    · intro ks v1
      rw [hst, hkey]; simp
  | left x p =>
    rw [hres] at hpost
    -- the separate node reached, its path and its tail entry
    have hsep : ∃ q0, Path t.da 2 q0 x ∧ t.da.base x < 0 ∧
        ∃ suf, tail_get_suffix t.tail (-(t.da.base x)) = some suf ∧
        (walk_tail_unbounded t (-(t.da.base x)) 0 p = true ↔
          Full q0 suf (key.map (alpha_map_char_to_trie t.alpha_map))) ∧
        (walk_tail_unbounded t (-(t.da.base x)) 0 p = false →
          ∃ k1, key = k1 ++ p ∧ q0 = k1.map (alpha_map_char_to_trie t.alpha_map) ∧
            suf ≠ p.map (alpha_map_char_to_trie t.alpha_map)) := by
      rcases hpost with ⟨k1, hkey, hp, hb⟩ | ⟨hpn, m, hm, hbm, em⟩
      · have hleaf : Leaf t.da (k1.map (alpha_map_char_to_trie t.alpha_map)) (-(t.da.base x)) :=
          ⟨x, hp, by omega, by omega⟩
        obtain ⟨suf, hsuf, hsc, _⟩ := W.live _ _ hleaf
        have hz : 0 ∉ suf := fun h => (hsc 0 h).1 rfl
        have hp0 : 0 ∉ p := fun h => h0 (by rw [hkey]; exact List.mem_append_right _ h)
        have hk10 : 0 ∉ k1 := fun h => h0 (by rw [hkey]; exact List.mem_append_left _ h)
        have hws := walk_tail_spec hsuf hz 0 p hp0
        simp only [List.drop_zero] at hws
        refine ⟨_, hp, hb, suf, hsuf, ?_, ?_⟩
        · rw [hws, full_nozero (map_char_to_trie_no_zero _ hk10), hkey]
          simp only [List.map_append]
          constructor
          · intro h; rw [h]
          · intro h; exact (List.append_cancel_left h).symm
        · intro hf
          refine ⟨k1, hkey, rfl, ?_⟩
          intro h
          rw [hws.2 h] at hf; simp at hf
      · have hpx : Path t.da 2 (key.map (alpha_map_char_to_trie t.alpha_map) ++ [0]) x :=
          hm.snoc em
        have hbx : t.da.base x < 0 := by
          by_contra hn
          exact W.nonsep _ _ hpx (by omega) (by simp)
        have hleaf : Leaf t.da (key.map (alpha_map_char_to_trie t.alpha_map) ++ [0])
            (-(t.da.base x)) := ⟨x, hpx, by omega, by omega⟩
        obtain ⟨suf, hsuf, hsc, hnil⟩ := W.live _ _ hleaf
        have hz : 0 ∉ suf := fun h => (hsc 0 h).1 rfl
        have := hnil (by simp)
        subst this
        have hw : walk_tail_unbounded t (-(t.da.base x)) 0 p = true := by
          rw [hpn]
          exact (walk_tail_spec hsuf hz 0 [] (by simp)).2 (by simp)
        refine ⟨_, hpx, hbx, [], hsuf, ?_, ?_⟩
        · simp only [hw, true_iff]
          exact Or.inl ⟨rfl, rfl⟩
        · intro hf; rw [hw] at hf; simp at hf
    obtain ⟨q0, hq0, hbx, suf, hsuf, hwt, hwf⟩ := hsep
    have hx : IsNode t.da x := hq0.node (Or.inl rfl)
    have hleaf : Leaf t.da q0 (-(t.da.base x)) := ⟨x, hq0, by omega, by omega⟩
    by_cases hw : walk_tail_unbounded t (-(t.da.base x)) 0 p = true
    · -- the key is present
      right; right
      have hfull := hwt.1 hw
      have hret : trie_retrieve_unbounded t key = some (tail_get_data t.tail (-(t.da.base x))) := by
        unfold trie_retrieve_unbounded da_get_root
        rw [hres]
        simp only [tail_index_node w hx, hw, if_true]
      have B := tail_set_data_spec W.tail (-(t.da.base x)) v
      obtain ⟨BW, bsuf, bdata⟩ := B
      have hrange : 1 ≤ -(t.da.base x) ∧ -(t.da.base x) ≤ t.tail.num_tails := by
        unfold tail_get_suffix at hsuf
        by_contra hn
        rw [if_neg hn] at hsuf; simp at hsuf
      have W1 : WF { t with tail := tail_set_data t.tail (-(t.da.base x)) v, is_dirty := true } := by
        refine ⟨⟨dp, w⟩, BW, ?_, W.inj, W.nonsep, W.labels⟩
        intro q j h
        show ∃ suf, tail_get_suffix (tail_set_data t.tail (-(t.da.base x)) v) j = some suf ∧ _
        rw [bsuf]; exact W.live q j h
      have hnew : Stored { t with tail := tail_set_data t.tail (-(t.da.base x)) v, is_dirty := true }
          (key.map (alpha_map_char_to_trie t.alpha_map)) v := by
        refine ⟨q0, -(t.da.base x), suf, hleaf, ?_, ?_, hfull⟩
        · show tail_get_suffix (tail_set_data t.tail (-(t.da.base x)) v) _ = _
          rw [bsuf]; exact hsuf
        · show tail_get_data (tail_set_data t.tail (-(t.da.base x)) v) _ = _
          rw [bdata, if_pos ⟨rfl, hrange⟩]
      refine ⟨_, -(t.da.base x), hret, full_in_alphabet W h0 hleaf hsuf hfull, ?_, W1, bsuf, ?_⟩
      · unfold trie_store_conditionally_unbounded da_get_root
        rw [hres]
        simp only [tail_index_node w hx, hw, if_true]
        cases ow <;> simp
      · intro ks v1
        constructor
        · intro hst
          by_cases hks : ks = key.map (alpha_map_char_to_trie t.alpha_map)
          · left
            refine ⟨hks, ?_⟩
            rw [hks] at hst
            have e1 := (retrieve_iff W1 key h0 v1).2 hst
            have e2 := (retrieve_iff W1 key h0 v).2 hnew
            rw [e1] at e2
            exact Option.some.inj e2
          · right
            refine ⟨hks, ?_⟩
            obtain ⟨q, j, suf1, hl, hs1, hd1, hf⟩ := hst
            have hl1 : Leaf t.da q j := hl
            have hs2 : tail_get_suffix (tail_set_data t.tail (-(t.da.base x)) v) j = some suf1 :=
              hs1
            have hd2 : tail_get_data (tail_set_data t.tail (-(t.da.base x)) v) j = v1 := hd1
            rw [bsuf] at hs2
            rw [bdata] at hd2
            have hji : j ≠ -(t.da.base x) := by
              intro hji
              rw [hji] at hl1 hs2
              have := W.inj _ _ _ hl1 hleaf
              rw [this] at hf
              rw [hsuf] at hs2
              simp only [Option.some.injEq] at hs2
              rw [← hs2] at hf
              exact hks (full_functional hf hfull)
            rw [if_neg (fun h => hji h.1)] at hd2
            exact ⟨q, j, suf1, hl1, hs2, hd2, hf⟩
        · rintro (⟨rfl, rfl⟩ | ⟨hks, q, j, suf1, hl, hs1, hd1, hf⟩)
          · exact hnew
          · have hji : j ≠ -(t.da.base x) := by
              intro hji
              rw [hji] at hl hs1
              have := W.inj _ _ _ hl hleaf
              rw [this] at hf
              rw [hsuf] at hs1
              simp only [Option.some.injEq] at hs1
              rw [← hs1] at hf
              exact hks (full_functional hf hfull)
            refine ⟨q, j, suf1, hl, ?_, ?_, hf⟩
            · show tail_get_suffix (tail_set_data t.tail (-(t.da.base x)) v) j = _
              rw [bsuf]; exact hs1
            · show tail_get_data (tail_set_data t.tail (-(t.da.base x)) v) j = _
              rw [bdata, if_neg (fun h => hji h.1)]; exact hd1
    · -- the tail differs
      have hwfalse : walk_tail_unbounded t (-(t.da.base x)) 0 p = false := by
        cases h : walk_tail_unbounded t (-(t.da.base x)) 0 p
        · rfl
        · exact absurd h hw
      obtain ⟨k1, hkey, hq0e, hne⟩ := hwf hwfalse
      have hp0 : 0 ∉ p := fun h => h0 (by rw [hkey]; exact List.mem_append_right _ h)
      by_cases hkp : InAlphabet t.alpha_map p
      swap
      · left
        refine ⟨?_, fun hk => hkp (fun c hc =>
          hk c (by rw [hkey]; exact List.mem_append_right _ hc))⟩
        unfold trie_store_conditionally_unbounded da_get_root
        rw [hres]
        simp only [tail_index_node w hx, hwfalse, char_to_trie_str_out _ hp0 hkp]
        simp
      right; left
      have hk10 : 0 ∉ k1 := fun h => h0 (by rw [hkey]; exact List.mem_append_left _ h)
      have hret : trie_retrieve_unbounded t key = none := by
        unfold trie_retrieve_unbounded da_get_root
        rw [hres]
        simp only [tail_index_node w hx, hwfalse]
        simp
      subst hq0e
      obtain ⟨t1, hbt, W1, ham, hd, hst⟩ :=
        branch_in_tail_spec W hq0 hbx (map_char_to_trie_no_zero _ hk10) hsuf _
          (in_alphabet_chars hkp) hne v
      have hk1 : InAlphabet t.alpha_map k1 := in_alphabet_of_valid hk10 (W.labels _ _ hq0)
      refine ⟨hret, by rw [hkey]; exact in_alphabet_append hk1 hkp, t1, ?_, W1, ham, hd, ?_⟩
      · unfold trie_store_conditionally_unbounded da_get_root
        rw [hres]
        simp only [tail_index_node w hx, hwfalse, char_to_trie_str_in _ hkp, hbt]
        simp
      · intro ks v1
        rw [hst, hkey]; simp

/-- The paths left by the pruning loop are paths from before, to nodes whose base is
unchanged. -/
theorem prune_loop_paths (fuel : Nat) {d : DArray} {dp : Int → Nat} (w : WFda d dp) {s : Int}
    (hs : IsNode d s) :
    ∀ q y, Path (da_prune_upto_loop fuel d 2 s) 2 q y →
      Path d 2 q y ∧ (da_prune_upto_loop fuel d 2 s).base y = d.base y := by
  induction fuel generalizing d s with
  | zero => intro q y h; exact ⟨h, rfl⟩
  | succ k ih =>
    unfold da_prune_upto_loop
    split
    · rename_i hcond
      have hs3 : 3 ≤ s := by
        rcases hs with h | h
        · exact absurd h.symm hcond.1
        · exact h.1
      have hu : 0 ≤ d.check s := by
        rcases hs with h | h
        · exact absurd h.symm hcond.1
        · exact h.2
      have hcl := has_children_false w hs hcond.2
      have w1 := free_cell_wf w hs3 hcl
      have hgc : da_get_check d s = d.check s := by
        unfold da_get_check
        rw [if_pos ⟨by omega, w.node_lt hs⟩]
      have hp := w.parent s hs3 hu
      have hne : d.check s ≠ s := by intro h; rw [h] at hp; omega
      have hpn : IsNode (da_free_cell d s) (d.check s) := by
        rcases hp.1 with h | h
        · exact Or.inl h
        · refine Or.inr ⟨h.1, ?_⟩
          show 0 ≤ Function.update d.check s (-1) (d.check s)
          rw [Function.update_noteq hne]; exact h.2
      rw [hgc]
      intro q y h
      have h1 := ih w1 hpn q y h
      have h2 := (free_cell_path hcl 2 (by omega) q y).1 h1.1
      refine ⟨h2.1, ?_⟩
      rw [h1.2]
      show Function.update d.base s (-1) y = _
      rw [Function.update_noteq h2.2]
    · intro q y h; exact ⟨h, rfl⟩

/-- The pruning loop frees the node it starts from, when that node has no child. -/
theorem prune_loop_removes (fuel : Nat) {d : DArray} {dp : Int → Nat} (w : WFda d dp) {s : Int}
    (hs : IsNode d s) (hs2 : s ≠ 2) (hch : da_has_children d s = false) :
    ∀ q, ¬ Path (da_prune_upto_loop (fuel + 1) d 2 s) 2 q s := by
  unfold da_prune_upto_loop
  rw [if_pos ⟨fun h => hs2 h.symm, hch⟩]
  have hs3 : 3 ≤ s := by
    rcases hs with h | h
    · exact absurd h hs2
    · exact h.1
  have hu : 0 ≤ d.check s := by
    rcases hs with h | h
    · exact absurd h hs2
    · exact h.2
  have hcl := has_children_false w hs hch
  have w1 := free_cell_wf w hs3 hcl
  have hp := w.parent s hs3 hu
  have hne : d.check s ≠ s := by intro h; rw [h] at hp; omega
  have hgc : da_get_check d s = d.check s := by
    unfold da_get_check
    rw [if_pos ⟨by omega, w.node_lt hs⟩]
  have hpn : IsNode (da_free_cell d s) (d.check s) := by
    rcases hp.1 with h | h
    · exact Or.inl h
    · refine Or.inr ⟨h.1, ?_⟩
      show 0 ≤ Function.update d.check s (-1) (d.check s)
      rw [Function.update_noteq hne]; exact h.2
  rw [hgc]
  intro q h
  have h1 := (prune_loop_paths fuel w1 hpn q s h).1
  exact ((free_cell_path hcl 2 (by omega) q s).1 h1).2 rfl

/-- Two separate nodes that spell the same trie string are the same node. -/
theorem leaf_spell_unique {t : Trie} (W : WF t) {q q1 suf suf1 ks : List Nat} {j j1 : Int}
    (h : Leaf t.da q j) (hf : Full q suf ks) (h1 : Leaf t.da q1 j1) (hf1 : Full q1 suf1 ks) :
    q = q1 := by
  have hb : ∃ b, q ++ b = ks ++ [0] := by
    rcases hf with ⟨h, _⟩ | ⟨_, h⟩
    · exact ⟨[], by simp [h]⟩
    · exact ⟨suf ++ [0], by rw [h]; simp⟩
  have hb1 : ∃ b, q1 ++ b = ks ++ [0] := by
    rcases hf1 with ⟨h, _⟩ | ⟨_, h⟩
    · exact ⟨[], by simp [h]⟩
    · exact ⟨suf1 ++ [0], by rw [h]; simp⟩
  obtain ⟨b, hb⟩ := hb
  obtain ⟨b1, hb1⟩ := hb1
  have e : q ++ b = q1 ++ b1 := by rw [hb, hb1]
  obtain ⟨x, hx, hbx, hj⟩ := h
  obtain ⟨x1, hx1, hbx1, hj1⟩ := h1
  rcases List.append_eq_append_iff.1 e with ⟨a, ha, _⟩ | ⟨a, ha, _⟩
  · by_cases hn : a = []
    · rw [ha, hn]; simp
    · exfalso
      apply no_leaf_below W hx (by omega) a j1 hn
      rw [← ha]; exact ⟨x1, hx1, hbx1, hj1⟩
  · by_cases hn : a = []
    · rw [ha, hn]; simp
    · exfalso
      apply no_leaf_below W hx1 (by omega) a j hn
      rw [← ha]; exact ⟨x, hx, hbx, hj⟩

/-- What `trie_delete_unbounded` does on a well-formed trie. -/
theorem delete_spec {t : Trie} (W : WF t) {key : List Nat} (h0 : 0 ∉ key) :
    (trie_retrieve_unbounded t key = none ∧ trie_delete_unbounded t key = (false, t)) ∨
    (∃ v0, trie_retrieve_unbounded t key = some v0 ∧
      ∃ t1, trie_delete_unbounded t key = (true, t1) ∧ WF t1 ∧ t1.alpha_map = t.alpha_map ∧
        t1.is_dirty = true ∧
        ∀ ks v1, Stored t1 ks v1 ↔
          (ks ≠ key.map (alpha_map_char_to_trie t.alpha_map) ∧ Stored t ks v1)) := by
  obtain ⟨dp, w⟩ := W.da
  have hpost := walk_branches_spec w (Or.inl rfl : IsNode t.da 2) key h0
  cases hres : walk_branches t 2 key with
  | failed s1 p =>
    left
    constructor
    · unfold trie_retrieve_unbounded da_get_root; rw [hres]
    · unfold trie_delete_unbounded da_get_root; rw [hres]
  | left x p =>
    rw [hres] at hpost
    have hx : IsNode t.da x := by
      rcases hpost with ⟨k1, _, hp, _⟩ | ⟨_, m, _, _, em⟩
      · exact hp.node (Or.inl rfl)
      · exact em.target_node
    by_cases hw : walk_tail_unbounded t (-(t.da.base x)) 0 p = true
    swap
    · left
      constructor
      · unfold trie_retrieve_unbounded da_get_root
        rw [hres]
        simp only [tail_index_node w hx, hw]
        simp
      · unfold trie_delete_unbounded da_get_root
        rw [hres]
        simp only [tail_index_node w hx, hw]
        simp
    right
    have hsep : ∃ q0, Path t.da 2 q0 x ∧ t.da.base x < 0 ∧
        ∃ suf, tail_get_suffix t.tail (-(t.da.base x)) = some suf ∧
          Full q0 suf (key.map (alpha_map_char_to_trie t.alpha_map)) := by
      rcases hpost with ⟨k1, hkey, hp, hb⟩ | ⟨hpn, m, hm, hbm, em⟩
      · have hleaf : Leaf t.da (k1.map (alpha_map_char_to_trie t.alpha_map)) (-(t.da.base x)) :=
          ⟨x, hp, by omega, by omega⟩
        obtain ⟨suf, hsuf, hsc, _⟩ := W.live _ _ hleaf
        have hz : 0 ∉ suf := fun h => (hsc 0 h).1 rfl
        have hp0 : 0 ∉ p := fun h => h0 (by rw [hkey]; exact List.mem_append_right _ h)
        have hk10 : 0 ∉ k1 := fun h => h0 (by rw [hkey]; exact List.mem_append_left _ h)
        have hws := walk_tail_spec hsuf hz 0 p hp0
        simp only [List.drop_zero] at hws
        refine ⟨_, hp, hb, suf, hsuf, ?_⟩
        rw [full_nozero (map_char_to_trie_no_zero _ hk10), hkey, hws.1 hw]
        simp
      · have hpx : Path t.da 2 (key.map (alpha_map_char_to_trie t.alpha_map) ++ [0]) x :=
          hm.snoc em
        have hbx : t.da.base x < 0 := by
          by_contra hn
          exact W.nonsep _ _ hpx (by omega) (by simp)
        have hleaf : Leaf t.da (key.map (alpha_map_char_to_trie t.alpha_map) ++ [0])
            (-(t.da.base x)) := ⟨x, hpx, by omega, by omega⟩
        obtain ⟨suf, hsuf, hsc, hnil⟩ := W.live _ _ hleaf
        have := hnil (by simp)
        subst this
        exact ⟨_, hpx, hbx, [], hsuf, Or.inl ⟨rfl, rfl⟩⟩
    obtain ⟨q0, hq0, hbx, suf, hsuf, hfull⟩ := hsep
    have hleaf : Leaf t.da q0 (-(t.da.base x)) := ⟨x, hq0, by omega, by omega⟩
    have hx2 : x ≠ 2 := by
      rintro rfl
      have := w.base2; omega
    have hcl : Childless t.da x := childless_of_base_le w hx.ge (by omega)
    -- the double-array after the base of the node is reset
    have w1 : WFda (da_set_base t.da x 0) dp := set_base_wf w hx hx2 hcl 0
    have hx1 : IsNode (da_set_base t.da x 0) x := by
      rw [set_base_eq w hx]; exact hx
    have hb1 : (da_set_base t.da x 0).base x = 0 := by
      rw [set_base_base w hx, if_pos rfl]
    have hch1 : da_has_children (da_set_base t.da x 0) x = false := by
      unfold da_has_children
      rw [w1.get_base_node hx1, hb1]
      simp [TRIE_INDEX_ERROR]
    have hfuel : ∃ k, (da_set_base t.da x 0).num_cells.toNat = k + 1 := by
      have := w1.cells
      exact ⟨(da_set_base t.da x 0).num_cells.toNat - 1, by omega⟩
    obtain ⟨k, hk⟩ := hfuel
    have P := prune_loop_spec (k + 1) w1 hx1 (by omega)
    have PP := prune_loop_paths (k + 1) w1 hx1
    have PR := prune_loop_removes k w1 hx1 hx2 hch1
    have D := tail_delete_spec W.tail (-(t.da.base x)) suf hsuf
    obtain ⟨DW, dsuf, ddata⟩ := D
    have hda : da_prune (da_set_base t.da x TRIE_INDEX_ERROR) x =
        da_prune_upto_loop (k + 1) (da_set_base t.da x 0) 2 x := by
      unfold da_prune da_prune_upto da_get_root TRIE_INDEX_ERROR
      rw [hk]
    have hleaf2 : ∀ q j, Leaf (da_prune_upto_loop (k + 1) (da_set_base t.da x 0) 2 x) q j ↔
        (Leaf t.da q j ∧ q ≠ q0) := by
      intro q j
      rw [P.2, set_base_leaf w hx hcl]
      constructor
      · rintro (⟨h, hn⟩ | ⟨_, h, h1⟩)
        · exact ⟨h, fun e => hn (e ▸ hq0)⟩
        · omega
      · rintro ⟨h, hn⟩
        exact Or.inl ⟨h, fun hp => hn (hp.unique w hq0)⟩
    have hold : ∀ q j, Leaf t.da q j → q ≠ q0 → j ≠ -(t.da.base x) := by
      rintro q j h hq rfl
      exact hq (W.inj q q0 _ h hleaf)
    have hret : trie_retrieve_unbounded t key = some (tail_get_data t.tail (-(t.da.base x))) := by
      unfold trie_retrieve_unbounded da_get_root
      rw [hres]
      simp only [tail_index_node w hx, hw, if_true]
    refine ⟨_, hret, Trie.mk t.alpha_map (da_prune (da_set_base t.da x TRIE_INDEX_ERROR) x)
      (tail_delete t.tail (-(t.da.base x))) true,
      ?_, ⟨⟨dp, ?_⟩, ?_, ?_, ?_, ?_, ?_⟩, rfl, rfl, ?_⟩
    · unfold trie_delete_unbounded da_get_root
      rw [hres]
      simp only [tail_index_node w hx, hw, if_true]
    · show WFda (da_prune (da_set_base t.da x TRIE_INDEX_ERROR) x) dp
      rw [hda]; exact P.1
    · exact DW
    · intro q j h
      have h1 : Leaf (da_prune (da_set_base t.da x TRIE_INDEX_ERROR) x) q j := h
      rw [hda, hleaf2] at h1
      show ∃ suf, tail_get_suffix (tail_delete t.tail (-(t.da.base x))) j = some suf ∧ _
      rw [dsuf, if_neg (hold q j h1.1 h1.2)]
      exact W.live q j h1.1
    · intro q q1 j h h1
      have h2 : Leaf (da_prune (da_set_base t.da x TRIE_INDEX_ERROR) x) q j := h
      have h3 : Leaf (da_prune (da_set_base t.da x TRIE_INDEX_ERROR) x) q1 j := h1
      rw [hda, hleaf2] at h2 h3
      exact W.inj q q1 j h2.1 h3.1
    · intro q y hq hby
      have hq1 : Path (da_prune (da_set_base t.da x TRIE_INDEX_ERROR) x) 2 q y := hq
      have hby1 : 0 ≤ (da_prune (da_set_base t.da x TRIE_INDEX_ERROR) x).base y := hby
      rw [hda] at hq1 hby1
      have h1 := PP q y hq1
      have hyx : y ≠ x := by
        rintro rfl
        exact PR q hq1
      rw [h1.2, set_base_base w hx, if_neg hyx] at hby1
      exact W.nonsep q y ((set_base_path w hx hcl _ _ _ _).1 h1.1) hby1
    · intro q y hq c hc
      have hq1 : Path (da_prune (da_set_base t.da x TRIE_INDEX_ERROR) x) 2 q y := hq
      rw [hda] at hq1
      exact W.labels q y ((set_base_path w hx hcl _ _ _ _).1 (PP q y hq1).1) c hc
    · intro ks v1
      unfold Stored
      constructor
      · rintro ⟨q, j, suf1, hl, hs1, hd1, hf⟩
        have hl1 : Leaf (da_prune (da_set_base t.da x TRIE_INDEX_ERROR) x) q j := hl
        have hs2 : tail_get_suffix (tail_delete t.tail (-(t.da.base x))) j = some suf1 := hs1
        have hd2 : tail_get_data (tail_delete t.tail (-(t.da.base x))) j = v1 := hd1
        rw [hda, hleaf2] at hl1
        have hji := hold q j hl1.1 hl1.2
        rw [dsuf, if_neg hji] at hs2
        rw [ddata j hji] at hd2
        refine ⟨?_, q, j, suf1, hl1.1, hs2, hd2, hf⟩
        rintro rfl
        exact hl1.2 (leaf_spell_unique W hl1.1 hf hleaf hfull)
      · rintro ⟨hks, q, j, suf1, hl, hs1, hd1, hf⟩
        have hq : q ≠ q0 := by
          rintro rfl
          have := hl.leaf_det hleaf; subst this
          rw [hsuf] at hs1
          simp only [Option.some.injEq] at hs1
          subst hs1
          exact hks (full_functional hf hfull)
        have hji := hold q j hl hq
        refine ⟨q, j, suf1, ?_, ?_, ?_, hf⟩
        · show Leaf (da_prune (da_set_base t.da x TRIE_INDEX_ERROR) x) q j
          rw [hda, hleaf2]; exact ⟨hl, hq⟩
        · show tail_get_suffix (tail_delete t.tail (-(t.da.base x))) j = _
          rw [dsuf, if_neg hji]; exact hs1
        · show tail_get_data (tail_delete t.tail (-(t.da.base x))) j = _
          rw [ddata j hji]; exact hd1

theorem option_ext {a b : Option Int} (h : ∀ v, a = some v ↔ b = some v) : a = b := by
  cases a with
  | none =>
    cases b with
    | none => rfl
    | some y => exact absurd ((h y).2 rfl) (by simp)
  | some x => exact ((h x).1 rfl).symm

theorem trie_new_walk_failed (am : AlphaMap) (key : List Nat) :
    walk_branches (trie_new am) (da_get_root (trie_new am).da) key = .failed 2 key := by
  have hsep : trie_da_is_separate (trie_new am).da 2 = false := by
    show trie_da_is_separate da_new 2 = false
    decide
  have hwalk : ∀ c : Nat, da_walk (trie_new am).da 2 c = none := by
    intro c
    show da_walk da_new 2 c = none
    have hb : da_get_base da_new 2 = 3 := by decide
    have hc : da_get_check da_new (3 + (c : Int)) = 0 := by
      unfold da_get_check
      rw [if_neg]
      · rfl
      · show ¬ (0 ≤ (3 : Int) + (c : Int) ∧ (3 : Int) + (c : Int) < 3)
        omega
    unfold da_walk
    simp only [hb, hc]
    simp
  unfold da_get_root
  cases key with
  | nil => unfold walk_branches; rw [hsep]; simp [hwalk]
  | cons c rest => unfold walk_branches; rw [hsep]; simp [hwalk]

theorem trie_new_retrieve_code (am : AlphaMap) (key : List Nat) :
    trie_retrieve (trie_new am) key = none := by
  unfold trie_retrieve
  rw [trie_new_walk_failed]

theorem trie_new_retrieve (am : AlphaMap) (key : List Nat) :
    trie_retrieve_unbounded (trie_new am) key = none := by
  have hsep : trie_da_is_separate (trie_new am).da 2 = false := by
    show trie_da_is_separate da_new 2 = false
    decide
  have hwalk : ∀ c : Nat, da_walk (trie_new am).da 2 c = none := by
    intro c
    show da_walk da_new 2 c = none
    have hb : da_get_base da_new 2 = 3 := by decide
    have hc : da_get_check da_new (3 + (c : Int)) = 0 := by
      unfold da_get_check
      rw [if_neg]
      · rfl
      · show ¬ (0 ≤ (3 : Int) + (c : Int) ∧ (3 : Int) + (c : Int) < 3)
        omega
    unfold da_walk
    simp only [hb, hc]
    simp
  unfold trie_retrieve_unbounded da_get_root
  cases key with
  | nil => unfold walk_branches; rw [hsep]; simp [hwalk]
  | cons c rest => unfold walk_branches; rw [hsep]; simp [hwalk]

theorem stored_in_alphabet {t : Trie} (W : WF t) {key : List Nat} (h0 : 0 ∉ key) {v : Int}
    (h : trie_retrieve_unbounded t key = some v) : InAlphabet t.alpha_map key := by
  obtain ⟨q, i, suf, hl, hs, _, hf⟩ := (retrieve_iff W key h0 v).1 h
  exact full_in_alphabet W h0 hl hs hf

/-- Retrieval after an operation that replaced the entry of `key` by `r`. -/
theorem retrieve_update {t t1 : Trie} (W : WF t) (W1 : WF t1) (ham : t1.alpha_map = t.alpha_map)
    {key : List Nat} (hk : InAlphabet t.alpha_map key) (r : Option Int)
    (hst : ∀ ks v1, Stored t1 ks v1 ↔
      ((ks = key.map (alpha_map_char_to_trie t.alpha_map) ∧ r = some v1) ∨
       (ks ≠ key.map (alpha_map_char_to_trie t.alpha_map) ∧ Stored t ks v1)))
    (k1 : List Nat) (h1 : 0 ∉ k1) :
    trie_retrieve_unbounded t1 k1 = if k1 = key then r else trie_retrieve_unbounded t k1 := by
  apply option_ext
  intro v1
  rw [retrieve_iff W1 k1 h1, ham, hst]
  by_cases hkk : k1 = key
  · subst hkk
    rw [if_pos rfl]
    constructor
    · rintro (⟨_, h⟩ | ⟨h, _⟩)
      · exact h
      · exact absurd rfl h
    · intro h; exact Or.inl ⟨rfl, h⟩
  · rw [if_neg hkk, retrieve_iff W k1 h1]
    have hne : k1.map (alpha_map_char_to_trie t.alpha_map) ≠
        key.map (alpha_map_char_to_trie t.alpha_map) :=
      fun e => hkk (map_char_to_trie_inj _ hk h1 e)
    constructor
    · rintro (⟨h, _⟩ | ⟨_, h⟩)
      · exact absurd h hne
      · exact h
    · intro h; exact Or.inr ⟨hne, h⟩

/-- What a store does, in terms of retrieval. -/
theorem store_retrieve {t : Trie} (W : WF t) {key : List Nat} (h0 : 0 ∉ key) (v : Int)
    (ow : Bool) :
    (trie_store_conditionally_unbounded t key v ow = none ∧ ¬ InAlphabet t.alpha_map key) ∨
    (InAlphabet t.alpha_map key ∧ ∃ b t1, trie_store_conditionally_unbounded t key v ow = some (b, t1) ∧
      WF t1 ∧ t1.alpha_map = t.alpha_map ∧
      (b = true ↔ (trie_retrieve_unbounded t key = none ∨ ow = true)) ∧
      (b = false → t1 = t) ∧ (b = true → t1.is_dirty = true) ∧
      (b = true → ∀ k1, 0 ∉ k1 →
        trie_retrieve_unbounded t1 k1 = if k1 = key then some v else trie_retrieve_unbounded t k1)) := by
  rcases store_spec W h0 v ow with h | ⟨hret, hk, t1, hres, W1, ham, hd, hst⟩ |
      ⟨v0, i, hret, hk, hres, W1, _, hst⟩
  · exact Or.inl h
  · right
    refine ⟨hk, true, t1, hres, W1, ham, by simp [hret], by simp, fun _ => hd, fun _ => ?_⟩
    apply retrieve_update W W1 ham hk (some v)
    intro ks v1
    rw [hst]
    constructor
    · rintro (⟨h1, h2⟩ | h)
      · exact Or.inl ⟨h1, by rw [h2]⟩
      · by_cases hks : ks = key.map (alpha_map_char_to_trie t.alpha_map)
        · rw [hks] at h
          have := (retrieve_iff W key h0 v1).2 h
          rw [hret] at this; simp at this
        · exact Or.inr ⟨hks, h⟩
    · rintro (⟨h1, h2⟩ | ⟨_, h⟩)
      · exact Or.inl ⟨h1, (Option.some.inj h2).symm⟩
      · exact Or.inr h
  · right
    cases ow with
    | false =>
      refine ⟨hk, false, t, by simpa using hres, W, rfl, by simp [hret], fun _ => rfl,
        by simp, by simp⟩
    | true =>
      refine ⟨hk, true, _, by simpa using hres, W1, rfl, by simp, by simp, fun _ => rfl,
        fun _ => ?_⟩
      apply retrieve_update W W1 rfl hk (some v)
      intro ks v1
      rw [hst]
      constructor
      · rintro (⟨h1, h2⟩ | h)
        · exact Or.inl ⟨h1, by rw [h2]⟩
        · exact Or.inr h
      · rintro (⟨h1, h2⟩ | h)
        · exact Or.inl ⟨h1, (Option.some.inj h2).symm⟩
        · exact Or.inr h

/-- What a delete does, in terms of retrieval. -/
theorem delete_retrieve {t : Trie} (W : WF t) {key : List Nat} (h0 : 0 ∉ key) :
    WF (trie_delete_unbounded t key).2 ∧ (trie_delete_unbounded t key).2.alpha_map = t.alpha_map ∧
    ((trie_delete_unbounded t key).1 = true ↔ trie_retrieve_unbounded t key ≠ none) ∧
    ((trie_delete_unbounded t key).1 = false → (trie_delete_unbounded t key).2 = t) ∧
    ((trie_delete_unbounded t key).1 = true → (trie_delete_unbounded t key).2.is_dirty = true) ∧
    ∀ k1, 0 ∉ k1 →
      trie_retrieve_unbounded (trie_delete_unbounded t key).2 k1 = if k1 = key then none else trie_retrieve_unbounded t k1 := by
  rcases delete_spec W h0 with ⟨hret, hres⟩ | ⟨v0, hret, t1, hres, W1, ham, hd, hst⟩
  · rw [hres]
    refine ⟨W, rfl, by simp [hret], fun _ => rfl, by simp, fun k1 _ => ?_⟩
    by_cases hkk : k1 = key
    · rw [if_pos hkk, hkk]; exact hret
    · rw [if_neg hkk]
  · rw [hres]
    refine ⟨W1, ham, by simp [hret], by simp, fun _ => hd, fun k1 h1 => ?_⟩
    refine retrieve_update W W1 ham (stored_in_alphabet W h0 hret) none ?_ k1 h1
    intro ks v1
    rw [hst]
    constructor
    · intro h; exact Or.inr h
    · rintro (⟨_, h⟩ | h)
      · simp at h
      · exact h

/-- The refinement: a reachable trie is well-formed and `trie_retrieve_unbounded` returns the map it is
to hold. -/
theorem holds_retrieve {t : Trie} {m : List Nat → Option Int} (h : HoldsUnbounded t m) :
    WF t ∧ (∀ k, 0 ∉ k → trie_retrieve_unbounded t k = m k) ∧ (∀ k, 0 ∈ k → m k = none) := by
  induction h with
  | new am => exact ⟨trie_new_wf am, fun k _ => trie_new_retrieve am k, fun _ _ => rfl⟩
  | @store t t1 m key v b _ h0 hres ih =>
    obtain ⟨W, hr, hz⟩ := ih
    rcases store_retrieve W h0 v true with ⟨hn, _⟩ | ⟨_, b1, t2, hres1, W1, _, _, hf, _, ht⟩
    · unfold trie_store_unbounded at hres; rw [hn] at hres; simp at hres
    · unfold trie_store_unbounded at hres
      rw [hres1] at hres
      simp only [Option.some.injEq, Prod.mk.injEq] at hres
      obtain ⟨rfl, rfl⟩ := hres
      cases b1 with
      | false =>
        simp only [Bool.false_eq_true, if_false]
        rw [hf rfl]; exact ⟨W, hr, hz⟩
      | true =>
        simp only [if_true]
        refine ⟨W1, fun k hk => ?_, fun k hk => ?_⟩
        · rw [ht rfl k hk]
          by_cases hkk : k = key
          · rw [if_pos hkk, hkk]; simp
          · rw [if_neg hkk, Function.update_noteq hkk]; exact hr k hk
        · have hkk : k ≠ key := fun e => h0 (e ▸ hk)
          rw [Function.update_noteq hkk]; exact hz k hk
  | @store_if_absent t t1 m key v b _ h0 hres ih =>
    obtain ⟨W, hr, hz⟩ := ih
    rcases store_retrieve W h0 v false with ⟨hn, _⟩ | ⟨_, b1, t2, hres1, W1, _, _, hf, _, ht⟩
    · unfold trie_store_if_absent_unbounded at hres; rw [hn] at hres; simp at hres
    · unfold trie_store_if_absent_unbounded at hres
      rw [hres1] at hres
      simp only [Option.some.injEq, Prod.mk.injEq] at hres
      obtain ⟨rfl, rfl⟩ := hres
      cases b1 with
      | false =>
        simp only [Bool.false_eq_true, if_false]
        rw [hf rfl]; exact ⟨W, hr, hz⟩
      | true =>
        simp only [if_true]
        refine ⟨W1, fun k hk => ?_, fun k hk => ?_⟩
        · rw [ht rfl k hk]
          by_cases hkk : k = key
          · rw [if_pos hkk, hkk]; simp
          · rw [if_neg hkk, Function.update_noteq hkk]; exact hr k hk
        · have hkk : k ≠ key := fun e => h0 (e ▸ hk)
          rw [Function.update_noteq hkk]; exact hz k hk
  | @delete t m key _ h0 ih =>
    obtain ⟨W, hr, hz⟩ := ih
    obtain ⟨W1, _, _, hf, _, ht⟩ := delete_retrieve W h0
    cases hb : (trie_delete_unbounded t key).1 with
    | false =>
      simp only [Bool.false_eq_true, if_false]
      rw [hf hb]; exact ⟨W, hr, hz⟩
    | true =>
      simp only [if_true]
      refine ⟨W1, fun k hk => ?_, fun k hk => ?_⟩
      · rw [ht k hk]
        by_cases hkk : k = key
        · rw [if_pos hkk, hkk]; simp
        · rw [if_neg hkk, Function.update_noteq hkk]; exact hr k hk
      · have hkk : k ≠ key := fun e => h0 (e ▸ hk)
        rw [Function.update_noteq hkk]; exact hz k hk

theorem holds_zero_free {t : Trie} {m : List Nat → Option Int} (h : HoldsUnbounded t m) {k : List Nat}
    (hk : m k ≠ none) : 0 ∉ k := fun h0 => hk ((holds_retrieve h).2.2 k h0)

/-! ## The `short` offset of the code against the unbounded offset of the reference model -/

theorem tail_walk_char_neg (tl : Tail) (s : Int) {idx : Int} (h : idx < 0) (c : Nat) :
    tail_walk_char tl s idx c = none := by
  unfold tail_walk_char
  cases tail_get_suffix tl s with
  | none => rfl
  | some suffix => exact if_neg (fun hh => by omega)

theorem walk_tail_neg (t : Trie) (s : Int) {idx : Int} (h : idx < 0) (p : List Nat) :
    walk_tail t s idx p = false := by
  cases p with
  | nil => unfold walk_tail; rw [tail_walk_char_neg _ _ h]; rfl
  | cons c rest => unfold walk_tail; rw [tail_walk_char_neg _ _ h]

/-- The loop "walk through tail" of the code succeeds exactly when the walk with the unbounded
offset succeeds and the offset stays within 32767. -/
theorem walk_tail_code (t : Trie) (s : Int) (p : List Nat) (h0 : 0 ∉ p) :
    ∀ idx : Nat, idx ≤ 32767 →
      walk_tail t s (idx : Int) p =
        (walk_tail_unbounded t s idx p && decide (idx + p.length ≤ 32767)) := by
  induction p with
  | nil =>
    intro idx hidx
    cases hs : tail_get_suffix t.tail s with
    | none =>
      simp only [walk_tail, walk_tail_unbounded, tail_walk_char, tail_walk_char_unbounded, hs]
      rfl
    | some suf =>
      simp only [walk_tail, walk_tail_unbounded, tail_walk_char, tail_walk_char_unbounded, hs,
        Int.toNat_ofNat, List.length_nil, Nat.add_zero, decide_eq_true hidx, Bool.and_true]
      by_cases h : suf.getD idx 0 = alpha_map_char_to_trie t.alpha_map 0
      · rw [if_pos ⟨Int.ofNat_nonneg _, h⟩, if_pos h]; rfl
      · rw [if_neg (fun hh => h hh.2), if_neg h]; rfl
  | cons c rest ih =>
    intro idx hidx
    have hc0 : c ≠ 0 := fun e => h0 (by rw [e]; exact List.mem_cons_self _ _)
    have hr0 : 0 ∉ rest := fun e => h0 (List.mem_cons_of_mem _ e)
    have htc := char_to_trie_ne_zero t.alpha_map hc0
    cases hs : tail_get_suffix t.tail s with
    | none =>
      simp only [walk_tail, walk_tail_unbounded, tail_walk_char, tail_walk_char_unbounded, hs]
      rfl
    | some suf =>
      simp only [walk_tail, walk_tail_unbounded, tail_walk_char, tail_walk_char_unbounded, hs,
        Int.toNat_ofNat]
      by_cases h : suf.getD idx 0 = alpha_map_char_to_trie t.alpha_map c
      · rw [if_pos ⟨Int.ofNat_nonneg _, h⟩, if_pos h]
        simp only [TRIE_CHAR_TERM, if_neg htc, if_neg hc0, List.length_cons]
        by_cases hi : idx + 1 ≤ 32767
        · have hwrap : int16_wrap ((idx : Int) + 1) = ((idx + 1 : Nat) : Int) := by
            rw [int16_wrap_of_fits (by omega) (by omega)]
            rfl
          rw [hwrap, ih hr0 (idx + 1) hi]
          have e : (idx + 1 + rest.length ≤ 32767) ↔ (idx + (rest.length + 1) ≤ 32767) := by
            omega
          rw [decide_eq_decide.2 e]
        · have hwrap : int16_wrap ((idx : Int) + 1) < 0 := by
            have e : (idx : Int) = 32767 := by omega
            rw [e]
            decide
          rw [walk_tail_neg t s hwrap]
          have hn : ¬ idx + (rest.length + 1) ≤ 32767 := by omega
          rw [decide_eq_false hn, Bool.and_false]
      · rw [if_neg (fun hh => h hh.2), if_neg h]
        rfl

/-- The loop "walk through tail" of the code from offset 0. -/
theorem walk_tail_code_zero (t : Trie) (s : Int) (p : List Nat) (h0 : 0 ∉ p) :
    walk_tail t s 0 p = (walk_tail_unbounded t s 0 p && decide (p.length ≤ 32767)) := by
  have h := walk_tail_code t s p h0 0 (by omega)
  simp only [Nat.zero_add] at h
  exact h

/-- Where the loop "walk through branches" leaves a well-formed trie: at a separate node,
whose tail entry holds a suffix; the rest of the key is shorter than the key, or empty. -/
theorem walk_left_leaf {t : Trie} (W : WF t) {key sep : List Nat} {s : Int} (h0 : 0 ∉ key)
    (hw : walk_branches t (da_get_root t.da) key = .left s sep) :
    ∃ q0 T, Path t.da 2 q0 s ∧ t.da.base s < 0 ∧
      trie_da_get_tail_index t.da s = -(t.da.base s) ∧
      tail_get_suffix t.tail (-(t.da.base s)) = some T ∧
      (∀ c ∈ T, ValidTC t.alpha_map c) ∧ 0 ∉ sep ∧
      ((∃ k1, key = k1 ++ sep ∧ k1 ≠ [] ∧
          q0 = k1.map (alpha_map_char_to_trie t.alpha_map)) ∨
       (sep = [] ∧ T = [] ∧ q0 = key.map (alpha_map_char_to_trie t.alpha_map) ++ [0])) := by
  obtain ⟨dp, w⟩ := W.da
  have hpost := walk_branches_spec w (Or.inl rfl : IsNode t.da 2) key h0
  have hw2 : walk_branches t 2 key = .left s sep := hw
  rw [hw2] at hpost
  rcases hpost with ⟨k1, hkey, hp, hb⟩ | ⟨hpn, mm, hm, hbm, em⟩
  · have hs : IsNode t.da s := hp.node (Or.inl rfl)
    have hleaf0 : Leaf t.da (k1.map (alpha_map_char_to_trie t.alpha_map)) (-(t.da.base s)) :=
      ⟨s, hp, by omega, by omega⟩
    obtain ⟨T, hT, hTc, _⟩ := W.live _ _ hleaf0
    refine ⟨_, T, hp, hb, tail_index_node w hs, hT, hTc,
      fun hh => h0 (by rw [hkey]; exact List.mem_append_right _ hh),
      Or.inl ⟨k1, hkey, ?_, rfl⟩⟩
    rintro rfl
    simp only [List.map_nil, Path] at hp
    have := w.base2
    rw [hp] at hb
    omega
  · have hpx : Path t.da 2 (key.map (alpha_map_char_to_trie t.alpha_map) ++ [0]) s :=
      hm.snoc em
    have hbx : t.da.base s < 0 := by
      by_contra hn
      exact W.nonsep _ _ hpx (by omega) (by simp)
    have hleaf : Leaf t.da (key.map (alpha_map_char_to_trie t.alpha_map) ++ [0])
        (-(t.da.base s)) := ⟨s, hpx, by omega, by omega⟩
    obtain ⟨suf, hsuf, hsc, hnil⟩ := W.live _ _ hleaf
    have := hnil (by simp)
    subst this
    exact ⟨_, [], hpx, hbx, tail_index_node w em.target_node, hsuf, hsc,
      by rw [hpn]; simp, Or.inr ⟨hpn, rfl, rfl⟩⟩

/-- The rest of a key of at most 32768 characters, where the branches are left, has at most
32767 characters. -/
theorem walk_left_length {t : Trie} (W : WF t) {key sep : List Nat} {s : Int} (h0 : 0 ∉ key)
    (hw : walk_branches t (da_get_root t.da) key = .left s sep) (hlen : key.length ≤ 32768) :
    sep.length ≤ 32767 := by
  obtain ⟨q0, T, _, _, _, _, _, _, hc⟩ := walk_left_leaf W h0 hw
  rcases hc with ⟨k1, hkey, hk1, _⟩ | ⟨hs, _, _⟩
  · have hl : 0 < k1.length := List.length_pos.2 hk1
    rw [hkey, List.length_append] at hlen
    omega
  · rw [hs]; simp

/-- The common-prefix loop on two identical strings runs past their terminators. -/
theorem tail_loop_same {V : Nat → Prop} {d0 : DArray} {p0 : List Nat}
    (H0 : ∀ e j, e ≠ [] → ¬ Leaf d0 (p0 ++ e) j) (T : List Nat) :
    ∀ {d : DArray} {s : Int} {pth : List Nat}, Mid V d0 p0 d s pth →
      (∀ c ∈ T, (c ≠ 0 ∧ c ≤ 255) ∧ V c) → branch_in_tail_loop d s T T = .overrun := by
  induction T with
  | nil =>
    intro d s pth _ _
    unfold branch_in_tail_loop
    exact if_pos rfl
  | cons pc T ih =>
    intro d s pth M hT
    have hpc := hT pc (List.mem_cons_self _ _)
    have hstep := Mid.step H0 M hpc.1.1 hpc.1.2 hpc.2
    unfold branch_in_tail_loop
    simp only [List.headD_cons, if_true, if_neg hpc.1.1, List.tail_cons]
    rw [if_neg (by unfold TRIE_INDEX_ERROR; have := hstep.1; omega)]
    exact ih hstep.2 (fun c hc => hT c (List.mem_cons_of_mem _ hc))

/-- `trie_branch_in_tail` with the suffix that the tail entry already holds: the loop overruns. -/
theorem branch_in_tail_same {t : Trie} (W : WF t) {s0 : Int} {p0 : List Nat}
    (hp0 : Path t.da 2 p0 s0) (hb : t.da.base s0 < 0) (h0p : 0 ∉ p0) {T : List Nat}
    (hT : tail_get_suffix t.tail (-(t.da.base s0)) = some T) (v : Int) :
    branch_in_tail_loop t.da s0 T T = .overrun ∧ trie_branch_in_tail t s0 T v = none := by
  obtain ⟨dp, w⟩ := W.da
  have hs0 : IsNode t.da s0 := hp0.node (Or.inl rfl)
  have hleaf0 : Leaf t.da p0 (-(t.da.base s0)) := ⟨s0, hp0, by omega, by omega⟩
  obtain ⟨T', hT', hTc, _⟩ := W.live _ _ hleaf0
  rw [hT] at hT'
  simp only [Option.some.injEq] at hT'
  subst hT'
  have hl := tail_loop_same (no_leaf_below W hp0 hb) T (mid_init W hp0 hb h0p)
    (fun c hc => ⟨⟨(hTc c hc).1, (hTc c hc).le⟩, hTc c hc⟩)
  refine ⟨hl, ?_⟩
  unfold trie_branch_in_tail
  simp only [tail_index_node w hs0, hT, hl]

/-- The walk in the tail of the code against that of the reference model, where the branches
are left: the code succeeds when the reference model does and the rest of the key has at most
32767 characters. -/
theorem walk_left_code {t : Trie} (W : WF t) {key sep : List Nat} {s : Int} (h0 : 0 ∉ key)
    (hw : walk_branches t (da_get_root t.da) key = .left s sep) :
    walk_tail t (trie_da_get_tail_index t.da s) 0 sep =
      (walk_tail_unbounded t (trie_da_get_tail_index t.da s) 0 sep &&
        decide (sep.length ≤ 32767)) := by
  obtain ⟨_, _, _, _, _, _, _, hsz, _⟩ := walk_left_leaf W h0 hw
  exact walk_tail_code_zero t _ sep hsz

/-- When the code walks the whole rest of the key in the tail although it has more than 32767
characters in common with the suffix, the store that follows is `trie_branch_in_tail` on the
suffix itself, and its loop overruns. -/
theorem store_wrapped {t : Trie} (W : WF t) {key sep : List Nat} {s : Int} (h0 : 0 ∉ key)
    (hw : walk_branches t (da_get_root t.da) key = .left s sep)
    (hu : walk_tail_unbounded t (trie_da_get_tail_index t.da s) 0 sep = true)
    (hlen : ¬ sep.length ≤ 32767) (v : Int) (ow : Bool) :
    trie_store_conditionally t key v ow = none ∧
    ∀ N, alpha_map_char_to_trie_str t.alpha_map sep = some N →
      tail_get_suffix t.tail (trie_da_get_tail_index t.da s) = some N ∧
      branch_in_tail_loop t.da s N N = .overrun := by
  obtain ⟨q0, T, hp, hb, hti, hT, hTc, hsz, hcase⟩ := walk_left_leaf W h0 hw
  have hcode := walk_left_code W h0 hw
  rw [hu, decide_eq_false hlen, Bool.and_false] at hcode
  have hTz : 0 ∉ T := fun hh => (hTc 0 hh).1 rfl
  rw [hti] at hu
  have hTN := (walk_tail_spec hT hTz 0 sep hsz).1 hu
  simp only [List.drop_zero] at hTN
  have hq0 : 0 ∉ q0 := by
    rcases hcase with ⟨k1, hkey, _, hq⟩ | ⟨hs, _, _⟩
    · rw [hq]
      exact map_char_to_trie_no_zero _
        (fun hh => h0 (by rw [hkey]; exact List.mem_append_left _ hh))
    · rw [hs] at hlen
      simp at hlen
  have hsame := branch_in_tail_same W hp hb hq0 hT v
  have hN : ∀ N, alpha_map_char_to_trie_str t.alpha_map sep = some N → N = T := by
    intro N hstr
    by_cases hal : InAlphabet t.alpha_map sep
    · rw [char_to_trie_str_in _ hal] at hstr
      simp only [Option.some.injEq] at hstr
      rw [← hstr, hTN]
    · rw [char_to_trie_str_out _ hsz hal] at hstr
      cases hstr
  constructor
  · unfold trie_store_conditionally
    rw [hw]
    simp only [hcode, Bool.false_eq_true, if_false]
    cases hstr : alpha_map_char_to_trie_str t.alpha_map sep with
    | none => rfl
    | some N =>
      rw [hN N hstr]
      exact hsame.2
  · intro N hstr
    rw [hN N hstr, hti]
    exact ⟨hT, hsame.1⟩

/-- What the `trie_store_conditionally` of the code returns, the reference model returns. -/
theorem store_code_some {t : Trie} (W : WF t) {key : List Nat} (h0 : 0 ∉ key) (v : Int)
    (ow : Bool) {r : Bool × Trie} (h : trie_store_conditionally t key v ow = some r) :
    trie_store_conditionally_unbounded t key v ow = some r := by
  cases hw : walk_branches t (da_get_root t.da) key with
  | failed s p =>
    unfold trie_store_conditionally at h
    unfold trie_store_conditionally_unbounded
    rw [hw] at h ⊢
    exact h
  | left s sep =>
    have hcode := walk_left_code W h0 hw
    by_cases hu : walk_tail_unbounded t (trie_da_get_tail_index t.da s) 0 sep = true
    · by_cases hlen : sep.length ≤ 32767
      · rw [hu, decide_eq_true hlen, Bool.and_true] at hcode
        unfold trie_store_conditionally at h
        unfold trie_store_conditionally_unbounded
        rw [hw] at h ⊢
        simp only [hcode, hu] at h ⊢
        exact h
      · rw [(store_wrapped W h0 hw hu hlen v ow).1] at h
        cases h
    · have hu1 : walk_tail_unbounded t (trie_da_get_tail_index t.da s) 0 sep = false := by
        cases hh : walk_tail_unbounded t (trie_da_get_tail_index t.da s) 0 sep
        · rfl
        · exact absurd hh hu
      rw [hu1, Bool.false_and] at hcode
      unfold trie_store_conditionally at h
      unfold trie_store_conditionally_unbounded
      rw [hw] at h ⊢
      simp only [hcode, hu1] at h ⊢
      exact h

/-- For a key of at most 32768 characters the code does what the reference model does. -/
theorem code_eq_of_length {t : Trie} (W : WF t) {key : List Nat} (h0 : 0 ∉ key)
    (hlen : key.length ≤ 32768) :
    trie_retrieve t key = trie_retrieve_unbounded t key ∧
    (∀ v ow, trie_store_conditionally t key v ow =
      trie_store_conditionally_unbounded t key v ow) ∧
    trie_delete t key = trie_delete_unbounded t key := by
  cases hw : walk_branches t (da_get_root t.da) key with
  | failed s p =>
    refine ⟨?_, fun v ow => ?_, ?_⟩
    · unfold trie_retrieve trie_retrieve_unbounded; rw [hw]
    · unfold trie_store_conditionally trie_store_conditionally_unbounded; rw [hw]
    · unfold trie_delete trie_delete_unbounded; rw [hw]
  | left s sep =>
    have hcode := walk_left_code W h0 hw
    rw [decide_eq_true (walk_left_length W h0 hw hlen), Bool.and_true] at hcode
    refine ⟨?_, fun v ow => ?_, ?_⟩
    · unfold trie_retrieve trie_retrieve_unbounded; rw [hw]; simp only [hcode]
    · unfold trie_store_conditionally trie_store_conditionally_unbounded; rw [hw]
      simp only [hcode]
    · unfold trie_delete trie_delete_unbounded; rw [hw]; simp only [hcode]

/-- The `trie_retrieve` of the code finds what the reference model finds, or nothing. -/
theorem retrieve_code {t : Trie} (W : WF t) {key : List Nat} (h0 : 0 ∉ key) :
    trie_retrieve t key = trie_retrieve_unbounded t key ∨ trie_retrieve t key = none := by
  cases hw : walk_branches t (da_get_root t.da) key with
  | failed s p =>
    left
    unfold trie_retrieve trie_retrieve_unbounded; rw [hw]
  | left s sep =>
    have hcode := walk_left_code W h0 hw
    by_cases hlen : sep.length ≤ 32767
    · rw [decide_eq_true hlen, Bool.and_true] at hcode
      left
      unfold trie_retrieve trie_retrieve_unbounded; rw [hw]; simp only [hcode]
    · rw [decide_eq_false hlen, Bool.and_false] at hcode
      right
      unfold trie_retrieve; rw [hw]; simp only [hcode, Bool.false_eq_true, if_false]

/-- The `trie_delete` of the code does what the reference model does, or fails. -/
theorem delete_code {t : Trie} (W : WF t) {key : List Nat} (h0 : 0 ∉ key) :
    trie_delete t key = trie_delete_unbounded t key ∨ trie_delete t key = (false, t) := by
  cases hw : walk_branches t (da_get_root t.da) key with
  | failed s p =>
    left
    unfold trie_delete trie_delete_unbounded; rw [hw]
  | left s sep =>
    have hcode := walk_left_code W h0 hw
    by_cases hlen : sep.length ≤ 32767
    · rw [decide_eq_true hlen, Bool.and_true] at hcode
      left
      unfold trie_delete trie_delete_unbounded; rw [hw]; simp only [hcode]
    · rw [decide_eq_false hlen, Bool.and_false] at hcode
      right
      unfold trie_delete; rw [hw]; simp only [hcode, Bool.false_eq_true, if_false]

/-- Every trie the code reaches is a trie the reference model reaches, with the same map. -/
theorem holds_unbounded {t : Trie} {m : List Nat → Option Int} (h : Holds t m) :
    HoldsUnbounded t m := by
  induction h with
  | new am => exact HoldsUnbounded.new am
  | @store t t1 m key v b _ h0 hres ih =>
    exact HoldsUnbounded.store ih h0 (store_code_some (holds_retrieve ih).1 h0 v true hres)
  | @store_if_absent t t1 m key v b _ h0 hres ih =>
    exact HoldsUnbounded.store_if_absent ih h0
      (store_code_some (holds_retrieve ih).1 h0 v false hres)
  | @delete t m key _ h0 ih =>
    rcases delete_code (holds_retrieve ih).1 h0 with e | e
    · rw [e]; exact HoldsUnbounded.delete ih h0
    · rw [e]
      simpa using ih

/-- On a trie the code reaches: it is well-formed, the reference model retrieves the map of
its history, and the code retrieves it for every key of at most 32768 characters. -/
theorem holds_code {t : Trie} {m : List Nat → Option Int} (h : Holds t m) :
    WF t ∧ (∀ k, 0 ∉ k → trie_retrieve_unbounded t k = m k) ∧ (∀ k, 0 ∈ k → m k = none) ∧
    ∀ k, 0 ∉ k → k.length ≤ 32768 → trie_retrieve t k = m k := by
  obtain ⟨W, hr, hz⟩ := holds_retrieve (holds_unbounded h)
  exact ⟨W, hr, hz, fun k h0 hlen => by rw [(code_eq_of_length W h0 hlen).1, hr k h0]⟩

theorem getD_ne_zero_lt {suf : List Nat} {idx : Nat} (h : suf.getD idx 0 ≠ 0) :
    idx < suf.length := by
  by_contra hlt
  exact h (List.getD_eq_default _ _ (by omega))

/-- One `tail_walk_char` with an offset of at most 32767 on a pool of suffixes of at most
32767 characters: the `short` offset does as the unbounded one, and stays within 32767. -/
theorem tail_walk_char_short_eq {tl : Tail} (h : ShortSuffixes tl) (s : Int) (idx : Nat)
    (hidx : idx ≤ 32767) (c : Nat) :
    tail_walk_char tl s (idx : Int) c = (tail_walk_char_unbounded tl s idx c).map Int.ofNat ∧
    ∀ r, tail_walk_char_unbounded tl s idx c = some r → r ≤ 32767 := by
  unfold tail_walk_char tail_walk_char_unbounded
  cases hs : tail_get_suffix tl s with
  | none => exact ⟨rfl, fun r hr => by simp at hr⟩
  | some suffix =>
    have hlen := h s suffix hs
    simp only [Int.toNat_ofNat]
    by_cases hc : suffix.getD idx 0 = c
    · rw [if_pos ⟨Int.ofNat_nonneg _, hc⟩, if_pos hc]
      by_cases hz : c = TRIE_CHAR_TERM
      · rw [if_pos hz, if_pos hz]
        exact ⟨rfl, fun r hr => by simp only [Option.some.injEq] at hr; omega⟩
      · rw [if_neg hz, if_neg hz]
        have hlt : idx < suffix.length :=
          getD_ne_zero_lt (by rw [hc]; exact hz)
        constructor
        · simp only [Option.map_some', Option.some.injEq]
          unfold int16_wrap
          show (if ((idx : Int) + 1) % 65536 < 32768 then ((idx : Int) + 1) % 65536
            else ((idx : Int) + 1) % 65536 - 65536) = ((idx + 1 : Nat) : Int)
          split <;> omega
        · intro r hr
          simp only [Option.some.injEq] at hr
          omega
    · rw [if_neg (fun hh => hc hh.2), if_neg hc]
      exact ⟨rfl, fun r hr => by simp at hr⟩

/-- The loop "walk through tail" with the `short` offset does as with the unbounded one. -/
theorem walk_tail_short_eq {t : Trie} (h : ShortSuffixes t.tail) (s : Int) (p : List Nat) :
    ∀ idx : Nat, idx ≤ 32767 → walk_tail t s (idx : Int) p = walk_tail_unbounded t s idx p := by
  induction p with
  | nil =>
    intro idx hidx
    unfold walk_tail walk_tail_unbounded
    rw [(tail_walk_char_short_eq h s idx hidx _).1]
    cases tail_walk_char_unbounded t.tail s idx (alpha_map_char_to_trie t.alpha_map 0) <;> rfl
  | cons c rest ih =>
    intro idx hidx
    obtain ⟨e, hb⟩ := tail_walk_char_short_eq h s idx hidx (alpha_map_char_to_trie t.alpha_map c)
    unfold walk_tail walk_tail_unbounded
    rw [e]
    cases hr : tail_walk_char_unbounded t.tail s idx (alpha_map_char_to_trie t.alpha_map c) with
    | none => rfl
    | some r =>
      simp only [Option.map_some']
      by_cases hc : c = 0
      · rw [if_pos hc, if_pos hc]
      · rw [if_neg hc, if_neg hc]
        exact ih r (hb r hr)

/-- One `trie_state_walk` from a state whose offset is at most 32767. -/
theorem state_walk_short_eq (s : TrieStateUnbounded) (h : ShortSuffixes s.trie.tail)
    (hidx : s.suffix_idx ≤ 32767) (c : Nat) :
    trie_state_walk (state_as_short s) c =
      ((trie_state_walk_unbounded s c).1, state_as_short (trie_state_walk_unbounded s c).2) ∧
    (trie_state_walk_unbounded s c).2.suffix_idx ≤ 32767 ∧
    (trie_state_walk_unbounded s c).2.trie = s.trie := by
  unfold trie_state_walk trie_state_walk_unbounded state_as_short
  cases hsuf : s.is_suffix with
  | false =>
    simp only [Bool.not_false, if_true]
    cases hw : da_walk s.trie.da s.index (alpha_map_char_to_trie s.trie.alpha_map c) with
    | none => exact ⟨by simp only [hsuf], hidx, rfl⟩
    | some next =>
      simp only
      by_cases hsep : trie_da_is_separate s.trie.da next = true
      · rw [if_pos hsep, if_pos hsep]
        exact ⟨rfl, by simp, rfl⟩
      · rw [if_neg hsep, if_neg hsep]
        exact ⟨by simp only [hsuf], hidx, rfl⟩
  | true =>
    simp only [Bool.not_true, Bool.false_eq_true, if_false]
    obtain ⟨e, hb⟩ := tail_walk_char_short_eq h s.index s.suffix_idx hidx
      (alpha_map_char_to_trie s.trie.alpha_map c)
    rw [e]
    cases hr : tail_walk_char_unbounded s.trie.tail s.index s.suffix_idx
        (alpha_map_char_to_trie s.trie.alpha_map c) with
    | none => exact ⟨by simp only [Option.map_none', hsuf], hidx, rfl⟩
    | some r => exact ⟨by simp only [Option.map_some', hsuf]; rfl, hb r hr, rfl⟩

/-- A sequence of `trie_state_walk` calls from a state whose offset is at most 32767. -/
theorem state_after_short_eq (cs : List Nat) :
    ∀ s : TrieStateUnbounded, ShortSuffixes s.trie.tail → s.suffix_idx ≤ 32767 →
      state_after (state_as_short s) cs = state_as_short (state_after_unbounded s cs) ∧
      (state_after_unbounded s cs).suffix_idx ≤ 32767 ∧ (state_after_unbounded s cs).trie = s.trie := by
  induction cs with
  | nil => intro s _ hidx; exact ⟨rfl, hidx, rfl⟩
  | cons c cs ih =>
    intro s h hidx
    obtain ⟨e, hb, ht⟩ := state_walk_short_eq s h hidx c
    unfold state_after state_after_unbounded
    rw [e]
    obtain ⟨i1, i2, i3⟩ := ih (trie_state_walk_unbounded s c).2 (by rw [ht]; exact h) hb
    exact ⟨i1, i2, by rw [i3, ht]⟩

/-- On a pool of suffixes of at most 32767 characters the code retrieves as the reference
model does. -/
theorem retrieve_short_eq {t : Trie} (h : ShortSuffixes t.tail) (key : List Nat) :
    trie_retrieve t key = trie_retrieve_unbounded t key := by
  have hwt : ∀ s p, walk_tail t s 0 p = walk_tail_unbounded t s 0 p :=
    fun s p => walk_tail_short_eq h s p 0 (by omega)
  unfold trie_retrieve trie_retrieve_unbounded
  simp only [hwt]

/-- A trie that fits the file format has suffixes of at most 32767 characters. -/
theorem fits_short_suffixes {t : Trie} (hf : FitsFormat t) : ShortSuffixes t.tail := by
  intro j suf hs
  unfold tail_get_suffix at hs
  by_cases hj : 1 ≤ j ∧ j ≤ t.tail.num_tails
  · rw [if_pos hj] at hs
    have := (hf.suffix j hj.1 hj.2 suf hs).1
    omega
  · rw [if_neg hj] at hs
    cases hs

theorem en_in_alphabet {key : List Nat} (h : ∀ c ∈ key, 97 ≤ c ∧ c ≤ 122) :
    InAlphabet en_alpha_map key := by
  intro c hc
  have := h c hc
  exact ⟨by omega, (97, 122), by simp [en_alpha_map], this⟩

theorem app_in_alphabet : InAlphabet (trie_new en_alpha_map).alpha_map [97, 112, 112] := by
  apply en_in_alphabet
  intro c hc
  simp at hc
  omega

theorem app_trie_alpha : app_trie.alpha_map = en_alpha_map := rfl

theorem app_trie_holds :
    Holds app_trie (Function.update (fun _ => none) [97, 112, 112] (some 2)) := by
  have h0 : (0 : Nat) ∉ [97, 112, 112] := by decide
  have hs : trie_store (trie_new en_alpha_map) [97, 112, 112] 2 = some (true, app_trie) := rfl
  have := Holds.store (Holds.new en_alpha_map) h0 hs
  simpa using this

/-- A store of the code that returns a result is a step of the reference model. -/
theorem store_code_step {t : Trie} {m : List Nat → Option Int} (h : Holds t m)
    {k : List Nat} (h0 : 0 ∉ k) {v : Int} {ow : Bool} {r : Bool × Trie}
    (hs : trie_store_conditionally t k v ow = some r) :
    trie_store_conditionally_unbounded t k v ow = some r ∧ WF r.2 := by
  have hU := holds_unbounded h
  have hsU := store_code_some (holds_retrieve hU).1 h0 v ow hs
  refine ⟨hsU, ?_⟩
  cases ow with
  | true =>
    exact (holds_retrieve (@HoldsUnbounded.store t r.2 m k v r.1 hU h0 hsU)).1
  | false =>
    exact (holds_retrieve (@HoldsUnbounded.store_if_absent t r.2 m k v r.1 hU h0 hsU)).1

/-- Reference model: storing a key within the alphabet returns TRUE and a following retrieve
returns TRUE with the stored value. -/
theorem store_then_retrieve_unbounded {t : Trie} {m : List Nat → Option Int}
    (h : HoldsUnbounded t m) {k : List Nat} (hk : InAlphabet t.alpha_map k) (v : Int) :
    ∃ t1, trie_store_unbounded t k v = some (true, t1) ∧
      trie_retrieve_unbounded t1 k = some v := by
  have W := (holds_retrieve h).1
  have h0 := in_alphabet_no_zero hk
  rcases store_retrieve W h0 v true with ⟨_, hn⟩ | ⟨_, b, t1, hres, _, _, hb, _, _, ht⟩
  · exact absurd hk hn
  · have hbt : b = true := hb.2 (Or.inr rfl)
    subst hbt
    refine ⟨t1, hres, ?_⟩
    rw [ht rfl k h0, if_pos rfl]

/-- C1 (insert/retrieve), amended: on every reachable trie, storing a key within the alphabet
of at most 32768 characters (the empty key included) returns TRUE and a following retrieve
returns TRUE with the stored value. -/
theorem C1_store_then_retrieve {t : Trie} {m : List Nat → Option Int} (h : Holds t m)
    {k : List Nat} (hk : InAlphabet t.alpha_map k) (hlen : k.length ≤ 32768) (v : Int) :
    ∃ t1, trie_store t k v = some (true, t1) ∧ trie_retrieve t1 k = some v := by
  have hU := holds_unbounded h
  have W := (holds_retrieve hU).1
  have h0 := in_alphabet_no_zero hk
  obtain ⟨t1, hs, hr⟩ := store_then_retrieve_unbounded hU hk v
  have hs1 : trie_store t k v = some (true, t1) := by
    show trie_store_conditionally t k v true = _
    rw [(code_eq_of_length W h0 hlen).2.1 v true]
    exact hs
  refine ⟨t1, hs1, ?_⟩
  rw [(code_eq_of_length (store_code_step h h0 hs1).2 h0 hlen).1]
  exact hr

theorem C1_store_then_retrieve_witness :
    Holds (trie_new en_alpha_map) (fun _ => none) ∧
    InAlphabet (trie_new en_alpha_map).alpha_map [97, 112, 112] ∧
    ([97, 112, 112] : List Nat).length ≤ 32768 ∧
    ∃ t1, trie_store (trie_new en_alpha_map) [97, 112, 112] 2 = some (true, t1) ∧
      trie_retrieve t1 [97, 112, 112] = some 2 :=
  ⟨Holds.new en_alpha_map, app_in_alphabet, by decide,
    C1_store_then_retrieve (Holds.new en_alpha_map) app_in_alphabet (by decide) 2⟩

/-- Reference model: a successful store of a key `k` within the alphabet leaves the result of
retrieve of every other key `k1` as it was. -/
theorem store_keeps_other_keys_unbounded {t : Trie} {m : List Nat → Option Int}
    (h : HoldsUnbounded t m) {k : List Nat} (hk : InAlphabet t.alpha_map k) {k1 : List Nat}
    (h1 : 0 ∉ k1) (hne : k1 ≠ k) (v : Int) {t1 : Trie}
    (hs : trie_store_unbounded t k v = some (true, t1)) :
    trie_retrieve_unbounded t1 k1 = trie_retrieve_unbounded t k1 := by
  have W := (holds_retrieve h).1
  have h0 := in_alphabet_no_zero hk
  rcases store_retrieve W h0 v true with ⟨hn, _⟩ | ⟨_, b, t2, hres, _, _, _, _, _, ht⟩
  · unfold trie_store_unbounded at hs; rw [hn] at hs; simp at hs
  · unfold trie_store_unbounded at hs
    rw [hres] at hs
    simp only [Option.some.injEq, Prod.mk.injEq] at hs
    obtain ⟨rfl, rfl⟩ := hs
    rw [ht rfl k1 h1, if_neg hne]

/-- C2 (store frame), amended: on every reachable trie, a successful store of a key `k` within
the alphabet leaves the result of retrieve (found flag and data) of every other key `k1` of at
most 32768 characters as it was, also when one key is a prefix of the other. -/
theorem C2_store_keeps_other_keys {t : Trie} {m : List Nat → Option Int} (h : Holds t m)
    {k : List Nat} (hk : InAlphabet t.alpha_map k) {k1 : List Nat} (h1 : 0 ∉ k1) (hne : k1 ≠ k)
    (hlen : k1.length ≤ 32768) (v : Int) {t1 : Trie}
    (hs : trie_store t k v = some (true, t1)) :
    trie_retrieve t1 k1 = trie_retrieve t k1 := by
  have hU := holds_unbounded h
  have W := (holds_retrieve hU).1
  have h0 := in_alphabet_no_zero hk
  obtain ⟨hsU, W1⟩ := store_code_step h h0 hs
  rw [(code_eq_of_length W1 h1 hlen).1, (code_eq_of_length W h1 hlen).1]
  exact store_keeps_other_keys_unbounded hU hk h1 hne v hsU

theorem C2_store_keeps_other_keys_witness :
    Holds app_trie (Function.update (fun _ => none) [97, 112, 112] (some 2)) ∧
    InAlphabet app_trie.alpha_map [97, 112, 112, 108, 101] ∧
    (0 : Nat) ∉ [97, 112] ∧ ([97, 112] : List Nat) ≠ [97, 112, 112, 108, 101] ∧
    ([97, 112] : List Nat).length ≤ 32768 ∧
    ∀ t1, trie_store app_trie [97, 112, 112, 108, 101] 1 = some (true, t1) →
      trie_retrieve t1 [97, 112] = trie_retrieve app_trie [97, 112] := by
  have hal : InAlphabet app_trie.alpha_map [97, 112, 112, 108, 101] := by
    rw [app_trie_alpha]
    apply en_in_alphabet
    intro c hc
    simp at hc
    omega
  exact ⟨app_trie_holds, hal, by decide, by decide, by decide,
    fun t1 hs => C2_store_keeps_other_keys app_trie_holds hal (by decide) (by decide)
      (by decide) 1 hs⟩

/-- Reference model: deleting a stored key returns TRUE, after which retrieve of that key
returns FALSE and a second delete returns FALSE. -/
theorem delete_stored_key_unbounded {t : Trie} {m : List Nat → Option Int}
    (h : HoldsUnbounded t m) {k : List Nat} (hst : m k ≠ none) :
    (trie_delete_unbounded t k).1 = true ∧
    trie_retrieve_unbounded (trie_delete_unbounded t k).2 k = none ∧
    (trie_delete_unbounded (trie_delete_unbounded t k).2 k).1 = false := by
  obtain ⟨W, hr, _⟩ := holds_retrieve h
  have h0 := holds_zero_free h hst
  obtain ⟨W1, _, hb, _, _, ht⟩ := delete_retrieve W h0
  have hret : trie_retrieve_unbounded (trie_delete_unbounded t k).2 k = none := by
    rw [ht k h0, if_pos rfl]
  refine ⟨hb.2 (by rw [hr k h0]; exact hst), hret, ?_⟩
  have hb1 := (delete_retrieve W1 h0).2.2.1
  cases hd : (trie_delete_unbounded (trie_delete_unbounded t k).2 k).1 with
  | false => rfl
  | true => exact absurd hret (hb1.1 hd)

/-- C4 (delete), amended: on every reachable trie, deleting a stored key of at most 32768
characters returns TRUE, after which retrieve of that key returns FALSE and a second delete
returns FALSE. -/
theorem C4_delete_stored_key {t : Trie} {m : List Nat → Option Int} (h : Holds t m)
    {k : List Nat} (hst : m k ≠ none) (hlen : k.length ≤ 32768) :
    (trie_delete t k).1 = true ∧ trie_retrieve (trie_delete t k).2 k = none ∧
    (trie_delete (trie_delete t k).2 k).1 = false := by
  have hU := holds_unbounded h
  have W := (holds_retrieve hU).1
  have h0 := holds_zero_free hU hst
  have W1 := (delete_retrieve W h0).1
  rw [(code_eq_of_length W h0 hlen).2.2, (code_eq_of_length W1 h0 hlen).2.2,
    (code_eq_of_length W1 h0 hlen).1]
  exact delete_stored_key_unbounded hU hst

theorem C4_delete_stored_key_witness :
    Holds app_trie (Function.update (fun _ => none) [97, 112, 112] (some 2)) ∧
    Function.update (fun _ => (none : Option Int)) [97, 112, 112] (some 2) [97, 112, 112] ≠ none ∧
    ([97, 112, 112] : List Nat).length ≤ 32768 ∧
    ((trie_delete app_trie [97, 112, 112]).1 = true ∧
      trie_retrieve (trie_delete app_trie [97, 112, 112]).2 [97, 112, 112] = none ∧
      (trie_delete (trie_delete app_trie [97, 112, 112]).2 [97, 112, 112]).1 = false) :=
  ⟨app_trie_holds, by simp, by decide,
    C4_delete_stored_key app_trie_holds (by simp) (by decide)⟩

/-- Reference model: storing a key that is held returns TRUE, a following retrieve returns the
new value, and the double-array and every tail suffix are as before. -/
theorem overwrite_unbounded {t : Trie} {m : List Nat → Option Int} (h : HoldsUnbounded t m)
    {k : List Nat} {v1 : Int} (hst : m k = some v1) (v2 : Int) :
    ∃ t1 i, trie_store_unbounded t k v2 = some (true, t1) ∧
      trie_retrieve_unbounded t1 k = some v2 ∧
      t1.da = t.da ∧ t1.tail = tail_set_data t.tail i v2 ∧
      (∀ j, tail_get_suffix t1.tail j = tail_get_suffix t.tail j) ∧
      (∀ j, j ≠ i → tail_get_data t1.tail j = tail_get_data t.tail j) := by
  obtain ⟨W, hr, _⟩ := holds_retrieve h
  have h0 : 0 ∉ k := holds_zero_free h (by rw [hst]; simp)
  have hret : trie_retrieve_unbounded t k = some v1 := by rw [hr k h0]; exact hst
  rcases store_spec W h0 v2 true with ⟨_, hn⟩ | ⟨hnone, _⟩ | ⟨v0, i, _, hk, hres, W1, hsuf, hstored⟩
  · exact absurd (stored_in_alphabet W h0 hret) hn
  · rw [hret] at hnone; simp at hnone
  · refine ⟨Trie.mk t.alpha_map t.da (tail_set_data t.tail i v2) true, i,
      by simpa using hres, ?_, rfl, rfl, hsuf, ?_⟩
    · apply (retrieve_iff W1 k h0 v2).2
      exact (hstored _ _).2 (Or.inl ⟨rfl, rfl⟩)
    · intro j hj
      show tail_get_data (tail_set_data t.tail i v2) j = _
      rw [(tail_set_data_spec W.tail i v2).2.2 j, if_neg (fun hh => hj hh.1)]

/-- C5 (overwrite), amended: on every reachable trie holding a key `k` of at most 32768
characters with value `v1`, storing `k` with `v2` returns TRUE, a following retrieve returns
`v2`, and the double-array and every tail suffix are as before: the tail differs by one
`tail_set_data` only. -/
theorem C5_overwrite {t : Trie} {m : List Nat → Option Int} (h : Holds t m)
    {k : List Nat} {v1 : Int} (hst : m k = some v1) (hlen : k.length ≤ 32768) (v2 : Int) :
    ∃ t1 i, trie_store t k v2 = some (true, t1) ∧ trie_retrieve t1 k = some v2 ∧
      t1.da = t.da ∧ t1.tail = tail_set_data t.tail i v2 ∧
      (∀ j, tail_get_suffix t1.tail j = tail_get_suffix t.tail j) ∧
      (∀ j, j ≠ i → tail_get_data t1.tail j = tail_get_data t.tail j) := by
  have hU := holds_unbounded h
  have W := (holds_retrieve hU).1
  have h0 : 0 ∉ k := holds_zero_free hU (by rw [hst]; simp)
  obtain ⟨t1, i, hs, hr, r1, r2, r3, r4⟩ := overwrite_unbounded hU hst v2
  have hs1 : trie_store t k v2 = some (true, t1) := by
    show trie_store_conditionally t k v2 true = _
    rw [(code_eq_of_length W h0 hlen).2.1 v2 true]
    exact hs
  refine ⟨t1, i, hs1, ?_, r1, r2, r3, r4⟩
  rw [(code_eq_of_length (store_code_step h h0 hs1).2 h0 hlen).1]
  exact hr

theorem C5_overwrite_witness :
    Holds app_trie (Function.update (fun _ => none) [97, 112, 112] (some 2)) ∧
    Function.update (fun _ => (none : Option Int)) [97, 112, 112] (some 2) [97, 112, 112] =
      some 2 ∧
    ([97, 112, 112] : List Nat).length ≤ 32768 ∧
    ∃ t1 i, trie_store app_trie [97, 112, 112] 9 = some (true, t1) ∧
      trie_retrieve t1 [97, 112, 112] = some 9 ∧
      t1.da = app_trie.da ∧ t1.tail = tail_set_data app_trie.tail i 9 ∧
      (∀ j, tail_get_suffix t1.tail j = tail_get_suffix app_trie.tail j) ∧
      (∀ j, j ≠ i → tail_get_data t1.tail j = tail_get_data app_trie.tail j) :=
  ⟨app_trie_holds, by simp, by decide, C5_overwrite app_trie_holds
    (show Function.update (fun _ => (none : Option Int)) [97, 112, 112] (some 2) [97, 112, 112] =
      some 2 by simp) (by decide) 9⟩

/-- Reference model: `trie_store_if_absent` of a key that is held returns FALSE and leaves the
whole trie unchanged. -/
theorem store_if_absent_present_unbounded {t : Trie} {m : List Nat → Option Int}
    (h : HoldsUnbounded t m) {k : List Nat} {v1 : Int} (hst : m k = some v1) (v2 : Int) :
    trie_store_if_absent_unbounded t k v2 = some (false, t) ∧
    trie_retrieve_unbounded t k = some v1 := by
  obtain ⟨W, hr, _⟩ := holds_retrieve h
  have h0 : 0 ∉ k := holds_zero_free h (by rw [hst]; simp)
  have hret : trie_retrieve_unbounded t k = some v1 := by rw [hr k h0]; exact hst
  refine ⟨?_, hret⟩
  rcases store_spec W h0 v2 false with ⟨_, hn⟩ | ⟨hnone, _⟩ | ⟨v0, i, _, hk, hres, _⟩
  · exact absurd (stored_in_alphabet W h0 hret) hn
  · rw [hret] at hnone; simp at hnone
  · simpa using hres

/-- C6 (store if absent), amended: on every reachable trie holding a key `k` of at most 32768
characters with value `v1`, `trie_store_if_absent` of `k` returns FALSE and leaves the whole
trie (double-array, tail, dirty flag) unchanged, so retrieve still returns `v1`. -/
theorem C6_store_if_absent_present {t : Trie} {m : List Nat → Option Int} (h : Holds t m)
    {k : List Nat} {v1 : Int} (hst : m k = some v1) (hlen : k.length ≤ 32768) (v2 : Int) :
    trie_store_if_absent t k v2 = some (false, t) ∧ trie_retrieve t k = some v1 := by
  have hU := holds_unbounded h
  have W := (holds_retrieve hU).1
  have h0 : 0 ∉ k := holds_zero_free hU (by rw [hst]; simp)
  obtain ⟨hs, hr⟩ := store_if_absent_present_unbounded hU hst v2
  constructor
  · show trie_store_conditionally t k v2 false = _
    rw [(code_eq_of_length W h0 hlen).2.1 v2 false]
    exact hs
  · rw [(code_eq_of_length W h0 hlen).1]
    exact hr

theorem C6_store_if_absent_present_witness :
    Holds app_trie (Function.update (fun _ => none) [97, 112, 112] (some 2)) ∧
    Function.update (fun _ => (none : Option Int)) [97, 112, 112] (some 2) [97, 112, 112] =
      some 2 ∧
    ([97, 112, 112] : List Nat).length ≤ 32768 ∧
    (trie_store_if_absent app_trie [97, 112, 112] 9 = some (false, app_trie) ∧
      trie_retrieve app_trie [97, 112, 112] = some 2) :=
  ⟨app_trie_holds, by simp, by decide, C6_store_if_absent_present app_trie_holds
    (show Function.update (fun _ => (none : Option Int)) [97, 112, 112] (some 2) [97, 112, 112] =
      some 2 by simp) (by decide) 9⟩

/-- C7 (out of alphabet), the code at the failing input: with the map `['a','z']`, storing the
key "я" (code point 1103) in the fresh trie does not return FALSE: the failed translation of
the key is passed on and dereferenced (`none`), by `trie_store` and by `trie_store_if_absent`. -/
theorem C7_out_of_alphabet_store :
    trie_store (trie_new en_alpha_map) [1103] 7 = none ∧
    trie_store_if_absent (trie_new en_alpha_map) [1103] 7 = none := by
  constructor <;> rfl

theorem walk_all_append (s : TrieState) (as bs : List Nat) :
    walk_all s (as ++ bs) = (walk_all s as).bind (fun s1 => walk_all s1 bs) := by
  induction as generalizing s with
  | nil => rfl
  | cons a as ih =>
    simp only [List.cons_append, walk_all]
    split
    · exact ih _
    · rfl

/-- Walking in the double-array along a path that ends in a node which is not separate. -/
theorem walk_all_branch {t : Trie} {dp : Int → Nat} (w : WFda t.da dp) (i0 : Int)
    (as : List Nat) : ∀ {s x : Int}, IsNode t.da s →
      Path t.da s (as.map (alpha_map_char_to_trie t.alpha_map)) x → 0 ≤ t.da.base x →
      walk_all ⟨t, s, i0, false⟩ as = some ⟨t, x, i0, false⟩ := by
  induction as with
  | nil =>
    intro s x _ hp _
    simp only [List.map_nil, Path] at hp
    rw [hp]; rfl
  | cons a as ih =>
    intro s x hs hp hb
    obtain ⟨m1, e1, hp1⟩ := hp
    have hw := (walk_iff_edge w hs _ m1).2 e1
    have hm1 : IsNode t.da m1 := e1.target_node
    have hbm : ¬ t.da.base m1 < 0 := by
      cases as with
      | nil => simp only [List.map_nil, Path] at hp1; rw [← hp1]; omega
      | cons b bs =>
        obtain ⟨m2, e2, _⟩ := hp1
        have := (e2.facts w).2.1; omega
    have hstep : trie_state_walk ⟨t, s, i0, false⟩ a = (true, ⟨t, m1, i0, false⟩) := by
      unfold trie_state_walk
      simp only [Bool.not_false, if_true, hw, is_separate_node w hm1, decide_eq_false hbm]
      simp
    unfold walk_all
    rw [hstep]
    simp only [if_true]
    exact ih hm1 hp1 hb

/-- Walking in the double-array along a path that ends in a separate node. -/
theorem walk_all_to_leaf {t : Trie} {dp : Int → Nat} (w : WFda t.da dp) (i0 : Int)
    (as : List Nat) (a : Nat) {s x : Int} (hs : IsNode t.da s)
    (hp : Path t.da s ((as ++ [a]).map (alpha_map_char_to_trie t.alpha_map)) x)
    (hb : t.da.base x < 0) :
    walk_all ⟨t, s, i0, false⟩ (as ++ [a]) = some ⟨t, -(t.da.base x), 0, true⟩ := by
  rw [List.map_append] at hp
  obtain ⟨m, hm, hq⟩ := Path.of_append hp
  obtain ⟨x1, e1, hx1⟩ := hq
  simp only [List.map_nil, Path] at hx1
  subst hx1
  have hbm : 0 ≤ t.da.base m := by have := (e1.facts w).2.1; omega
  have hmn : IsNode t.da m := hm.node hs
  rw [walk_all_append, walk_all_branch w i0 as hs hm hbm]
  have hw := (walk_iff_edge w hmn _ x).2 e1
  have hxn : IsNode t.da x := e1.target_node
  show walk_all ⟨t, m, i0, false⟩ [a] = _
  unfold walk_all trie_state_walk
  simp only [Bool.not_false, if_true, hw, is_separate_node w hxn, decide_eq_true hb,
    tail_index_node w hxn]
  rfl

/-- Walking in the tail along the rest of the suffix, while the offset stays within 32767. -/
theorem walk_all_tail {t : Trie} {j : Int} {suf : List Nat}
    (hs : tail_get_suffix t.tail j = some suf) (as : List Nat) (h0 : 0 ∉ as) :
    ∀ i : Nat, i + as.length ≤ 32767 →
      suf.drop i = as.map (alpha_map_char_to_trie t.alpha_map) →
      walk_all ⟨t, j, (i : Int), true⟩ as = some ⟨t, j, ((i + as.length : Nat) : Int), true⟩ := by
  induction as with
  | nil => intro i _ _; rfl
  | cons a as ih =>
    intro i hlen hd
    have ha0 : a ≠ 0 := fun e => h0 (by rw [e]; exact List.mem_cons_self _ _)
    have htc := char_to_trie_ne_zero t.alpha_map ha0
    have hlt : i < suf.length := by
      by_contra hn
      rw [List.drop_eq_nil_of_le (by omega)] at hd
      simp at hd
    rw [List.drop_eq_getElem_cons hlt] at hd
    simp only [List.map_cons, List.cons.injEq] at hd
    simp only [List.length_cons] at hlen
    have hwrap : int16_wrap ((i : Int) + 1) = ((i + 1 : Nat) : Int) := by
      rw [int16_wrap_of_fits (by omega) (by omega)]
      rfl
    have hstep : trie_state_walk ⟨t, j, (i : Int), true⟩ a =
        (true, ⟨t, j, ((i + 1 : Nat) : Int), true⟩) := by
      unfold trie_state_walk tail_walk_char
      simp only [Bool.not_true, Bool.false_eq_true, if_false, hs]
      rw [if_pos ⟨Int.ofNat_nonneg _, by
        rw [Int.toNat_ofNat, List.getD_eq_getElem _ _ hlt]; exact hd.1⟩]
      simp only [TRIE_CHAR_TERM, if_neg htc, hwrap]
    unfold walk_all
    rw [hstep]
    simp only [if_true]
    rw [ih (fun e => h0 (List.mem_cons_of_mem _ e)) (i + 1) (by omega) hd.2]
    simp only [List.length_cons]
    have e : i + 1 + as.length = i + (as.length + 1) := by omega
    rw [e]

/-- The walk of the terminator at the end of the suffix. -/
theorem walk_term_tail {t : Trie} {j : Int} {suf : List Nat}
    (hs : tail_get_suffix t.tail j = some suf) {i : Nat} (hi : suf.length ≤ i) :
    trie_state_walk ⟨t, j, (i : Int), true⟩ 0 = (true, ⟨t, j, (i : Int), true⟩) := by
  unfold trie_state_walk tail_walk_char
  simp only [Bool.not_true, Bool.false_eq_true, if_false, hs, char_to_trie_zero]
  rw [if_pos ⟨Int.ofNat_nonneg _, by
    rw [Int.toNat_ofNat]; exact List.getD_eq_default _ _ hi⟩]
  simp only [TRIE_CHAR_TERM, if_true]

/-- C10 (walk consistency), amended: on every reachable trie, for every stored key `k` of at
most 32768 characters with value `v`, `trie_state_walk` from `trie_root` succeeds on the
characters of `k` in order and then on the terminator 0, and `trie_state_get_data` on the
resulting state returns `v`. -/
theorem C10_walk_stored_key {t : Trie} {m : List Nat → Option Int} (h : Holds t m)
    {k : List Nat} {v : Int} (hst : m k = some v) (hlen : k.length ≤ 32768) :
    ∃ s1 s2, walk_all (trie_root t) k = some s1 ∧ trie_state_walk s1 0 = (true, s2) ∧
      trie_state_get_data s2 = v := by
  have hU := holds_unbounded h
  obtain ⟨W, hr, _⟩ := holds_retrieve hU
  have h0 : 0 ∉ k := holds_zero_free hU (by rw [hst]; simp)
  have hret : trie_retrieve_unbounded t k = some v := by rw [hr k h0]; exact hst
  obtain ⟨q, j, suf, hl, hs, hd, hf⟩ := (retrieve_iff W k h0 v).1 hret
  obtain ⟨dp, w⟩ := W.da
  obtain ⟨x, hx, hbx, hj⟩ := hl
  have hje : j = -(t.da.base x) := by omega
  have hroot : IsNode t.da 2 := Or.inl rfl
  rcases hf with ⟨hq, hsn⟩ | ⟨hq0, hks⟩
  · -- the terminator is a transition of the double-array
    rw [hq] at hx
    obtain ⟨m1, hm1, e1⟩ := Path.of_snoc hx
    have hbm : 0 ≤ t.da.base m1 := by have := (e1.facts w).2.1; omega
    have hmn : IsNode t.da m1 := hm1.node hroot
    have hxn : IsNode t.da x := e1.target_node
    refine ⟨⟨t, m1, 0, false⟩, ⟨t, j, 0, true⟩, walk_all_branch w 0 k hroot hm1 hbm, ?_, ?_⟩
    · have hw := (walk_iff_edge w hmn 0 x).2 e1
      unfold trie_state_walk
      simp only [Bool.not_false, if_true, char_to_trie_zero, hw, is_separate_node w hxn,
        decide_eq_true (show t.da.base x < 0 by omega), tail_index_node w hxn, hje]
    · unfold trie_state_get_data
      simp only [if_true]
      exact hd
  · -- the key ends in the tail
    obtain ⟨k1, k2, hk, hk1, hk2⟩ := List.map_eq_append_iff.1 hks
    have hk1ne : k1 ≠ [] := by
      rintro rfl
      simp only [List.map_nil] at hk1
      rw [← hk1] at hx
      simp only [Path] at hx
      have := w.base2
      rw [hx] at hbx; omega
    obtain ⟨k1a, a, rfl⟩ : ∃ k1a a, k1 = k1a ++ [a] := by
      rcases List.eq_nil_or_concat k1 with h | ⟨l, b, h⟩
      · exact absurd h hk1ne
      · exact ⟨l, b, by rw [h, List.concat_eq_append]⟩
    have h02 : 0 ∉ k2 := fun e => h0 (by rw [hk]; exact List.mem_append_right _ e)
    have hl2 : 0 + k2.length ≤ 32767 := by
      rw [hk] at hlen
      simp only [List.length_append, List.length_singleton] at hlen
      omega
    have hwalk1 := walk_all_to_leaf w 0 k1a a hroot (by rw [hk1]; exact hx)
      (show t.da.base x < 0 by omega)
    rw [← hje] at hwalk1
    have hwalk2 := walk_all_tail hs k2 h02 0 hl2 (by simpa using hk2.symm)
    refine ⟨⟨t, j, ((0 + k2.length : Nat) : Int), true⟩,
      ⟨t, j, ((0 + k2.length : Nat) : Int), true⟩, ?_, ?_, ?_⟩
    · rw [hk, walk_all_append]
      show (walk_all ⟨t, 2, 0, false⟩ (k1a ++ [a])).bind _ = _
      rw [hwalk1]
      exact hwalk2
    · apply walk_term_tail hs
      rw [← hk2]; simp
    · unfold trie_state_get_data
      simp only [if_true]
      exact hd

theorem C10_walk_stored_key_witness :
    Holds app_trie (Function.update (fun _ => none) [97, 112, 112] (some 2)) ∧
    Function.update (fun _ => (none : Option Int)) [97, 112, 112] (some 2) [97, 112, 112] =
      some 2 ∧
    ([97, 112, 112] : List Nat).length ≤ 32768 ∧
    ∃ s1 s2, walk_all (trie_root app_trie) [97, 112, 112] = some s1 ∧
      trie_state_walk s1 0 = (true, s2) ∧ trie_state_get_data s2 = 2 :=
  ⟨app_trie_holds, by simp, by decide, C10_walk_stored_key app_trie_holds
    (show Function.update (fun _ => (none : Option Int)) [97, 112, 112] (some 2) [97, 112, 112] =
      some 2 by simp) (by decide)⟩

theorem path_foldl {d : DArray} {s x : Int} {q : List Nat} (h : Path d s q x) :
    x = q.foldl (fun s c => d.base s + (c : Int)) s := by
  induction q generalizing s with
  | nil => exact h
  | cons a q ih =>
    obtain ⟨m, e, hm⟩ := h
    show x = List.foldl (fun s c => d.base s + (c : Int)) (d.base s + (a : Int)) q
    rw [← e.2.1]
    exact ih hm

theorem path_take {d : DArray} {x : Int} {q : List Nat} (h : Path d 2 q x) (i : Nat) :
    Path d 2 (q.take i) (nodeAt d q i) := by
  have hq : q.take i ++ q.drop i = q := List.take_append_drop i q
  rw [← hq] at h
  obtain ⟨m, hm, _⟩ := Path.of_append h
  have := path_foldl hm
  unfold nodeAt
  rw [← this]; exact hm

/-- A path from the root is shorter than the number of cells. -/
theorem path_length_lt {d : DArray} {dp : Int → Nat} (w : WFda d dp) {x : Int} {q : List Nat}
    (h : Path d 2 q x) : q.length < d.num_cells.toNat := by
  have hinj : Set.InjOn (nodeAt d q) (Finset.range (q.length + 1) : Set Nat) := by
    intro i hi j hj hij
    simp only [Finset.coe_range, Set.mem_Iio] at hi hj
    have h1 := path_take h i
    have h2 := path_take h j
    rw [hij] at h1
    have := h1.unique w h2
    have hl := congrArg List.length this
    simp only [List.length_take] at hl
    omega
  have hmem : ∀ i ∈ Finset.range (q.length + 1), nodeAt d q i ∈ Finset.Ico 2 d.num_cells := by
    intro i _
    have hn : IsNode d (nodeAt d q i) := (path_take h i).node (Or.inl rfl)
    exact Finset.mem_Ico.2 ⟨hn.ge, w.node_lt hn⟩
  have := Finset.card_le_card_of_injOn (nodeAt d q) hmem hinj
  rw [Finset.card_range, Int.card_Ico] at this
  omega

/-- Every node is reached by a path from the root. -/
theorem node_has_path {d : DArray} {dp : Int → Nat} (w : WFda d dp) :
    ∀ (n : Nat) (s : Int), dp s = n → IsNode d s → ∃ p, Path d 2 p s := by
  intro n
  induction n using Nat.strong_induction_on with
  | _ n ih =>
    intro s hn hs
    rcases hs with h | ⟨h3, hc⟩
    · exact ⟨[], by rw [h]; rfl⟩
    · obtain ⟨hm, hb, hlo, hhi, hd⟩ := w.parent s h3 hc
      obtain ⟨p, hp⟩ := ih (dp (d.check s)) (by omega) (d.check s) rfl hm
      refine ⟨p ++ [(s - d.base (d.check s)).toNat], hp.snoc ⟨hm.ge, ?_, h3, rfl⟩⟩
      omega

/-- The loop of `da_prune_upto` ends before its bound: one more iteration changes nothing. -/
theorem prune_loop_stable {dp : Int → Nat} :
    ∀ (fuel : Nat) (d : DArray) (s : Int), WFda d dp → IsNode d s → dp s < dp 2 + fuel →
      da_prune_upto_loop (fuel + 1) d 2 s = da_prune_upto_loop fuel d 2 s := by
  intro fuel
  induction fuel with
  | zero =>
    intro d s w hs hlt
    obtain ⟨p, hp⟩ := node_has_path w _ s rfl hs
    have := hp.depth w
    omega
  | succ k ih =>
    intro d s w hs hlt
    rw [da_prune_upto_loop]
    conv => rhs; rw [da_prune_upto_loop]
    by_cases hcond : (2 : Int) ≠ s ∧ da_has_children d s = false
    · rw [if_pos hcond, if_pos hcond]
      have hs3 : 3 ≤ s := by
        rcases hs with h | h
        · exact absurd h.symm hcond.1
        · exact h.1
      have hu : 0 ≤ d.check s := by
        rcases hs with h | h
        · exact absurd h.symm hcond.1
        · exact h.2
      have hcl := has_children_false w hs hcond.2
      have w1 := free_cell_wf w hs3 hcl
      have hgc : da_get_check d s = d.check s := by
        unfold da_get_check
        rw [if_pos ⟨by omega, w.node_lt hs⟩]
      have hp := w.parent s hs3 hu
      have hne : d.check s ≠ s := by intro h; rw [h] at hp; omega
      have hpn : IsNode (da_free_cell d s) (d.check s) := by
        rcases hp.1 with h | h
        · exact Or.inl h
        · refine Or.inr ⟨h.1, ?_⟩
          show 0 ≤ Function.update d.check s (-1) (d.check s)
          rw [Function.update_noteq hne]; exact h.2
      rw [hgc]
      exact ih _ _ w1 hpn (by omega)
    · rw [if_neg hcond, if_neg hcond]

/-- The bound `num_cells` on the iterations of `da_prune_upto` is never reached: a larger
bound gives the same double-array. -/
theorem prune_fuel_enough {d : DArray} {dp : Int → Nat} (w : WFda d dp) {s : Int}
    (hs : IsNode d s) (k : Nat) :
    da_prune_upto_loop (d.num_cells.toNat + k) d 2 s = da_prune d s := by
  obtain ⟨p, hp⟩ := node_has_path w _ s rfl hs
  have hd := hp.depth w
  have hl := path_length_lt w hp
  unfold da_prune da_prune_upto da_get_root
  induction k with
  | zero => rfl
  | succ k ih =>
    rw [← ih]
    exact prune_loop_stable (d.num_cells.toNat + k) d s w hs (by omega)

theorem takeWhile_no_zero {l : List Nat} (h : 0 ∉ l) : l.takeWhile (fun c => c ≠ 0) = l := by
  induction l with
  | nil => rfl
  | cons a l ih =>
    have ha : a ≠ 0 := fun e => h (by rw [e]; exact List.mem_cons_self _ _)
    simp only [List.takeWhile_cons, ne_eq, ha, not_false_eq_true, decide_True, if_true]
    rw [ih (fun e => h (List.mem_cons_of_mem _ e))]

theorem takeWhile_zero {a : List Nat} (h : 0 ∉ a) (b : List Nat) :
    (a ++ 0 :: b).takeWhile (fun c => c ≠ 0) = a := by
  induction a with
  | nil => simp
  | cons x a ih =>
    have hx : x ≠ 0 := fun e => h (by rw [e]; exact List.mem_cons_self _ _)
    simp only [List.cons_append, List.takeWhile_cons, ne_eq, hx, not_false_eq_true, decide_True,
      if_true]
    rw [ih (fun e => h (List.mem_cons_of_mem _ e))]

/-- The path of a separate node has no terminator, or ends with its only terminator. -/
theorem leaf_shape {t : Trie} (W : WF t) {q : List Nat} {j : Int} (h : Leaf t.da q j) :
    0 ∉ q ∨ ∃ a, q = a ++ [0] ∧ 0 ∉ a := by
  obtain ⟨dp, w⟩ := W.da
  by_cases h0 : 0 ∈ q
  · right
    obtain ⟨a, b, hab, ha⟩ : ∃ a b, q = a ++ 0 :: b ∧ 0 ∉ a := by
      have key : ∀ l : List Nat, 0 ∈ l → ∃ a b, l = a ++ 0 :: b ∧ 0 ∉ a := by
        intro l
        induction l with
        | nil => intro h; simp at h
        | cons x l ih =>
          intro hm
          by_cases hx : x = 0
          · exact ⟨[], l, by simp [hx], by simp⟩
          · have hl : 0 ∈ l := by
              rcases List.mem_cons.1 hm with h | h
              · exact absurd h.symm hx
              · exact h
            obtain ⟨a, b, hab, ha⟩ := ih hl
            refine ⟨x :: a, b, by simp [hab], ?_⟩
            intro hm2
            rcases List.mem_cons.1 hm2 with h | h
            · exact hx h.symm
            · exact ha h
      exact key q h0
    obtain ⟨x, hx, hbx, hj⟩ := h
    rw [hab] at hx
    have e : a ++ 0 :: b = (a ++ [0]) ++ b := by simp
    rw [e] at hx
    obtain ⟨m, hm, hb⟩ := Path.of_append hx
    have hbm : t.da.base m < 0 := by
      by_contra hn
      exact W.nonsep _ _ hm (by omega) (by simp)
    have hcl := childless_of_base_le w (hm.node (Or.inl rfl)).ge (show t.da.base m ≤ 0 by omega)
    cases b with
    | nil => exact ⟨a, by rw [hab], ha⟩
    | cons c b =>
      obtain ⟨m1, e1, _⟩ := hb
      exact absurd e1 (hcl.no_edge _ _)
  · exact Or.inl h0

/-- The trie string read off a separate node by `trie_da_enum_func` is the one it spells, and
consists of trie characters of the alphabet. -/
theorem leaf_spelling {t : Trie} (W : WF t) {q : List Nat} {j : Int} (h : Leaf t.da q j) :
    ∃ suf, tail_get_suffix t.tail j = some suf ∧
      Full q suf (q.takeWhile (fun c => c ≠ 0) ++ suf.takeWhile (fun c => c ≠ 0)) ∧
      ∀ c ∈ q.takeWhile (fun c => c ≠ 0) ++ suf.takeWhile (fun c => c ≠ 0),
        ValidTC t.alpha_map c := by
  obtain ⟨suf, hs, hv, hnil⟩ := W.live q j h
  have hz : 0 ∉ suf := fun hm => (hv 0 hm).1 rfl
  obtain ⟨x, hx, _, _⟩ := h
  have hlab := W.labels q x hx
  refine ⟨suf, hs, ?_, ?_⟩
  · rcases leaf_shape W ⟨x, hx, by assumption, by assumption⟩ with h0 | ⟨a, ha, ha0⟩
    · rw [takeWhile_no_zero h0, takeWhile_no_zero hz]
      exact Or.inr ⟨h0, rfl⟩
    · have hsn := hnil (by rw [ha]; simp)
      subst hsn
      rw [ha, takeWhile_zero ha0]
      simp only [List.takeWhile_nil, List.append_nil]
      exact Or.inl ⟨rfl, rfl⟩
  · intro c hc
    rcases List.mem_append.1 hc with h1 | h1
    · have hcq : c ∈ q := List.takeWhile_subset _ h1
      rcases hlab c hcq with h2 | h2
      · exfalso
        have := List.mem_takeWhile_imp h1
        simp at this
        exact this h2
      · exact h2
    · exact hv c (List.takeWhile_subset _ h1)

theorem map_back_inj {am : AlphaMap} {a b : List Nat} (ha : ∀ c ∈ a, ValidTC am c)
    (hb : ∀ c ∈ b, ValidTC am c)
    (h : a.map (alpha_map_trie_to_char am) = b.map (alpha_map_trie_to_char am)) : a = b := by
  induction a generalizing b with
  | nil => cases b with
    | nil => rfl
    | cons y b => simp at h
  | cons x a ih =>
    cases b with
    | nil => simp at h
    | cons y b =>
      simp only [List.map_cons, List.cons.injEq] at h
      have hx := (ha x (List.mem_cons_self _ _)).tc_back.2.2
      have hy := (hb y (List.mem_cons_self _ _)).tc_back.2.2
      have e : x = y := by rw [← hx, h.1, hy]
      rw [e, ih (fun c hc => ha c (List.mem_cons_of_mem _ hc))
        (fun c hc => hb c (List.mem_cons_of_mem _ hc)) h.2]

theorem map_back_forth {am : AlphaMap} {a : List Nat} (ha : ∀ c ∈ a, ValidTC am c) :
    (a.map (alpha_map_trie_to_char am)).map (alpha_map_char_to_trie am) = a ∧
    0 ∉ a.map (alpha_map_trie_to_char am) := by
  induction a with
  | nil => simp
  | cons x a ih =>
    have hx := (ha x (List.mem_cons_self _ _)).tc_back
    have := ih (fun c hc => ha c (List.mem_cons_of_mem _ hc))
    simp only [List.map_cons, hx.2.2, this.1, List.mem_cons, not_or, true_and]
    exact ⟨fun e => hx.1 e.symm, this.2⟩

theorem map_forth_back {am : AlphaMap} {k : List Nat} (hk : InAlphabet am k) :
    (k.map (alpha_map_char_to_trie am)).map (alpha_map_trie_to_char am) = k := by
  induction k with
  | nil => rfl
  | cons x k ih =>
    have hx := hk x (List.mem_cons_self _ _)
    simp only [List.map_cons, (char_to_trie_covered am hx.1 hx.2).2.2,
      ih (fun c hc => hk c (List.mem_cons_of_mem _ hc))]

theorem symbols_spec {d : DArray} {dp : Int → Nat} (w : WFda d dp) {s : Int} (hs : IsNode d s)
    (hb : 0 ≤ d.base s) :
    (da_output_symbols d s).Nodup ∧
    ∀ c, c ∈ da_output_symbols d s ↔ Edge d s c (d.base s + c) := by
  unfold da_output_symbols
  rw [w.get_base_node hs]
  by_cases h0 : 0 < d.base s
  · rw [if_pos h0]
    refine ⟨(List.nodup_range 256).filter _, fun c => ?_⟩
    rw [List.mem_filter, List.mem_range, w.is_walkable_iff hs]
    constructor
    · rintro ⟨_, h3, hc⟩
      exact ⟨hs.ge, rfl, h3, hc⟩
    · intro e
      have := (e.facts w).2.2.1
      exact ⟨by omega, e.2.2.1, e.2.2.2⟩
  · rw [if_neg h0]
    refine ⟨List.nodup_nil, fun c => ?_⟩
    constructor
    · intro h; simp at h
    · intro e
      exact absurd e ((childless_of_base_le w hs.ge (by omega)).no_edge _ _)

theorem enum_func_leaf {t : Trie} (W : WF t) {s : Int} {pth : List Nat}
    (hp : Path t.da 2 pth s) (hb : t.da.base s < 0) (u : List (List Nat × Int)) :
    trie_da_enum_func t enum_collect pth s u =
      some (true, u ++ [entryOf t (pth, -(t.da.base s))]) := by
  obtain ⟨dp, w⟩ := W.da
  have hs : IsNode t.da s := hp.node (Or.inl rfl)
  have hl : Leaf t.da pth (-(t.da.base s)) := ⟨s, hp, by omega, by omega⟩
  obtain ⟨suf, hsuf, _, _⟩ := W.live _ _ hl
  unfold trie_da_enum_func
  rw [tail_index_node w hs, hsuf]
  simp only [enum_collect, entryOf, hsuf, Option.getD_some]

theorem enum_children_spec {t : Trie} (pth : List Nat)
    (step : Nat → List (List Nat × Int) → Option (Bool × List (List Nat × Int))) :
    ∀ (cs : List Nat), cs.Nodup →
    (∀ c ∈ cs, ∀ u, ∃ P : List (List Nat × Int),
      step c u = some (true, u ++ P.map (entryOf t)) ∧ P.Nodup ∧
      ∀ q j, (q, j) ∈ P ↔ (Leaf t.da q j ∧ ∃ e, q = pth ++ [c] ++ e)) →
    ∀ u, ∃ P : List (List Nat × Int),
      da_enumerate_children step cs u = some (true, u ++ P.map (entryOf t)) ∧ P.Nodup ∧
      ∀ q j, (q, j) ∈ P ↔ (Leaf t.da q j ∧ ∃ c ∈ cs, ∃ e, q = pth ++ [c] ++ e) := by
  intro cs
  induction cs with
  | nil =>
    intro _ _ u
    refine ⟨[], by simp [da_enumerate_children], List.nodup_nil, fun q j => ?_⟩
    simp
  | cons c cs ih =>
    intro hnd hstep u
    obtain ⟨hc, hnd1⟩ := List.nodup_cons.1 hnd
    obtain ⟨Pc, hPc, ndc, mc⟩ := hstep c (List.mem_cons_self _ _) u
    obtain ⟨Pr, hPr, ndr, mr⟩ :=
      ih hnd1 (fun c1 h1 => hstep c1 (List.mem_cons_of_mem _ h1)) (u ++ Pc.map (entryOf t))
    refine ⟨Pc ++ Pr, ?_, ?_, ?_⟩
    · simp only [da_enumerate_children, hPc, hPr, List.map_append, List.append_assoc]
    · refine List.nodup_append.2 ⟨ndc, ndr, ?_⟩
      rintro ⟨q, j⟩ h1 h2
      obtain ⟨_, e1, he1⟩ := (mc q j).1 h1
      obtain ⟨_, c1, hc1, e2, he2⟩ := (mr q j).1 h2
      rw [he1] at he2
      simp only [List.append_assoc, List.singleton_append] at he2
      have := List.append_cancel_left he2
      simp only [List.cons.injEq] at this
      exact hc (this.1 ▸ hc1)
    · intro q j
      rw [List.mem_append, mc, mr]
      constructor
      · rintro (⟨hl, e, he⟩ | ⟨hl, c1, hc1, e, he⟩)
        · exact ⟨hl, c, List.mem_cons_self _ _, e, he⟩
        · exact ⟨hl, c1, List.mem_cons_of_mem _ hc1, e, he⟩
      · rintro ⟨hl, c1, hc1, e, he⟩
        rcases List.mem_cons.1 hc1 with h | h
        · subst h; exact Or.inl ⟨hl, e, he⟩
        · exact Or.inr ⟨hl, c1, h, e, he⟩

/-- The depth-first search below `s` reports the separate nodes below `s`, each once. -/
theorem enum_rec_spec {t : Trie} (W : WF t) :
    ∀ (fuel : Nat) (s : Int) (pth : List Nat) (u : List (List Nat × Int)),
    Path t.da 2 pth s → (∀ q x, Path t.da s q x → q.length < fuel) →
    ∃ P : List (List Nat × Int),
      da_enumerate_recursive t.da (trie_da_enum_func t enum_collect) fuel s pth u =
        some (true, u ++ P.map (entryOf t)) ∧ P.Nodup ∧
      ∀ q j, (q, j) ∈ P ↔ (Leaf t.da q j ∧ ∃ e, q = pth ++ e) := by
  obtain ⟨dp, w⟩ := W.da
  intro fuel
  induction fuel with
  | zero =>
    intro s pth u _ hh
    have := hh [] s rfl
    simp at this
  | succ fuel ih =>
    intro s pth u hp hh
    have hs : IsNode t.da s := hp.node (Or.inl rfl)
    simp only [da_enumerate_recursive]
    rw [w.get_base_node hs]
    by_cases hb : t.da.base s < 0
    · rw [if_pos (Or.inl hb), enum_func_leaf W hp hb]
      have hl : Leaf t.da pth (-(t.da.base s)) := ⟨s, hp, by omega, by omega⟩
      refine ⟨[(pth, -(t.da.base s))], by simp, List.nodup_singleton _, fun q j => ?_⟩
      constructor
      · intro hm
        simp only [List.mem_singleton, Prod.mk.injEq] at hm
        rw [hm.1, hm.2]
        exact ⟨hl, [], by simp⟩
      · rintro ⟨hq, e, he⟩
        cases e with
        | nil =>
          simp only [List.append_nil] at he
          subst he
          have := hq.leaf_det hl
          simp [this]
        | cons a e =>
          subst he
          exact absurd hq (no_leaf_below W hp hb (a :: e) j (by simp))
    · have h0 : 0 ∉ pth := W.nonsep pth s hp (by omega)
      have hlast : ¬ (t.da.base s < 0 ∨ pth.getLast? = some TRIE_CHAR_TERM) := by
        rintro (h | h)
        · exact hb h
        · exact h0 (List.mem_of_getLast?_eq_some h)
      rw [if_neg hlast]
      obtain ⟨hnd, hsym⟩ := symbols_spec w hs (show 0 ≤ t.da.base s by omega)
      obtain ⟨P, hP, nd, mP⟩ := enum_children_spec pth
        (fun c u1 => da_enumerate_recursive t.da (trie_da_enum_func t enum_collect) fuel
          (t.da.base s + (c : Int)) (pth ++ [c]) u1)
        (da_output_symbols t.da s) hnd
        (fun c hc u1 => by
          have he := (hsym c).1 hc
          obtain ⟨P, hP, nd, mP⟩ := ih (t.da.base s + (c : Int)) (pth ++ [c]) u1 (hp.snoc he)
            (fun q x hq => by
              have := hh (c :: q) x ⟨_, he, hq⟩
              simp only [List.length_cons] at this
              omega)
          exact ⟨P, hP, nd, mP⟩) u
      refine ⟨P, hP, nd, fun q j => ?_⟩
      rw [mP]
      constructor
      · rintro ⟨hl, c, _, e, he⟩
        exact ⟨hl, [c] ++ e, by rw [he]; simp⟩
      · rintro ⟨hl, e, he⟩
        refine ⟨hl, ?_⟩
        cases e with
        | nil =>
          exfalso
          simp only [List.append_nil] at he
          subst he
          obtain ⟨x, hx, hbx, hj⟩ := hl
          have := hx.path_det hp
          subst this
          omega
        | cons c e =>
          refine ⟨c, ?_, e, by rw [he]; simp⟩
          obtain ⟨x, hx, _, _⟩ := hl
          rw [he] at hx
          obtain ⟨m1, hm1, hq⟩ := Path.of_append hx
          have := hm1.path_det hp
          subst this
          obtain ⟨m2, e2, _⟩ := hq
          have : m2 = t.da.base m1 + (c : Int) := e2.2.1
          subst this
          exact (hsym c).2 e2

/-- With the collecting callback, `trie_enumerate` returns `TRUE` and reports the separate
nodes of the trie, each once. -/
theorem enumerate_spec {t : Trie} (W : WF t) :
    ∃ P : List (List Nat × Int),
      trie_enumerate t enum_collect [] = some (true, P.map (entryOf t)) ∧ P.Nodup ∧
      ∀ q j, (q, j) ∈ P ↔ Leaf t.da q j := by
  obtain ⟨dp, w⟩ := W.da
  obtain ⟨P, hP, nd, mP⟩ := enum_rec_spec W t.da.num_cells.toNat 2 [] []
    (show Path t.da 2 [] 2 from rfl) (fun q x hq => path_length_lt w hq)
  refine ⟨P, ?_, nd, fun q j => ?_⟩
  · unfold trie_enumerate da_enumerate da_get_root
    rw [hP]; simp
  · rw [mP]
    constructor
    · exact fun h => h.1
    · exact fun h => ⟨h, q, by simp⟩

theorem entryOf_leaf {t : Trie} (W : WF t) {q : List Nat} {j : Int} (h : Leaf t.da q j) :
    ∃ suf ks, tail_get_suffix t.tail j = some suf ∧ Full q suf ks ∧
      (∀ c ∈ ks, ValidTC t.alpha_map c) ∧
      entryOf t (q, j) = (ks.map (alpha_map_trie_to_char t.alpha_map), tail_get_data t.tail j) := by
  obtain ⟨suf, hs, hf, hv⟩ := leaf_spelling W h
  refine ⟨suf, _, hs, hf, hv, ?_⟩
  simp only [entryOf, hs, Option.getD_some, List.map_append]

theorem entryOf_inj {t : Trie} (W : WF t) {q q1 : List Nat} {j j1 : Int} (h : Leaf t.da q j)
    (h1 : Leaf t.da q1 j1) (he : entryOf t (q, j) = entryOf t (q1, j1)) : (q, j) = (q1, j1) := by
  obtain ⟨suf, ks, _, hf, hv, e⟩ := entryOf_leaf W h
  obtain ⟨suf1, ks1, _, hf1, hv1, e1⟩ := entryOf_leaf W h1
  rw [e, e1] at he
  simp only [Prod.mk.injEq] at he
  have hk := map_back_inj hv hv1 he.1
  subst hk
  have hq := leaf_spell_unique W h hf h1 hf1
  subst hq
  rw [h.leaf_det h1]

theorem entry_mem_iff {t : Trie} (W : WF t) {P : List (List Nat × Int)}
    (mP : ∀ q j, (q, j) ∈ P ↔ Leaf t.da q j) (k : List Nat) (v : Int) :
    (k, v) ∈ P.map (entryOf t) ↔ (0 ∉ k ∧ trie_retrieve_unbounded t k = some v) := by
  constructor
  · intro hm
    obtain ⟨⟨q, j⟩, hqj, he⟩ := List.mem_map.1 hm
    have hl := (mP q j).1 hqj
    obtain ⟨suf, ks, hs, hf, hv, e⟩ := entryOf_leaf W hl
    rw [e] at he
    simp only [Prod.mk.injEq] at he
    obtain ⟨hk, hd⟩ := he
    have hbf := map_back_forth hv
    rw [hk] at hbf
    refine ⟨hbf.2, (retrieve_iff W k hbf.2 v).2 ?_⟩
    rw [hbf.1]
    exact ⟨q, j, suf, hl, hs, hd, hf⟩
  · rintro ⟨h0, hr⟩
    have hal := stored_in_alphabet W h0 hr
    obtain ⟨q, j, suf, hl, hs, hd, hf⟩ := (retrieve_iff W k h0 v).1 hr
    obtain ⟨suf1, ks, hs1, hf1, hv, e⟩ := entryOf_leaf W hl
    rw [hs] at hs1
    simp only [Option.some.injEq] at hs1
    subst hs1
    have hk := full_functional hf1 hf
    refine List.mem_map.2 ⟨(q, j), (mP q j).2 hl, ?_⟩
    rw [e, hk, map_forth_back hal, hd]

theorem count_of_nodup {α : Type} [BEq α] [LawfulBEq α] {l : List α} (h : l.Nodup) {a : α}
    (ha : a ∈ l) : l.count a = 1 := by
  induction l with
  | nil => simp at ha
  | cons b l ih =>
    obtain ⟨hb, hl⟩ := List.nodup_cons.1 h
    rw [List.count_cons]
    rcases List.mem_cons.1 ha with h1 | h1
    · subst h1
      rw [List.count_eq_zero_of_not_mem hb]
      simp
    · have hne : b ≠ a := fun e => hb (e ▸ h1)
      rw [ih hl h1]
      simp [hne]

/-- C9: for every reachable trie, `trie_enumerate` with a callback that always returns `TRUE`
(and records the pairs it receives) returns `TRUE`, and the list of reported pairs contains
every stored key exactly once with its current value and no other pair: the multiplicity of
`(k, v)` is one if `k` is stored with value `v`, and zero otherwise. -/
theorem C9_enumerate_multiset {t : Trie} {m : List Nat → Option Int} (h : Holds t m) :
    ∃ l, trie_enumerate t enum_collect [] = some (true, l) ∧
      ∀ k v, l.count (k, v) = if m k = some v then 1 else 0 := by
  obtain ⟨W, hr, hz⟩ := holds_retrieve (holds_unbounded h)
  obtain ⟨P, hP, nd, mP⟩ := enumerate_spec W
  refine ⟨P.map (entryOf t), hP, fun k v => ?_⟩
  have hnd : (P.map (entryOf t)).Nodup := by
    refine List.Nodup.map_on ?_ nd
    rintro ⟨q, j⟩ hx ⟨q1, j1⟩ hy he
    exact entryOf_inj W ((mP q j).1 hx) ((mP q1 j1).1 hy) he
  have hiff : (k, v) ∈ P.map (entryOf t) ↔ m k = some v := by
    rw [entry_mem_iff W mP]
    constructor
    · rintro ⟨h0, h1⟩
      rw [← hr k h0]; exact h1
    · intro hm
      have h0 : 0 ∉ k := fun h0 => by rw [hz k h0] at hm; simp at hm
      exact ⟨h0, by rw [hr k h0]; exact hm⟩
  by_cases hm : m k = some v
  · rw [if_pos hm]
    exact count_of_nodup hnd (hiff.2 hm)
  · rw [if_neg hm]
    exact List.count_eq_zero_of_not_mem (fun hh => hm (hiff.1 hh))

theorem C9_enumerate_multiset_witness :
    Holds app_trie (Function.update (fun _ => none) [97, 112, 112] (some 2)) ∧
    ∃ l, trie_enumerate app_trie enum_collect [] = some (true, l) ∧
      ∀ k v, l.count (k, v) =
        if (Function.update (fun _ => none) [97, 112, 112] (some 2) :
          List Nat → Option Int) k = some v then 1 else 0 :=
  ⟨app_trie_holds, C9_enumerate_multiset app_trie_holds⟩

theorem da_walk_isSome (d : DArray) (s : Int) (c : Nat) :
    (da_walk d s c).isSome = da_is_walkable d s c := by
  unfold da_walk da_is_walkable
  by_cases h : da_get_check d (da_get_base d s + (c : Int)) = s
  · simp [h]
  · simp [h]

theorem tail_walk_char_isSome (tl : Tail) (j : Int) (i : Int) (c : Nat) :
    (tail_walk_char tl j i c).isSome = tail_is_walkable_char tl j i c := by
  unfold tail_walk_char tail_is_walkable_char
  cases tail_get_suffix tl j with
  | none => rfl
  | some suf =>
    show (if 0 ≤ i ∧ suf.getD i.toNat 0 = c then
        some (if c = TRIE_CHAR_TERM then i else int16_wrap (i + 1))
      else none).isSome = (decide (0 ≤ i) && (suf.getD i.toNat 0 == c))
    generalize suf.getD i.toNat 0 = x
    by_cases h0 : 0 ≤ i <;> by_cases h : x = c <;> simp [h0, h]

theorem state_walk_flag (s : TrieState) (c : Nat) :
    (trie_state_walk s c).1 = trie_state_is_walkable s c := by
  unfold trie_state_walk trie_state_is_walkable
  cases hs : s.is_suffix with
  | false =>
    simp only [Bool.not_false, if_true]
    rw [← da_walk_isSome]
    cases da_walk s.trie.da s.index (alpha_map_char_to_trie s.trie.alpha_map c) with
    | none => rfl
    | some next => simp only [Option.isSome_some]; split <;> rfl
  | true =>
    simp only [Bool.not_true, Bool.false_eq_true, if_false]
    rw [← tail_walk_char_isSome]
    cases tail_walk_char s.trie.tail s.index s.suffix_idx
        (alpha_map_char_to_trie s.trie.alpha_map c) with
    | none => rfl
    | some idx => rfl

/-- C19 (walkable is the predicate form of walk): for every trie state `s`, in double-array mode
or in tail mode, and every character `c`, `trie_state_is_walkable s c` is TRUE if and only if
`trie_state_walk` on (a copy of) `s` with `c` returns TRUE. -/
theorem C19_is_walkable_iff_walk (s : TrieState) (c : Nat) :
    trie_state_is_walkable s c = true ↔ (trie_state_walk s c).1 = true := by
  rw [state_walk_flag]

/-- C20 (failed walk frame): for every trie state `s` and character `c`, when
`trie_state_walk s c` returns FALSE the state afterwards (index, suffix_idx, is_suffix) is
exactly `s`, in double-array mode and in tail mode. -/
theorem C20_failed_walk_keeps_state (s : TrieState) (c : Nat)
    (h : (trie_state_walk s c).1 = false) : (trie_state_walk s c).2 = s := by
  unfold trie_state_walk at h ⊢
  cases hs : s.is_suffix with
  | false =>
    simp only [hs, Bool.not_false, if_true] at h ⊢
    cases hw : da_walk s.trie.da s.index (alpha_map_char_to_trie s.trie.alpha_map c) with
    | none => rfl
    | some next =>
      rw [hw] at h
      simp only at h
      split at h <;> simp at h
  | true =>
    simp only [hs, Bool.not_true, Bool.false_eq_true, if_false] at h ⊢
    cases hw : tail_walk_char s.trie.tail s.index s.suffix_idx
        (alpha_map_char_to_trie s.trie.alpha_map c) with
    | none => rfl
    | some idx => rw [hw] at h; simp at h

/-- In tail mode, the loop "walk through tail" of `trie_retrieve` succeeds exactly when the
stepwise walk succeeds and ends in a terminal state. -/
theorem walk_tail_iff_state (t : Trie) (j : Int) :
    ∀ rest : List Nat, 0 ∉ rest → ∀ idx : Int,
      (walk_tail t j idx rest = true ↔
        ∃ s1, walk_all ⟨t, j, idx, true⟩ rest = some s1 ∧ trie_state_is_terminal s1 = true) := by
  intro rest
  induction rest with
  | nil =>
    intro _ idx
    simp only [walk_tail, walk_all, Option.some.injEq, exists_eq_left']
    rw [tail_walk_char_isSome]
    rfl
  | cons c rest ih =>
    intro h0 idx
    have hc0 : c ≠ 0 := fun e => h0 (by rw [e]; exact List.mem_cons_self _ _)
    have hr0 : 0 ∉ rest := fun e => h0 (List.mem_cons_of_mem _ e)
    have hstep : trie_state_walk ⟨t, j, idx, true⟩ c =
        match tail_walk_char t.tail j idx (alpha_map_char_to_trie t.alpha_map c) with
        | none => (false, ⟨t, j, idx, true⟩)
        | some idx1 => (true, ⟨t, j, idx1, true⟩) := by
      unfold trie_state_walk
      simp only [Bool.not_true, Bool.false_eq_true, if_false]
    simp only [walk_tail, walk_all, hstep]
    cases tail_walk_char t.tail j idx (alpha_map_char_to_trie t.alpha_map c) with
    | none => simp
    | some idx1 =>
      simp only [if_neg hc0, if_true]
      exact ih hr0 idx1

/-- In double-array mode, the loops of `trie_retrieve` from a node that is not separate succeed
exactly when the stepwise walk succeeds and ends in a terminal state. -/
theorem walk_branches_iff_state {t : Trie} (W : WF t) {dp : Int → Nat} (w : WFda t.da dp) :
    ∀ key : List Nat, 0 ∉ key → ∀ (s : Int) (pth : List Nat) (i0 : Int),
      Path t.da 2 pth s → 0 ≤ t.da.base s →
      ((∃ s1 p, walk_branches t s key = .left s1 p ∧
          walk_tail t (trie_da_get_tail_index t.da s1) 0 p = true) ↔
        ∃ s2, walk_all ⟨t, s, i0, false⟩ key = some s2 ∧ trie_state_is_terminal s2 = true) := by
  intro key
  induction key with
  | nil =>
    intro _ s pth i0 hp hb
    have hs : IsNode t.da s := hp.node (Or.inl rfl)
    have hsep : trie_da_is_separate t.da s = false := by
      rw [is_separate_node w hs]; exact decide_eq_false (by omega)
    have hterm : trie_state_is_terminal ⟨t, s, i0, false⟩ = (da_walk t.da s 0).isSome := by
      rw [da_walk_isSome]
      unfold trie_state_is_terminal trie_state_is_walkable
      simp only [Bool.not_false, if_true, TRIE_CHAR_TERM, char_to_trie_zero]
    simp only [walk_branches, hsep, Bool.false_eq_true, if_false, char_to_trie_zero, walk_all,
      Option.some.injEq, exists_eq_left', hterm]
    cases hw : da_walk t.da s 0 with
    | none => simp
    | some s1 =>
      simp only [BranchWalk.left.injEq, Option.isSome_some, iff_true]
      refine ⟨s1, [], ⟨rfl, rfl⟩, ?_⟩
      have he := (walk_iff_edge w hs 0 s1).1 hw
      have hp1 : Path t.da 2 (pth ++ [0]) s1 := hp.snoc he
      have hb1 : t.da.base s1 < 0 := by
        by_contra hn
        exact W.nonsep _ _ hp1 (by omega) (by simp)
      have hl : Leaf t.da (pth ++ [0]) (-(t.da.base s1)) := ⟨s1, hp1, by omega, by omega⟩
      obtain ⟨suf, hsuf, _, hnil⟩ := W.live _ _ hl
      have hsn := hnil (by simp)
      subst hsn
      rw [tail_index_node w he.target_node]
      simp [walk_tail, tail_walk_char, hsuf, char_to_trie_zero]
  | cons c rest ih =>
    intro h0 s pth i0 hp hb
    have hc0 : c ≠ 0 := fun e => h0 (by rw [e]; exact List.mem_cons_self _ _)
    have hr0 : 0 ∉ rest := fun e => h0 (List.mem_cons_of_mem _ e)
    have hs : IsNode t.da s := hp.node (Or.inl rfl)
    have hsep : trie_da_is_separate t.da s = false := by
      rw [is_separate_node w hs]; exact decide_eq_false (by omega)
    simp only [walk_branches, hsep, Bool.false_eq_true, if_false, walk_all]
    cases hw : da_walk t.da s (alpha_map_char_to_trie t.alpha_map c) with
    | none =>
      have hstep : trie_state_walk ⟨t, s, i0, false⟩ c = (false, ⟨t, s, i0, false⟩) := by
        unfold trie_state_walk
        simp only [Bool.not_false, if_true, hw]
      simp [hstep]
    | some s1 =>
      have he := (walk_iff_edge w hs _ s1).1 hw
      have hp1 := hp.snoc he
      have hs1 : IsNode t.da s1 := he.target_node
      simp only [if_neg hc0]
      by_cases hb1 : t.da.base s1 < 0
      · have hsep1 : trie_da_is_separate t.da s1 = true := by
          rw [is_separate_node w hs1]; exact decide_eq_true hb1
        have hstep : trie_state_walk ⟨t, s, i0, false⟩ c =
            (true, ⟨t, trie_da_get_tail_index t.da s1, 0, true⟩) := by
          unfold trie_state_walk
          simp only [Bool.not_false, if_true, hw, hsep1]
        have hwb : walk_branches t s1 rest = .left s1 rest := by
          cases rest with
          | nil => simp only [walk_branches, hsep1, if_true]
          | cons b bs => simp only [walk_branches, hsep1, if_true]
        rw [hstep, hwb]
        simp only [BranchWalk.left.injEq, if_true]
        rw [← walk_tail_iff_state t _ rest hr0 0]
        constructor
        · rintro ⟨s2, p, ⟨rfl, rfl⟩, h⟩; exact h
        · intro h; exact ⟨s1, rest, ⟨rfl, rfl⟩, h⟩
      · have hsep1 : trie_da_is_separate t.da s1 = false := by
          rw [is_separate_node w hs1]; exact decide_eq_false hb1
        have hstep : trie_state_walk ⟨t, s, i0, false⟩ c = (true, ⟨t, s1, i0, false⟩) := by
          unfold trie_state_walk
          simp only [Bool.not_false, if_true, hw, hsep1]
          rfl
        rw [hstep]
        simp only [if_true]
        exact ih hr0 s1 _ i0 hp1 (by omega)

theorem retrieve_isSome_iff (t : Trie) (k : List Nat) :
    (trie_retrieve t k).isSome = true ↔
      ∃ s1 p, walk_branches t (da_get_root t.da) k = .left s1 p ∧
        walk_tail t (trie_da_get_tail_index t.da s1) 0 p = true := by
  unfold trie_retrieve
  cases walk_branches t (da_get_root t.da) k with
  | failed s p => simp
  | left s p =>
    simp only [BranchWalk.left.injEq]
    by_cases h : walk_tail t (trie_da_get_tail_index t.da s) 0 p = true
    · rw [if_pos h]
      simp only [Option.isSome_some, true_iff]
      exact ⟨s, p, ⟨rfl, rfl⟩, h⟩
    · rw [if_neg h]
      simp only [Option.isSome_none, Bool.false_eq_true, false_iff]
      rintro ⟨s2, p2, ⟨rfl, rfl⟩, h2⟩
      exact h h2

/-- Stepwise walking agrees with `trie_retrieve` on well-formed tries. -/
theorem walk_iff_retrieve {t : Trie} (W : WF t) (k : List Nat) (h0 : 0 ∉ k) :
    (∃ s1, walk_all (trie_root t) k = some s1 ∧ trie_state_is_terminal s1 = true) ↔
      (trie_retrieve t k).isSome = true := by
  obtain ⟨dp, w⟩ := W.da
  rw [retrieve_isSome_iff]
  exact (walk_branches_iff_state W w k h0 2 [] 0 (show Path t.da 2 [] 2 from rfl)
    (by have := w.base2; omega)).symm

/-- C11 (stepwise walking agrees with retrieve): on every reachable trie, for every key `k`
within the alphabet, the walk of the characters of `k` in order from `trie_root` succeeds at
every step with `trie_state_is_terminal` TRUE on the final state if and only if
`trie_retrieve` of `k` returns TRUE. -/
theorem C11_walk_agrees_with_retrieve {t : Trie} {m : List Nat → Option Int} (h : Holds t m)
    {k : List Nat} (hk : InAlphabet t.alpha_map k) :
    (∃ s1, walk_all (trie_root t) k = some s1 ∧ trie_state_is_terminal s1 = true) ↔
      (trie_retrieve t k).isSome = true :=
  walk_iff_retrieve (holds_code h).1 k (in_alphabet_no_zero hk)

theorem C11_walk_agrees_with_retrieve_witness :
    Holds app_trie (Function.update (fun _ => none) [97, 112, 112] (some 2)) ∧
    InAlphabet app_trie.alpha_map [97, 112, 112] ∧
    ((∃ s1, walk_all (trie_root app_trie) [97, 112, 112] = some s1 ∧
        trie_state_is_terminal s1 = true) ↔
      (trie_retrieve app_trie [97, 112, 112]).isSome = true) :=
  ⟨app_trie_holds, app_in_alphabet,
    C11_walk_agrees_with_retrieve app_trie_holds
      (show InAlphabet app_trie.alpha_map [97, 112, 112] from app_in_alphabet)⟩

theorem branch_in_branch_with_eq (t : Trie) (s : Int) (suffix : List Nat) (data : Int) :
    trie_branch_in_branch_with da_insert_branch t s suffix data =
      trie_branch_in_branch t s suffix data := rfl

theorem branch_in_tail_loop_with_eq (p : List Nat) :
    ∀ (d : DArray) (s : Int) (suffix : List Nat),
      branch_in_tail_loop_with da_insert_branch d s p suffix = branch_in_tail_loop d s p suffix := by
  induction p with
  | nil => intro d s suffix; rfl
  | cons pc p ih =>
    intro d s suffix
    simp only [branch_in_tail_loop_with, branch_in_tail_loop, ih]

theorem branch_in_tail_with_eq (t : Trie) (s : Int) (suffix : List Nat) (data : Int) :
    trie_branch_in_tail_with da_insert_branch t s suffix data =
      trie_branch_in_tail t s suffix data := by
  unfold trie_branch_in_tail_with trie_branch_in_tail
  simp only [branch_in_tail_loop_with_eq, branch_in_branch_with_eq]

/-- With the model of `da_insert_branch` for `ins`, the stores are those of the facade. -/
theorem store_conditionally_with_eq (t : Trie) (key : List Nat) (data : Int) (ow : Bool) :
    trie_store_conditionally_with da_insert_branch t key data ow =
      trie_store_conditionally t key data ow := by
  unfold trie_store_conditionally_with trie_store_conditionally
  simp only [branch_in_tail_with_eq, branch_in_branch_with_eq]

theorem branch_in_branch_dirty (ins : DArray → Int → Nat → Int × DArray) (t : Trie) (s : Int)
    (suffix : List Nat) (data : Int) :
    ((trie_branch_in_branch_with ins t s suffix data).1 = true →
      (trie_branch_in_branch_with ins t s suffix data).2.is_dirty = true) ∧
    ((trie_branch_in_branch_with ins t s suffix data).1 = false →
      (trie_branch_in_branch_with ins t s suffix data).2.is_dirty = t.is_dirty) := by
  unfold trie_branch_in_branch_with
  dsimp only
  split
  · exact ⟨fun h1 => by simp at h1, fun _ => rfl⟩
  · exact ⟨fun _ => rfl, fun h1 => by simp at h1⟩

theorem branch_in_tail_dirty (ins : DArray → Int → Nat → Int × DArray) (t : Trie) (s : Int)
    (suffix : List Nat) (data : Int) (b : Bool) (t1 : Trie)
    (h : trie_branch_in_tail_with ins t s suffix data = some (b, t1)) :
    (b = true → t1.is_dirty = true) ∧ (b = false → t1.is_dirty = t.is_dirty) := by
  unfold trie_branch_in_tail_with at h
  dsimp only at h
  cases hsuf : tail_get_suffix t.tail (trie_da_get_tail_index t.da s) with
  | none =>
    rw [hsuf] at h
    simp only [Option.some.injEq, Prod.mk.injEq] at h
    obtain ⟨rfl, rfl⟩ := h
    exact ⟨fun h1 => by simp at h1, fun _ => rfl⟩
  | some old_suffix =>
    rw [hsuf] at h
    simp only at h
    cases hl : branch_in_tail_loop_with ins t.da s old_suffix suffix with
    | overrun => rw [hl] at h; simp at h
    | fail d s1 =>
      rw [hl] at h
      simp only [Option.some.injEq, Prod.mk.injEq] at h
      obtain ⟨rfl, rfl⟩ := h
      exact ⟨fun h1 => by simp at h1, fun _ => rfl⟩
    | done d s1 p suffix1 =>
      rw [hl] at h
      simp only at h
      by_cases he : TRIE_INDEX_ERROR = (ins d s1 (p.headD 0)).1
      · rw [if_pos he] at h
        simp only [Option.some.injEq, Prod.mk.injEq] at h
        obtain ⟨rfl, rfl⟩ := h
        exact ⟨fun h1 => by simp at h1, fun _ => rfl⟩
      · rw [if_neg he] at h
        simp only [Option.some.injEq] at h
        have hd := branch_in_branch_dirty ins
          { t with da := trie_da_set_tail_index (ins d s1 (p.headD 0)).2
                      (ins d s1 (p.headD 0)).1 (trie_da_get_tail_index t.da s),
                   tail := tail_set_suffix t.tail (trie_da_get_tail_index t.da s)
                      (if p.headD 0 ≠ 0 then p.tail else p) } s1 suffix1 data
        rw [h] at hd
        exact hd

/-- The dirty flag after `trie_store_conditionally`, whatever `da_insert_branch` does: set after
a call that returns TRUE, as before after a call that returns FALSE. -/
theorem store_conditionally_dirty (ins : DArray → Int → Nat → Int × DArray) (t : Trie)
    (key : List Nat) (data : Int) (ow : Bool) (b : Bool) (t1 : Trie)
    (h : trie_store_conditionally_with ins t key data ow = some (b, t1)) :
    (b = true → t1.is_dirty = true) ∧ (b = false → t1.is_dirty = t.is_dirty) := by
  unfold trie_store_conditionally_with at h
  dsimp only at h
  cases hw : walk_branches t (da_get_root t.da) key with
  | failed s p =>
    rw [hw] at h
    simp only at h
    cases hs : alpha_map_char_to_trie_str t.alpha_map p with
    | none => rw [hs] at h; simp at h
    | some key_str =>
      rw [hs] at h
      simp only [Option.some.injEq] at h
      have hd := branch_in_branch_dirty ins t s key_str data
      rw [h] at hd
      exact hd
  | left s sep =>
    rw [hw] at h
    simp only at h
    by_cases hwt : walk_tail t (trie_da_get_tail_index t.da s) 0 sep = true
    · rw [if_pos hwt] at h
      cases ow with
      | false =>
        simp only [Bool.not_false, if_true, Option.some.injEq, Prod.mk.injEq] at h
        obtain ⟨rfl, rfl⟩ := h
        exact ⟨fun h1 => by simp at h1, fun _ => rfl⟩
      | true =>
        simp only [Bool.not_true, Bool.false_eq_true, if_false, Option.some.injEq,
          Prod.mk.injEq] at h
        obtain ⟨rfl, rfl⟩ := h
        exact ⟨fun _ => rfl, fun h1 => by simp at h1⟩
    · rw [if_neg hwt] at h
      cases hs : alpha_map_char_to_trie_str t.alpha_map sep with
      | none => rw [hs] at h; simp at h
      | some tail_str =>
        rw [hs] at h
        exact branch_in_tail_dirty ins t s tail_str data b t1 h

theorem delete_dirty (t : Trie) (key : List Nat) :
    ((trie_delete t key).1 = true → (trie_delete t key).2.is_dirty = true) ∧
    ((trie_delete t key).1 = false → (trie_delete t key).2 = t) := by
  unfold trie_delete
  cases walk_branches t (da_get_root t.da) key with
  | failed s p => exact ⟨fun h1 => by simp at h1, fun _ => rfl⟩
  | left s p =>
    simp only
    by_cases hwt : walk_tail t (trie_da_get_tail_index t.da s) 0 p = true
    · rw [if_pos hwt]
      exact ⟨fun _ => rfl, fun h1 => by simp at h1⟩
    · rw [if_neg hwt]
      exact ⟨fun h1 => by simp at h1, fun _ => rfl⟩

theorem C20_failed_walk_keeps_state_witness :
    (trie_state_walk (trie_root app_trie) 98).1 = false ∧
    (trie_state_walk (trie_root app_trie) 98).2 = trie_root app_trie :=
  ⟨rfl, C20_failed_walk_keeps_state (trie_root app_trie) 98 rfl⟩

/-- C12 (data of a state that is not a leaf), the code at the failing input: in the trie
holding "app" with value 2, the state after the walk of 'a' from the root is in the tail
(single) with the suffix "pp" still ahead, so it is not terminal and not a leaf; yet
`trie_state_get_data` returns 2, the data of the tail entry, and not `TRIE_DATA_ERROR`. -/
theorem C12_get_data_inside_suffix :
    (trie_state_walk (trie_root app_trie) 97).1 = true ∧
    trie_state_is_single (trie_state_walk (trie_root app_trie) 97).2 = true ∧
    trie_state_is_terminal (trie_state_walk (trie_root app_trie) 97).2 = false ∧
    trie_state_is_leaf (trie_state_walk (trie_root app_trie) 97).2 = false ∧
    trie_state_get_data (trie_state_walk (trie_root app_trie) 97).2 = 2 ∧
    trie_state_get_data (trie_state_walk (trie_root app_trie) 97).2 ≠ TRIE_DATA_ERROR := by
  refine ⟨rfl, rfl, rfl, rfl, rfl, ?_⟩
  show (2 : Int) ≠ TRIE_DATA_ERROR
  decide

/-- C15 (dirty after success): for every trie, after a `trie_store`, `trie_store_if_absent` or
`trie_delete` call that returns TRUE, `trie_is_dirty` returns TRUE, whatever the store did (new
branch, split of a tail, overwrite) and whatever `da_insert_branch` does. -/
theorem C15_success_sets_dirty (ins : DArray → Int → Nat → Int × DArray) (t : Trie)
    (k : List Nat) (v : Int) (t1 : Trie) :
    (trie_store_with ins t k v = some (true, t1) → trie_is_dirty t1 = true) ∧
    (trie_store_if_absent_with ins t k v = some (true, t1) → trie_is_dirty t1 = true) ∧
    (trie_store t k v = some (true, t1) → trie_is_dirty t1 = true) ∧
    (trie_store_if_absent t k v = some (true, t1) → trie_is_dirty t1 = true) ∧
    (trie_delete t k = (true, t1) → trie_is_dirty t1 = true) := by
  refine ⟨fun h => ?_, fun h => ?_, fun h => ?_, fun h => ?_, fun h => ?_⟩
  · exact (store_conditionally_dirty ins t k v true true t1 h).1 rfl
  · exact (store_conditionally_dirty ins t k v false true t1 h).1 rfl
  · exact (store_conditionally_dirty da_insert_branch t k v true true t1
      (by rw [store_conditionally_with_eq]; exact h)).1 rfl
  · exact (store_conditionally_dirty da_insert_branch t k v false true t1
      (by rw [store_conditionally_with_eq]; exact h)).1 rfl
  · have hd := (delete_dirty t k).1
    rw [h] at hd
    exact hd rfl

theorem C15_success_sets_dirty_witness :
    trie_is_dirty app_trie_saved = false ∧
    trie_store app_trie_saved [97, 112, 112] 9 = some (true,
      { app_trie_saved with tail := tail_set_data app_trie_saved.tail 1 9, is_dirty := true }) ∧
    trie_is_dirty
      { app_trie_saved with tail := tail_set_data app_trie_saved.tail 1 9, is_dirty := true } =
      true :=
  ⟨rfl, rfl, (C15_success_sets_dirty da_insert_branch app_trie_saved [97, 112, 112] 9
    { app_trie_saved with tail := tail_set_data app_trie_saved.tail 1 9,
                          is_dirty := true }).2.2.1 rfl⟩

/-- C16 (dirty stays FALSE after failure): for every trie whose dirty flag is FALSE, a
`trie_store`, `trie_store_if_absent` or `trie_delete` call that returns FALSE leaves
`trie_is_dirty` FALSE, whatever `da_insert_branch` does (its failure included). -/
theorem C16_failure_keeps_clean (ins : DArray → Int → Nat → Int × DArray) (t : Trie)
    (hd : trie_is_dirty t = false) (k : List Nat) (v : Int) (t1 : Trie) :
    (trie_store_with ins t k v = some (false, t1) → trie_is_dirty t1 = false) ∧
    (trie_store_if_absent_with ins t k v = some (false, t1) → trie_is_dirty t1 = false) ∧
    (trie_store t k v = some (false, t1) → trie_is_dirty t1 = false) ∧
    (trie_store_if_absent t k v = some (false, t1) → trie_is_dirty t1 = false) ∧
    (trie_delete t k = (false, t1) → trie_is_dirty t1 = false) := by
  have hd1 : t.is_dirty = false := hd
  refine ⟨fun h => ?_, fun h => ?_, fun h => ?_, fun h => ?_, fun h => ?_⟩
  · exact ((store_conditionally_dirty ins t k v true false t1 h).2 rfl).trans hd1
  · exact ((store_conditionally_dirty ins t k v false false t1 h).2 rfl).trans hd1
  · exact ((store_conditionally_dirty da_insert_branch t k v true false t1
      (by rw [store_conditionally_with_eq]; exact h)).2 rfl).trans hd1
  · exact ((store_conditionally_dirty da_insert_branch t k v false false t1
      (by rw [store_conditionally_with_eq]; exact h)).2 rfl).trans hd1
  · have hf := (delete_dirty t k).2
    rw [h] at hf
    have e : t1 = t := hf rfl
    rw [e]; exact hd1

theorem C16_failure_keeps_clean_witness :
    trie_is_dirty app_trie_saved = false ∧
    trie_store_if_absent app_trie_saved [97, 112, 112] 9 = some (false, app_trie_saved) ∧
    trie_is_dirty app_trie_saved = false :=
  ⟨rfl, rfl, (C16_failure_keeps_clean da_insert_branch app_trie_saved rfl [97, 112, 112] 9
    app_trie_saved).2.2.2.1 rfl⟩

/-- C17 (dirty on any mutation), the code at the failing input: the trie holding "app" with
value 2 has its dirty flag FALSE (just saved) and the double-array cannot grow beyond 20 cells.
`trie_store` of "apz" splits the tail: two `da_insert_branch` calls succeed, the tail entry of
"app" gets its shortened suffix, and the third `da_insert_branch`, for the new branch, fails.
The call returns FALSE with the double-array and the tail changed and the dirty flag FALSE. -/
theorem C17_mutation_without_dirty :
    trie_is_dirty app_trie_saved = false ∧
    (trie_store_with (da_insert_branch_bounded 20) app_trie_saved [97, 112, 122] 1).map
      (fun r => r.1) = some false ∧
    (trie_store_with (da_insert_branch_bounded 20) app_trie_saved [97, 112, 122] 1).map
      (fun r => trie_is_dirty r.2) = some false ∧
    (trie_store_with (da_insert_branch_bounded 20) app_trie_saved [97, 112, 122] 1).map
      (fun r => tail_get_suffix r.2.tail 1) = some (some []) ∧
    tail_get_suffix app_trie_saved.tail 1 = some [16, 16] ∧
    (trie_store_with (da_insert_branch_bounded 20) app_trie_saved [97, 112, 122] 1).map
      (fun r => r.2.da.num_cells) = some 20 ∧
    app_trie_saved.da.num_cells = 5 := by
  refine ⟨rfl, rfl, rfl, rfl, rfl, rfl, rfl⟩

/-- Reference model: for a key that is not held, `trie_store_if_absent` and `trie_store`
return the same result and the same trie; for a key within the alphabet both return TRUE and
the key is then retrieved with the value. -/
theorem store_if_absent_as_store_unbounded {t : Trie} {m : List Nat → Option Int}
    (h : HoldsUnbounded t m) {k : List Nat} (h0 : 0 ∉ k) (hns : m k = none) (v : Int) :
    trie_store_if_absent_unbounded t k v = trie_store_unbounded t k v ∧
    (InAlphabet t.alpha_map k → ∃ t1, trie_store_if_absent_unbounded t k v = some (true, t1) ∧
      trie_store_unbounded t k v = some (true, t1) ∧
      trie_retrieve_unbounded t1 k = some v) := by
  obtain ⟨W, hr, _⟩ := holds_retrieve h
  have hret : trie_retrieve_unbounded t k = none := by rw [hr k h0]; exact hns
  have heq : trie_store_if_absent_unbounded t k v = trie_store_unbounded t k v := by
    unfold trie_store_if_absent_unbounded trie_store_unbounded trie_store_conditionally_unbounded
    unfold trie_retrieve_unbounded at hret
    cases hw : walk_branches t (da_get_root t.da) k with
    | failed s p => rfl
    | left s p =>
      rw [hw] at hret
      dsimp only at hret ⊢
      by_cases hwt : walk_tail_unbounded t (trie_da_get_tail_index t.da s) 0 p = true
      · rw [if_pos hwt] at hret; simp at hret
      · rw [if_neg hwt, if_neg hwt]
  refine ⟨heq, fun hk => ?_⟩
  rcases store_retrieve W h0 v true with ⟨_, hn⟩ | ⟨_, b, t1, hres, _, _, hb, _, _, ht⟩
  · exact absurd hk hn
  · have hbt : b = true := hb.2 (Or.inr rfl)
    subst hbt
    have hst : trie_store_unbounded t k v = some (true, t1) := hres
    refine ⟨t1, by rw [heq]; exact hst, hst, ?_⟩
    rw [ht rfl k h0, if_pos rfl]

/-- C18 (store-if-absent of an absent key), amended: on every reachable trie, for a key of at
most 32768 characters that is not stored, `trie_store_if_absent` and `trie_store` return the
same result and the same trie; for a key within the alphabet both return TRUE and the key is
then retrieved with the value. -/
theorem C18_store_if_absent_as_store {t : Trie} {m : List Nat → Option Int} (h : Holds t m)
    {k : List Nat} (h0 : 0 ∉ k) (hns : m k = none) (hlen : k.length ≤ 32768) (v : Int) :
    trie_store_if_absent t k v = trie_store t k v ∧
    (InAlphabet t.alpha_map k → ∃ t1, trie_store_if_absent t k v = some (true, t1) ∧
      trie_store t k v = some (true, t1) ∧ trie_retrieve t1 k = some v) := by
  have hU := holds_unbounded h
  have W := (holds_retrieve hU).1
  obtain ⟨heq, hin⟩ := store_if_absent_as_store_unbounded hU h0 hns v
  have e1 : trie_store t k v = trie_store_unbounded t k v :=
    (code_eq_of_length W h0 hlen).2.1 v true
  have e2 : trie_store_if_absent t k v = trie_store_if_absent_unbounded t k v :=
    (code_eq_of_length W h0 hlen).2.1 v false
  refine ⟨by rw [e1, e2]; exact heq, fun hk => ?_⟩
  obtain ⟨t1, r1, r2, r3⟩ := hin hk
  have hs1 : trie_store t k v = some (true, t1) := by rw [e1]; exact r2
  refine ⟨t1, by rw [e2]; exact r1, hs1, ?_⟩
  rw [(code_eq_of_length (store_code_step h h0 hs1).2 h0 hlen).1]
  exact r3

theorem C18_store_if_absent_as_store_witness :
    Holds app_trie (Function.update (fun _ => none) [97, 112, 112] (some 2)) ∧
    (0 : Nat) ∉ [97, 112] ∧
    Function.update (fun _ => (none : Option Int)) [97, 112, 112] (some 2) [97, 112] = none ∧
    ([97, 112] : List Nat).length ≤ 32768 ∧
    (trie_store_if_absent app_trie [97, 112] 5 = trie_store app_trie [97, 112] 5 ∧
    (InAlphabet app_trie.alpha_map [97, 112] →
      ∃ t1, trie_store_if_absent app_trie [97, 112] 5 = some (true, t1) ∧
        trie_store app_trie [97, 112] 5 = some (true, t1) ∧
        trie_retrieve t1 [97, 112] = some 5)) :=
  ⟨app_trie_holds, by decide, by simp, by decide,
    C18_store_if_absent_as_store app_trie_holds (by decide) (by simp) (by decide) 5⟩

theorem fwrite_dirty {F : Type} (ops : FileOps F) (trie : Trie) (file : F) :
    ((trie_fwrite ops trie file).1 = 0 → (trie_fwrite ops trie file).2.1.is_dirty = false) ∧
    ((trie_fwrite ops trie file).1 ≠ 0 → (trie_fwrite ops trie file).2.1 = trie) := by
  unfold trie_fwrite
  split
  · exact ⟨fun h => by simp at h, fun _ => rfl⟩
  · split
    · exact ⟨fun h => by simp at h, fun _ => rfl⟩
    · split
      · exact ⟨fun h => by simp at h, fun _ => rfl⟩
      · exact ⟨fun _ => rfl, fun h => by simp at h⟩

theorem fread_dirty {F : Type} (ops : FileOps F) (file : F) (r : Trie × F)
    (h : trie_fread ops file = some r) : r.1.is_dirty = false := by
  unfold trie_fread at h
  cases h1 : ops.alpha_map_fread_bin file with
  | none => rw [h1] at h; simp at h
  | some a =>
    rw [h1] at h
    obtain ⟨am, f1⟩ := a
    dsimp only at h
    cases h2 : ops.da_fread f1 with
    | none => rw [h2] at h; simp at h
    | some b =>
      rw [h2] at h
      obtain ⟨d, f2⟩ := b
      dsimp only at h
      cases h3 : ops.tail_fread f2 with
      | none => rw [h3] at h; simp at h
      | some c =>
        rw [h3] at h
        obtain ⟨tl, f3⟩ := c
        simp only [Option.some.injEq] at h
        rw [← h]

/-- C14 (dirty flag after file input and output): `trie_is_dirty` returns FALSE right after a
successful `trie_fwrite` or `trie_save` and on every trie returned by `trie_fread` or
`trie_new_from_file`; a failed `trie_fwrite` (or `trie_save`) leaves the flag as it was;
whatever the file functions of the components do. -/
theorem C14_dirty_after_file_io {F : Type} (ops : FileOps F) (trie : Trie) (file : F)
    (opened : Option F) :
    trie_is_dirty (trie_fwrite ops trie file).2.1 =
      (if (trie_fwrite ops trie file).1 = 0 then false else trie_is_dirty trie) ∧
    trie_is_dirty (trie_save ops trie opened).2 =
      (if (trie_save ops trie opened).1 = 0 then false else trie_is_dirty trie) ∧
    (∀ r, trie_fread ops file = some r → trie_is_dirty r.1 = false) ∧
    (∀ t, trie_new_from_file ops opened = some t → trie_is_dirty t = false) := by
  have hw : ∀ f : F, trie_is_dirty (trie_fwrite ops trie f).2.1 =
      (if (trie_fwrite ops trie f).1 = 0 then false else trie_is_dirty trie) := by
    intro f
    by_cases h : (trie_fwrite ops trie f).1 = 0
    · rw [if_pos h]; exact (fwrite_dirty ops trie f).1 h
    · rw [if_neg h, (fwrite_dirty ops trie f).2 h]
  refine ⟨hw file, ?_, fun r h => fread_dirty ops file r h, ?_⟩
  · cases opened with
    | none => simp [trie_save]
    | some f => exact hw f
  · intro t h
    cases opened with
    | none => simp [trie_new_from_file] at h
    | some f =>
      simp only [trie_new_from_file, Option.map_eq_some'] at h
      obtain ⟨r, hr, rfl⟩ := h
      exact fread_dirty ops f r hr

/-! ## Reading back what was written -/

theorem int32_wrap_of_fits {v : Int} (h : IsInt32 v) : int32_wrap v = v := by
  unfold int32_wrap
  obtain ⟨h1, h2⟩ := h
  split <;> omega

theorem int32_wrap_mod (v : Int) : int32_wrap v % 4294967296 = v % 4294967296 := by
  unfold int32_wrap
  split <;> omega

theorem write_chars_bytes {f f1 : File} {buff : List Nat}
    (h : file_write_chars f buff = (true, f1)) :
    f1.bytes = f.bytes ++ buff.map (fun b => b % 256) := by
  unfold file_write_chars at h
  split at h
  · simp only [Prod.mk.injEq, true_and] at h
    rw [← h]
  · simp at h

theorem write_item_bytes {f f1 : File} {it : FileItem}
    (h : file_write_item f it = (true, f1)) : f1.bytes = f.bytes ++ item_bytes it := by
  cases it with
  | int32 v =>
    have := write_chars_bytes (show file_write_chars f (int32_bytes v) = (true, f1) from h)
    rw [this]
    simp [item_bytes, int32_bytes]
    omega
  | int16 v =>
    have := write_chars_bytes (show file_write_chars f (int16_bytes v) = (true, f1) from h)
    rw [this]
    simp [item_bytes, int16_bytes]
    omega
  | chars buff => exact write_chars_bytes h

theorem write_items_bytes (items : List FileItem) :
    ∀ {f f1 : File}, file_write_items f items = (true, f1) →
      f1.bytes = f.bytes ++ items_bytes items := by
  induction items with
  | nil =>
    intro f f1 h
    simp only [file_write_items, Prod.mk.injEq, true_and] at h
    rw [← h]; simp [items_bytes]
  | cons it rest ih =>
    intro f f1 h
    simp only [file_write_items] at h
    cases hw : (file_write_item f it).1 with
    | false => rw [hw] at h; simp at h
    | true =>
      rw [hw] at h
      simp only [if_true] at h
      have h1 := write_item_bytes (show file_write_item f it = (true, (file_write_item f it).2)
        from Prod.ext hw rfl)
      rw [ih h, h1]
      simp [items_bytes]

theorem read_chars_append (bs rest : List Nat) (room : Nat) :
    file_read_chars ⟨bs ++ rest, room⟩ bs.length = some (bs, ⟨rest, room⟩) := by
  unfold file_read_chars
  simp

theorem read_int32_append (v : Int) (rest : List Nat) (room : Nat) :
    file_read_int32 ⟨int32_bytes v ++ rest, room⟩ = some (int32_wrap v, ⟨rest, room⟩) := by
  have h := read_chars_append (int32_bytes v) rest room
  have hl : (int32_bytes v).length = 4 := rfl
  rw [hl] at h
  unfold file_read_int32
  rw [h]
  simp only [int32_bytes, Option.some.injEq, Prod.mk.injEq, and_true]
  unfold int32_of_bytes int32_wrap
  have h0 : 0 ≤ v % 4294967296 := Int.emod_nonneg _ (by decide)
  have h1 : v % 4294967296 < 4294967296 := Int.emod_lt_of_pos _ (by decide)
  generalize hn : (v % 4294967296).toNat = n
  have hv : v % 4294967296 = (n : Int) := by omega
  rw [hv]
  have hn4 : n < 4294967296 := by omega
  have e : ((n / 16777216 * 256 + n / 65536 % 256) * 256 + n / 256 % 256) * 256 + n % 256 = n := by
    omega
  rw [e]
  split <;> split <;> omega

theorem read_int16_append (v : Int) (rest : List Nat) (room : Nat) :
    file_read_int16 ⟨int16_bytes v ++ rest, room⟩ = some (int16_wrap v, ⟨rest, room⟩) := by
  have h := read_chars_append (int16_bytes v) rest room
  have hl : (int16_bytes v).length = 2 := rfl
  rw [hl] at h
  unfold file_read_int16
  rw [h]
  simp only [int16_bytes, Option.some.injEq, Prod.mk.injEq, and_true]
  unfold int16_of_bytes int16_wrap
  have h0 : 0 ≤ v % 65536 := Int.emod_nonneg _ (by decide)
  have h1 : v % 65536 < 65536 := Int.emod_lt_of_pos _ (by decide)
  generalize hn : (v % 65536).toNat = n
  have hv : v % 65536 = (n : Int) := by omega
  rw [hv]
  have e : n / 256 * 256 + n % 256 = n := by omega
  rw [e]
  split <;> split <;> omega

theorem items_bytes_cons (it : FileItem) (rest : List FileItem) :
    items_bytes (it :: rest) = item_bytes it ++ items_bytes rest := by
  simp [items_bytes]

theorem items_bytes_append (a b : List FileItem) :
    items_bytes (a ++ b) = items_bytes a ++ items_bytes b := by
  simp [items_bytes]

theorem read_cells_append (cells : List (Int × Int)) (rest : List Nat) (room : Nat) :
    read_cells cells.length
      ⟨items_bytes (cells.flatMap (fun c => [.int32 c.1, .int32 c.2])) ++ rest, room⟩ =
      some (cells.map (fun c => (int32_wrap c.1, int32_wrap c.2)), ⟨rest, room⟩) := by
  induction cells with
  | nil => simp [read_cells, items_bytes]
  | cons c cells ih =>
    simp only [List.flatMap_cons, List.length_cons, read_cells, items_bytes_append,
      items_bytes_cons, item_bytes, List.append_assoc]
    rw [read_int32_append]
    simp only [Option.some_bind]
    rw [read_int32_append]
    simp only [Option.some_bind]
    have e : items_bytes [] ++ (items_bytes (cells.flatMap
        (fun c => [FileItem.int32 c.1, FileItem.int32 c.2])) ++ rest) =
        items_bytes (cells.flatMap (fun c => [FileItem.int32 c.1, FileItem.int32 c.2])) ++
          rest := by simp [items_bytes]
    rw [e, ih]
    simp

theorem read_ranges_append (ranges : List (Nat × Nat)) (rest : List Nat) (room : Nat)
    (hr : ∀ r ∈ ranges, r.1 < 4294967296 ∧ r.2 < 4294967296) :
    read_ranges ranges.length
      ⟨items_bytes (ranges.flatMap (fun r => [.int32 (r.1 : Nat), .int32 (r.2 : Nat)])) ++ rest,
        room⟩ = some (ranges, ⟨rest, room⟩) := by
  induction ranges with
  | nil => simp [read_ranges, items_bytes]
  | cons r ranges ih =>
    simp only [List.flatMap_cons, List.length_cons, read_ranges, items_bytes_append,
      items_bytes_cons, item_bytes, List.append_assoc]
    rw [read_int32_append]
    rw [Option.some_bind]
    dsimp only
    rw [read_int32_append]
    rw [Option.some_bind]
    dsimp only
    have e : items_bytes [] ++ (items_bytes (ranges.flatMap
        (fun r => [FileItem.int32 (r.1 : Nat), FileItem.int32 (r.2 : Nat)])) ++ rest) =
        items_bytes (ranges.flatMap
          (fun r => [FileItem.int32 (r.1 : Nat), FileItem.int32 (r.2 : Nat)])) ++ rest := by
      simp [items_bytes]
    rw [e, ih (fun r1 h1 => hr r1 (List.mem_cons_of_mem _ h1))]
    simp only [Option.some_bind, Option.some.injEq, Prod.mk.injEq, List.cons.injEq, and_true]
    have h1 := hr r (List.mem_cons_self _ _)
    rw [int32_wrap_mod, int32_wrap_mod]
    refine Prod.ext ?_ ?_ <;> simp <;> omega

/-- Reading back a written alphabet map gives the map. -/
theorem alpha_map_fread_append (am : AlphaMap) (rest : List Nat) (room : Nat)
    (hn : am.ranges.length < 2147483648)
    (hr : ∀ r ∈ am.ranges, r.1 < 4294967296 ∧ r.2 < 4294967296) :
    alpha_map_fread_bin ⟨items_bytes (alpha_map_items am) ++ rest, room⟩ =
      some (am, ⟨rest, room⟩) := by
  have hfit := am.fits
  unfold alpha_map_fread_bin alpha_map_items
  simp only [List.cons_append, List.nil_append, items_bytes_cons, item_bytes, List.append_assoc]
  rw [read_int32_append]
  simp only [Option.some_bind, int32_wrap_mod]
  rw [if_neg (by decide)]
  rw [read_int32_append]
  rw [Option.some_bind]
  dsimp only
  rw [read_int32_append]
  rw [Option.some_bind]
  dsimp only
  rw [int32_wrap_of_fits (show IsInt32 ((am.ranges.length : Nat) : Int) from
    ⟨by omega, by omega⟩)]
  simp only [Int.toNat_ofNat]
  rw [read_ranges_append am.ranges rest room hr]
  rw [Option.some_bind]
  dsimp only
  rw [dif_pos hfit]

theorem da_cells_getD (d : DArray) (x : Int) (h0 : 0 ≤ x) (h1 : x < d.num_cells) :
    ((da_cells d).map (fun c => (int32_wrap c.1, int32_wrap c.2))).getD x.toNat (-1, -1) =
      (int32_wrap (d.base x), int32_wrap (d.check x)) := by
  have hl : x.toNat < ((da_cells d).map (fun c => (int32_wrap c.1, int32_wrap c.2))).length := by
    simp [da_cells]; omega
  rw [List.getD_eq_getElem _ _ hl]
  simp only [da_cells, List.getElem_map, List.getElem_range]
  have e : ((x.toNat : Nat) : Int) = x := by omega
  rw [e]

theorem da_fread_append (d : DArray) (rest : List Nat) (room : Nat)
    (h0 : 0 ≤ d.num_cells) (hn : d.num_cells < 2147483648) :
    da_fread ⟨items_bytes (da_items d) ++ rest, room⟩ = some (da_read_back d, ⟨rest, room⟩) := by
  unfold da_fread da_items
  simp only [List.cons_append, List.nil_append, items_bytes_cons, item_bytes, List.append_assoc]
  rw [read_int32_append]
  simp only [Option.some_bind, int32_wrap_mod]
  rw [if_neg (by decide)]
  rw [read_int32_append]
  simp only [Option.some_bind]
  rw [int32_wrap_of_fits (show IsInt32 d.num_cells from ⟨by omega, hn⟩)]
  have hl : d.num_cells.toNat = (da_cells d).length := by simp [da_cells]
  rw [hl, read_cells_append]
  simp only [Option.some_bind, Option.some.injEq, Prod.mk.injEq, and_true]
  unfold da_read_back
  congr 1
  · funext x
    by_cases hx : 0 ≤ x ∧ x < d.num_cells
    · rw [if_pos hx, if_pos hx, da_cells_getD d x hx.1 hx.2]
    · rw [if_neg hx, if_neg hx]
  · funext x
    by_cases hx : 0 ≤ x ∧ x < d.num_cells
    · rw [if_pos hx, if_pos hx, da_cells_getD d x hx.1 hx.2]
    · rw [if_neg hx, if_neg hx]

theorem map_mod_of_lt (suf : List Nat) (h : ∀ c ∈ suf, c < 256) :
    suf.map (fun b => b % 256) = suf := by
  induction suf with
  | nil => rfl
  | cons c suf ih =>
    simp only [List.map_cons, List.cons.injEq]
    exact ⟨Nat.mod_eq_of_lt (h c (List.mem_cons_self _ _)),
      ih (fun c1 h1 => h c1 (List.mem_cons_of_mem _ h1))⟩

theorem read_chars_zero (f : File) : file_read_chars f 0 = some ([], f) := by
  unfold file_read_chars
  simp

theorem read_tail_slots_append (slots : List TailSlot) (rest : List Nat) (room : Nat)
    (hs : ∀ s ∈ slots, SlotFits s) :
    read_tail_slots slots.length ⟨items_bytes (slots.flatMap tail_slot_items) ++ rest, room⟩ =
      some (slots, ⟨rest, room⟩) := by
  induction slots with
  | nil => simp [read_tail_slots, items_bytes]
  | cons s slots ih =>
    obtain ⟨hnf, hdata, hsuf⟩ := hs s (List.mem_cons_self _ _)
    have ih1 := ih (fun s1 h1 => hs s1 (List.mem_cons_of_mem _ h1))
    obtain ⟨nf, data, suffix⟩ := s
    simp only [List.flatMap_cons, List.length_cons, read_tail_slots, items_bytes_append]
    rcases hsuf with ⟨hnone, hne⟩ | ⟨suf, hsome, hm1, hlen, hch⟩
    · simp only at hnone hne hnf hdata
      subst hnone
      simp only [tail_slot_items, items_bytes_cons, item_bytes, List.append_assoc]
      rw [read_int32_append, Option.some_bind]
      dsimp only
      rw [read_int32_append, Option.some_bind]
      dsimp only
      rw [read_int16_append, Option.some_bind]
      dsimp only
      rw [int32_wrap_of_fits hnf, int32_wrap_of_fits hdata,
        int16_wrap_of_fits (le_refl 0) (by decide)]
      rw [if_neg (by decide)]
      simp only [Int.toNat_zero, read_chars_zero, Option.some_bind]
      have e : items_bytes [] ++ (items_bytes (slots.flatMap tail_slot_items) ++ rest) =
          items_bytes (slots.flatMap tail_slot_items) ++ rest := by simp [items_bytes]
      rw [e, ih1]
      simp only [Option.some_bind, if_neg hne]
    · simp only at hsome hm1 hnf hdata
      subst hsome
      subst hm1
      have hw : int16_wrap (suf.length : Int) = suf.length :=
        int16_wrap_of_fits (by omega) (by omega)
      simp only [tail_slot_items, items_bytes_cons, item_bytes, List.append_assoc, hw,
        Int.toNat_ofNat, List.take_length, map_mod_of_lt suf hch]
      rw [read_int32_append, Option.some_bind]
      dsimp only
      rw [read_int32_append, Option.some_bind]
      dsimp only
      rw [read_int16_append, Option.some_bind]
      dsimp only
      rw [int32_wrap_of_fits hdata, hw]
      rw [if_neg (by omega)]
      simp only [Int.toNat_ofNat]
      rw [read_chars_append, Option.some_bind]
      dsimp only
      have e : items_bytes [] ++ (items_bytes (slots.flatMap tail_slot_items) ++ rest) =
          items_bytes (slots.flatMap tail_slot_items) ++ rest := by simp [items_bytes]
      rw [e, ih1]
      simp only [Option.some_bind]
      rw [int32_wrap_of_fits (show IsInt32 (-1) from ⟨by decide, by decide⟩)]
      simp

theorem tail_next_free_mem (l : List Int) (i : Int) :
    tail_next_free l i = 0 ∨ tail_next_free l i ∈ l := by
  induction l with
  | nil => exact Or.inl rfl
  | cons a l ih =>
    simp only [tail_next_free]
    split
    · cases l with
      | nil => exact Or.inl rfl
      | cons b l => exact Or.inr (by simp)
    · rcases ih with h | h
      · exact Or.inl h
      · exact Or.inr (List.mem_cons_of_mem _ h)

/-- Following the `next_free` fields from the head reproduces the free list. -/
theorem free_chain_eq (next : Int → Int) (n : Int) (l : List Int) :
    l.Nodup → (∀ i ∈ l, 1 ≤ i ∧ i ≤ n) → (∀ i ∈ l, next i = tail_next_free l i) →
    ∀ fuel, l.length ≤ fuel → tail_free_chain next n fuel (l.headD 0) = l := by
  induction l with
  | nil =>
    intro _ _ _ fuel _
    cases fuel with
    | zero => rfl
    | succ k => simp [tail_free_chain]
  | cons a l ih =>
    intro hnd hr hn fuel hf
    obtain ⟨ha, hnd1⟩ := List.nodup_cons.1 hnd
    cases fuel with
    | zero => simp at hf
    | succ k =>
      simp only [List.headD_cons, tail_free_chain]
      rw [if_pos (hr a (List.mem_cons_self _ _))]
      have hna : next a = l.headD 0 := by
        rw [hn a (List.mem_cons_self _ _)]
        simp [tail_next_free]
      rw [hna, ih hnd1 (fun i hi => hr i (List.mem_cons_of_mem _ hi)) ?_ k
        (by simp only [List.length_cons] at hf; omega)]
      intro i hi
      rw [hn i (List.mem_cons_of_mem _ hi)]
      have hne : a ≠ i := fun e => ha (e ▸ hi)
      simp [tail_next_free, hne]

theorem nodup_range_length (n : Int) (l : List Int) (hnd : l.Nodup)
    (hr : ∀ i ∈ l, 1 ≤ i ∧ i ≤ n) : l.length ≤ n.toNat := by
  have hsub : l.toFinset ⊆ Finset.Icc 1 n := by
    intro i hi
    exact Finset.mem_Icc.2 (hr i (List.mem_toFinset.1 hi))
  have := Finset.card_le_card hsub
  rw [List.toFinset_card_of_nodup hnd, Int.card_Icc] at this
  omega

theorem tail_slots_getD (tl : Tail) (i : Int) (h1 : 1 ≤ i) (h2 : i ≤ tl.num_tails) :
    ((tail_slots tl).getD (i - 1).toNat ⟨0, TRIE_DATA_ERROR, none⟩).suffix = (tl.tails i).suffix ∧
    ((tail_slots tl).getD (i - 1).toNat ⟨0, TRIE_DATA_ERROR, none⟩).data = (tl.tails i).data ∧
    ((tail_slots tl).getD (i - 1).toNat ⟨0, TRIE_DATA_ERROR, none⟩).next_free =
      (if (tl.tails i).suffix = none then tail_next_free tl.free i else -1) := by
  have hl : (i - 1).toNat < (tail_slots tl).length := by
    simp [tail_slots]; omega
  rw [List.getD_eq_getElem _ _ hl]
  simp only [tail_slots, List.getElem_map, List.getElem_range]
  have e : (((i - 1).toNat : Nat) : Int) + 1 = i := by omega
  rw [e]
  cases hs : (tl.tails i).suffix with
  | none => simp
  | some suf => simp

theorem tail_slots_fit {tl : Tail} (w : TailWF tl) (hn : tl.num_tails < 2147483648)
    (hd : ∀ i, 1 ≤ i → i ≤ tl.num_tails → IsInt32 (tl.tails i).data)
    (hs : ∀ i, 1 ≤ i → i ≤ tl.num_tails → ∀ suf, (tl.tails i).suffix = some suf →
      suf.length < 32768 ∧ ∀ c ∈ suf, c < 256) :
    ∀ s ∈ tail_slots tl, SlotFits s := by
  intro s hmem
  simp only [tail_slots, List.mem_map, List.mem_range] at hmem
  obtain ⟨i, hi, rfl⟩ := hmem
  have h1 : (1 : Int) ≤ (i : Int) + 1 := by omega
  have h2 : (i : Int) + 1 ≤ tl.num_tails := by omega
  have hdat := hd _ h1 h2
  cases hsuf : (tl.tails ((i : Int) + 1)).suffix with
  | none =>
    simp only
    have hnf : 0 ≤ tail_next_free tl.free ((i : Int) + 1) ∧
        tail_next_free tl.free ((i : Int) + 1) ≤ tl.num_tails := by
      rcases tail_next_free_mem tl.free ((i : Int) + 1) with h | h
      · rw [h]; exact ⟨le_refl 0, w.tails_ge⟩
      · have := (w.vacant _ h).2
        omega
    exact ⟨⟨by simp only; omega, by simp only; omega⟩, hdat, Or.inl ⟨rfl, by simp only; omega⟩⟩
  | some suf =>
    simp only
    exact ⟨⟨by simp only; omega, by simp only; omega⟩, hdat,
      Or.inr ⟨suf, rfl, rfl, hs _ h1 h2 suf hsuf⟩⟩

theorem tail_fread_append {tl : Tail} (w : TailWF tl) (hn : tl.num_tails < 2147483648)
    (hd : ∀ i, 1 ≤ i → i ≤ tl.num_tails → IsInt32 (tl.tails i).data)
    (hs : ∀ i, 1 ≤ i → i ≤ tl.num_tails → ∀ suf, (tl.tails i).suffix = some suf →
      suf.length < 32768 ∧ ∀ c ∈ suf, c < 256) (rest : List Nat) (room : Nat) :
    tail_fread ⟨items_bytes (tail_items tl) ++ rest, room⟩ =
      some (tail_read_back tl, ⟨rest, room⟩) := by
  have h0 := w.tails_ge
  have hhead : IsInt32 (tl.free.headD 0) := by
    cases hf : tl.free with
    | nil => exact ⟨by decide, by decide⟩
    | cons a l =>
      have := (w.vacant a (by rw [hf]; exact List.mem_cons_self _ _)).2
      simp only [List.headD_cons]
      exact ⟨by omega, by omega⟩
  unfold tail_fread tail_items
  simp only [List.cons_append, List.nil_append, items_bytes_cons, item_bytes, List.append_assoc]
  rw [read_int32_append, Option.some_bind]
  dsimp only
  rw [int32_wrap_mod, if_neg (by decide)]
  rw [read_int32_append, Option.some_bind]
  dsimp only
  rw [read_int32_append, Option.some_bind]
  dsimp only
  rw [int32_wrap_of_fits (show IsInt32 tl.num_tails from ⟨by omega, hn⟩),
    int32_wrap_of_fits hhead]
  have hl : tl.num_tails.toNat = (tail_slots tl).length := by simp [tail_slots]
  rw [hl, read_tail_slots_append _ _ _ (tail_slots_fit w hn hd hs), Option.some_bind]
  rfl

theorem read_back_suffix (tl : Tail) (i : Int) :
    tail_get_suffix (tail_read_back tl) i = tail_get_suffix tl i := by
  unfold tail_get_suffix tail_read_back tail_of_slots
  simp only
  by_cases h : 1 ≤ i ∧ i ≤ tl.num_tails
  · rw [if_pos h, if_pos h, if_pos h]
    exact (tail_slots_getD tl i h.1 h.2).1
  · rw [if_neg h, if_neg h]

theorem read_back_data (tl : Tail) (i : Int) :
    tail_get_data (tail_read_back tl) i = tail_get_data tl i := by
  unfold tail_get_data tail_read_back tail_of_slots
  simp only
  by_cases h : 1 ≤ i ∧ i ≤ tl.num_tails
  · rw [if_pos h, if_pos h, if_pos h]
    exact (tail_slots_getD tl i h.1 h.2).2.1
  · rw [if_neg h, if_neg h]

theorem read_back_free {tl : Tail} (w : TailWF tl) : (tail_read_back tl).free = tl.free := by
  unfold tail_read_back tail_of_slots
  simp only
  apply free_chain_eq _ _ _ w.nodup (fun i hi => (w.vacant i hi).2)
  · intro i hi
    have hv := w.vacant i hi
    have hsn : (tl.tails i).suffix = none := by
      have := hv.1
      unfold tail_get_suffix at this
      rw [if_pos hv.2] at this
      exact this
    rw [(tail_slots_getD tl i hv.2.1 hv.2.2).2.2, if_pos hsn]
  · exact nodup_range_length _ _ w.nodup (fun i hi => (w.vacant i hi).2)

theorem read_back_wf {tl : Tail} (w : TailWF tl) : TailWF (tail_read_back tl) := by
  refine ⟨w.tails_ge, ?_, ?_⟩
  · intro i hi
    rw [read_back_free w] at hi
    rw [read_back_suffix]
    exact w.vacant i hi
  · rw [read_back_free w]; exact w.nodup

namespace SameCells

variable {d d1 : DArray} {dp : Int → Nat}

theorem node_iff (h : SameCells d d1) (w : WFda d dp) (x : Int) : IsNode d1 x ↔ IsNode d x := by
  unfold IsNode
  constructor
  · rintro (h2 | ⟨h3, hc⟩)
    · exact Or.inl h2
    · by_cases hx : x < d.num_cells
      · rw [h.check x (by omega) hx] at hc; exact Or.inr ⟨h3, hc⟩
      · rw [h.out x (by omega)] at hc; omega
  · rintro (h2 | ⟨h3, hc⟩)
    · exact Or.inl h2
    · have hx : x < d.num_cells := by
        by_contra hn
        have := w.virgin x (by omega)
        omega
      exact Or.inr ⟨h3, by rw [h.check x (by omega) hx]; exact hc⟩

theorem base_node (h : SameCells d d1) (w : WFda d dp) {x : Int} (hx : IsNode d x) :
    d1.base x = d.base x :=
  h.base x (by have := hx.ge; omega) (w.node_lt hx)

theorem edge_iff (h : SameCells d d1) (w : WFda d dp) (s : Int) (c : Nat) (y : Int) :
    Edge d1 s c y ↔ Edge d s c y := by
  constructor
  · rintro ⟨h2, hy, h3, hc⟩
    have hyr : 0 ≤ y ∧ y < d.num_cells := by
      by_contra hn
      rw [h.out y hn] at hc; omega
    rw [h.check y hyr.1 hyr.2] at hc
    have hp := w.parent y h3 (by omega)
    rw [hc] at hp
    exact ⟨h2, by rw [hy, h.base_node w hp.1], h3, hc⟩
  · rintro ⟨h2, hy, h3, hc⟩
    have hyr : y < d.num_cells := by
      by_contra hn
      have := w.virgin y (by omega)
      omega
    have hp := w.parent y h3 (by omega)
    rw [hc] at hp
    exact ⟨h2, by rw [hy, h.base_node w hp.1], h3, by rw [h.check y (by omega) hyr]; exact hc⟩

theorem path_iff (h : SameCells d d1) (w : WFda d dp) (p : List Nat) :
    ∀ s y, Path d1 s p y ↔ Path d s p y := by
  induction p with
  | nil => intro s y; exact Iff.rfl
  | cons c p ih =>
    intro s y
    constructor
    · rintro ⟨m, e, hp⟩
      exact ⟨m, (h.edge_iff w s c m).1 e, (ih m y).1 hp⟩
    · rintro ⟨m, e, hp⟩
      exact ⟨m, (h.edge_iff w s c m).2 e, (ih m y).2 hp⟩

theorem leaf_iff_same (h : SameCells d d1) (w : WFda d dp) (p : List Nat) (i : Int) :
    Leaf d1 p i ↔ Leaf d p i := by
  constructor
  · rintro ⟨x, hx, hb, hi⟩
    have hx1 := (h.path_iff w p 2 x).1 hx
    exact ⟨x, hx1, by rw [← h.base_node w (hx1.node (Or.inl rfl))]; exact hb, hi⟩
  · rintro ⟨x, hx, hb, hi⟩
    exact ⟨x, (h.path_iff w p 2 x).2 hx,
      by rw [h.base_node w (hx.node (Or.inl rfl))]; exact hb, hi⟩

theorem wfda (h : SameCells d d1) (w : WFda d dp) : WFda d1 dp := by
  have hc := w.cells
  refine ⟨by rw [h.num]; exact hc, ?_, ?_, ?_, ?_, ?_, ?_⟩
  · rw [h.check 0 (by omega) (by omega)]; exact w.check0
  · rw [h.check 1 (by omega) (by omega)]; exact w.check1
  · rw [h.check 2 (by omega) (by omega)]; exact w.check2
  · rw [h.base 2 (by omega) (by omega)]; exact w.base2
  · intro x hx
    rw [h.num] at hx
    rw [h.out x (by omega)]; omega
  · intro x h3 hcx
    have hxr : x < d.num_cells := by
      by_contra hn
      rw [h.out x (by omega)] at hcx; omega
    rw [h.check x (by omega) hxr] at hcx ⊢
    obtain ⟨hn, hb, hlo, hhi, hdp⟩ := w.parent x h3 hcx
    rw [h.base_node w hn]
    exact ⟨(h.node_iff w _).2 hn, hb, hlo, hhi, hdp⟩

end SameCells

/-- A trie with the cells of `t` and the tail entries of `t` is well formed as `t` is, and
stores the same keys. -/
theorem same_cells_wf {t : Trie} (W : WF t) {d1 : DArray} {tl1 : Tail} (b : Bool)
    (h : SameCells t.da d1) (hw : TailWF tl1)
    (hs : ∀ i, tail_get_suffix tl1 i = tail_get_suffix t.tail i)
    (hd : ∀ i, tail_get_data tl1 i = tail_get_data t.tail i) :
    WF ⟨t.alpha_map, d1, tl1, b⟩ ∧
    ∀ ks v, Stored ⟨t.alpha_map, d1, tl1, b⟩ ks v ↔ Stored t ks v := by
  obtain ⟨dp, w⟩ := W.da
  constructor
  · refine ⟨⟨dp, h.wfda w⟩, hw, ?_, ?_, ?_, ?_⟩
    · intro p i hl
      obtain ⟨suf, hsuf, hv, hn⟩ := W.live p i ((h.leaf_iff_same w p i).1 hl)
      exact ⟨suf, by rw [← hsuf]; exact hs i, hv, hn⟩
    · intro p q i hp hq
      exact W.inj p q i ((h.leaf_iff_same w p i).1 hp) ((h.leaf_iff_same w q i).1 hq)
    · intro p x hp hb
      have hp1 := (h.path_iff w p 2 x).1 hp
      apply W.nonsep p x hp1
      rw [← h.base_node w (hp1.node (Or.inl rfl))]; exact hb
    · intro p x hp
      exact W.labels p x ((h.path_iff w p 2 x).1 hp)
  · intro ks v
    unfold Stored
    constructor
    · rintro ⟨p, i, suf, hl, hsuf, hdat, hf⟩
      exact ⟨p, i, suf, (h.leaf_iff_same w p i).1 hl, by rw [← hs i]; exact hsuf,
        by rw [← hd i]; exact hdat, hf⟩
    · rintro ⟨p, i, suf, hl, hsuf, hdat, hf⟩
      exact ⟨p, i, suf, (h.leaf_iff_same w p i).2 hl, by rw [← hsuf]; exact hs i,
        by rw [← hdat]; exact hd i, hf⟩

/-- Two well-formed tries over the same alphabet that store the same keys answer
`trie_retrieve_unbounded` alike. -/
theorem retrieve_of_stored {t t1 : Trie} (W : WF t) (W1 : WF t1)
    (ham : t1.alpha_map = t.alpha_map) (h : ∀ ks v, Stored t1 ks v ↔ Stored t ks v)
    (k : List Nat) (h0 : 0 ∉ k) : trie_retrieve_unbounded t1 k = trie_retrieve_unbounded t k := by
  apply option_ext
  intro v
  rw [retrieve_iff W1 k h0, retrieve_iff W k h0, ham]
  exact h _ v

/-- What `trie_enumerate` reports with the collecting callback: every stored entry, once. -/
theorem enumerate_result {t : Trie} (W : WF t) :
    ∃ l, trie_enumerate t enum_collect [] = some (true, l) ∧ l.Nodup ∧
      ∀ k v, (k, v) ∈ l ↔ (0 ∉ k ∧ trie_retrieve_unbounded t k = some v) := by
  obtain ⟨P, hP, nd, mP⟩ := enumerate_spec W
  refine ⟨P.map (entryOf t), hP, ?_, fun k v => entry_mem_iff W mP k v⟩
  refine List.Nodup.map_on ?_ nd
  rintro ⟨q, j⟩ hx ⟨q1, j1⟩ hy he
  exact entryOf_inj W ((mP q j).1 hx) ((mP q1 j1).1 hy) he

theorem write_items_ok {f : File} {items : List FileItem}
    (h : (if (file_write_items f items).1 then (0 : Int) else -1) = 0) :
    (file_write_items f items).2.bytes = f.bytes ++ items_bytes items := by
  cases hw : (file_write_items f items).1 with
  | false => rw [hw] at h; simp at h
  | true => exact write_items_bytes items (Prod.ext hw rfl)

/-- A successful `trie_fwrite` appends the alphabet map, the double-array and the tail pool, in
that order. -/
theorem trie_fwrite_ok (t : Trie) (f : File) (h : (trie_fwrite file_ops t f).1 = 0) :
    (trie_fwrite file_ops t f).2.2.bytes =
      f.bytes ++ (items_bytes (alpha_map_items t.alpha_map) ++
        (items_bytes (da_items t.da) ++ items_bytes (tail_items t.tail))) := by
  unfold trie_fwrite at h ⊢
  simp only [file_ops] at h ⊢
  by_cases h1 : (alpha_map_fwrite_bin t.alpha_map f).1 ≠ 0
  · rw [if_pos h1] at h; simp at h
  · rw [if_neg h1] at h ⊢
    by_cases h2 : (da_fwrite t.da (alpha_map_fwrite_bin t.alpha_map f).2).1 ≠ 0
    · rw [if_pos h2] at h; simp at h
    · rw [if_neg h2] at h ⊢
      by_cases h3 : (tail_fwrite t.tail
          (da_fwrite t.da (alpha_map_fwrite_bin t.alpha_map f).2).2).1 ≠ 0
      · rw [if_pos h3] at h; simp at h
      · rw [if_neg h3]
        simp only [ne_eq, Decidable.not_not] at h1 h2 h3
        have e1 := write_items_ok (show (if (file_write_items f
          (alpha_map_items t.alpha_map)).1 then (0 : Int) else -1) = 0 from h1)
        have e2 := write_items_ok (show (if (file_write_items
          (alpha_map_fwrite_bin t.alpha_map f).2 (da_items t.da)).1 then (0 : Int) else -1) = 0
          from h2)
        have e3 := write_items_ok (show (if (file_write_items
          (da_fwrite t.da (alpha_map_fwrite_bin t.alpha_map f).2).2 (tail_items t.tail)).1
          then (0 : Int) else -1) = 0 from h3)
        show (file_write_items (da_fwrite t.da (alpha_map_fwrite_bin t.alpha_map f).2).2
          (tail_items t.tail)).2.bytes = _
        rw [e3]
        show (file_write_items (alpha_map_fwrite_bin t.alpha_map f).2
          (da_items t.da)).2.bytes ++ _ = _
        rw [e2]
        show ((file_write_items f (alpha_map_items t.alpha_map)).2.bytes ++ _) ++ _ = _
        rw [e1]
        simp only [List.append_assoc]

theorem read_back_same_cells {t : Trie} (hf : FitsFormat t) :
    SameCells t.da (da_read_back t.da) := by
  refine ⟨rfl, ?_, ?_, ?_⟩
  · intro x h0 h1
    show (if 0 ≤ x ∧ x < t.da.num_cells then int32_wrap (t.da.check x) else -1) = _
    rw [if_pos ⟨h0, h1⟩, int32_wrap_of_fits (hf.cells x h0 h1).1]
  · intro x h0 h1
    show (if 0 ≤ x ∧ x < t.da.num_cells then int32_wrap (t.da.base x) else -1) = _
    rw [if_pos ⟨by omega, h1⟩, int32_wrap_of_fits ((hf.cells x (by omega) h1).2 h0)]
  · intro x hx
    show (if 0 ≤ x ∧ x < t.da.num_cells then int32_wrap (t.da.check x) else -1) = _
    rw [if_neg hx]

/-- Reading back the bytes of a well-formed trie that fits the format. -/
theorem trie_fread_back {t : Trie} (W : WF t) (hf : FitsFormat t) (room : Nat) :
    trie_fread file_ops ⟨items_bytes (alpha_map_items t.alpha_map) ++
        (items_bytes (da_items t.da) ++ items_bytes (tail_items t.tail)), room⟩ =
      some (⟨t.alpha_map, da_read_back t.da, tail_read_back t.tail, false⟩, ⟨[], room⟩) := by
  obtain ⟨dp, w⟩ := W.da
  have hc := w.cells
  unfold trie_fread
  simp only [file_ops]
  rw [alpha_map_fread_append t.alpha_map _ room hf.n_ranges hf.ranges]
  dsimp only
  rw [da_fread_append t.da _ room (by omega) hf.num_cells]
  dsimp only
  have e : items_bytes (tail_items t.tail) = items_bytes (tail_items t.tail) ++ [] := by simp
  rw [e, tail_fread_append W.tail hf.num_tails hf.data hf.suffix [] room]

/-- C13 (write and read back), amended: for every reachable trie `t` whose numbers are those of
the C types and whose tail suffixes are shorter than 32768 characters, reading back with
`trie_fread` the bytes of a successful `trie_fwrite` of `t` succeeds and yields a trie `t1` on
which `trie_retrieve` returns the same result for every key and `trie_enumerate` reports the
same entries. -/
theorem C13_write_read_roundtrip {t : Trie} {m : List Nat → Option Int} (h : Holds t m)
    (hf : FitsFormat t) (room : Nat) (hw : (trie_fwrite file_ops t ⟨[], room⟩).1 = 0) :
    ∃ t1 f1, trie_fread file_ops ⟨(trie_fwrite file_ops t ⟨[], room⟩).2.2.bytes, 0⟩ =
        some (t1, f1) ∧
      (∀ k, 0 ∉ k → trie_retrieve t1 k = trie_retrieve t k) ∧
      ∃ l l1, trie_enumerate t enum_collect [] = some (true, l) ∧
        trie_enumerate t1 enum_collect [] = some (true, l1) ∧ l1.Perm l := by
  have W := (holds_retrieve (holds_unbounded h)).1
  have hb := trie_fwrite_ok t ⟨[], room⟩ hw
  simp only [List.nil_append] at hb
  rw [hb, trie_fread_back W hf 0]
  obtain ⟨W1, hst⟩ := same_cells_wf W false (read_back_same_cells hf) (read_back_wf W.tail)
    (read_back_suffix t.tail) (read_back_data t.tail)
  have hret := retrieve_of_stored W W1 rfl hst
  have hS := fits_short_suffixes hf
  have hS1 : ShortSuffixes (tail_read_back t.tail) := by
    intro j suf hs
    rw [read_back_suffix] at hs
    exact hS j suf hs
  refine ⟨_, _, rfl, fun k h0 => ?_, ?_⟩
  · rw [retrieve_short_eq hS, retrieve_short_eq (show ShortSuffixes _ from hS1)]
    exact hret k h0
  obtain ⟨l, hl, nd, ml⟩ := enumerate_result W
  obtain ⟨l1, hl1, nd1, ml1⟩ := enumerate_result W1
  refine ⟨l, l1, hl, hl1, (List.perm_ext_iff_of_nodup nd1 nd).2 ?_⟩
  rintro ⟨k, v⟩
  rw [ml, ml1]
  constructor
  · rintro ⟨h0, hr⟩; exact ⟨h0, by rw [← hret k h0]; exact hr⟩
  · rintro ⟨h0, hr⟩; exact ⟨h0, by rw [hret k h0]; exact hr⟩

theorem app_trie_fits : FitsFormat app_trie := by
  have hn : app_trie.da.num_cells = 5 := rfl
  have ht : app_trie.tail.num_tails = 1 := rfl
  refine ⟨by decide, ?_, by rw [hn]; decide, ?_, by rw [ht]; decide, ?_, ?_⟩
  · intro r hr
    have e : app_trie.alpha_map.ranges = [(97, 122)] := rfl
    rw [e] at hr
    simp only [List.mem_singleton] at hr
    rw [hr]; decide
  · intro x h0 h1
    rw [hn] at h1
    have hx : x = 0 ∨ x = 1 ∨ x = 2 ∨ x = 3 ∨ x = 4 := by omega
    have c0 : app_trie.da.check 0 = 0 := rfl
    have c1 : app_trie.da.check 1 = -1 := rfl
    have c2 : app_trie.da.check 2 = 0 := rfl
    have c3 : app_trie.da.check 3 = -1 := rfl
    have c4 : app_trie.da.check 4 = 2 := rfl
    have b1 : app_trie.da.base 1 = -1 := rfl
    have b2 : app_trie.da.base 2 = 3 := rfl
    have b3 : app_trie.da.base 3 = -1 := rfl
    have b4 : app_trie.da.base 4 = -1 := rfl
    unfold IsInt32
    rcases hx with rfl | rfl | rfl | rfl | rfl
    · rw [c0]; exact ⟨by decide, fun h => by omega⟩
    · rw [c1, b1]; exact ⟨by decide, fun _ => by decide⟩
    · rw [c2, b2]; exact ⟨by decide, fun _ => by decide⟩
    · rw [c3, b3]; exact ⟨by decide, fun _ => by decide⟩
    · rw [c4, b4]; exact ⟨by decide, fun _ => by decide⟩
  · intro i h1 h2
    rw [ht] at h2
    have hi : i = 1 := by omega
    subst hi
    have e : (app_trie.tail.tails 1).data = 2 := rfl
    rw [e]; exact ⟨by decide, by decide⟩
  · intro i h1 h2 suf hs
    rw [ht] at h2
    have hi : i = 1 := by omega
    subst hi
    have e : (app_trie.tail.tails 1).suffix = some [16, 16] := rfl
    rw [e] at hs
    simp only [Option.some.injEq] at hs
    subst hs
    exact ⟨by decide, by decide⟩

theorem C13_write_read_roundtrip_witness :
    Holds app_trie (Function.update (fun _ => none) [97, 112, 112] (some 2)) ∧
    FitsFormat app_trie ∧ (trie_fwrite file_ops app_trie ⟨[], 1000⟩).1 = 0 ∧
    ∃ t1 f1, trie_fread file_ops ⟨(trie_fwrite file_ops app_trie ⟨[], 1000⟩).2.2.bytes, 0⟩ =
        some (t1, f1) ∧
      (∀ k, 0 ∉ k → trie_retrieve t1 k = trie_retrieve app_trie k) ∧
      ∃ l l1, trie_enumerate app_trie enum_collect [] = some (true, l) ∧
        trie_enumerate t1 enum_collect [] = some (true, l1) ∧ l1.Perm l :=
  ⟨app_trie_holds, app_trie_fits, rfl,
    C13_write_read_roundtrip app_trie_holds app_trie_fits 1000 rfl⟩

/-! ### A suffix beyond the range of the length field -/

theorem char_to_trie_str_replicate (n : Nat) :
    alpha_map_char_to_trie_str en_alpha_map (List.replicate n 97) =
      some (List.replicate n 1) := by
  induction n with
  | zero => rfl
  | succ n ih =>
    rw [List.replicate_succ, alpha_map_char_to_trie_str, if_neg (by decide),
      if_neg (by decide), ih]
    rfl

/-- The fresh trie after the store of 'a' followed by `rest`. -/
theorem store_fresh (rest suf : List Nat)
    (h : alpha_map_char_to_trie_str en_alpha_map rest = some suf) :
    trie_store (trie_new en_alpha_map) (97 :: rest) 7 =
      some (true, ⟨en_alpha_map,
        trie_da_set_tail_index (da_insert_branch da_new 2 1).2 (da_insert_branch da_new 2 1).1 1,
        tail_set_data (tail_add_suffix tail_new suf).2 1 7, true⟩) := by
  have hw : walk_branches (trie_new en_alpha_map) (da_get_root (trie_new en_alpha_map).da)
      (97 :: rest) = .failed 2 (97 :: rest) := rfl
  have hs : alpha_map_char_to_trie_str (trie_new en_alpha_map).alpha_map (97 :: rest) =
      some (1 :: suf) := by
    show alpha_map_char_to_trie_str en_alpha_map (97 :: rest) = _
    rw [alpha_map_char_to_trie_str, if_neg (by decide), if_neg (by decide), h]
    rfl
  unfold trie_store trie_store_conditionally
  rw [hw]
  dsimp only
  rw [hs]
  rfl

theorem long_key_cons : long_key = 97 :: List.replicate 32768 97 := by
  unfold long_key
  exact List.replicate_succ _ _

theorem long_suffix_str : alpha_map_char_to_trie_str en_alpha_map (List.replicate 32768 97) =
    some (List.replicate 32768 1) := char_to_trie_str_replicate 32768

theorem long_store_fresh : trie_store (trie_new en_alpha_map) (97 :: List.replicate 32768 97) 7 =
    some (true, long_trie) :=
  store_fresh _ _ long_suffix_str

/-- The store of `long_key` in the fresh trie returns TRUE and `long_trie`. -/
theorem long_store : trie_store (trie_new en_alpha_map) long_key 7 = some (true, long_trie) := by
  rw [long_key_cons]
  exact long_store_fresh

theorem long_tail_items (suf : List Nat) (h : suf.length = 32768) :
    tail_items (tail_set_data (tail_add_suffix tail_new suf).2 1 7) =
      [.int32 TAIL_SIGNATURE, .int32 1, .int32 0, .int32 (-1), .int32 7, .int16 (-32768),
       .chars []] := by
  have hs : tail_slots (tail_set_data (tail_add_suffix tail_new suf).2 1 7) =
      [⟨-1, 7, some suf⟩] := rfl
  have hw : int16_wrap ((32768 : Nat) : Int) = -32768 := by decide
  unfold tail_items
  rw [hs]
  simp only [List.flatMap_cons, List.flatMap_nil, tail_slot_items, h, hw]
  rfl

/-- Writing a trie whose only tail entry has a suffix of 32768 characters succeeds, with the
length field holding -32768; reading the bytes back fails. -/
theorem long_suffix_write_read (t : Trie) (suf : List Nat) (h : suf.length = 32768)
    (ht : t = ⟨en_alpha_map,
      trie_da_set_tail_index (da_insert_branch da_new 2 1).2 (da_insert_branch da_new 2 1).1 1,
      tail_set_data (tail_add_suffix tail_new suf).2 1 7, true⟩) :
    (trie_fwrite file_ops t ⟨[], 1000⟩).1 = 0 ∧
    trie_fread file_ops ⟨(trie_fwrite file_ops t ⟨[], 1000⟩).2.2.bytes, 0⟩ = none := by
  subst ht
  unfold trie_fwrite
  simp only [file_ops, tail_fwrite, long_tail_items suf h]
  exact ⟨rfl, rfl⟩

theorem long_trie_record : long_trie = ⟨en_alpha_map,
    trie_da_set_tail_index (da_insert_branch da_new 2 1).2 (da_insert_branch da_new 2 1).1 1,
    tail_set_data (tail_add_suffix tail_new (List.replicate 32768 1)).2 1 7, true⟩ := by
  unfold long_trie
  exact Eq.refl _

theorem long_key_no_zero : (0 : Nat) ∉ long_key := by
  unfold long_key
  intro hm
  have := List.eq_of_mem_replicate hm
  omega

theorem long_trie_holds :
    Holds long_trie (Function.update (fun _ => none) long_key (some 7)) := by
  have := Holds.store (Holds.new en_alpha_map) long_key_no_zero long_store
  simpa using this

/-- C13 (write and read back), as stated, fails: the trie reached from the fresh trie over
`a..z` by the store of the key of 32769 letters 'a' holds a tail suffix of 32768 characters;
`trie_fwrite` of it succeeds, and `trie_fread` of the bytes written fails. -/
theorem C13_long_suffix_counterexample :
    Holds long_trie (Function.update (fun _ => none) long_key (some 7)) ∧
    (trie_fwrite file_ops long_trie ⟨[], 1000⟩).1 = 0 ∧
    trie_fread file_ops ⟨(trie_fwrite file_ops long_trie ⟨[], 1000⟩).2.2.bytes, 0⟩ = none := by
  exact ⟨long_trie_holds, long_suffix_write_read long_trie (List.replicate 32768 1)
    (List.length_replicate 32768 1) long_trie_record⟩

/-! ## Key storage -/

theorem ks_next_size_ge (next_size size : Int) :
    next_size ≤ ks_next_size next_size size ∧ size ≤ ks_next_size next_size size := by
  induction next_size, size using ks_next_size.induct with
  | case1 ns size h ih =>
    rw [ks_next_size, if_pos h]
    omega
  | case2 ns size h =>
    rw [ks_next_size, if_neg h]
    omega

/-- What `ks_ensure_size` changes: only `allocated`, which ends above `size - 1` and not
below its old value. -/
theorem ks_ensure_size_spec (ks : KeyStorage) (size : Int) :
    (ks_ensure_size ks size).1 = true ∧
    (ks_ensure_size ks size).2.trie_key = ks.trie_key ∧
    (ks_ensure_size ks size).2.length = ks.length ∧
    (ks_ensure_size ks size).2.alpha_map = ks.alpha_map ∧
    size ≤ (ks_ensure_size ks size).2.allocated ∧
    ks.allocated ≤ (ks_ensure_size ks size).2.allocated := by
  unfold ks_ensure_size
  split
  · refine ⟨rfl, rfl, rfl, rfl, ?_, le_refl _⟩
    show size ≤ ks.allocated
    omega
  · have := ks_next_size_ge (ks.allocated + 20) size
    refine ⟨rfl, rfl, rfl, rfl, this.2, ?_⟩
    show ks.allocated ≤ ks_next_size (ks.allocated + 20) size
    omega

/-- The function `ks_push_tc` on a storage whose length is not negative. -/
theorem ks_push_tc_spec (ks : KeyStorage) (tc : Nat) (h : 0 ≤ ks.length) :
    ∃ ks1, ks_push_tc ks tc = some ks1 ∧ ks1.length = ks.length + 1 ∧
      ks1.trie_key = Function.update ks.trie_key ks.length tc ∧
      ks.length + 1 ≤ ks1.allocated := by
  obtain ⟨_, hk, hl, _, ha, _⟩ := ks_ensure_size_spec ks (ks.length + 1)
  unfold ks_push_tc
  simp only
  rw [if_pos ⟨by rw [hl]; exact h, by rw [hl]; omega⟩]
  exact ⟨_, rfl, by simp only [hl], by simp only [hl, hk], ha⟩

/-- The function `ks_push` on a storage whose length is not negative. -/
theorem ks_push_spec (ks : KeyStorage) (tc ac : Nat) (h : 0 ≤ ks.length) :
    ∃ ks1, ks_push ks tc ac = some ks1 ∧ ks1.length = ks.length + 1 ∧
      ks1.trie_key = Function.update ks.trie_key ks.length tc ∧
      ks.length + 1 ≤ ks1.allocated := by
  obtain ⟨_, hk, hl, _, ha, _⟩ := ks_ensure_size_spec ks (ks.length + 1)
  unfold ks_push
  simp only
  rw [if_pos ⟨by rw [hl]; exact h, by rw [hl]; omega⟩]
  exact ⟨_, rfl, by simp only [hl], by simp only [hl, hk], ha⟩

/-- The function `ks_terminate` on a storage with `0 ≤ length < allocated`. -/
theorem ks_terminate_spec (ks : KeyStorage) (h0 : 0 ≤ ks.length)
    (h1 : ks.length < ks.allocated) :
    ∃ ks1, ks_terminate ks = some ks1 ∧ ks1.trie_key ks1.length = 0 ∧
      ks1.length = ks.length ∧ ∀ i, i ≠ ks.length → ks1.trie_key i = ks.trie_key i := by
  unfold ks_terminate
  rw [if_pos ⟨h0, h1⟩]
  by_cases hz : 0 = ks.trie_key ks.length
  · rw [if_pos hz]
    exact ⟨ks, rfl, hz.symm, rfl, fun _ _ => rfl⟩
  · rw [if_neg hz]
    obtain ⟨ks1, hp, hl, hk, _⟩ := ks_push_spec ks 0 0 h0
    rw [hp]
    refine ⟨_, rfl, ?_, ?_, ?_⟩
    · show ks1.trie_key (ks1.length - 1) = 0
      rw [hk, hl, show ks.length + 1 - 1 = ks.length by omega, Function.update_same]
    · show ks1.length - 1 = ks.length
      omega
    · intro i hi
      show ks1.trie_key i = ks.trie_key i
      rw [hk, Function.update_noteq hi]

/-- The buffer after the loop of `ks_reverse` started at `i` with `key_length`: the cells
`i .. key_length - 1` are mirrored, the others are as before. -/
theorem ks_reverse_loop_spec (trie_key : Int → Nat) (i key_length : Int) (x : Int) :
    ks_reverse_loop trie_key i key_length x =
      if i ≤ x ∧ x < key_length then trie_key (i + key_length - 1 - x) else trie_key x := by
  induction trie_key, i, key_length using ks_reverse_loop.induct with
  | case1 buf i kl h ih =>
    rw [ks_reverse_loop, if_pos h, ih]
    by_cases hx1 : x = i
    · subst hx1
      rw [if_neg (by omega), if_pos (by omega)]
      rw [Function.update_noteq (by omega), Function.update_same]
      congr 1; omega
    · by_cases hx2 : x = kl - 1
      · subst hx2
        rw [if_neg (by omega), if_pos (by omega), Function.update_same]
        congr 1; omega
      · by_cases hin : i + 1 ≤ x ∧ x < kl - 1
        · rw [if_pos hin, if_pos (by omega)]
          rw [Function.update_noteq (by omega), Function.update_noteq (by omega)]
          congr 1; omega
        · rw [if_neg hin, if_neg (by omega)]
          rw [Function.update_noteq hx2, Function.update_noteq hx1]
  | case2 buf i kl h =>
    rw [ks_reverse_loop, if_neg h]
    split
    · congr 1; omega
    · rfl

/-- C28: `ks_reverse` on a storage of length `n ≥ 0` puts `trie_key[n-1-i]` at every index
`i` of `0 .. n-1` (nothing moves for `n = 0` and `n = 1`), keeps `length`, `allocated` and the
characters at the indices from `n` on, and undoes itself when applied twice. -/
theorem C28_ks_reverse (ks : KeyStorage) (h : 0 ≤ ks.length) :
    (∀ i, 0 ≤ i → i < ks.length →
      (ks_reverse ks).trie_key i = ks.trie_key (ks.length - 1 - i)) ∧
    (∀ i, ks.length ≤ i → (ks_reverse ks).trie_key i = ks.trie_key i) ∧
    (ks_reverse ks).length = ks.length ∧
    (ks_reverse ks).allocated = ks.allocated ∧
    (ks.length ≤ 1 → ks_reverse ks = ks) ∧
    ks_reverse (ks_reverse ks) = ks := by
  have hk : ∀ x, (ks_reverse ks).trie_key x =
      if 0 ≤ x ∧ x < ks.length then ks.trie_key (0 + ks.length - 1 - x) else ks.trie_key x :=
    fun x => ks_reverse_loop_spec ks.trie_key 0 ks.length x
  refine ⟨?_, ?_, rfl, rfl, ?_, ?_⟩
  · intro i h0 h1
    rw [hk, if_pos ⟨h0, h1⟩]
    congr 1; omega
  · intro i hi
    rw [hk, if_neg (by omega)]
  · intro h1
    have : (ks_reverse ks).trie_key = ks.trie_key := by
      funext x
      rw [hk]
      split
      · congr 1; omega
      · rfl
    show ({ ks with trie_key := (ks_reverse ks).trie_key } : KeyStorage) = ks
    rw [this]
  · have : (ks_reverse (ks_reverse ks)).trie_key = ks.trie_key := by
      funext x
      have h2 := ks_reverse_loop_spec (ks_reverse ks).trie_key 0 ks.length x
      show ks_reverse_loop (ks_reverse ks).trie_key 0 ks.length x = ks.trie_key x
      rw [h2]
      by_cases hx : 0 ≤ x ∧ x < ks.length
      · rw [if_pos hx, hk, if_pos (by omega)]
        congr 1; omega
      · rw [if_neg hx, hk, if_neg hx]
    show ({ ks with trie_key := (ks_reverse (ks_reverse ks)).trie_key } : KeyStorage) = ks
    rw [this]

theorem C28_ks_reverse_witness :
    (∀ i, 0 ≤ i → i < ks_abc.length →
      (ks_reverse ks_abc).trie_key i = ks_abc.trie_key (ks_abc.length - 1 - i)) ∧
    (∀ i, ks_abc.length ≤ i → (ks_reverse ks_abc).trie_key i = ks_abc.trie_key i) ∧
    (ks_reverse ks_abc).length = ks_abc.length ∧
    (ks_reverse ks_abc).allocated = ks_abc.allocated ∧
    (ks_abc.length ≤ 1 → ks_reverse ks_abc = ks_abc) ∧
    ks_reverse (ks_reverse ks_abc) = ks_abc :=
  C28_ks_reverse ks_abc (by decide)

/-- C29: on a storage with `0 ≤ length < allocated`, `ks_terminate` returns with
`trie_key[length] = 0`, the same `length` and the same characters below `length`; `ks_clear`
returns with `length = 0` and `trie_key[0] = 0`. -/
theorem C29_ks_terminate (ks : KeyStorage) (h0 : 0 ≤ ks.length)
    (h1 : ks.length < ks.allocated) :
    (∃ ks1, ks_terminate ks = some ks1 ∧ ks1.trie_key ks1.length = 0 ∧
      ks1.length = ks.length ∧
      ∀ i, 0 ≤ i → i < ks.length → ks1.trie_key i = ks.trie_key i) ∧
    (∃ ks2, ks_clear ks = some ks2 ∧ ks2.trie_key ks2.length = 0 ∧ ks2.length = 0) := by
  constructor
  · obtain ⟨ks1, e, hz, hl, hk⟩ := ks_terminate_spec ks h0 h1
    exact ⟨ks1, e, hz, hl, fun i _ hi => hk i (by omega)⟩
  · obtain ⟨ks2, e, hz, hl, _⟩ :=
      ks_terminate_spec { ks with length := 0 } (le_refl _) (by show 0 < ks.allocated; omega)
    exact ⟨ks2, e, hz, hl⟩

theorem C29_ks_terminate_witness :
    (∃ ks1, ks_terminate ks_abc = some ks1 ∧ ks1.trie_key ks1.length = 0 ∧
      ks1.length = ks_abc.length ∧
      ∀ i, 0 ≤ i → i < ks_abc.length → ks1.trie_key i = ks_abc.trie_key i) ∧
    (∃ ks2, ks_clear ks_abc = some ks2 ∧ ks2.trie_key ks2.length = 0 ∧ ks2.length = 0) :=
  C29_ks_terminate ks_abc (by decide) (by decide)

/-- C30: for `count ≥ 0`, `ks_pop` sets `length` to `max (length - count) 0` and keeps the
buffer and `allocated`; on a storage whose length is not negative, `ks_push_tc` followed by
`ks_pop` of one character gives back the length and the characters below it. -/
theorem C30_ks_pop (ks : KeyStorage) (count : Int) (hc : 0 ≤ count) :
    (ks_pop ks count).length = max (ks.length - count) 0 ∧
    (ks_pop ks count).trie_key = ks.trie_key ∧
    (ks_pop ks count).allocated = ks.allocated ∧
    ∀ tc, 0 ≤ ks.length → ∃ ks1, ks_push_tc ks tc = some ks1 ∧
      (ks_pop ks1 1).length = ks.length ∧
      ∀ i, 0 ≤ i → i < ks.length → (ks_pop ks1 1).trie_key i = ks.trie_key i := by
  have hpop : ∀ (k : KeyStorage) (n : Int), 0 ≤ n →
      (ks_pop k n).length = max (k.length - n) 0 ∧ (ks_pop k n).trie_key = k.trie_key ∧
      (ks_pop k n).allocated = k.allocated := by
    intro k n hn
    unfold ks_pop
    split
    · refine ⟨?_, rfl, rfl⟩
      show k.length - n = max (k.length - n) 0
      rw [max_eq_left (by omega)]
    · refine ⟨?_, rfl, rfl⟩
      show (0 : Int) = max (k.length - n) 0
      rw [max_eq_right (by omega)]
  obtain ⟨hl, hk, ha⟩ := hpop ks count hc
  refine ⟨hl, hk, ha, ?_⟩
  intro tc h0
  obtain ⟨ks1, e, hl1, hk1, _⟩ := ks_push_tc_spec ks tc h0
  obtain ⟨hl2, hk2, _⟩ := hpop ks1 1 (by decide)
  refine ⟨ks1, e, ?_, ?_⟩
  · rw [hl2, hl1, max_eq_left (by omega)]
    omega
  · intro i _ hi
    rw [hk2, hk1, Function.update_noteq (by omega)]

theorem C30_ks_pop_witness :
    (ks_pop ks_abc 2).length = max (ks_abc.length - 2) 0 ∧
    (ks_pop ks_abc 2).trie_key = ks_abc.trie_key ∧
    (ks_pop ks_abc 2).allocated = ks_abc.allocated ∧
    ∀ tc, 0 ≤ ks_abc.length → ∃ ks1, ks_push_tc ks_abc tc = some ks1 ∧
      (ks_pop ks1 1).length = ks_abc.length ∧
      ∀ i, 0 ≤ i → i < ks_abc.length → (ks_pop ks1 1).trie_key i = ks_abc.trie_key i :=
  C30_ks_pop ks_abc 2 (by decide)

/-! ## Rewinding a state -/

/-- Two states in the double-array at the same node of the same trie answer every sequence of
calls alike, whatever their `suffix_idx`. -/
theorem state_calls_da (calls : List StateCall) :
    ∀ s1 s2 : TrieState, s1.trie = s2.trie → s1.index = s2.index → s1.is_suffix = false →
      s2.is_suffix = false → state_calls s1 calls = state_calls s2 calls := by
  induction calls with
  | nil => intro s1 s2 _ _ _ _; rfl
  | cons call rest ih =>
    intro s1 s2 ht hi h1 h2
    cases call with
    | walk c =>
      have hw1 : trie_state_walk s1 c =
          match da_walk s1.trie.da s1.index (alpha_map_char_to_trie s1.trie.alpha_map c) with
          | none => (false, s1)
          | some next =>
            if trie_da_is_separate s1.trie.da next then
              (true, { s1 with index := trie_da_get_tail_index s1.trie.da next,
                               suffix_idx := 0, is_suffix := true })
            else (true, { s1 with index := next }) := by
        unfold trie_state_walk
        simp only [h1, Bool.not_false, if_true]
      have hw2 : trie_state_walk s2 c =
          match da_walk s1.trie.da s1.index (alpha_map_char_to_trie s1.trie.alpha_map c) with
          | none => (false, s2)
          | some next =>
            if trie_da_is_separate s1.trie.da next then
              (true, { s2 with index := trie_da_get_tail_index s1.trie.da next,
                               suffix_idx := 0, is_suffix := true })
            else (true, { s2 with index := next }) := by
        unfold trie_state_walk
        simp only [h2, Bool.not_false, if_true, ← ht, ← hi]
      show CallResult.flag (trie_state_walk s1 c).1 :: state_calls (trie_state_walk s1 c).2 rest =
        CallResult.flag (trie_state_walk s2 c).1 :: state_calls (trie_state_walk s2 c).2 rest
      rw [hw1, hw2]
      cases da_walk s1.trie.da s1.index (alpha_map_char_to_trie s1.trie.alpha_map c) with
      | none =>
        show CallResult.flag false :: state_calls s1 rest =
          CallResult.flag false :: state_calls s2 rest
        rw [ih s1 s2 ht hi h1 h2]
      | some next =>
        by_cases hsep : trie_da_is_separate s1.trie.da next = true
        · simp only [hsep, if_true]
          have : ({ s1 with index := trie_da_get_tail_index s1.trie.da next, suffix_idx := 0,
                            is_suffix := true } : TrieState) =
              { s2 with index := trie_da_get_tail_index s1.trie.da next, suffix_idx := 0,
                        is_suffix := true } := by
            rw [TrieState.mk.injEq]
            exact ⟨ht, rfl, rfl, rfl⟩
          rw [this]
        · simp only [hsep]
          show CallResult.flag true :: state_calls { s1 with index := next } rest =
            CallResult.flag true :: state_calls { s2 with index := next } rest
          rw [ih { s1 with index := next } { s2 with index := next } ht rfl h1 h2]
    | is_walkable c =>
      have hq : trie_state_is_walkable s1 c = trie_state_is_walkable s2 c := by
        unfold trie_state_is_walkable
        simp only [h1, h2, ht, hi, Bool.not_false, if_true]
      show CallResult.flag (trie_state_is_walkable s1 c) :: state_calls s1 rest =
        CallResult.flag (trie_state_is_walkable s2 c) :: state_calls s2 rest
      rw [hq, ih s1 s2 ht hi h1 h2]
    | is_terminal =>
      have hq : trie_state_is_terminal s1 = trie_state_is_terminal s2 := by
        unfold trie_state_is_terminal trie_state_is_walkable
        simp only [h1, h2, ht, hi, Bool.not_false, if_true]
      show CallResult.flag (trie_state_is_terminal s1) :: state_calls s1 rest =
        CallResult.flag (trie_state_is_terminal s2) :: state_calls s2 rest
      rw [hq, ih s1 s2 ht hi h1 h2]
    | is_single =>
      have hq : trie_state_is_single s1 = trie_state_is_single s2 := by
        unfold trie_state_is_single
        rw [h1, h2]
      show CallResult.flag (trie_state_is_single s1) :: state_calls s1 rest =
        CallResult.flag (trie_state_is_single s2) :: state_calls s2 rest
      rw [hq, ih s1 s2 ht hi h1 h2]
    | is_leaf =>
      have hq : trie_state_is_leaf s1 = trie_state_is_leaf s2 := by
        unfold trie_state_is_leaf trie_state_is_single
        rw [h1, h2]
        rfl
      show CallResult.flag (trie_state_is_leaf s1) :: state_calls s1 rest =
        CallResult.flag (trie_state_is_leaf s2) :: state_calls s2 rest
      rw [hq, ih s1 s2 ht hi h1 h2]
    | get_data =>
      have hq : trie_state_get_data s1 = trie_state_get_data s2 := by
        unfold trie_state_get_data
        simp only [h1, h2, Bool.false_eq_true, if_false]
      show CallResult.data (trie_state_get_data s1) :: state_calls s1 rest =
        CallResult.data (trie_state_get_data s2) :: state_calls s2 rest
      rw [hq, ih s1 s2 ht hi h1 h2]

/-- C21: after `trie_state_rewind` a state, whatever it was before (in the tail, with any
suffix offset), is not single and gives on every sequence of `trie_state_walk`,
`trie_state_is_walkable`, `trie_state_is_terminal`, `trie_state_is_single`,
`trie_state_is_leaf` and `trie_state_get_data` calls the results a fresh `trie_root` state of
its trie gives. -/
theorem C21_rewind_as_root (s : TrieState) :
    trie_state_is_single (trie_state_rewind s) = false ∧
    (trie_state_rewind s).trie = s.trie ∧
    ∀ calls, state_calls (trie_state_rewind s) calls = state_calls (trie_root s.trie) calls :=
  ⟨rfl, rfl, fun calls => state_calls_da calls _ _ rfl rfl rfl rfl⟩

/-! ## The callback of `trie_enumerate` -/

theorem takeWhile_nozero {l : List Nat} (h : 0 ∉ l) (rest : List Nat) :
    l.takeWhile (fun c => c ≠ 0) = l ∧
    (l ++ 0 :: rest).takeWhile (fun c => c ≠ 0) = l := by
  induction l with
  | nil => simp
  | cons a l ih =>
    have ha : a ≠ 0 := fun e => h (by rw [e]; exact List.mem_cons_self _ _)
    have hl : 0 ∉ l := fun e => h (List.mem_cons_of_mem _ e)
    obtain ⟨i1, i2⟩ := ih hl
    constructor
    · rw [List.takeWhile_cons_of_pos (by simpa using ha), i1]
    · rw [List.cons_append, List.takeWhile_cons_of_pos (by simpa using ha), i2]

/-- C26: at a separate node whose tail entry holds the suffix `S`, reported with the key `P`
(as it stands, or followed by a terminator), `trie_da_enum_func` calls the user callback once,
with the characters of `P` and then of `S` mapped through `alpha_map_trie_to_char`, and with
the data of that tail entry, and returns what the callback returns. -/
theorem C26_enum_func_key {U : Type} (t : Trie) (enum_func : List Nat → Int → U → Bool × U)
    (u : U) (key P rest S : List Nat) (sep_node : Int)
    (hP : 0 ∉ P) (hS : 0 ∉ S) (hk : key = P ∨ key = P ++ 0 :: rest)
    (ht : tail_get_suffix t.tail (trie_da_get_tail_index t.da sep_node) = some S) :
    trie_da_enum_func t enum_func key sep_node u =
      some (enum_func ((P ++ S).map (alpha_map_trie_to_char t.alpha_map))
        (tail_get_data t.tail (trie_da_get_tail_index t.da sep_node)) u) := by
  have hkey : key.takeWhile (fun c => c ≠ 0) = P := by
    rcases hk with rfl | rfl
    · exact (takeWhile_nozero hP []).1
    · exact (takeWhile_nozero hP rest).2
  unfold trie_da_enum_func
  rw [ht]
  simp only [hkey, (takeWhile_nozero hS []).1, List.map_append]

theorem C26_enum_func_key_witness :
    trie_da_enum_func app_trie enum_collect [1] 4 [] =
      some (enum_collect (([1] ++ [16, 16]).map (alpha_map_trie_to_char app_trie.alpha_map))
        (tail_get_data app_trie.tail (trie_da_get_tail_index app_trie.da 4)) []) :=
  C26_enum_func_key app_trie enum_collect [] [1] [1] [] [16, 16] 4 (by decide) (by decide)
    (Or.inl rfl) (by rfl)

/-! ## Enumeration with a callback that may stop it -/

theorem enum_feed_single {U : Type} (f : List Nat → Int → U → Bool × U)
    (e : List Nat × Int) (u : U) : enum_feed f [e] u = f e.1 e.2 u := by
  simp only [enum_feed]
  cases h : (f e.1 e.2 u).1
  · rw [if_neg (by simp)]
    exact Prod.ext h.symm rfl
  · rw [if_pos rfl]
    exact Prod.ext h.symm rfl

theorem enum_feed_append {U : Type} (f : List Nat → Int → U → Bool × U)
    (l1 l2 : List (List Nat × Int)) (u : U) :
    enum_feed f (l1 ++ l2) u =
      if (enum_feed f l1 u).1 then enum_feed f l2 (enum_feed f l1 u).2
      else (false, (enum_feed f l1 u).2) := by
  induction l1 generalizing u with
  | nil => simp [enum_feed]
  | cons e l1 ih =>
    simp only [List.cons_append, enum_feed]
    by_cases h : (f e.1 e.2 u).1 = true
    · rw [if_pos h, if_pos h]
      exact ih _
    · rw [if_neg h, if_neg h]
      simp

theorem enum_feed_collect (l u : List (List Nat × Int)) :
    enum_feed enum_collect l u = (true, u ++ l) := by
  induction l generalizing u with
  | nil => simp [enum_feed]
  | cons e l ih =>
    simp only [enum_feed, enum_collect, if_true]
    rw [ih]
    simp

theorem enum_feed_true {U : Type} (f : List Nat → Int → U → Bool × U)
    (hf : ∀ k v u, (f k v u).1 = true) (l : List (List Nat × Int)) (u : U) :
    (enum_feed f l u).1 = true := by
  induction l generalizing u with
  | nil => rfl
  | cons e l ih =>
    simp only [enum_feed]
    rw [if_pos (hf _ _ _)]
    exact ih _

/-- The logging callback that returns `FALSE` on its `i`-th call leaves the entries up to
the `i`-th in its log. -/
theorem enum_feed_stop_at (i : Nat) (l u : List (List Nat × Int)) (h1 : u.length < i)
    (h2 : i ≤ u.length + l.length) :
    enum_feed (enum_stop_at i) l u = (false, u ++ l.take (i - u.length)) := by
  induction l generalizing u with
  | nil => simp at h2; omega
  | cons e l ih =>
    simp only [enum_feed, enum_stop_at]
    by_cases hi : u.length + 1 = i
    · rw [if_neg (by simp [hi])]
      have : i - u.length = 1 := by omega
      rw [this]
      simp
    · rw [if_pos (by simpa using hi)]
      have hlen : (u ++ [(e.1, e.2)]).length = u.length + 1 := by simp
      rw [ih (u ++ [(e.1, e.2)]) (by rw [hlen]; omega)
        (by rw [hlen]; simp only [List.length_cons] at h2; omega), hlen]
      have : i - u.length = (i - (u.length + 1)) + 1 := by omega
      rw [this, List.take_succ_cons]
      simp

/-- The loop over the children hands the entries below the children to the callback, child
after child, until a call returns `FALSE`. -/
theorem enum_children_feed
    (step : (U : Type) → (List Nat → Int → U → Bool × U) → Nat → U → Option (Bool × U)) :
    ∀ (cs : List Nat),
    (∀ c ∈ cs, ∃ E : List (List Nat × Int), ∀ (U : Type) (f : List Nat → Int → U → Bool × U)
      (u : U), step U f c u = some (enum_feed f E u)) →
    ∃ E : List (List Nat × Int), ∀ (U : Type) (f : List Nat → Int → U → Bool × U) (u : U),
      da_enumerate_children (step U f) cs u = some (enum_feed f E u) := by
  intro cs
  induction cs with
  | nil =>
    intro _
    exact ⟨[], fun U f u => rfl⟩
  | cons c cs ih =>
    intro hstep
    obtain ⟨Ec, hEc⟩ := hstep c (List.mem_cons_self _ _)
    obtain ⟨Er, hEr⟩ := ih (fun c1 h1 => hstep c1 (List.mem_cons_of_mem _ h1))
    refine ⟨Ec ++ Er, fun U f u => ?_⟩
    rw [enum_feed_append]
    simp only [da_enumerate_children, hEc]
    cases hr : enum_feed f Ec u with
    | mk b u1 =>
      cases b with
      | false => simp
      | true => simp only [if_true]; exact hEr U f u1

theorem enum_func_any {U : Type} {t : Trie} (W : WF t) {s : Int} {pth : List Nat}
    (hp : Path t.da 2 pth s) (hb : t.da.base s < 0) (f : List Nat → Int → U → Bool × U) (u : U) :
    trie_da_enum_func t f pth s u =
      some (enum_feed f [entryOf t (pth, -(t.da.base s))] u) := by
  obtain ⟨dp, w⟩ := W.da
  have hs : IsNode t.da s := hp.node (Or.inl rfl)
  have hl : Leaf t.da pth (-(t.da.base s)) := ⟨s, hp, by omega, by omega⟩
  obtain ⟨suf, hsuf, _, _⟩ := W.live _ _ hl
  rw [enum_feed_single]
  unfold trie_da_enum_func
  rw [tail_index_node w hs, hsuf]
  simp only [entryOf, hsuf, Option.getD_some]

/-- The depth-first search below `s` hands the same entries in the same order to every
callback, until a call returns `FALSE`. -/
theorem enum_rec_feed {t : Trie} (W : WF t) :
    ∀ (fuel : Nat) (s : Int) (pth : List Nat),
    Path t.da 2 pth s → (∀ q x, Path t.da s q x → q.length < fuel) →
    ∃ E : List (List Nat × Int), ∀ (U : Type) (f : List Nat → Int → U → Bool × U) (u : U),
      da_enumerate_recursive t.da (trie_da_enum_func t f) fuel s pth u =
        some (enum_feed f E u) := by
  obtain ⟨dp, w⟩ := W.da
  intro fuel
  induction fuel with
  | zero =>
    intro s pth _ hh
    have := hh [] s rfl
    simp at this
  | succ fuel ih =>
    intro s pth hp hh
    have hs : IsNode t.da s := hp.node (Or.inl rfl)
    by_cases hb : t.da.base s < 0
    · refine ⟨[entryOf t (pth, -(t.da.base s))], fun U f u => ?_⟩
      simp only [da_enumerate_recursive]
      rw [w.get_base_node hs, if_pos (Or.inl hb), enum_func_any W hp hb]
    · have h0 : 0 ∉ pth := W.nonsep pth s hp (by omega)
      have hlast : ¬ (t.da.base s < 0 ∨ pth.getLast? = some TRIE_CHAR_TERM) := by
        rintro (h | h)
        · exact hb h
        · exact h0 (List.mem_of_getLast?_eq_some h)
      obtain ⟨_, hsym⟩ := symbols_spec w hs (show 0 ≤ t.da.base s by omega)
      obtain ⟨E, hE⟩ := enum_children_feed
        (fun U f c u1 => da_enumerate_recursive t.da (trie_da_enum_func t f) fuel
          (t.da.base s + (c : Int)) (pth ++ [c]) u1)
        (da_output_symbols t.da s)
        (fun c hc => by
          have he := (hsym c).1 hc
          exact ih (t.da.base s + (c : Int)) (pth ++ [c]) (hp.snoc he)
            (fun q x hq => by
              have := hh (c :: q) x ⟨_, he, hq⟩
              simp only [List.length_cons] at this
              omega))
      refine ⟨E, fun U f u => ?_⟩
      simp only [da_enumerate_recursive]
      rw [w.get_base_node hs, if_neg hlast]
      exact hE U f u

/-- On a well-formed trie the calls `trie_enumerate` makes are those of `enum_feed` on the
list the collecting callback gets. -/
theorem enumerate_feed {t : Trie} (W : WF t) :
    ∃ l : List (List Nat × Int), trie_enumerate t enum_collect [] = some (true, l) ∧
      ∀ (U : Type) (f : List Nat → Int → U → Bool × U) (u : U),
        trie_enumerate t f u = some (enum_feed f l u) := by
  obtain ⟨dp, w⟩ := W.da
  obtain ⟨E, hE⟩ := enum_rec_feed W t.da.num_cells.toNat 2 []
    (show Path t.da 2 [] 2 from rfl) (fun q x hq => path_length_lt w hq)
  have hall : ∀ (U : Type) (f : List Nat → Int → U → Bool × U) (u : U),
      trie_enumerate t f u = some (enum_feed f E u) := by
    intro U f u
    unfold trie_enumerate da_enumerate da_get_root
    exact hE U f u
  refine ⟨E, ?_, hall⟩
  rw [hall, enum_feed_collect]
  simp

/-- C22: on a reachable trie, with `l` the entries in the order in which an always-`TRUE`
callback gets them: every callback gets the entries of `l` in that order up to the first call
that returns `FALSE`, and no entry after it; `trie_enumerate` then returns `FALSE`; a callback
that returns `FALSE` on the `i`-th entry has been given the first `i` entries and no other;
with a callback that always returns `TRUE`, `trie_enumerate` returns `TRUE`. -/
theorem C22_callback_stops_enumeration {t : Trie} {m : List Nat → Option Int}
    (h : Holds t m) :
    ∃ l : List (List Nat × Int), trie_enumerate t enum_collect [] = some (true, l) ∧
      (∀ (U : Type) (f : List Nat → Int → U → Bool × U) (u : U),
        trie_enumerate t f u = some (enum_feed f l u)) ∧
      (∀ i, 1 ≤ i → i ≤ l.length →
        trie_enumerate t (enum_stop_at i) [] = some (false, l.take i)) ∧
      (∀ (U : Type) (f : List Nat → Int → U → Bool × U) (u : U),
        (∀ k v u1, (f k v u1).1 = true) →
        (trie_enumerate t f u).map (fun r => r.1) = some true) := by
  obtain ⟨l, hl, hall⟩ := enumerate_feed (holds_retrieve (holds_unbounded h)).1
  refine ⟨l, hl, hall, ?_, ?_⟩
  · intro i h1 h2
    rw [hall, enum_feed_stop_at i l [] (by simpa using h1) (by simpa using h2)]
    simp
  · intro U f u hf
    rw [hall, Option.map_some']
    exact congrArg some (enum_feed_true f hf l u)

theorem C22_callback_stops_enumeration_witness :
    ∃ l : List (List Nat × Int), trie_enumerate app_trie enum_collect [] = some (true, l) ∧
      (∀ (U : Type) (f : List Nat → Int → U → Bool × U) (u : U),
        trie_enumerate app_trie f u = some (enum_feed f l u)) ∧
      (∀ i, 1 ≤ i → i ≤ l.length →
        trie_enumerate app_trie (enum_stop_at i) [] = some (false, l.take i)) ∧
      (∀ (U : Type) (f : List Nat → Int → U → Bool × U) (u : U),
        (∀ k v u1, (f k v u1).1 = true) →
        (trie_enumerate app_trie f u).map (fun r => r.1) = some true) :=
  C22_callback_stops_enumeration app_trie_holds

/-! ## The suffix offset as a C `short` -/

/-- C27: on a trie whose tail suffixes have at most 32767 trie characters, `trie_retrieve`,
`trie_store_conditionally` (so `trie_store` and `trie_store_if_absent`) and `trie_delete` with
the `short` offset return what they return with an unbounded offset; a `tail_walk_char` from
an offset of at most 32767 leaves an offset of at most 32767; and after every sequence of
`trie_state_walk` calls from `trie_root` the state with the `short` offset is the state with
the unbounded offset, its offset is at most 32767, and the next `trie_state_walk` returns the
same flag. -/
theorem C27_short_offset_within_limit (t : Trie) (h : ShortSuffixes t.tail) :
    (∀ key, trie_retrieve t key = trie_retrieve_unbounded t key) ∧
    (∀ key data ow,
      trie_store_conditionally t key data ow = trie_store_conditionally_unbounded t key data ow) ∧
    (∀ key, trie_delete t key = trie_delete_unbounded t key) ∧
    (∀ s (idx : Nat) c r, idx ≤ 32767 → tail_walk_char_unbounded t.tail s idx c = some r →
      r ≤ 32767 ∧ tail_walk_char t.tail s (idx : Int) c = some (r : Int)) ∧
    (∀ cs, state_after (trie_root t) cs =
        state_as_short (state_after_unbounded (trie_root_unbounded t) cs) ∧
      (state_after_unbounded (trie_root_unbounded t) cs).suffix_idx ≤ 32767 ∧
      ∀ c, (trie_state_walk (state_after (trie_root t) cs) c).1 =
        (trie_state_walk_unbounded (state_after_unbounded (trie_root_unbounded t) cs) c).1) := by
  have hwt : ∀ s p, walk_tail t s 0 p = walk_tail_unbounded t s 0 p :=
    fun s p => walk_tail_short_eq h s p 0 (by omega)
  refine ⟨?_, ?_, ?_, ?_, ?_⟩
  · intro key
    unfold trie_retrieve trie_retrieve_unbounded
    simp only [hwt]
  · intro key data ow
    unfold trie_store_conditionally trie_store_conditionally_unbounded
    simp only [hwt]
  · intro key
    unfold trie_delete trie_delete_unbounded
    simp only [hwt]
  · intro s idx c r hidx hr
    obtain ⟨e, hb⟩ := tail_walk_char_short_eq h s idx hidx c
    refine ⟨hb r hr, ?_⟩
    rw [e, hr]
    rfl
  · intro cs
    have hroot : trie_root t = state_as_short (trie_root_unbounded t) := rfl
    obtain ⟨e, hb, ht⟩ := state_after_short_eq cs (trie_root_unbounded t) h (by show (0 : Nat) ≤ 32767; omega)
    rw [hroot]
    refine ⟨e, hb, fun c => ?_⟩
    rw [e]
    have ht1 : (state_after_unbounded (trie_root_unbounded t) cs).trie = t := ht
    rw [(state_walk_short_eq (state_after_unbounded (trie_root_unbounded t) cs) (by rw [ht1]; exact h) hb c).1]

theorem app_trie_short_suffixes : ShortSuffixes app_trie.tail := by
  intro j suf hj
  unfold tail_get_suffix at hj
  have hn : app_trie.tail.num_tails = 1 := rfl
  split at hj
  · rename_i hr
    have : j = 1 := by omega
    subst this
    have h1 : (app_trie.tail.tails 1).suffix = some [16, 16] := rfl
    rw [h1] at hj
    simp only [Option.some.injEq] at hj
    rw [← hj]
    decide
  · simp at hj

theorem C27_short_offset_within_limit_witness :
    (∀ key, trie_retrieve app_trie key = trie_retrieve_unbounded app_trie key) ∧
    (∀ key data ow, trie_store_conditionally app_trie key data ow =
      trie_store_conditionally_unbounded app_trie key data ow) ∧
    (∀ key, trie_delete app_trie key = trie_delete_unbounded app_trie key) ∧
    (∀ s (idx : Nat) c r, idx ≤ 32767 → tail_walk_char_unbounded app_trie.tail s idx c = some r →
      r ≤ 32767 ∧ tail_walk_char app_trie.tail s (idx : Int) c = some (r : Int)) ∧
    (∀ cs, state_after (trie_root app_trie) cs =
        state_as_short (state_after_unbounded (trie_root_unbounded app_trie) cs) ∧
      (state_after_unbounded (trie_root_unbounded app_trie) cs).suffix_idx ≤ 32767 ∧
      ∀ c, (trie_state_walk (state_after (trie_root app_trie) cs) c).1 =
        (trie_state_walk_unbounded (state_after_unbounded (trie_root_unbounded app_trie) cs) c).1) :=
  C27_short_offset_within_limit app_trie app_trie_short_suffixes

/-! ## A store that fails while it splits a tail -/

set_option maxRecDepth 20000 in
/-- C23 (rollback of a failed tail split), the code at the failing input: the trie holds
"app" with value 2: the node 4 reached by `a` is separate and points at tail entry 1 with
suffix `p p`.  `trie_store` of "apz" when the double-array cannot grow beyond 20 cells: the
`da_insert_branch` calls for the shared `p` and for the old branch succeed, the one for the new
branch `z` fails.  The call returns FALSE, and node 4 is no longer separate, still has the
cells 17 and 19 created by the call below it, and tail entry 1 holds the shortened suffix.
When the double-array cannot grow beyond 18 cells the call for the old branch fails already,
and the rollback is made: node 4 is separate and points at tail entry 1 with its suffix `p p`,
and the cell 17 the call had created is free again. -/
theorem C23_failed_split_not_rolled_back :
    trie_da_is_separate app_trie_saved.da 4 = true ∧
    trie_da_get_tail_index app_trie_saved.da 4 = 1 ∧
    tail_get_suffix app_trie_saved.tail 1 = some [16, 16] ∧
    (trie_store_with (da_insert_branch_bounded 20) app_trie_saved [97, 112, 122] 1).map
      (fun r => r.1) = some false ∧
    (trie_store_with (da_insert_branch_bounded 20) app_trie_saved [97, 112, 122] 1).map
      (fun r => trie_da_is_separate r.2.da 4) = some false ∧
    (trie_store_with (da_insert_branch_bounded 20) app_trie_saved [97, 112, 122] 1).map
      (fun r => (da_get_check r.2.da 17, da_get_check r.2.da 19)) = some (4, 17) ∧
    (trie_store_with (da_insert_branch_bounded 20) app_trie_saved [97, 112, 122] 1).map
      (fun r => tail_get_suffix r.2.tail 1) = some (some []) ∧
    (trie_store_with (da_insert_branch_bounded 18) app_trie_saved [97, 112, 122] 1).map
      (fun r => r.1) = some false ∧
    (trie_store_with (da_insert_branch_bounded 18) app_trie_saved [97, 112, 122] 1).map
      (fun r => trie_da_is_separate r.2.da 4) = some true ∧
    (trie_store_with (da_insert_branch_bounded 18) app_trie_saved [97, 112, 122] 1).map
      (fun r => trie_da_get_tail_index r.2.da 4) = some 1 ∧
    (trie_store_with (da_insert_branch_bounded 18) app_trie_saved [97, 112, 122] 1).map
      (fun r => da_get_check r.2.da 17) = some (-1) ∧
    (trie_store_with (da_insert_branch_bounded 18) app_trie_saved [97, 112, 122] 1).map
      (fun r => tail_get_suffix r.2.tail 1) = some (some [16, 16]) := by
  refine ⟨rfl, rfl, rfl, rfl, rfl, rfl, rfl, rfl, rfl, rfl, rfl, rfl⟩

/-! ## The shape of the trie after a store -/

/-- A node that is not a child of `s` keeps its cell and its path from the root through
`da_insert_branch d s c`. -/
theorem insert_keeps_path {d : DArray} {dp : Int → Nat} (w : WFda d dp) {s : Int}
    (hs : IsNode d s) {c : Nat} (hc : c ≤ 255) (hne : ∀ y, ¬ Edge d s c y) {x : Int}
    (hx : ¬ (3 ≤ x ∧ d.check x = s)) {q : List Nat} (hq : Path d 2 q x) :
    Path (da_insert_branch d s c).2 2 q x := by
  obtain ⟨nb, sp⟩ := insert_branch_spec w hs hc
  have X : InsCtx d dp s c (da_insert_branch d s c) nb :=
    ⟨w, hs, hc, fun h => hne _ ⟨hs.ge, rfl, h.1, h.2⟩, sp⟩
  have h := X.path_fwd hq
  rw [X.moved_root] at h
  have hm : moved d s nb x = x := by unfold moved; rw [if_neg hx]
  rw [hm] at h
  exact h

/-- The cells and tail entries after `trie_branch_in_branch` at a node `s` that is not
separate, reached by `pth`, without transition on the first character of `suffix`: a fresh tail
entry `a` holds the rest of the suffix and the data, a new separate node below `s` points at
it, and the separate nodes and tail entries from before are kept. -/
theorem branch_in_branch_shape {t : Trie} (W : WF t) {s : Int} {pth : List Nat}
    (hp : Path t.da 2 pth s) (hb : 0 ≤ t.da.base s) (suffix : List Nat)
    (hsuf : ∀ c ∈ suffix, ValidTC t.alpha_map c)
    (hne : ∀ y, ¬ Edge t.da s (suffix.headD 0) y) (v : Int) :
    ∃ t1 a, trie_branch_in_branch t s suffix v = (true, t1) ∧
      tail_get_suffix t.tail a = none ∧
      (∀ j, tail_get_suffix t1.tail j =
        if j = a then some (if suffix.headD 0 ≠ 0 then suffix.tail else suffix)
        else tail_get_suffix t.tail j) ∧
      (∀ j, tail_get_data t1.tail j = if j = a then v else tail_get_data t.tail j) ∧
      (∀ q j, Leaf t1.da q j ↔ (Leaf t.da q j ∨ (q = pth ++ [suffix.headD 0] ∧ j = a))) ∧
      Path t1.da 2 pth s ∧
      (∀ x q, ¬ (3 ≤ x ∧ t.da.check x = s) → Path t.da 2 q x → Path t1.da 2 q x) := by
  obtain ⟨dp, w⟩ := W.da
  have hs : IsNode t.da s := hp.node (Or.inl rfl)
  have hc255 : suffix.headD 0 ≤ 255 :=
    headD_le (fun c hc => ⟨(hsuf c hc).1, (hsuf c hc).le⟩)
  have F := insert_facts w hs hc255 hp hne
  have K : ∀ x q, ¬ (3 ≤ x ∧ t.da.check x = s) → Path t.da 2 q x →
      Path (da_insert_branch t.da s (suffix.headD 0)).2 2 q x :=
    fun x q hx hq => insert_keeps_path w hs hc255 hne hx hq
  obtain ⟨dp1, w1⟩ := F.wf
  have A := tail_add_suffix_spec W.tail (if suffix.headD 0 ≠ 0 then suffix.tail else suffix)
  have B := tail_set_data_spec A.2.2.2.1 (tail_add_suffix t.tail
    (if suffix.headD 0 ≠ 0 then suffix.tail else suffix)).1 v
  generalize hr : da_insert_branch t.da s (suffix.headD 0) = r at F w1 K
  generalize hsuf1 : (if suffix.headD 0 ≠ 0 then suffix.tail else suffix) = suffix1 at A B ⊢
  generalize ha : tail_add_suffix t.tail suffix1 = a at A B
  obtain ⟨a1, afresh, arange, _, asuf, adata⟩ := A
  obtain ⟨BW, bsuf, bdata⟩ := B
  have hres : trie_branch_in_branch t s suffix v =
      (true, { t with da := da_set_base r.2 r.1 (-a.1), tail := tail_set_data a.2 a.1 v,
                      is_dirty := true }) := by
    unfold trie_branch_in_branch
    simp only [hr, hsuf1, ha]
    rw [if_neg (by unfold TRIE_INDEX_ERROR; have := F.new_ge; omega)]
    rfl
  have hleaf : ∀ q j, Leaf (da_set_base r.2 r.1 (-a.1)) q j ↔
      (Leaf t.da q j ∨ (q = pth ++ [suffix.headD 0] ∧ j = a.1)) := by
    intro q j
    rw [set_base_leaf w1 F.new_node F.new_childless, F.leaf]
    constructor
    · rintro (⟨⟨h, _⟩, _⟩ | ⟨h, h1, _⟩)
      · exact Or.inl h
      · exact Or.inr ⟨h.unique w1 F.path_new, by omega⟩
    · rintro (h | ⟨rfl, rfl⟩)
      · left
        have hq : q ≠ pth := by
          rintro rfl
          obtain ⟨x, hx, hbx, hj⟩ := h
          have := hx.path_det hp; subst this; omega
        refine ⟨⟨h, hq⟩, ?_⟩
        intro hqn
        obtain ⟨x, hx, hbx, hj⟩ := (F.leaf q j).2 ⟨h, hq⟩
        have := hx.path_det hqn; subst this
        have := F.new_base; omega
      · right; exact ⟨F.path_new, rfl, by omega⟩
  refine ⟨_, a.1, hres, afresh, ?_, ?_, hleaf, ?_, ?_⟩
  · intro j
    show tail_get_suffix (tail_set_data a.2 a.1 v) j = _
    rw [bsuf, asuf]
  · intro j
    show tail_get_data (tail_set_data a.2 a.1 v) j = _
    rw [bdata]
    by_cases hj : j = a.1
    · rw [if_pos ⟨hj, a1, arange⟩, if_pos hj]
    · rw [if_neg (fun h => hj h.1), if_neg hj, adata j hj]
  · exact (set_base_path w1 F.new_node F.new_childless _ _ _ _).2 F.path_s
  · intro x q hx hq
    exact (set_base_path w1 F.new_node F.new_childless _ _ _ _).2 (K x q hx hq)

/-- The loop of `trie_branch_in_tail` keeps the separate node it starts from at its path. -/
theorem tail_loop_root {V : Nat → Prop} {d0 : DArray} {p0 : List Nat}
    (H0 : ∀ e j, e ≠ [] → ¬ Leaf d0 (p0 ++ e) j) {s0 : Int} (T : List Nat) :
    ∀ (N : List Nat) {d : DArray} {s : Int} {pth : List Nat}, Mid V d0 p0 d s pth →
      Path d 2 p0 s0 → (∀ c ∈ T, (c ≠ 0 ∧ c ≤ 255) ∧ V c) →
      ∀ d1 s1 T1 N1, branch_in_tail_loop d s T N = .done d1 s1 T1 N1 → Path d1 2 p0 s0 := by
  induction T with
  | nil =>
    intro N d s pth _ hp _ d1 s1 T1 N1 hl
    unfold branch_in_tail_loop at hl
    split at hl
    · cases hl
    · cases hl; exact hp
  | cons pc T ih =>
    intro N d s pth M hp hT d1 s1 T1 N1 hl
    have hpc := hT pc (List.mem_cons_self _ _)
    unfold branch_in_tail_loop at hl
    by_cases heq : pc = N.headD 0
    · rw [if_pos heq, if_neg hpc.1.1] at hl
      have hstep := Mid.step H0 M hpc.1.1 hpc.1.2 hpc.2
      simp only at hl
      rw [if_neg (by unfold TRIE_INDEX_ERROR; have := hstep.1; omega)] at hl
      obtain ⟨dp, w⟩ := M.wf
      have hk := insert_keeps_path w M.node hpc.1.2 (fun y => M.childless.no_edge pc y)
        (fun h => M.childless s0 h.1 h.2) hp
      exact ih N.tail hstep.2 hk (fun c hc => hT c (List.mem_cons_of_mem _ hc)) d1 s1 T1 N1 hl
    · rw [if_neg heq] at hl
      cases hl; exact hp

/-- The cells and tail entries in the middle of `trie_branch_in_tail`, after the old branch has
been re-attached below the chain: the old tail entry holds the rest of its suffix and is
pointed at by the new node below the end of the chain; the other separate nodes and tail
entries are kept, and so is the path to the node the split started from. -/
theorem reattach_shape {t : Trie} (W : WF t) {s0 : Int} {p0 : List Nat}
    (hp0 : Path t.da 2 p0 s0) (hb : t.da.base s0 < 0) {T : List Nat}
    (hT : tail_get_suffix t.tail (-(t.da.base s0)) = some T)
    {d1 : DArray} {s1 : Int} {com T1 : List Nat}
    (M : Mid (ValidTC t.alpha_map) t.da p0 d1 s1 (p0 ++ com))
    (hsplit : T = com ++ T1) (hroot : Path d1 2 p0 s0) :
    (∀ q j, Leaf (reattached t s0 d1 s1 T1).da q j ↔
      ((Leaf t.da q j ∧ q ≠ p0) ∨
        (q = p0 ++ com ++ [T1.headD 0] ∧ j = -(t.da.base s0)))) ∧
    (∀ j, tail_get_suffix (reattached t s0 d1 s1 T1).tail j =
      if j = -(t.da.base s0) then some (if T1.headD 0 ≠ 0 then T1.tail else T1)
      else tail_get_suffix t.tail j) ∧
    (∀ j, tail_get_data (reattached t s0 d1 s1 T1).tail j = tail_get_data t.tail j) ∧
    Path (reattached t s0 d1 s1 T1).da 2 p0 s0 := by
  have hti : trie_da_get_tail_index t.da s0 = -(t.da.base s0) := by
    obtain ⟨dp, w⟩ := W.da
    exact tail_index_node w (hp0.node (Or.inl rfl))
  unfold reattached trie_da_set_tail_index
  rw [hti]
  simp only
  have hleaf0 : Leaf t.da p0 (-(t.da.base s0)) := ⟨s0, hp0, by omega, by omega⟩
  obtain ⟨T', hT', hTc, _⟩ := W.live _ _ hleaf0
  rw [hT] at hT'
  simp only [Option.some.injEq] at hT'
  subst hT'
  have hT1v : ∀ c ∈ T1, ValidTC t.alpha_map c := fun c hc =>
    hTc c (by rw [hsplit]; exact List.mem_append_right _ hc)
  have hT1c : ∀ c ∈ T1, c ≠ 0 ∧ c ≤ 255 := fun c hc => ⟨(hT1v c hc).1, (hT1v c hc).le⟩
  have H0 := no_leaf_below W hp0 hb
  obtain ⟨dp1, w1⟩ := M.wf
  have F := insert_facts w1 M.node (headD_le hT1c) M.path
    (fun y => M.childless.no_edge (T1.headD 0) y)
  have K := insert_keeps_path w1 M.node (headD_le hT1c)
    (fun y => M.childless.no_edge (T1.headD 0) y) (fun h => M.childless s0 h.1 h.2) hroot
  obtain ⟨dp2, w2⟩ := F.wf
  have S := tail_set_suffix_spec W.tail (-(t.da.base s0))
    (if T1.headD 0 ≠ 0 then T1.tail else T1) T hT
  generalize hr : da_insert_branch d1 s1 (T1.headD 0) = r at F w2 K ⊢
  generalize hp1 : (if T1.headD 0 ≠ 0 then T1.tail else T1) = p1 at S ⊢
  generalize hi : -(t.da.base s0) = i at hT hleaf0 S ⊢
  obtain ⟨SW, ssuf, sdata⟩ := S
  refine ⟨?_, ssuf, sdata, (set_base_path w2 F.new_node F.new_childless _ _ _ _).2 K⟩
  intro q j
  rw [set_base_leaf w2 F.new_node F.new_childless, F.leaf]
  constructor
  · rintro (⟨⟨h, hq⟩, _⟩ | ⟨h, h1, _⟩)
    · exact Or.inl ((M.leaf_iff q j hq).1 h)
    · exact Or.inr ⟨h.unique w2 F.path_new, by omega⟩
  · rintro (⟨h, hq⟩ | ⟨rfl, rfl⟩)
    · left
      have hq1 : q ≠ p0 ++ com := by
        rintro rfl
        by_cases hc : com = []
        · subst hc; simp at hq
        · exact H0 com j hc h
      have h1 : Leaf d1 q j := (M.leaf_iff q j hq1).2 ⟨h, hq⟩
      refine ⟨⟨h1, hq1⟩, ?_⟩
      intro hqn
      obtain ⟨x, hx, hbx, hj⟩ := (F.leaf q j).2 ⟨h1, hq1⟩
      have := hx.path_det hqn; subst this
      have := F.new_base; omega
    · right
      refine ⟨F.path_new, rfl, ?_⟩
      obtain ⟨_, _, _, h⟩ := hleaf0; exact h

/-- The rest of a string after its first character, when the string has no zero inside: the
tail of the string, which is empty for the empty string. -/
theorem rest_after_head {l : List Nat} (h0 : 0 ∉ l) :
    (if l.headD 0 ≠ 0 then l.tail else l) = l.tail := by
  split
  · rfl
  · rename_i h
    have : l = [] := headD_zero_nil h0 (by simpa using h)
    rw [this]; rfl

/-- The cells and tail entries after `trie_branch_in_tail` at a separate node `s0` at path
`p0` whose suffix `T` differs from the rest `N` of the key: with `com` the common prefix of `T`
and `N`, the chain `com` leads from `s0` to a node `s1` with two branches: the old one to a
separate node pointing at the old tail entry, which keeps its data and holds the rest of `T`;
the new one to a separate node pointing at a fresh tail entry `a`, which holds the rest of `N`
and the new data.  The other separate nodes and tail entries are kept. -/
theorem branch_in_tail_shape {t : Trie} (W : WF t) {s0 : Int} {p0 : List Nat}
    (hp0 : Path t.da 2 p0 s0) (hb : t.da.base s0 < 0) (h0p : 0 ∉ p0) {T : List Nat}
    (hT : tail_get_suffix t.tail (-(t.da.base s0)) = some T) (N : List Nat)
    (hN : ∀ c ∈ N, ValidTC t.alpha_map c) (hTN : T ≠ N) (v : Int) :
    ∃ t1 com T1 N1 s1 a, trie_branch_in_tail t s0 N v = some (true, t1) ∧
      T = com ++ T1 ∧ N = com ++ N1 ∧ T1.headD 0 ≠ N1.headD 0 ∧
      tail_get_suffix t.tail a = none ∧
      (∀ j, tail_get_suffix t1.tail j =
        if j = a then some N1.tail
        else if j = -(t.da.base s0) then some T1.tail else tail_get_suffix t.tail j) ∧
      (∀ j, tail_get_data t1.tail j = if j = a then v else tail_get_data t.tail j) ∧
      (∀ q j, Leaf t1.da q j ↔
        ((Leaf t.da q j ∧ q ≠ p0) ∨ (q = p0 ++ com ++ [T1.headD 0] ∧ j = -(t.da.base s0)) ∨
          (q = p0 ++ com ++ [N1.headD 0] ∧ j = a))) ∧
      Path t1.da 2 p0 s0 ∧ Path t1.da 2 (p0 ++ com) s1 := by
  obtain ⟨dp, w⟩ := W.da
  have hs0 : IsNode t.da s0 := hp0.node (Or.inl rfl)
  have hleaf0 : Leaf t.da p0 (-(t.da.base s0)) := ⟨s0, hp0, by omega, by omega⟩
  obtain ⟨T', hT', hTc, _⟩ := W.live _ _ hleaf0
  rw [hT] at hT'
  simp only [Option.some.injEq] at hT'
  subst hT'
  have hNz : 0 ∉ N := fun h => (hN 0 h).1 rfl
  have hTz : 0 ∉ T := fun h => (hTc 0 h).1 rfl
  have H0 := no_leaf_below W hp0 hb
  have M0 := mid_init W hp0 hb h0p
  have hTV : ∀ c ∈ T, (c ≠ 0 ∧ c ≤ 255) ∧ ValidTC t.alpha_map c :=
    fun c hc => ⟨⟨(hTc c hc).1, (hTc c hc).le⟩, hTc c hc⟩
  obtain ⟨com, T1, N1, d1, s1, hl, hT1, hN1, hh, M1⟩ := tail_loop_spec H0 T N M0 hTV hNz hTN
  have hroot := tail_loop_root H0 T N M0 hp0 hTV d1 s1 T1 N1 hl
  have R := reattach_spec W hp0 hb h0p hT M1 hT1 hh
  obtain ⟨hge, WR, _, hpath, hbase, hnoedge⟩ := R
  obtain ⟨rleaf, rsuf, rdata, rroot⟩ := reattach_shape W hp0 hb hT M1 hT1 hroot
  have hN1c : ∀ c ∈ N1, ValidTC t.alpha_map c := fun c hc =>
    hN c (by rw [hN1]; exact List.mem_append_right _ hc)
  have hT1z : 0 ∉ T1 := fun h => hTz (by rw [hT1]; exact List.mem_append_right _ h)
  have hN1z : 0 ∉ N1 := fun h => hNz (by rw [hN1]; exact List.mem_append_right _ h)
  obtain ⟨t1, a, hres, afresh, bsuf, bdata, bleaf, bpath, bkeep⟩ :=
    branch_in_branch_shape WR hpath hbase N1 hN1c hnoedge v
  obtain ⟨dpr, wr⟩ := WR.da
  -- the node the split started from is not a child of the end of the chain
  have hnc : ¬ (3 ≤ s0 ∧ (reattached t s0 d1 s1 T1).da.check s0 = s1) := by
    rintro ⟨h3, hch⟩
    have hdp1 := hpath.depth wr
    have hdp0 := rroot.depth wr
    have hpar := (wr.parent s0 h3 (by rw [hch]; have := hpath.node (Or.inl rfl) |>.ge; omega)).2.2.2.2
    rw [hch] at hpar
    simp only [List.length_append] at hdp1
    omega
  rw [rest_after_head hN1z] at bsuf
  rw [rest_after_head hT1z] at rsuf
  have hai : a ≠ -(t.da.base s0) := by
    intro h
    rw [h, rsuf, if_pos rfl] at afresh
    simp at afresh
  refine ⟨t1, com, T1, N1, s1, a, ?_, hT1, hN1, hh, ?_, ?_, ?_, ?_, bkeep s0 p0 hnc rroot,
    bpath⟩
  · unfold trie_branch_in_tail
    simp only [tail_index_node w hs0, hT, hl]
    rw [if_neg (by unfold TRIE_INDEX_ERROR; omega)]
    rw [← hres]
    unfold reattached
    simp only [tail_index_node w hs0]
  · by_cases h : a = -(t.da.base s0)
    · exact absurd h hai
    · have := afresh
      rw [rsuf, if_neg h] at this
      exact this
  · intro j
    rw [bsuf, rsuf]
  · intro j
    rw [bdata, rdata]
  · intro q j
    rw [bleaf, rleaf]
    constructor
    · rintro ((h | h) | h)
      · exact Or.inl h
      · exact Or.inr (Or.inl h)
      · exact Or.inr (Or.inr h)
    · rintro (h | h | h)
      · exact Or.inl (Or.inl h)
      · exact Or.inl (Or.inr h)
      · exact Or.inr h

/-! ## The tail split -/

theorem split_at_common (com T1 : List Nat) :
    (com ++ T1).take com.length = com ∧ (com ++ T1).getD com.length 0 = T1.headD 0 ∧
    (com ++ T1).drop (com.length + 1) = T1.tail := by
  refine ⟨List.take_left _ _, ?_, ?_⟩
  · induction com with
    | nil => cases T1 <;> rfl
    | cons c com ih => simpa using ih
  · rw [← List.tail_drop, List.drop_left]

theorem trie_new_linked (am : AlphaMap) : Linked (trie_new am) := by
  intro i suf h
  exfalso
  unfold trie_new tail_new tail_get_suffix at h
  simp only at h
  split at h
  · omega
  · simp at h

/-- A store keeps every live tail entry pointed at by a separate node. -/
theorem store_linked {t : Trie} (W : WF t) (L : Linked t) {key : List Nat} (h0 : 0 ∉ key)
    (v : Int) (ow : Bool) {b : Bool} {t1 : Trie}
    (hres : trie_store_conditionally_unbounded t key v ow = some (b, t1)) : Linked t1 := by
  obtain ⟨dp, w⟩ := W.da
  have hpost := walk_branches_spec w (Or.inl rfl : IsNode t.da 2) key h0
  unfold trie_store_conditionally_unbounded da_get_root at hres
  cases hwb : walk_branches t 2 key with
  | failed s1 p =>
    rw [hwb] at hpost hres
    obtain ⟨k1, hkey, hp, hb, hne⟩ := hpost
    have hp0 : 0 ∉ p := fun h => h0 (by rw [hkey]; exact List.mem_append_right _ h)
    by_cases hkp : InAlphabet t.alpha_map p
    swap
    · simp only [char_to_trie_str_out _ hp0 hkp] at hres
      cases hres
    have hne1 : ∀ y, ¬ Edge t.da s1 ((p.map (alpha_map_char_to_trie t.alpha_map)).headD 0) y := by
      rw [map_headD _ (char_to_trie_zero _)]; exact hne
    obtain ⟨t2, a, hbb, _, bsuf, _, bleaf, _, _⟩ :=
      branch_in_branch_shape W hp hb _ (in_alphabet_chars hkp) hne1 v
    simp only [char_to_trie_str_in _ hkp, hbb, Option.some.injEq, Prod.mk.injEq] at hres
    obtain ⟨_, rfl⟩ := hres
    intro j suf hj
    rw [bsuf] at hj
    by_cases hja : j = a
    · exact ⟨_, (bleaf _ _).2 (Or.inr ⟨rfl, hja⟩)⟩
    · rw [if_neg hja] at hj
      obtain ⟨q, hq⟩ := L j suf hj
      exact ⟨q, (bleaf _ _).2 (Or.inl hq)⟩
  | left x p =>
    rw [hwb] at hpost hres
    have hx : IsNode t.da x := by
      rcases hpost with ⟨k1, _, hp, _⟩ | ⟨_, m, _, _, em⟩
      · exact hp.node (Or.inl rfl)
      · exact em.target_node
    simp only [tail_index_node w hx] at hres
    by_cases hw : walk_tail_unbounded t (-(t.da.base x)) 0 p = true
    · -- the key is present: at most the data of its entry changes
      simp only [hw, if_true] at hres
      cases ow with
      | false =>
        simp only [Bool.not_false, if_true, Option.some.injEq, Prod.mk.injEq] at hres
        obtain ⟨_, rfl⟩ := hres
        exact L
      | true =>
        simp only [Bool.not_true, Bool.false_eq_true, if_false, Option.some.injEq,
          Prod.mk.injEq] at hres
        obtain ⟨_, rfl⟩ := hres
        intro j suf hj
        have hj1 : tail_get_suffix (tail_set_data t.tail (-(t.da.base x)) v) j = some suf := hj
        rw [(tail_set_data_spec W.tail _ v).2.1] at hj1
        exact L j suf hj1
    · -- the tail differs: the split
      have hwf : walk_tail_unbounded t (-(t.da.base x)) 0 p = false := by
        cases h : walk_tail_unbounded t (-(t.da.base x)) 0 p
        · rfl
        · exact absurd h hw
      simp only [hwf, Bool.false_eq_true, if_false] at hres
      rcases hpost with ⟨k1, hkey, hp, hb⟩ | ⟨hpn, m, hm, hbm, em⟩
      swap
      · exfalso
        have hpx : Path t.da 2 (key.map (alpha_map_char_to_trie t.alpha_map) ++ [0]) x :=
          hm.snoc em
        have hbx : t.da.base x < 0 := by
          by_contra hn
          exact W.nonsep _ _ hpx (by omega) (by simp)
        have hleaf : Leaf t.da (key.map (alpha_map_char_to_trie t.alpha_map) ++ [0])
            (-(t.da.base x)) := ⟨x, hpx, by omega, by omega⟩
        obtain ⟨suf, hsuf, hsc, hnil⟩ := W.live _ _ hleaf
        have hz : 0 ∉ suf := fun h => (hsc 0 h).1 rfl
        have := hnil (by simp)
        subst this
        apply hw
        rw [hpn]
        exact (walk_tail_spec hsuf hz 0 [] (by simp)).2 (by simp)
      have hp0 : 0 ∉ p := fun h => h0 (by rw [hkey]; exact List.mem_append_right _ h)
      have hk10 : 0 ∉ k1 := fun h => h0 (by rw [hkey]; exact List.mem_append_left _ h)
      by_cases hkp : InAlphabet t.alpha_map p
      swap
      · simp only [char_to_trie_str_out _ hp0 hkp] at hres
        cases hres
      have hleaf0 : Leaf t.da (k1.map (alpha_map_char_to_trie t.alpha_map)) (-(t.da.base x)) :=
        ⟨x, hp, by omega, by omega⟩
      obtain ⟨T, hT, hTc, _⟩ := W.live _ _ hleaf0
      have hTz : 0 ∉ T := fun h => (hTc 0 h).1 rfl
      have hTN : T ≠ p.map (alpha_map_char_to_trie t.alpha_map) := by
        intro e
        apply hw
        apply (walk_tail_spec hT hTz 0 p hp0).2
        simpa using e
      obtain ⟨t2, com, T1, N1, s1, a, hbt, _, _, _, _, hsuf, _, hleaf, _, _⟩ :=
        branch_in_tail_shape W hp hb (map_char_to_trie_no_zero _ hk10) hT _
          (in_alphabet_chars hkp) hTN v
      simp only [char_to_trie_str_in _ hkp, hbt, Option.some.injEq, Prod.mk.injEq] at hres
      obtain ⟨_, rfl⟩ := hres
      intro j suf hj
      rw [hsuf] at hj
      by_cases hja : j = a
      · exact ⟨_, (hleaf _ _).2 (Or.inr (Or.inr ⟨rfl, hja⟩))⟩
      · rw [if_neg hja] at hj
        by_cases hji : j = -(t.da.base x)
        · exact ⟨_, (hleaf _ _).2 (Or.inr (Or.inl ⟨rfl, hji⟩))⟩
        · rw [if_neg hji] at hj
          obtain ⟨q, hq⟩ := L j suf hj
          refine ⟨q, (hleaf _ _).2 (Or.inl ⟨hq, ?_⟩)⟩
          rintro rfl
          exact hji (hq.leaf_det hleaf0)

/-- A deletion keeps every live tail entry pointed at by a separate node. -/
theorem delete_linked {t : Trie} (W : WF t) (L : Linked t) {key : List Nat} (h0 : 0 ∉ key) :
    Linked (trie_delete_unbounded t key).2 := by
  obtain ⟨dp, w⟩ := W.da
  have hpost := walk_branches_spec w (Or.inl rfl : IsNode t.da 2) key h0
  unfold trie_delete_unbounded da_get_root
  cases hwb : walk_branches t 2 key with
  | failed s1 p => exact L
  | left x p =>
    rw [hwb] at hpost
    have hx : IsNode t.da x := by
      rcases hpost with ⟨k1, _, hp, _⟩ | ⟨_, m, _, _, em⟩
      · exact hp.node (Or.inl rfl)
      · exact em.target_node
    simp only [tail_index_node w hx]
    by_cases hw : walk_tail_unbounded t (-(t.da.base x)) 0 p = true
    swap
    · rw [if_neg hw]; exact L
    rw [if_pos hw]
    have hsep : ∃ q0, Path t.da 2 q0 x ∧ t.da.base x < 0 := by
      rcases hpost with ⟨k1, hkey, hp, hb⟩ | ⟨hpn, m, hm, hbm, em⟩
      · exact ⟨_, hp, hb⟩
      · have hpx : Path t.da 2 (key.map (alpha_map_char_to_trie t.alpha_map) ++ [0]) x :=
          hm.snoc em
        refine ⟨_, hpx, ?_⟩
        by_contra hn
        exact W.nonsep _ _ hpx (by omega) (by simp)
    obtain ⟨q0, hq0, hbx⟩ := hsep
    have hleaf : Leaf t.da q0 (-(t.da.base x)) := ⟨x, hq0, by omega, by omega⟩
    obtain ⟨suf0, hsuf0, _, _⟩ := W.live _ _ hleaf
    have hx2 : x ≠ 2 := by
      rintro rfl
      have := w.base2; omega
    have hcl : Childless t.da x := childless_of_base_le w hx.ge (by omega)
    have w1 : WFda (da_set_base t.da x 0) dp := set_base_wf w hx hx2 hcl 0
    have hx1 : IsNode (da_set_base t.da x 0) x := by
      rw [set_base_eq w hx]; exact hx
    have hb1 : (da_set_base t.da x 0).base x = 0 := by
      rw [set_base_base w hx, if_pos rfl]
    have P := prune_loop_spec (da_set_base t.da x 0).num_cells.toNat w1 hx1 (by omega)
    obtain ⟨_, dsuf, _⟩ := tail_delete_spec W.tail (-(t.da.base x)) suf0 hsuf0
    have hda : da_prune (da_set_base t.da x TRIE_INDEX_ERROR) x =
        da_prune_upto_loop (da_set_base t.da x 0).num_cells.toNat (da_set_base t.da x 0) 2 x := by
      unfold da_prune da_prune_upto da_get_root TRIE_INDEX_ERROR
      rfl
    intro j suf hj
    have hj1 : tail_get_suffix (tail_delete t.tail (-(t.da.base x))) j = some suf := hj
    rw [dsuf] at hj1
    by_cases hji : j = -(t.da.base x)
    · rw [if_pos hji] at hj1; cases hj1
    · rw [if_neg hji] at hj1
      obtain ⟨q, hq⟩ := L j suf hj1
      refine ⟨q, ?_⟩
      show Leaf (da_prune (da_set_base t.da x TRIE_INDEX_ERROR) x) q j
      rw [hda, P.2, set_base_leaf w hx hcl]
      refine Or.inl ⟨hq, fun hpq => hji ?_⟩
      have := hpq.unique w hq0
      subst this
      exact hq.leaf_det hleaf

/-- Every live tail entry of a reachable trie is pointed at by a separate node. -/
theorem holds_linked {t : Trie} {m : List Nat → Option Int} (h : HoldsUnbounded t m) : Linked t := by
  induction h with
  | new am => exact trie_new_linked am
  | store ht hk hs ih => exact store_linked (holds_retrieve ht).1 ih hk _ _ hs
  | store_if_absent ht hk hs ih => exact store_linked (holds_retrieve ht).1 ih hk _ _ hs
  | delete ht hk ih => exact delete_linked (holds_retrieve ht).1 ih hk

/-- C25: in a reachable trie every live tail entry is the tail index of exactly one separate
node reachable from the root, and every separate node reachable from the root has a live tail
entry as its tail index. -/
theorem C25_da_tail_link {t : Trie} {m : List Nat → Option Int} (h : Holds t m) :
    (∀ i suf, tail_get_suffix t.tail i = some suf →
      ∃ x, ((∃ p, Path t.da (da_get_root t.da) p x) ∧ trie_da_is_separate t.da x = true ∧
          trie_da_get_tail_index t.da x = i) ∧
        ∀ y, (∃ q, Path t.da (da_get_root t.da) q y) → trie_da_is_separate t.da y = true →
          trie_da_get_tail_index t.da y = i → y = x) ∧
    (∀ p x, Path t.da (da_get_root t.da) p x → trie_da_is_separate t.da x = true →
      ∃ suf, tail_get_suffix t.tail (trie_da_get_tail_index t.da x) = some suf) := by
  have W := (holds_retrieve (holds_unbounded h)).1
  have L := holds_linked (holds_unbounded h)
  obtain ⟨dp, w⟩ := W.da
  have hsep : ∀ {q y}, Path t.da 2 q y → trie_da_is_separate t.da y = true →
      Leaf t.da q (trie_da_get_tail_index t.da y) := by
    intro q y hq hs
    have hy : IsNode t.da y := hq.node (Or.inl rfl)
    rw [is_separate_node w hy] at hs
    simp only [decide_eq_true_eq] at hs
    rw [tail_index_node w hy]
    exact ⟨y, hq, by omega, by omega⟩
  constructor
  · intro i suf hi
    obtain ⟨p, x, hp, hb, hpos⟩ := L i suf hi
    have hx : IsNode t.da x := hp.node (Or.inl rfl)
    refine ⟨x, ⟨⟨p, hp⟩, ?_, ?_⟩, ?_⟩
    · rw [is_separate_node w hx]
      simp only [decide_eq_true_eq]; omega
    · rw [tail_index_node w hx]; omega
    · rintro y ⟨q, hq⟩ hs hyi
      have hl := hsep hq hs
      rw [hyi] at hl
      have := W.inj q p i hl ⟨x, hp, hb, hpos⟩
      subst this
      exact hq.path_det hp
  · intro p x hp hs
    obtain ⟨suf, hsuf, _⟩ := W.live _ _ (hsep hp hs)
    exact ⟨suf, hsuf⟩

theorem C25_da_tail_link_witness :
    (∀ i suf, tail_get_suffix app_trie.tail i = some suf →
      ∃ x, ((∃ p, Path app_trie.da (da_get_root app_trie.da) p x) ∧
          trie_da_is_separate app_trie.da x = true ∧
          trie_da_get_tail_index app_trie.da x = i) ∧
        ∀ y, (∃ q, Path app_trie.da (da_get_root app_trie.da) q y) →
          trie_da_is_separate app_trie.da y = true →
          trie_da_get_tail_index app_trie.da y = i → y = x) ∧
    (∀ p x, Path app_trie.da (da_get_root app_trie.da) p x →
      trie_da_is_separate app_trie.da x = true →
      ∃ suf, tail_get_suffix app_trie.tail (trie_da_get_tail_index app_trie.da x) = some suf) :=
  C25_da_tail_link app_trie_holds

/-! ## A fresh trie -/

/-- C33: a trie created by `trie_new` is dirty, and `trie_retrieve` returns FALSE on it for
every key. -/
theorem C33_new_trie_dirty_and_empty (am : AlphaMap) :
    trie_is_dirty (trie_new am) = true ∧
    ∀ key, trie_retrieve (trie_new am) key = none :=
  ⟨rfl, fun key => trie_new_retrieve_code am key⟩

/-! ## The bound of a key storage -/

/-- Making room for one more character on a storage within its bound leaves room for the
terminator after it. -/
theorem ks_ensure_size_bound (ks : KeyStorage) (hb : KsBound ks) :
    (ks_ensure_size ks (ks.length + 1)).2.length = ks.length ∧
    (ks_ensure_size ks (ks.length + 1)).2.trie_key = ks.trie_key ∧
    ks.length + 1 < (ks_ensure_size ks (ks.length + 1)).2.allocated := by
  unfold ks_ensure_size
  split
  · rename_i h
    refine ⟨rfl, rfl, ?_⟩
    show ks.length + 1 < ks.allocated
    omega
  · refine ⟨rfl, rfl, ?_⟩
    show ks.length + 1 < ks_next_size (ks.allocated + 20) (ks.length + 1)
    have := (ks_next_size_ge (ks.allocated + 20) (ks.length + 1)).1
    have := hb.2
    omega

theorem ks_push_tc_bound (ks : KeyStorage) (tc : Nat) (hb : KsBound ks) :
    ∃ ks1, ks_push_tc ks tc = some ks1 ∧ ks1.length = ks.length + 1 ∧ KsBound ks1 := by
  obtain ⟨hl, _, ha⟩ := ks_ensure_size_bound ks hb
  unfold ks_push_tc
  simp only
  rw [if_pos ⟨by rw [hl]; exact hb.1, by rw [hl]; omega⟩]
  refine ⟨_, rfl, by simp only [hl], ?_, ?_⟩
  · show 0 ≤ (ks_ensure_size ks (ks.length + 1)).2.length + 1
    rw [hl]; have := hb.1; omega
  · show (ks_ensure_size ks (ks.length + 1)).2.length + 1 <
      (ks_ensure_size ks (ks.length + 1)).2.allocated
    rw [hl]; exact ha

theorem ks_push_bound (ks : KeyStorage) (tc ac : Nat) (hb : KsBound ks) :
    ∃ ks1, ks_push ks tc ac = some ks1 ∧ ks1.length = ks.length + 1 ∧ KsBound ks1 := by
  obtain ⟨hl, _, ha⟩ := ks_ensure_size_bound ks hb
  unfold ks_push
  simp only
  rw [if_pos ⟨by rw [hl]; exact hb.1, by rw [hl]; omega⟩]
  refine ⟨_, rfl, by simp only [hl], ?_, ?_⟩
  · show 0 ≤ (ks_ensure_size ks (ks.length + 1)).2.length + 1
    rw [hl]; have := hb.1; omega
  · show (ks_ensure_size ks (ks.length + 1)).2.length + 1 <
      (ks_ensure_size ks (ks.length + 1)).2.allocated
    rw [hl]; exact ha

theorem ks_terminate_bound (ks : KeyStorage) (hb : KsBound ks) :
    ∃ ks1, ks_terminate ks = some ks1 ∧ ks1.length = ks.length ∧ KsBound ks1 := by
  unfold ks_terminate
  rw [if_pos (show 0 ≤ ks.length ∧ ks.length < ks.allocated from hb)]
  by_cases hz : 0 = ks.trie_key ks.length
  · rw [if_pos hz]
    exact ⟨ks, rfl, rfl, hb⟩
  · rw [if_neg hz]
    obtain ⟨ks1, hp, hl, hb1⟩ := ks_push_bound ks 0 0 hb
    rw [hp]
    refine ⟨_, rfl, ?_, ?_, ?_⟩
    · show ks1.length - 1 = ks.length
      omega
    · show 0 ≤ ks1.length - 1
      have := hb.1; omega
    · show ks1.length - 1 < ks1.allocated
      have := hb1.2; omega

/-- The cells the loop of `ks_reverse` touches lie between its two indices. -/
theorem ks_reverse_cells_range (i key_length : Int) :
    ∀ x ∈ ks_reverse_cells i key_length, i ≤ x ∧ x < key_length := by
  induction i, key_length using ks_reverse_cells.induct with
  | case1 i kl h ih =>
    intro x hx
    rw [ks_reverse_cells, if_pos h] at hx
    simp only [List.mem_cons] at hx
    rcases hx with hx | hx | hx
    · omega
    · omega
    · have := ih x hx
      omega
  | case2 i kl h =>
    intro x hx
    rw [ks_reverse_cells, if_neg h] at hx
    simp at hx

/-- C34: `ks_init` with `initial_size ≥ 1` returns a storage with `0 ≤ length < allocated`;
on a storage with that bound `ks_push`, `ks_push_tc`, `ks_push_ac`, `ks_terminate` and
`ks_clear` return without reading or writing `trie_key[length]` outside the buffer, and they,
`ks_reverse` and `ks_pop` with `count ≥ 0` leave a storage with the bound; the cells
`ks_reverse` touches are within the buffer. -/
theorem C34_ks_bound_invariant (ks0 : KeyStorage) (mem : Int → Nat) (initial_size : Int)
    (alpha_map : AlphaMap) (hn : 1 ≤ initial_size) (ks : KeyStorage) (hb : KsBound ks) :
    (∃ ks1, ks_init ks0 mem initial_size alpha_map = some (true, ks1) ∧ KsBound ks1 ∧
      ks1.length = 0 ∧ initial_size ≤ ks1.allocated) ∧
    (∀ tc ac, ∃ ks1, ks_push ks tc ac = some ks1 ∧ KsBound ks1) ∧
    (∀ tc, ∃ ks1, ks_push_tc ks tc = some ks1 ∧ KsBound ks1) ∧
    (∀ ac, ∃ ks1, ks_push_ac ks ac = some ks1 ∧ KsBound ks1) ∧
    (∃ ks1, ks_terminate ks = some ks1 ∧ KsBound ks1) ∧
    (∃ ks1, ks_clear ks = some ks1 ∧ KsBound ks1) ∧
    KsBound (ks_reverse ks) ∧
    (∀ x ∈ ks_reverse_cells 0 ks.length, 0 ≤ x ∧ x < ks.allocated) ∧
    (∀ count, 0 ≤ count → KsBound (ks_pop ks count)) := by
  refine ⟨?_, ?_, ?_, ?_, ?_, ?_, hb, ?_, ?_⟩
  · have hb0 : KsBound (KeyStorage.mk mem 0 initial_size alpha_map) :=
      ⟨le_refl _, by show 0 < initial_size; omega⟩
    obtain ⟨ks1, e, hl, hb1⟩ := ks_terminate_bound _ hb0
    have hinit : ks_init ks0 mem initial_size alpha_map =
        (ks_terminate (KeyStorage.mk mem 0 initial_size alpha_map)).map
          (fun ks1 => (true, ks1)) := rfl
    refine ⟨ks1, by rw [hinit, e]; rfl, hb1, hl, ?_⟩
    -- the buffer is not made smaller
    unfold ks_terminate at e
    rw [if_pos (show 0 ≤ (KeyStorage.mk mem 0 initial_size alpha_map).length ∧
      (KeyStorage.mk mem 0 initial_size alpha_map).length <
        (KeyStorage.mk mem 0 initial_size alpha_map).allocated from hb0)] at e
    split at e
    · simp only [Option.some.injEq] at e
      rw [← e]
    · unfold ks_push at e
      simp only at e
      have hs := ks_ensure_size_spec (KeyStorage.mk mem 0 initial_size alpha_map) (0 + 1)
      split at e
      · simp only [Option.map_some', Option.some.injEq] at e
        rw [← e]
        exact hs.2.2.2.2.2
      · simp at e
  · intro tc ac
    obtain ⟨ks1, e, _, hb1⟩ := ks_push_bound ks tc ac hb
    exact ⟨ks1, e, hb1⟩
  · intro tc
    obtain ⟨ks1, e, _, hb1⟩ := ks_push_tc_bound ks tc hb
    exact ⟨ks1, e, hb1⟩
  · intro ac
    obtain ⟨ks1, e, _, hb1⟩ := ks_push_tc_bound ks (alpha_map_char_to_trie ks.alpha_map ac) hb
    exact ⟨ks1, e, hb1⟩
  · obtain ⟨ks1, e, _, hb1⟩ := ks_terminate_bound ks hb
    exact ⟨ks1, e, hb1⟩
  · obtain ⟨ks1, e, _, hb1⟩ := ks_terminate_bound { ks with length := 0 }
      ⟨le_refl _, by show 0 < ks.allocated; have := hb.1; have := hb.2; omega⟩
    exact ⟨ks1, e, hb1⟩
  · intro x hx
    have := ks_reverse_cells_range 0 ks.length x hx
    have := hb.2
    omega
  · intro count hc
    unfold ks_pop
    split
    · rename_i h
      exact ⟨by show 0 ≤ ks.length - count; omega,
        by show ks.length - count < ks.allocated; have := hb.2; omega⟩
    · exact ⟨le_refl _, by show 0 < ks.allocated; have := hb.1; have := hb.2; omega⟩

theorem C34_ks_bound_invariant_witness :
    (∃ ks1, ks_init ks_abc (fun _ => 7) 1 en_alpha_map = some (true, ks1) ∧ KsBound ks1 ∧
      ks1.length = 0 ∧ 1 ≤ ks1.allocated) ∧
    (∀ tc ac, ∃ ks1, ks_push ks_abc tc ac = some ks1 ∧ KsBound ks1) ∧
    (∀ tc, ∃ ks1, ks_push_tc ks_abc tc = some ks1 ∧ KsBound ks1) ∧
    (∀ ac, ∃ ks1, ks_push_ac ks_abc ac = some ks1 ∧ KsBound ks1) ∧
    (∃ ks1, ks_terminate ks_abc = some ks1 ∧ KsBound ks1) ∧
    (∃ ks1, ks_clear ks_abc = some ks1 ∧ KsBound ks1) ∧
    KsBound (ks_reverse ks_abc) ∧
    (∀ x ∈ ks_reverse_cells 0 ks_abc.length, 0 ≤ x ∧ x < ks_abc.allocated) ∧
    (∀ count, 0 ≤ count → KsBound (ks_pop ks_abc count)) :=
  C34_ks_bound_invariant ks_abc (fun _ => 7) 1 en_alpha_map (by decide) ks_abc
    ⟨by decide, by decide⟩

/-! ## Terminator transitions -/

/-- C31: in a reachable trie the root is not separate, and every state the double-array
reaches by a terminator transition from a state reachable from the root is separate, its tail
entry holds the empty suffix, and the walk of the terminator in that tail entry succeeds. -/
theorem C31_terminator_nodes {t : Trie} {m : List Nat → Option Int} (h : Holds t m) :
    trie_da_is_separate t.da (da_get_root t.da) = false ∧
    ∀ p s x, Path t.da (da_get_root t.da) p s → da_walk t.da s TRIE_CHAR_TERM = some x →
      trie_da_is_separate t.da x = true ∧
      tail_get_suffix t.tail (trie_da_get_tail_index t.da x) = some [] ∧
      walk_tail t (trie_da_get_tail_index t.da x) 0 [] = true := by
  have W := (holds_retrieve (holds_unbounded h)).1
  obtain ⟨dp, w⟩ := W.da
  constructor
  · show trie_da_is_separate t.da 2 = false
    rw [is_separate_node w (Or.inl rfl)]
    have := w.base2
    simp only [decide_eq_false_iff_not]
    omega
  · intro p s x hp hwalk
    have hp2 : Path t.da 2 p s := hp
    have hs : IsNode t.da s := hp2.node (Or.inl rfl)
    have e : Edge t.da s 0 x := (walk_iff_edge w hs 0 x).1 hwalk
    have hpx : Path t.da 2 (p ++ [0]) x := hp2.snoc e
    have hx : IsNode t.da x := e.target_node
    have hbx : t.da.base x < 0 := by
      by_contra hn
      exact W.nonsep _ _ hpx (by omega) (by simp)
    have hleaf : Leaf t.da (p ++ [0]) (-(t.da.base x)) := ⟨x, hpx, by omega, by omega⟩
    obtain ⟨suf, hsuf, hsc, hnil⟩ := W.live _ _ hleaf
    have := hnil (by simp)
    subst this
    rw [is_separate_node w hx, tail_index_node w hx]
    refine ⟨by simp only [decide_eq_true_eq]; exact hbx, hsuf, ?_⟩
    rw [walk_tail_code_zero t _ [] (by simp),
      (walk_tail_spec hsuf (by simp) 0 [] (by simp)).2 (by simp)]
    rfl

set_option maxRecDepth 20000 in
theorem ap_app_store : trie_store app_trie [97, 112] 5 = some (true, ap_app_trie) := rfl

theorem ap_app_trie_holds :
    Holds ap_app_trie (Function.update (Function.update (fun _ => none) [97, 112, 112] (some 2))
      [97, 112] (some 5)) := by
  have := Holds.store app_trie_holds (by decide : (0 : Nat) ∉ [97, 112]) ap_app_store
  simpa using this

set_option maxRecDepth 20000 in
/-- In the trie holding "ap" and "app", the path of "ap" from the root ends in node 17. -/
theorem ap_app_path : Path ap_app_trie.da (da_get_root ap_app_trie.da) [1, 16] 17 :=
  ⟨4, ⟨by decide, rfl, by decide, rfl⟩, 17, ⟨by decide, rfl, by decide, rfl⟩, rfl⟩

set_option maxRecDepth 20000 in
/-- Node 17 has a terminator transition, to node 3. -/
theorem ap_app_term : da_walk ap_app_trie.da 17 TRIE_CHAR_TERM = some 3 := rfl

theorem C31_terminator_nodes_witness :
    Holds ap_app_trie (Function.update (Function.update (fun _ => none) [97, 112, 112] (some 2))
      [97, 112] (some 5)) ∧
    Path ap_app_trie.da (da_get_root ap_app_trie.da) [1, 16] 17 ∧
    da_walk ap_app_trie.da 17 TRIE_CHAR_TERM = some 3 ∧
    trie_da_is_separate ap_app_trie.da (da_get_root ap_app_trie.da) = false ∧
    trie_da_is_separate ap_app_trie.da 3 = true ∧
    tail_get_suffix ap_app_trie.tail (trie_da_get_tail_index ap_app_trie.da 3) = some [] ∧
    walk_tail ap_app_trie (trie_da_get_tail_index ap_app_trie.da 3) 0 [] = true :=
  ⟨ap_app_trie_holds, ap_app_path, ap_app_term, (C31_terminator_nodes ap_app_trie_holds).1,
    (C31_terminator_nodes ap_app_trie_holds).2 [1, 16] 17 3 ap_app_path ap_app_term⟩

/-! ## The common-prefix loop -/

/-- The common-prefix loop on two strings with the common prefix `com`, free of terminators,
and different characters after it: it does not run past the strings, makes at most
`com.length` calls of `ins`, and when none of them fails it stops with the rests of the two
strings after exactly `com.length` calls. -/
theorem tail_loop_calls (ins : DArray → Int → Nat → Int × DArray) (com : List Nat) :
    ∀ (d : DArray) (s : Int) (T1 N1 : List Nat), 0 ∉ com → T1.headD 0 ≠ N1.headD 0 →
      branch_in_tail_loop_with ins d s (com ++ T1) (com ++ N1) ≠ .overrun ∧
      branch_in_tail_loop_calls ins d s (com ++ T1) (com ++ N1) ≤ com.length ∧
      (∀ d1 s1 p q, branch_in_tail_loop_with ins d s (com ++ T1) (com ++ N1) = .done d1 s1 p q →
        p = T1 ∧ q = N1 ∧
        branch_in_tail_loop_calls ins d s (com ++ T1) (com ++ N1) = com.length) ∧
      (∀ d1 s1, branch_in_tail_loop_with ins d s (com ++ T1) (com ++ N1) = .fail d1 s1 →
        1 ≤ branch_in_tail_loop_calls ins d s (com ++ T1) (com ++ N1)) := by
  induction com with
  | nil =>
    intro d s T1 N1 _ hh
    simp only [List.nil_append, List.length_nil]
    cases T1 with
    | nil =>
      have hn : ¬ N1.headD 0 = 0 := fun e => hh (by rw [e]; rfl)
      unfold branch_in_tail_loop_with branch_in_tail_loop_calls
      rw [if_neg hn]
      refine ⟨by simp, le_refl _, ?_, by simp⟩
      intro d1 s1 p q e
      simp only [TailLoop.done.injEq] at e
      exact ⟨e.2.2.1.symm, e.2.2.2.symm, rfl⟩
    | cons pc T1 =>
      have hn : ¬ pc = N1.headD 0 := fun e => hh (by simpa using e)
      unfold branch_in_tail_loop_with branch_in_tail_loop_calls
      rw [if_neg hn, if_neg hn]
      refine ⟨by simp, le_refl _, ?_, by simp⟩
      intro d1 s1 p q e
      simp only [TailLoop.done.injEq] at e
      exact ⟨e.2.2.1.symm, e.2.2.2.symm, rfl⟩
  | cons c com ih =>
    intro d s T1 N1 h0 hh
    have hc : c ≠ 0 := fun e => h0 (by rw [e]; exact List.mem_cons_self _ _)
    have h0c : 0 ∉ com := fun e => h0 (List.mem_cons_of_mem _ e)
    simp only [List.cons_append, List.length_cons]
    unfold branch_in_tail_loop_with branch_in_tail_loop_calls
    simp only [List.headD_cons, if_true, if_neg hc, List.tail_cons]
    by_cases herr : TRIE_INDEX_ERROR = (ins d s c).1
    · rw [if_pos herr, if_pos herr]
      exact ⟨by simp, by omega, by simp, fun _ _ _ => le_refl _⟩
    · rw [if_neg herr, if_neg herr]
      obtain ⟨i1, i2, i3, i4⟩ := ih (ins d s c).2 (ins d s c).1 T1 N1 h0c hh
      refine ⟨i1, by omega, ?_, ?_⟩
      · intro d1 s1 p q e
        obtain ⟨e1, e2, e3⟩ := i3 d1 s1 p q e
        exact ⟨e1, e2, by omega⟩
      · intro d1 s1 e
        omega

/-- C32, amended: on a reachable trie, when `trie_store_conditionally` leaves the branches at
`s` with the rest `sep` of the key, of at most 32767 characters, the walk of `sep` in the tail
fails and `sep` translates to `N`: the call is `trie_branch_in_tail` on `N`; the tail entry
of `s` holds a suffix `T`, and `T` and `N` first differ at an offset `k` within both; the loop
of `trie_branch_in_tail` does not run past the strings and makes at most `k` calls of
`da_insert_branch`, whatever these return; when none fails it stops with `T[k..]` and `N[k..]`
after exactly `k` calls, which is what happens with the `da_insert_branch` of the model. -/
theorem C32_common_prefix_loop_stops {t : Trie} {m : List Nat → Option Int} (h : Holds t m)
    (ins : DArray → Int → Nat → Int × DArray) {key sep N : List Nat} {s : Int} (v : Int)
    (ow : Bool) (h0 : 0 ∉ key)
    (hw : walk_branches t (da_get_root t.da) key = .left s sep)
    (hlen : sep.length ≤ 32767)
    (hwt : walk_tail t (trie_da_get_tail_index t.da s) 0 sep = false)
    (hstr : alpha_map_char_to_trie_str t.alpha_map sep = some N) :
    trie_store_conditionally_with ins t key v ow = trie_branch_in_tail_with ins t s N v ∧
    ∃ T k, tail_get_suffix t.tail (trie_da_get_tail_index t.da s) = some T ∧
      k ≤ T.length ∧ k ≤ N.length ∧ 0 ∉ T ∧ 0 ∉ N ∧
      T.take k = N.take k ∧ T.getD k 0 ≠ N.getD k 0 ∧
      branch_in_tail_loop_with ins t.da s T N ≠ .overrun ∧
      branch_in_tail_loop_calls ins t.da s T N ≤ k ∧
      (∀ d1 s1 p q, branch_in_tail_loop_with ins t.da s T N = .done d1 s1 p q →
        p = T.drop k ∧ q = N.drop k ∧ branch_in_tail_loop_calls ins t.da s T N = k) ∧
      (∃ d1 s1, branch_in_tail_loop t.da s T N = .done d1 s1 (T.drop k) (N.drop k)) ∧
      branch_in_tail_loop_calls da_insert_branch t.da s T N = k := by
  have W := (holds_retrieve (holds_unbounded h)).1
  have hcode := walk_left_code W h0 hw
  rw [hwt, decide_eq_true hlen, Bool.and_true] at hcode
  have hwtU : walk_tail_unbounded t (trie_da_get_tail_index t.da s) 0 sep = false :=
    hcode.symm
  obtain ⟨dp, w⟩ := W.da
  have hpost := walk_branches_spec w (Or.inl rfl : IsNode t.da 2) key h0
  have hw2 : walk_branches t 2 key = .left s sep := hw
  rw [hw2] at hpost
  constructor
  · unfold trie_store_conditionally_with
    rw [hw]
    simp only [hwt, hstr]
    simp
  rcases hpost with ⟨k1, hkey, hp, hb⟩ | ⟨hpn, mm, hm, hbm, em⟩
  swap
  · -- after a terminator transition the walk in the tail succeeds
    exfalso
    have hpx : Path t.da 2 (key.map (alpha_map_char_to_trie t.alpha_map) ++ [0]) s :=
      hm.snoc em
    have hbx : t.da.base s < 0 := by
      by_contra hn
      exact W.nonsep _ _ hpx (by omega) (by simp)
    have hleaf : Leaf t.da (key.map (alpha_map_char_to_trie t.alpha_map) ++ [0])
        (-(t.da.base s)) := ⟨s, hpx, by omega, by omega⟩
    obtain ⟨suf, hsuf, _, hnil⟩ := W.live _ _ hleaf
    have := hnil (by simp)
    subst this
    rw [tail_index_node w em.target_node, hpn,
      (walk_tail_spec hsuf (by simp) 0 [] (by simp)).2 (by simp)] at hwtU
    cases hwtU
  have hs : IsNode t.da s := hp.node (Or.inl rfl)
  have hti := tail_index_node w hs
  rw [hti] at hwtU ⊢
  have hk10 : 0 ∉ k1 := fun hh => h0 (by rw [hkey]; exact List.mem_append_left _ hh)
  have hsepz : 0 ∉ sep := fun hh => h0 (by rw [hkey]; exact List.mem_append_right _ hh)
  have hal : InAlphabet t.alpha_map sep := by
    by_contra hn
    rw [char_to_trie_str_out _ hsepz hn] at hstr
    cases hstr
  rw [char_to_trie_str_in _ hal] at hstr
  simp only [Option.some.injEq] at hstr
  subst hstr
  have hNz := map_char_to_trie_no_zero t.alpha_map hsepz
  have hleaf0 : Leaf t.da (k1.map (alpha_map_char_to_trie t.alpha_map)) (-(t.da.base s)) :=
    ⟨s, hp, by omega, by omega⟩
  obtain ⟨T, hT, hTc, _⟩ := W.live _ _ hleaf0
  have hTz : 0 ∉ T := fun hh => (hTc 0 hh).1 rfl
  have hTN : T ≠ sep.map (alpha_map_char_to_trie t.alpha_map) := by
    intro e
    have := (walk_tail_spec hT hTz 0 sep hsepz).2 (by simpa using e)
    rw [this] at hwtU
    cases hwtU
  have H0 := no_leaf_below W hp hb
  have M0 := mid_init W hp hb (map_char_to_trie_no_zero _ hk10)
  have hTV : ∀ c ∈ T, (c ≠ 0 ∧ c ≤ 255) ∧ ValidTC t.alpha_map c :=
    fun c hc => ⟨⟨(hTc c hc).1, (hTc c hc).le⟩, hTc c hc⟩
  obtain ⟨com, T1, N1, d1, s1, hl, hT1, hN1, hh, _⟩ :=
    tail_loop_spec H0 T _ M0 hTV hNz hTN
  have hcom : 0 ∉ com := fun hh => hTz (by rw [hT1]; exact List.mem_append_left _ hh)
  obtain ⟨e1, e2, e3⟩ := split_at_common com T1
  obtain ⟨f1, f2, _⟩ := split_at_common com N1
  have hdT : (com ++ T1).drop com.length = T1 := List.drop_left _ _
  have hdN : (com ++ N1).drop com.length = N1 := List.drop_left _ _
  obtain ⟨g1, g2, g3, _⟩ := tail_loop_calls ins com t.da s T1 N1 hcom hh
  obtain ⟨_, _, g3m, _⟩ := tail_loop_calls da_insert_branch com t.da s T1 N1 hcom hh
  refine ⟨T, com.length, hT, ?_, ?_, hTz, hNz, ?_, ?_, ?_, ?_, ?_, ?_, ?_⟩
  · rw [hT1]; simp
  · rw [hN1]; simp
  · rw [hT1, hN1, e1, f1]
  · rw [hT1, hN1, e2, f2]; exact hh
  · rw [hT1, hN1]; exact g1
  · rw [hT1, hN1]; exact g2
  · intro d2 s2 p q e
    rw [hT1, hN1] at e ⊢
    rw [hdT, hdN]
    exact g3 d2 s2 p q e
  · refine ⟨d1, s1, ?_⟩
    rw [hl, hT1, hN1, hdT, hdN]
  · have e := hl
    rw [← branch_in_tail_loop_with_eq, hT1, hN1] at e
    rw [hT1, hN1]
    exact (g3m d1 s1 T1 N1 e).2.2

theorem C32_common_prefix_loop_stops_witness :
    trie_store_conditionally_with (da_insert_branch_bounded 18) app_trie [97, 112, 122] 1 true =
      trie_branch_in_tail_with (da_insert_branch_bounded 18) app_trie 4 [16, 26] 1 ∧
    ∃ T k, tail_get_suffix app_trie.tail (trie_da_get_tail_index app_trie.da 4) = some T ∧
      k ≤ T.length ∧ k ≤ ([16, 26] : List Nat).length ∧ 0 ∉ T ∧ 0 ∉ ([16, 26] : List Nat) ∧
      T.take k = ([16, 26] : List Nat).take k ∧ T.getD k 0 ≠ ([16, 26] : List Nat).getD k 0 ∧
      branch_in_tail_loop_with (da_insert_branch_bounded 18) app_trie.da 4 T [16, 26] ≠
        .overrun ∧
      branch_in_tail_loop_calls (da_insert_branch_bounded 18) app_trie.da 4 T [16, 26] ≤ k ∧
      (∀ d1 s1 p q,
        branch_in_tail_loop_with (da_insert_branch_bounded 18) app_trie.da 4 T [16, 26] =
          .done d1 s1 p q →
        p = T.drop k ∧ q = ([16, 26] : List Nat).drop k ∧
          branch_in_tail_loop_calls (da_insert_branch_bounded 18) app_trie.da 4 T [16, 26] =
            k) ∧
      (∃ d1 s1, branch_in_tail_loop app_trie.da 4 T [16, 26] =
        .done d1 s1 (T.drop k) (([16, 26] : List Nat).drop k)) ∧
      branch_in_tail_loop_calls da_insert_branch app_trie.da 4 T [16, 26] = k :=
  C32_common_prefix_loop_stops app_trie_holds (da_insert_branch_bounded 18) 1 true
    (by decide) (by rfl) (by decide) (by rfl) (by rfl)

/-! ## Keys beyond the range of the `short` offset -/

theorem long_walk_left (tl : Tail) (b : Bool) (rest : List Nat) :
    walk_branches ⟨en_alpha_map,
      trie_da_set_tail_index (da_insert_branch da_new 2 1).2 (da_insert_branch da_new 2 1).1 1,
      tl, b⟩ 2 (97 :: 97 :: rest) = .left 4 (97 :: rest) := rfl

theorem long_walk_left2 (tl : Tail) (b : Bool) (c : Nat) (rest : List Nat) :
    walk_branches ⟨en_alpha_map,
      trie_da_set_tail_index (da_insert_branch da_new 2 1).2 (da_insert_branch da_new 2 1).1 1,
      tl, b⟩ 2 (97 :: c :: rest) = .left 4 (c :: rest) := rfl

theorem long_walk_branches (rest : List Nat) :
    walk_branches long_trie (da_get_root long_trie.da) (long_key ++ rest) =
      .left 4 (List.replicate 32768 97 ++ rest) := by
  have e : long_key ++ rest = 97 :: 97 :: (List.replicate 32767 97 ++ rest) := by
    unfold long_key
    rw [show (32769 : Nat) = 32767 + 1 + 1 from rfl, List.replicate_succ, List.replicate_succ]
    rfl
  have e1 : List.replicate 32768 97 ++ rest = 97 :: (List.replicate 32767 97 ++ rest) := by
    rw [show (32768 : Nat) = 32767 + 1 from rfl, List.replicate_succ]
    rfl
  rw [e, e1, long_trie_record]
  exact long_walk_left _ _ _

theorem long_tail_index : trie_da_get_tail_index long_trie.da 4 = 1 := rfl

theorem long_suffix : tail_get_suffix long_trie.tail 1 = some (List.replicate 32768 1) := rfl

theorem long_alpha : long_trie.alpha_map = en_alpha_map := rfl

theorem long_suffix_only {j : Int} {T : List Nat}
    (h : tail_get_suffix long_trie.tail j = some T) : j = 1 ∧ T = List.replicate 32768 1 := by
  have hn : long_trie.tail.num_tails = 1 := rfl
  have hj : j = 1 := by
    have h2 := h
    unfold tail_get_suffix at h2
    by_cases hj : 1 ≤ j ∧ j ≤ long_trie.tail.num_tails
    · rw [hn] at hj; omega
    · rw [if_neg hj] at h2; cases h2
  subst hj
  rw [long_suffix] at h
  exact ⟨rfl, (Option.some.inj h).symm⟩

theorem long_path : Path long_trie.da 2 [1] 4 :=
  ⟨4, ⟨by decide, rfl, by decide, rfl⟩, rfl⟩

theorem replicate_no_zero (n : Nat) : (0 : Nat) ∉ List.replicate n 97 := by
  intro hm
  have := List.eq_of_mem_replicate hm
  omega

/-- On `long_trie` the loop "walk through tail" of the code fails on the 32768 letters that
follow the first letter of `long_key`, and on every longer rest. -/
theorem long_walk_tail (rest : List Nat) (h0 : 0 ∉ rest) :
    walk_tail long_trie (trie_da_get_tail_index long_trie.da 4) 0
      (List.replicate 32768 97 ++ rest) = false := by
  have hz : (0 : Nat) ∉ List.replicate 32768 97 ++ rest := by
    intro hm
    rcases List.mem_append.1 hm with h | h
    · exact replicate_no_zero _ h
    · exact h0 h
  rw [walk_tail_code_zero _ _ _ hz]
  have hl : ¬ (List.replicate 32768 97 ++ rest).length ≤ 32767 := by
    rw [List.length_append, List.length_replicate]
    omega
  rw [decide_eq_false hl, Bool.and_false]

theorem long_walk_tail_key :
    walk_tail long_trie (trie_da_get_tail_index long_trie.da 4) 0 (List.replicate 32768 97) =
      false := by
  have ht := long_walk_tail [] (by simp)
  rw [List.append_nil] at ht
  exact ht

theorem long_retrieve : trie_retrieve long_trie long_key = none := by
  have hw := long_walk_branches []
  have ht := long_walk_tail [] (by simp)
  simp only [List.append_nil] at hw ht
  unfold trie_retrieve
  rw [hw]
  simp only [ht, Bool.false_eq_true, if_false]

theorem long_delete : trie_delete long_trie long_key = (false, long_trie) := by
  have hw := long_walk_branches []
  have ht := long_walk_tail [] (by simp)
  simp only [List.append_nil] at hw ht
  unfold trie_delete
  rw [hw]
  simp only [ht, Bool.false_eq_true, if_false]

theorem long_in_alphabet (am : AlphaMap) (h : am = en_alpha_map) : InAlphabet am long_key := by
  rw [h]
  apply en_in_alphabet
  intro c hc
  have := List.eq_of_mem_replicate hc
  omega

theorem long_map_stored :
    Function.update (fun _ => (none : Option Int)) long_key (some 7) long_key = some 7 := by
  simp

/-- The reference model walks the whole of `long_key` on `long_trie`. -/
theorem long_walk_unbounded :
    walk_tail_unbounded long_trie (trie_da_get_tail_index long_trie.da 4) 0
      (List.replicate 32768 97) = true := by
  have hr := (holds_code long_trie_holds).2.1 long_key long_key_no_zero
  rw [long_map_stored] at hr
  have hw := long_walk_branches []
  simp only [List.append_nil] at hw
  unfold trie_retrieve_unbounded at hr
  rw [hw] at hr
  simp only at hr
  cases hh : walk_tail_unbounded long_trie (trie_da_get_tail_index long_trie.da 4) 0
      (List.replicate 32768 97) with
  | true => rfl
  | false => rw [hh] at hr; simp at hr

/-- On `long_trie` a store of `long_key` calls `trie_branch_in_tail` with the suffix the tail
entry holds, and the loop overruns. -/
theorem long_store_wrapped (v : Int) (ow : Bool) :
    trie_store_conditionally long_trie long_key v ow = none ∧
    branch_in_tail_loop long_trie.da 4 (List.replicate 32768 1) (List.replicate 32768 1) =
      .overrun := by
  have hw := long_walk_branches []
  simp only [List.append_nil] at hw
  have W := (holds_code long_trie_holds).1
  have hl : ¬ (List.replicate 32768 97).length ≤ 32767 := by
    rw [List.length_replicate]
    omega
  obtain ⟨h1, h2⟩ := store_wrapped W long_key_no_zero hw long_walk_unbounded hl v ow
  exact ⟨h1, (h2 _ long_suffix_str).2⟩

/-- In a fresh trie `trie_store_if_absent` does what `trie_store` does. -/
theorem store_if_absent_fresh (am : AlphaMap) (key : List Nat) (v : Int) :
    trie_store_if_absent (trie_new am) key v = trie_store (trie_new am) key v := by
  unfold trie_store_if_absent trie_store trie_store_conditionally
  rw [trie_new_walk_failed]

theorem long_tail_walk_char (i : Nat) (hi : i < 32768) :
    tail_walk_char long_trie.tail 1 (i : Int) (alpha_map_char_to_trie long_trie.alpha_map 97) =
      some (int16_wrap ((i : Int) + 1)) := by
  have htc : alpha_map_char_to_trie long_trie.alpha_map 97 = 1 := rfl
  unfold tail_walk_char
  rw [long_suffix, htc]
  simp only
  rw [if_pos ⟨Int.ofNat_nonneg _, by
    rw [Int.toNat_ofNat, List.getD_eq_getElem _ _ (by rw [List.length_replicate]; exact hi),
      List.getElem_replicate]⟩]
  rw [if_neg (show ¬ (1 : Nat) = TRIE_CHAR_TERM by decide)]

theorem long_state_walk (i : Nat) (hi : i < 32768) :
    trie_state_walk ⟨long_trie, 1, (i : Int), true⟩ 97 =
      (true, ⟨long_trie, 1, int16_wrap ((i : Int) + 1), true⟩) := by
  unfold trie_state_walk
  simp only [Bool.not_true, Bool.false_eq_true, if_false, long_tail_walk_char i hi]

theorem long_walk_all (n : Nat) : ∀ i : Nat, i + n ≤ 32767 →
    walk_all ⟨long_trie, 1, (i : Int), true⟩ (List.replicate n 97) =
      some ⟨long_trie, 1, ((i + n : Nat) : Int), true⟩ := by
  induction n with
  | zero => intro i _; rfl
  | succ n ih =>
    intro i hi
    rw [List.replicate_succ]
    unfold walk_all
    rw [long_state_walk i (by omega)]
    simp only [if_true]
    have hwrap : int16_wrap ((i : Int) + 1) = ((i + 1 : Nat) : Int) := by
      rw [int16_wrap_of_fits (by omega) (by omega)]
      rfl
    rw [hwrap, ih (i + 1) (by omega)]
    have e : i + 1 + n = i + (n + 1) := by omega
    rw [e]

theorem walk_tail_negative_neg (t : Trie) (s : Int) {idx : Int} (h : idx < 0) (p : List Nat) :
    walk_tail_negative t s idx p = some idx := by
  cases p with
  | nil => unfold walk_tail_negative; rw [if_pos h]
  | cons c rest => unfold walk_tail_negative; rw [if_pos h]

theorem long_negative (n : Nat) (rest : List Nat) : ∀ i : Nat, i + n = 32768 → 1 ≤ n →
    walk_tail_negative long_trie 1 (i : Int) (List.replicate n 97 ++ rest) = some (-32768) := by
  induction n with
  | zero => intro i _ h1; omega
  | succ n ih =>
    intro i hi _
    rw [List.replicate_succ, List.cons_append]
    unfold walk_tail_negative
    rw [if_neg (by omega), long_tail_walk_char i (by omega)]
    simp only [show ¬ (97 : Nat) = 0 by decide, if_false]
    by_cases hn : n = 0
    · subst hn
      have e : (i : Int) = 32767 := by omega
      have hw : int16_wrap ((i : Int) + 1) = -32768 := by rw [e]; decide
      rw [hw]
      exact walk_tail_negative_neg _ _ (by decide) _
    · have hwrap : int16_wrap ((i : Int) + 1) = ((i + 1 : Nat) : Int) := by
        rw [int16_wrap_of_fits (by omega) (by omega)]
        rfl
      rw [hwrap]
      exact ih (i + 1) (by omega) (by omega)

/-- On `long_trie`, the walk in the tail of `long_key`, and of every key that begins with it,
hands the offset -32768 to `tail_walk_char`. -/
theorem long_tail_walk_negative (rest : List Nat) :
    tail_walk_negative long_trie (long_key ++ rest) = some (-32768) := by
  unfold tail_walk_negative
  rw [long_walk_branches rest]
  exact long_negative 32768 rest 0 (by omega) (by omega)

/-- On `long_trie`, the walk in the tail of `long_key` hands the offset -32768 to
`tail_walk_char`, for the terminator. -/
theorem long_key_negative : tail_walk_negative long_trie long_key = some (-32768) := by
  have h := long_tail_walk_negative []
  rw [List.append_nil] at h
  exact h

/-- C1, as stated, fails: the key of 32769 letters 'a' is within the alphabet `a..z`;
`trie_store` of it in the fresh trie returns TRUE, and the `trie_retrieve` that follows
returns FALSE: its walk in the tail hands the offset -32768 to `tail_walk_char` for the
terminator. -/
theorem C1_long_key_counterexample :
    Holds (trie_new en_alpha_map) (fun _ => none) ∧
    InAlphabet (trie_new en_alpha_map).alpha_map long_key ∧
    trie_store (trie_new en_alpha_map) long_key 7 = some (true, long_trie) ∧
    trie_retrieve long_trie long_key = none ∧
    tail_walk_negative long_trie long_key = some (-32768) :=
  ⟨Holds.new en_alpha_map, long_in_alphabet _ rfl, long_store, long_retrieve,
    long_key_negative⟩

/-- C2, as stated, fails: on the trie reached by the store of the key of 32769 letters 'a',
`trie_retrieve` of that key returns FALSE (its walk in the tail hands the offset -32768 to
`tail_walk_char` for the terminator); the store of "ab" returns TRUE, and afterwards
`trie_retrieve` of the key of 32769 letters returns TRUE with its value 7. -/
theorem C2_long_key_counterexample :
    Holds long_trie (Function.update (fun _ => none) long_key (some 7)) ∧
    InAlphabet long_trie.alpha_map [97, 98] ∧ (0 : Nat) ∉ long_key ∧ long_key ≠ [97, 98] ∧
    ∃ t1, trie_store long_trie [97, 98] 9 = some (true, t1) ∧
      trie_retrieve long_trie long_key = none ∧ trie_retrieve t1 long_key = some 7 ∧
      tail_walk_negative long_trie long_key = some (-32768) := by
  have hU := holds_unbounded long_trie_holds
  obtain ⟨W, hr, _⟩ := holds_retrieve hU
  have hal : InAlphabet long_trie.alpha_map [97, 98] := by
    rw [long_alpha]
    apply en_in_alphabet
    intro c hc
    simp at hc
    omega
  have h0 : (0 : Nat) ∉ [97, 98] := by decide
  obtain ⟨t1, hsU, _⟩ := store_then_retrieve_unbounded hU hal 9
  have hs : trie_store long_trie [97, 98] 9 = some (true, t1) := by
    show trie_store_conditionally long_trie [97, 98] 9 true = _
    rw [(code_eq_of_length W h0 (by decide)).2.1 9 true]
    exact hsU
  have hne : long_key ≠ [97, 98] := by
    intro e
    have := congrArg List.length e
    unfold long_key at this
    rw [List.length_replicate] at this
    simp at this
  have hrU : trie_retrieve_unbounded t1 long_key = some 7 := by
    rw [store_keeps_other_keys_unbounded hU hal long_key_no_zero hne 9 hsU,
      hr long_key long_key_no_zero, long_map_stored]
  refine ⟨long_trie_holds, hal, long_key_no_zero, hne, t1, hs, long_retrieve, ?_⟩
  -- the split leaves suffixes of at most 32767 characters
  have hw2 : walk_branches long_trie (da_get_root long_trie.da) [97, 98] = .left 4 [98] := by
    rw [long_trie_record]
    exact long_walk_left2 _ _ _ _
  have hb : long_trie.da.base 4 < 0 := by decide
  have hT : tail_get_suffix long_trie.tail (-(long_trie.da.base 4)) =
      some (List.replicate 32768 1) := long_suffix
  have hN : ∀ c ∈ ([2] : List Nat), ValidTC long_trie.alpha_map c :=
    in_alphabet_chars (show InAlphabet long_trie.alpha_map [98] from
      fun c hc => hal c (List.mem_cons_of_mem _ hc))
  have hTN : List.replicate 32768 1 ≠ ([2] : List Nat) := by
    intro e
    have := congrArg List.length e
    rw [List.length_replicate] at this
    simp at this
  obtain ⟨t2, com, T1, N1, s1, a, hres, hT1, hN1, _, _, hsuf, _⟩ :=
    branch_in_tail_shape W long_path hb (by decide) hT [2] hN hTN 9
  have hwf : walk_tail_unbounded long_trie (trie_da_get_tail_index long_trie.da 4) 0 [98] =
      false := by
    cases hh : walk_tail_unbounded long_trie (trie_da_get_tail_index long_trie.da 4) 0 [98]
    · rfl
    · have e := (walk_tail_spec long_suffix (by
        intro hm
        have := List.eq_of_mem_replicate hm
        omega) 0 [98] (by decide)).1 hh
      simp only [List.drop_zero] at e
      exact absurd e hTN
  have hst : trie_store_unbounded long_trie [97, 98] 9 = trie_branch_in_tail long_trie 4 [2] 9 := by
    unfold trie_store_unbounded trie_store_conditionally_unbounded
    rw [hw2]
    simp only [hwf]
    rfl
  rw [hst, hres] at hsU
  simp only [Option.some.injEq, Prod.mk.injEq, true_and] at hsU
  subst hsU
  have hS : ShortSuffixes t2.tail := by
    intro j suf hj
    rw [hsuf j] at hj
    by_cases ha : j = a
    · rw [if_pos ha] at hj
      simp only [Option.some.injEq] at hj
      have hl := congrArg List.length hN1
      rw [List.length_append] at hl
      simp only [List.length_singleton] at hl
      rw [← hj, List.length_tail]
      omega
    · rw [if_neg ha] at hj
      by_cases h1 : j = -(long_trie.da.base 4)
      · rw [if_pos h1] at hj
        simp only [Option.some.injEq] at hj
        have hl := congrArg List.length hT1
        rw [List.length_append, List.length_replicate] at hl
        rw [← hj, List.length_tail]
        omega
      · rw [if_neg h1] at hj
        have := (long_suffix_only hj).1
        exact absurd this h1
  refine ⟨?_, long_key_negative⟩
  rw [retrieve_short_eq hS]
  exact hrU

/-- C4, as stated, fails: the trie reached by the store of the key of 32769 letters 'a' holds
that key, and `trie_delete` of it returns FALSE and leaves the trie as it is: its walk in the
tail hands the offset -32768 to `tail_walk_char` for the terminator. -/
theorem C4_long_key_counterexample :
    Holds long_trie (Function.update (fun _ => none) long_key (some 7)) ∧
    Function.update (fun _ => (none : Option Int)) long_key (some 7) long_key ≠ none ∧
    trie_delete long_trie long_key = (false, long_trie) ∧
    tail_walk_negative long_trie long_key = some (-32768) :=
  ⟨long_trie_holds, by rw [long_map_stored]; simp, long_delete, long_key_negative⟩

/-- C5, as stated, fails: the trie reached by the store of the key of 32769 letters 'a' holds
that key with value 7; `trie_store` of the key with value 9 does not return TRUE: the walk in
the tail, which hands the offset -32768 to `tail_walk_char` for the terminator, fails;
`trie_branch_in_tail` is called with the suffix that the tail entry holds, and its loop runs
past both terminators. -/
theorem C5_long_key_counterexample :
    Holds long_trie (Function.update (fun _ => none) long_key (some 7)) ∧
    Function.update (fun _ => (none : Option Int)) long_key (some 7) long_key = some 7 ∧
    trie_store long_trie long_key 9 = none ∧
    walk_tail long_trie (trie_da_get_tail_index long_trie.da 4) 0 (List.replicate 32768 97) =
      false ∧
    tail_walk_negative long_trie long_key = some (-32768) :=
  ⟨long_trie_holds, long_map_stored, (long_store_wrapped 9 true).1, long_walk_tail_key,
    long_key_negative⟩

/-- C6, as stated, fails: the trie reached by the store of the key of 32769 letters 'a' holds
that key with value 7; `trie_store_if_absent` of the key does not return FALSE with the trie
unchanged: the walk in the tail, which hands the offset -32768 to `tail_walk_char` for the
terminator, fails; `trie_branch_in_tail` is called with the suffix that the tail entry holds,
and its loop runs past both terminators; `trie_retrieve` of the key returns FALSE. -/
theorem C6_long_key_counterexample :
    Holds long_trie (Function.update (fun _ => none) long_key (some 7)) ∧
    Function.update (fun _ => (none : Option Int)) long_key (some 7) long_key = some 7 ∧
    trie_store_if_absent long_trie long_key 9 = none ∧
    trie_retrieve long_trie long_key = none ∧
    tail_walk_negative long_trie long_key = some (-32768) :=
  ⟨long_trie_holds, long_map_stored, (long_store_wrapped 9 false).1, long_retrieve,
    long_key_negative⟩

/-- C10, as stated, fails: the trie reached by the store of the key of 32769 letters 'a' holds
that key; `trie_state_walk` from `trie_root` succeeds on its 32769 letters and leaves the
state in tail entry 1 with `suffix_idx` at -32768, and `trie_state_walk` of the terminator from
that state returns FALSE. -/
theorem C10_long_key_counterexample :
    Holds long_trie (Function.update (fun _ => none) long_key (some 7)) ∧
    Function.update (fun _ => (none : Option Int)) long_key (some 7) long_key = some 7 ∧
    walk_all (trie_root long_trie) long_key = some ⟨long_trie, 1, -32768, true⟩ ∧
    (trie_state_walk ⟨long_trie, 1, -32768, true⟩ 0).1 = false := by
  refine ⟨long_trie_holds, long_map_stored, ?_, ?_⟩
  · have e : long_key = [97] ++ (List.replicate 32767 97 ++ [97]) := by
      unfold long_key
      rw [show (32769 : Nat) = 32767 + 1 + 1 from rfl, List.replicate_succ,
        List.replicate_succ']
      rfl
    have h1 : walk_all (trie_root long_trie) [97] = some ⟨long_trie, 1, ((0 : Nat) : Int), true⟩ :=
      rfl
    have h2 := long_walk_all 32767 0 (by omega)
    have h3 : walk_all ⟨long_trie, 1, ((0 + 32767 : Nat) : Int), true⟩ [97] =
        some ⟨long_trie, 1, -32768, true⟩ := by
      unfold walk_all
      rw [long_state_walk (0 + 32767) (by omega)]
      simp only [if_true, walk_all]
      rfl
    rw [e, walk_all_append, h1, Option.some_bind, walk_all_append, h2, Option.some_bind, h3]
  · unfold trie_state_walk
    simp only [Bool.not_true, Bool.false_eq_true, if_false]
    rw [tail_walk_char_neg _ _ (by decide)]

/-- C18, as stated, fails: the key of 32769 letters 'a' is within the alphabet and not stored
in the fresh trie; `trie_store_if_absent` and `trie_store` of it return TRUE with the same
trie, on which `trie_retrieve` of the key returns FALSE: its walk in the tail hands the offset
-32768 to `tail_walk_char` for the terminator. -/
theorem C18_long_key_counterexample :
    Holds (trie_new en_alpha_map) (fun _ => none) ∧
    (0 : Nat) ∉ long_key ∧
    InAlphabet (trie_new en_alpha_map).alpha_map long_key ∧
    trie_store_if_absent (trie_new en_alpha_map) long_key 7 = some (true, long_trie) ∧
    trie_store (trie_new en_alpha_map) long_key 7 = some (true, long_trie) ∧
    trie_retrieve long_trie long_key = none ∧
    tail_walk_negative long_trie long_key = some (-32768) := by
  refine ⟨Holds.new en_alpha_map, long_key_no_zero, long_in_alphabet _ rfl, ?_, long_store,
    long_retrieve, long_key_negative⟩
  rw [store_if_absent_fresh]
  exact long_store

/-- C32, as stated, fails: on the trie reached by the store of the key of 32769 letters 'a',
`trie_store_conditionally` of that key leaves the branches at node 4 with the 32768 letters
that follow; the walk of these in the tail, which hands the offset -32768 to `tail_walk_char`
for the terminator, fails, so `trie_branch_in_tail` is called with their translation `N`,
which is the suffix `T` that the tail entry holds: `T` and `N` differ nowhere, and the loop
runs past both terminators. -/
theorem C32_long_key_counterexample :
    Holds long_trie (Function.update (fun _ => none) long_key (some 7)) ∧
    (0 : Nat) ∉ long_key ∧
    walk_branches long_trie (da_get_root long_trie.da) long_key =
      .left 4 (List.replicate 32768 97) ∧
    walk_tail long_trie (trie_da_get_tail_index long_trie.da 4) 0 (List.replicate 32768 97) =
      false ∧
    alpha_map_char_to_trie_str long_trie.alpha_map (List.replicate 32768 97) =
      some (List.replicate 32768 1) ∧
    tail_get_suffix long_trie.tail (trie_da_get_tail_index long_trie.da 4) =
      some (List.replicate 32768 1) ∧
    branch_in_tail_loop long_trie.da 4 (List.replicate 32768 1) (List.replicate 32768 1) =
      .overrun ∧
    trie_store_conditionally long_trie long_key 9 true = none ∧
    tail_walk_negative long_trie long_key = some (-32768) := by
  have hw := long_walk_branches []
  simp only [List.append_nil] at hw
  exact ⟨long_trie_holds, long_key_no_zero, hw, long_walk_tail_key, long_suffix_str,
    long_suffix, (long_store_wrapped 9 true).2, (long_store_wrapped 9 true).1,
    long_key_negative⟩

end Datrie
